import Mathlib

/-!
Order statistic tree (`src/Order_Statistic_Tree/OrderStatisticBST.h`): a red-black tree
whose nodes carry the size of their subtree.

Representation.  The C++ nodes are linked by `left`, `right` (owning) and `parent` (back
reference).  Here a `Node*` is a `Tree`: `Tree.nil` is `nullptr`, `Tree.node` is an allocated node
together with the two subtrees it owns.  The `parent` chain of a node is a `Ctx`: the list
of its ancestors, nearest first, each `Frame` holding the fields of that ancestor, the slot
(`left` or `right`) through which the node is reached and the ancestor's other child.
A pointer to a node inside a tree is the pair `(ctx, t)` of the chain and the subtree
rooted at the node; `plug ctx t` is the whole tree, what the member `root` points at.

Reading a field through `nullptr` is undefined behaviour in C++; every operation that can
do so returns an `Option`, and `none` stands for that fault.  `Find` and `FindByRank`
cannot fault; their `Option` is the returned pointer, `none` being `nullptr`.

The counter `size` is `unsigned`; it is modelled by `Nat`: `size++` would only wrap in a
tree of `2^32` nodes, and `size--` is only reached with `size ≥ 1` when sizes are exact
(on a zero counter the model stays at 0).  The `int` ranks are modelled by `Int`.
-/

namespace OrderStatisticBST

/-- Node colour, `enum class Color`. -/
inductive Color where
  | RED : Color
  | BLACK : Color
deriving DecidableEq, Repr

/-- A (possibly null) owning pointer to a node: `nil` is `nullptr`. -/
inductive Tree (K T : Type) where
  | nil : Tree K T
  | node (key : K) (data : T) (color : Color) (size : Nat) (left right : Tree K T) : Tree K T
deriving DecidableEq, Repr

/-- One step of a `parent` chain: the parent's own fields, whether the child hangs in the
parent's `left` slot, and the parent's other child (`Brother` of the child). -/
structure Frame (K T : Type) where
  isLeft : Bool
  key : K
  data : T
  color : Color
  size : Nat
  brother : Tree K T
deriving DecidableEq, Repr

/-- The chain of ancestors of a node, nearest first; `[]` means `parent == nullptr`. -/
abbrev Ctx (K T : Type) := List (Frame K T)

/-- A pointer to a node of a tree: its ancestors and the subtree it roots. -/
abbrev Loc (K T : Type) := Ctx K T × Tree K T

variable {K T : Type}

/-- The parent node described by a frame, with `t` in the slot of the child. -/
def attach (f : Frame K T) (t : Tree K T) : Tree K T :=
  if f.isLeft then Tree.node f.key f.data f.color f.size t f.brother
  else Tree.node f.key f.data f.color f.size f.brother t

/-- The whole tree around a node: follow the parent chain up to the root. -/
def plug : Ctx K T → Tree K T → Tree K T
  | [], t => t
  | f :: rest, t => plug rest (attach f t)

/-- Follow `->left`: `none` when the pointer followed from is `nullptr`. -/
def goLeft : Loc K T → Option (Loc K T)
  | (_, Tree.nil) => none
  | (ctx, Tree.node k d c s l r) => some (⟨true, k, d, c, s, r⟩ :: ctx, l)

/-- Follow `->right`: `none` when the pointer followed from is `nullptr`. -/
def goRight : Loc K T → Option (Loc K T)
  | (_, Tree.nil) => none
  | (ctx, Tree.node k d c s l r) => some (⟨false, k, d, c, s, l⟩ :: ctx, r)

/-- The field `size` of a child link, `0` for an absent child: what `LeftSize()` and
`RightSize()` return for the respective child. -/
def Size : Tree K T → Nat
  | Tree.nil => 0
  | Tree.node _ _ _ s _ _ => s

/-- The call `toRed()` through a pointer. -/
def toRed : Tree K T → Option (Tree K T)
  | Tree.nil => none
  | Tree.node k d _ s l r => some (Tree.node k d Color.RED s l r)

/-- The call `toBlack()` through a pointer. -/
def toBlack : Tree K T → Option (Tree K T)
  | Tree.nil => none
  | Tree.node k d _ s l r => some (Tree.node k d Color.BLACK s l r)

/-- The call `isRed()` through a pointer. -/
def isRed : Tree K T → Option Bool
  | Tree.nil => none
  | Tree.node _ _ c _ _ _ => some (decide (c = Color.RED))

/-- The call `isBlack()` through a pointer. -/
def isBlack : Tree K T → Option Bool
  | Tree.nil => none
  | Tree.node _ _ c _ _ _ => some (decide (c = Color.BLACK))

/-- Source function `RotateLeft(node)` on the subtree rooted at `node`; the result is the
subtree now hanging in the slot `node` occupied (or the new `root`). The pivot is `node->right`.
-/
def RotateLeft : Tree K T → Option (Tree K T)
  | Tree.node k d c s l (Tree.node pk pd pc _ pl pr) =>
      some (Tree.node pk pd pc s (Tree.node k d c (Size l + Size pl + 1) l pl) pr)
  | _ => none

/-- Source function `RotateRight(node)`, the mirror image; the pivot is `node->left`. -/
def RotateRight : Tree K T → Option (Tree K T)
  | Tree.node k d c s (Tree.node pk pd pc _ pl pr) r =>
      some (Tree.node pk pd pc s pl (Tree.node k d c (Size r + Size pr + 1) pr r))
  | _ => none

section Ordered
variable [LinearOrder K]

/-- Source function `InsertNode(node, _root, root_parent)`: descend from `_root` (whose
ancestors are `ctx`), incrementing `size` at every node passed, and hang the new RED node of
size 1 in the empty slot reached. Returns the pointer to the new node. -/
def InsertNode (key : K) (data : T) : Ctx K T → Tree K T → Loc K T
  | ctx, Tree.nil => (ctx, Tree.node key data Color.RED 1 Tree.nil Tree.nil)
  | ctx, Tree.node k d c s l r =>
      if key > k then InsertNode key data (⟨false, k, d, c, s + 1, l⟩ :: ctx) r
      else InsertNode key data (⟨true, k, d, c, s + 1, r⟩ :: ctx) l

end Ordered

/-- Source function `InsertCase5(node)`: parent to BLACK, grandfather to RED, rotate the
grandfather. -/
def InsertCase5 : Ctx K T → Tree K T → Option (Tree K T)
  | f :: g :: rest, n =>
      let parent := attach { f with color := Color.BLACK } n
      let grand_father := attach { g with color := Color.RED } parent
      if f.isLeft then (RotateRight grand_father).map (plug rest)
      else (RotateLeft grand_father).map (plug rest)
  | _, _ => none

/-- Source function `InsertCase4(node)`: straighten a zig-zag by rotating the parent, then case
5 on the former parent. -/
def InsertCase4 : Ctx K T → Tree K T → Option (Tree K T)
  | f :: g :: rest, n =>
      if !f.isLeft && g.isLeft then
        (RotateLeft (attach f n)).bind fun p =>
        (goLeft (g :: rest, p)).bind fun loc => InsertCase5 loc.1 loc.2
      else if f.isLeft && !g.isLeft then
        (RotateRight (attach f n)).bind fun p =>
        (goRight (g :: rest, p)).bind fun loc => InsertCase5 loc.1 loc.2
      else InsertCase5 (f :: g :: rest) n
  | _, _ => none

mutual
/-- Source function `InsertCase1(node)`: a root is painted BLACK. -/
def InsertCase1 : Ctx K T → Tree K T → Option (Tree K T)
  | _, Tree.nil => none
  | [], Tree.node k d c s l r => toBlack (Tree.node k d c s l r)
  | f :: rest, Tree.node k d c s l r => InsertCase2 (f :: rest) (Tree.node k d c s l r)
termination_by ctx => 3 * ctx.length + 2
/-- Source function `InsertCase2(node)`: nothing to do under a BLACK parent. -/
def InsertCase2 : Ctx K T → Tree K T → Option (Tree K T)
  | [], _ => none
  | f :: rest, n =>
      if f.color ≠ Color.BLACK then InsertCase3 (f :: rest) n
      else some (plug (f :: rest) n)
termination_by ctx => 3 * ctx.length + 1
/-- Source function `InsertCase3(node)`: a RED uncle is repainted together with the parent and the
grandfather, and the fix-up restarts at the grandfather. -/
def InsertCase3 : Ctx K T → Tree K T → Option (Tree K T)
  | f :: g :: rest, n =>
      match g.brother with
      | Tree.node uk ud Color.RED us ul ur =>
          InsertCase1 rest
            (attach { g with color := Color.RED,
                             brother := Tree.node uk ud Color.BLACK us ul ur }
              (attach { f with color := Color.BLACK } n))
      | _ => InsertCase4 (f :: g :: rest) n
  | ctx, n => InsertCase4 ctx n
termination_by ctx => 3 * ctx.length
decreasing_by
  all_goals simp_wf
  all_goals omega
end

section Ordered
variable [LinearOrder K]

/-- Source function `Insert(key, data)`: the tree `root` points at afterwards. -/
def Insert (t : Tree K T) (key : K) (data : T) : Option (Tree K T) :=
  let node := InsertNode key data [] t
  InsertCase1 node.1 node.2

end Ordered

section Ordered
variable [LinearOrder K]

/-- Source function `Find(key, _root)`: the loop of the private overload, `ctx` being the
ancestors of `_root`. Returns the pointer reached, `none` for `nullptr`. -/
def Find (key : K) : Ctx K T → Tree K T → Option (Loc K T)
  | _, Tree.nil => none
  | ctx, Tree.node k d c s l r =>
      if k ≠ key then
        if k < key then Find key (⟨false, k, d, c, s, l⟩ :: ctx) r
        else Find key (⟨true, k, d, c, s, r⟩ :: ctx) l
      else some (ctx, Tree.node k d c s l r)

end Ordered

/-- Source function `MinNode(_root)`: follow `left` links while there is a left child. -/
def MinNode : Ctx K T → Tree K T → Loc K T
  | ctx, Tree.nil => (ctx, Tree.nil)
  | ctx, Tree.node k d c s Tree.nil r => (ctx, Tree.node k d c s Tree.nil r)
  | ctx, Tree.node k d c s (Tree.node lk ld lc ls ll lr) r =>
      MinNode (⟨true, k, d, c, s, r⟩ :: ctx) (Tree.node lk ld lc ls ll lr)

/-- Source function `MaxNode(_root)`: follow `right` links while there is a right child. -/
def MaxNode : Ctx K T → Tree K T → Loc K T
  | ctx, Tree.nil => (ctx, Tree.nil)
  | ctx, Tree.node k d c s l Tree.nil => (ctx, Tree.node k d c s l Tree.nil)
  | ctx, Tree.node k d c s l (Tree.node rk rd rc rs rl rr) =>
      MaxNode (⟨false, k, d, c, s, l⟩ :: ctx) (Tree.node rk rd rc rs rl rr)

/-- Source function `FindByRank(_root, rank)`, `ctx` being the ancestors of `_root`. Returns the
pointer reached, `none` for `nullptr`. -/
def FindByRank : Ctx K T → Tree K T → Int → Option (Loc K T)
  | _, Tree.nil, _ => none
  | ctx, Tree.node k d c s l r, rank =>
      let cur_rank : Int := (Size l : Int) + 1
      if cur_rank = rank then some (ctx, Tree.node k d c s l r)
      else if rank < cur_rank then FindByRank (⟨true, k, d, c, s, r⟩ :: ctx) l rank
      else FindByRank (⟨false, k, d, c, s, l⟩ :: ctx) r (rank - cur_rank)

/-- The loop of `Node::Rank`: climb the parent chain, adding `parent->LeftSize() + 1`
whenever the current node is a right child. -/
def RankLoop : Ctx K T → Int → Int
  | [], rank => rank
  | f :: rest, rank =>
      if f.isLeft then RankLoop rest rank
      else RankLoop rest (rank + ((Size f.brother : Int) + 1))

/-- Source function `Node::Rank()` of the node at `(ctx, t)`; `none` when called through
`nullptr`. -/
def Rank : Ctx K T → Tree K T → Option Int
  | _, Tree.nil => none
  | ctx, Tree.node _ _ _ _ l _ => some (RankLoop ctx ((Size l : Int) + 1))

/-- Source function `InOrder(_root, func)`: the pointers handed to `func`, in call order; `ctx`
is the chain of ancestors of `_root`. -/
def InOrder : Ctx K T → Tree K T → List (Loc K T)
  | _, Tree.nil => []
  | ctx, Tree.node k d c s l r =>
      InOrder (⟨true, k, d, c, s, r⟩ :: ctx) l
        ++ (ctx, Tree.node k d c s l r) :: InOrder (⟨false, k, d, c, s, l⟩ :: ctx) r

/-- Source function `DeleteCase6(node)`: the brother takes the parent's colour, the parent and
the far child of the brother become BLACK, and the parent is rotated towards `node`. Returns the
pointer `node` in the tree as it is afterwards. -/
def DeleteCase6 : Ctx K T → Tree K T → Option (Loc K T)
  | f :: rest, n =>
      match f.brother with
      | Tree.nil => none
      | Tree.node bk bd _ bs bl br =>
          if f.isLeft then
            (toBlack br).bind fun br1 =>
            (RotateLeft (attach { f with color := Color.BLACK,
                                         brother := Tree.node bk bd f.color bs bl br1 } n)).bind
              fun p => (goLeft (rest, p)).bind goLeft
          else
            (toBlack bl).bind fun bl1 =>
            (RotateRight (attach { f with color := Color.BLACK,
                                          brother := Tree.node bk bd f.color bs bl1 br } n)).bind
              fun p => (goRight (rest, p)).bind goRight
  | [], _ => none

/-- Source function `DeleteCase5(node)`: a BLACK brother whose near child is RED and whose far
child is BLACK is painted RED, its near child BLACK, and it is rotated away from `node`; then
case 6. The two flags are computed as the source does, `&&` evaluating left to right and
stopping at the first false operand. -/
def DeleteCase5 : Ctx K T → Tree K T → Option (Loc K T)
  | f :: rest, n =>
      (isBlack f.brother).bind fun brotherBlack =>
      if brotherBlack then
        match f.brother with
        | Tree.nil => none
        | Tree.node bk bd _ bs bl br =>
            (if f.isLeft then
               (isBlack br).bind fun farBlack => if farBlack then isRed bl else some false
             else some false).bind fun left_child =>
            (if !f.isLeft then
               (isBlack bl).bind fun farBlack => if farBlack then isRed br else some false
             else some false).bind fun rigth_child =>
            if left_child then
              (toBlack bl).bind fun bl1 =>
              (RotateRight (Tree.node bk bd Color.RED bs bl1 br)).bind fun b1 =>
              DeleteCase6 ({ f with brother := b1 } :: rest) n
            else if rigth_child then
              (toBlack br).bind fun br1 =>
              (RotateLeft (Tree.node bk bd Color.RED bs bl br1)).bind fun b1 =>
              DeleteCase6 ({ f with brother := b1 } :: rest) n
            else DeleteCase6 (f :: rest) n
      else DeleteCase6 (f :: rest) n
  | [], _ => none

/-- The test `!p || p->isBlack()` applied to a child of the brother. -/
def absentOrBlack : Tree K T → Bool
  | Tree.nil => true
  | Tree.node _ _ c _ _ _ => decide (c = Color.BLACK)

/-- Source function `DeleteCase4(node)`: RED parent, BLACK brother without RED child: the
brother becomes RED and the parent BLACK. -/
def DeleteCase4 : Ctx K T → Tree K T → Option (Loc K T)
  | f :: rest, n =>
      (if f.color = Color.RED then
         match f.brother with
         | Tree.nil => none
         | Tree.node _ _ bc _ bl br =>
             some (decide (bc = Color.BLACK) && absentOrBlack bl && absentOrBlack br)
       else some false).bind fun repaint =>
      if repaint then
        (toRed f.brother).map fun b1 =>
          ({ f with color := Color.BLACK, brother := b1 } :: rest, n)
      else DeleteCase5 (f :: rest) n
  | [], _ => none

/-- The parent chain and subtree of `node` after `DeleteCase2` has painted the parent RED,
the brother BLACK and rotated the parent towards `node`. -/
def DeleteCase2Rotate (f : Frame K T) (rest : Ctx K T) (n : Tree K T) : Option (Loc K T) :=
  (toBlack f.brother).bind fun b1 =>
  if f.isLeft then
    (RotateLeft (attach { f with color := Color.RED, brother := b1 } n)).bind
      fun p => (goLeft (rest, p)).bind goLeft
  else
    (RotateRight (attach { f with color := Color.RED, brother := b1 } n)).bind
      fun p => (goRight (rest, p)).bind goRight

/-- Termination measure of `DeleteCase3`: it only restarts under a BLACK parent. -/
def DeleteCase3Measure : Ctx K T → Nat
  | [] => 0
  | f :: rest => if f.color = Color.BLACK then 3 * (rest.length + 1) else 0

mutual
/-- Source function `DeleteCase1(node)`: nothing to do at the root. Returns the pointer `node`
in the tree as it is after the fix-up. -/
def DeleteCase1 : Ctx K T → Tree K T → Option (Loc K T)
  | _, Tree.nil => none
  | [], Tree.node k d c s l r => some ([], Tree.node k d c s l r)
  | f :: rest, Tree.node k d c s l r => DeleteCase2 (f :: rest) (Tree.node k d c s l r)
termination_by ctx => 3 * ctx.length + 2
/-- Source function `DeleteCase2(node)`: under a RED brother, paint the parent RED, the brother
BLACK and rotate the parent towards `node`; then case 3. -/
def DeleteCase2 : Ctx K T → Tree K T → Option (Loc K T)
  | [], _ => none
  | f :: rest, n =>
      (isRed f.brother).bind fun brotherRed =>
      if brotherRed then
        match h : DeleteCase2Rotate f rest n with
        | none => none
        | some loc => DeleteCase3 loc.1 loc.2
      else DeleteCase3 (f :: rest) n
termination_by ctx => 3 * ctx.length + 1
decreasing_by
  all_goals simp_wf
  · have hm : DeleteCase3Measure loc.1 = 0 := by
      unfold DeleteCase2Rotate at h
      cases hb : f.brother with
      | nil => simp [hb, toBlack] at h
      | node bk bd bc bs bl br =>
        cases hl : f.isLeft
        · simp [hb, hl, toBlack, attach, RotateRight, goRight] at h
          subst h
          simp [DeleteCase3Measure]
        · simp [hb, hl, toBlack, attach, RotateLeft, goLeft] at h
          subst h
          simp [DeleteCase3Measure]
    rw [hm]; omega
  · simp [DeleteCase3Measure]; split <;> omega
/-- Source function `DeleteCase3(node)`: BLACK parent, BLACK brother without RED child: the
brother is painted RED and the fix-up restarts at the parent. `node` is afterwards the same
child of its parent as before. -/
def DeleteCase3 : Ctx K T → Tree K T → Option (Loc K T)
  | [], _ => none
  | f :: rest, n =>
      if hp : f.color = Color.BLACK then
        match f.brother with
        | Tree.nil => none
        | Tree.node bk bd bc bs bl br =>
            if decide (bc = Color.BLACK) && absentOrBlack bl && absentOrBlack br then
              (DeleteCase1 rest
                (attach { f with brother := Tree.node bk bd Color.RED bs bl br } n)).bind
                fun parent => if f.isLeft then goLeft parent else goRight parent
            else DeleteCase4 (f :: rest) n
      else DeleteCase4 (f :: rest) n
termination_by ctx => DeleteCase3Measure ctx
decreasing_by
  all_goals simp_wf
  all_goals simp [DeleteCase3Measure, hp]
  all_goals omega
end

/-- The loop `parent->size--` of the destructor, over the whole parent chain. -/
def shrink (ctx : Ctx K T) : Ctx K T :=
  ctx.map fun f => { f with size := f.size - 1 }

/-- The effect of `delete node` on the tree `root` points at, for a node without children:
a node with a parent is taken out of its parent's slot and every ancestor's `size` is
decremented; a node without a parent leaves the tree as it is. -/
def Delete (root : Tree K T) (node : Loc K T) : Tree K T :=
  match node.1 with
  | [] => root
  | f :: rest => plug (shrink (f :: rest)) Tree.nil

/-- The call `isLeaf()` on an allocated node with children `l` and `r`. -/
def isLeaf (l r : Tree K T) : Bool :=
  match l, r with
  | Tree.nil, Tree.nil => true
  | _, _ => false

/-- The part of `Erase` after the replacement node has been chosen: `target` is the node
with fields `tk td tc ts` reached through `tctx`, `inner` is the parent chain of `node`
below the target with `targetFrame` the link from the target's child to the target.
`MoveTo` overwrites the key and data of the target. -/
def EraseSplice (tctx : Ctx K T) (targetFrame : Frame K T) (inner : Ctx K T) :
    Tree K T → Option (Tree K T)
  | Tree.nil => none
  | Tree.node nk nd nc ns nl nr =>
      let child := match nl with
        | Tree.node _ _ _ _ _ _ => nl
        | Tree.nil => nr
      -- `node->MoveTo(target)`
      let nctx := inner ++ ({ targetFrame with key := nk, data := nd } :: tctx)
      match child with
      | Tree.nil =>
          -- `ReplaceIfNotNull(nullptr)` returns at once
          if nc = Color.BLACK then
            (DeleteCase1 nctx (Tree.node nk nd nc ns nl nr)).map fun loc =>
              Delete (plug loc.1 loc.2) loc
          else some (Delete (plug nctx (Tree.node nk nd nc ns nl nr))
                       (nctx, Tree.node nk nd nc ns nl nr))
      | Tree.node ck cd cc cs cl cr =>
          -- `ReplaceIfNotNull(child)`: the child takes the slot, `node` loses all its links
          let detached : Loc K T := ([], Tree.node nk nd nc ns Tree.nil Tree.nil)
          if nc = Color.BLACK then
            if cc = Color.RED then
              some (Delete (plug nctx (Tree.node ck cd Color.BLACK cs cl cr)) detached)
            else
              (DeleteCase1 nctx (Tree.node ck cd cc cs cl cr)).map fun loc =>
                Delete (plug loc.1 loc.2) detached
          else some (Delete (plug nctx (Tree.node ck cd cc cs cl cr)) detached)

section Ordered
variable [LinearOrder K]

/-- Source function `Erase(key)`: the tree `root` points at afterwards. -/
def Erase (t : Tree K T) (key : K) : Option (Tree K T) :=
  match Find key [] t with
  | none => some t
  | some (_, Tree.nil) => none
  | some (tctx, Tree.node tk td tc ts tl tr) =>
      if isLeaf tl tr then
        (if tc = Color.BLACK then DeleteCase1 tctx (Tree.node tk td tc ts tl tr)
         else some (tctx, Tree.node tk td tc ts tl tr)).map fun target =>
          -- `if (target->isRoot()) root = nullptr; delete target;`
          Delete (match target.1 with
                  | [] => Tree.nil
                  | _ :: _ => plug target.1 target.2) target
      else
        match tr with
        | Tree.node _ _ _ _ _ _ =>
            let node := MinNode [] tr
            EraseSplice tctx ⟨false, tk, td, tc, ts, tl⟩ node.1 node.2
        | Tree.nil =>
            let node := MaxNode [] tl
            EraseSplice tctx ⟨true, tk, td, tc, ts, tr⟩ node.1 node.2

end Ordered

/-! ## The invariants of the data model and the observations the claims speak of -/

/-- The call `Key()` through a pointer. -/
def Key : Tree K T → Option K
  | Tree.nil => none
  | Tree.node k _ _ _ _ _ => some k

/-- The keys `InOrder(Root(), func)` hands to `func`, in call order. -/
def inorderKeys (t : Tree K T) : List K :=
  (InOrder [] t).filterMap fun x => Key x.2

/-- The keys stored in a subtree, left to right. -/
def keysOf : Tree K T → List K
  | Tree.nil => []
  | Tree.node k _ _ _ l r => keysOf l ++ k :: keysOf r

/-- The (key, value) pairs stored in a subtree, left to right. -/
def toList : Tree K T → List (K × T)
  | Tree.nil => []
  | Tree.node k d _ _ l r => toList l ++ (k, d) :: toList r

/-- Colour of the node a link leads to; an absent child counts as BLACK. -/
def rootColor : Tree K T → Color
  | Tree.nil => Color.BLACK
  | Tree.node _ _ c _ _ _ => c

/-- Invariant 1, BST order: every key in a node's left subtree is smaller than the node's
key, every key in its right subtree is larger. -/
def BSTOrder [LT K] : Tree K T → Prop
  | Tree.nil => True
  | Tree.node k _ _ _ l r =>
      (∀ x ∈ keysOf l, x < k) ∧ (∀ x ∈ keysOf r, k < x) ∧ BSTOrder l ∧ BSTOrder r

/-- Invariant 2, first half: the root is BLACK (nothing to say of the empty tree). -/
def RootBlack (t : Tree K T) : Prop := rootColor t = Color.BLACK

/-- Invariant 2, second half: a RED node never has a RED child. -/
def NoRedRed : Tree K T → Prop
  | Tree.nil => True
  | Tree.node _ _ c _ l r =>
      (c = Color.RED → rootColor l = Color.BLACK ∧ rootColor r = Color.BLACK)
        ∧ NoRedRed l ∧ NoRedRed r

/-- The number of BLACK nodes on each path from the root of `t` to an absent child, one
entry per absent child, left to right. -/
def blackCounts : Tree K T → List Nat
  | Tree.nil => [0]
  | Tree.node _ _ c _ l r =>
      (blackCounts l ++ blackCounts r).map fun n => if c = Color.BLACK then n + 1 else n

/-- Invariant 3: all paths from the root to an absent child hold the same number of BLACK
nodes. -/
def BlackBalanced (t : Tree K T) : Prop :=
  ∀ a ∈ blackCounts t, ∀ b ∈ blackCounts t, a = b

/-- Invariant 4: `size = 1 + size(left) + size(right)` at every node, an absent child
counting 0. -/
def SizeInv : Tree K T → Prop
  | Tree.nil => True
  | Tree.node _ _ _ s l r => s = 1 + Size l + Size r ∧ SizeInv l ∧ SizeInv r

/-- The four invariants of the data model together. -/
structure Invariants [LT K] (t : Tree K T) : Prop where
  bst : BSTOrder t
  rootBlack : RootBlack t
  noRedRed : NoRedRed t
  balanced : BlackBalanced t
  sizes : SizeInv t

/-- Number of BLACK nodes on the leftmost path below a link. -/
def blackHeight : Tree K T → Nat
  | Tree.nil => 0
  | Tree.node _ _ c _ l _ => if c = Color.BLACK then blackHeight l + 1 else blackHeight l

/-- Recursive form of invariant 3: at every node both children have the same black
height. -/
def Balanced : Tree K T → Prop
  | Tree.nil => True
  | Tree.node _ _ _ _ l r => blackHeight l = blackHeight r ∧ Balanced l ∧ Balanced r

/-- Number of nodes of a subtree. -/
def count : Tree K T → Nat
  | Tree.nil => 0
  | Tree.node _ _ _ _ l r => count l + 1 + count r

/-! ## Invariants along a parent chain -/

/-- The size invariant along a parent chain whose lowest slot holds a subtree of size
`s`. -/
def CtxSizeInv : Ctx K T → Nat → Prop
  | [], _ => True
  | f :: rest, s =>
      f.size = 1 + s + Size f.brother ∧ SizeInv f.brother ∧ CtxSizeInv rest f.size

/-- The nearest ancestor exists and is BLACK. -/
def ParentBlack : Ctx K T → Prop
  | [] => False
  | g :: _ => g.color = Color.BLACK

/-- A node of colour `c` may hang below the chain: a root has to be BLACK, and so has the
child of a RED parent. -/
def TopOK : Ctx K T → Color → Prop
  | [], c => c = Color.BLACK
  | f :: _, c => f.color = Color.RED → c = Color.BLACK

/-- The red-black invariants along a parent chain whose lowest slot expects a subtree of
black height `h`: every brother is a red-black subtree of the matching black height, a RED
ancestor has a BLACK brother-side child and a BLACK parent, and the root is BLACK. -/
def CtxRB : Ctx K T → Nat → Prop
  | [], _ => True
  | f :: rest, h =>
      Balanced f.brother ∧ blackHeight f.brother = h ∧ NoRedRed f.brother ∧
      (f.color = Color.RED → rootColor f.brother = Color.BLACK ∧ ParentBlack rest) ∧
      CtxRB rest (if f.color = Color.BLACK then h + 1 else h)

/-- The pairs that the in-order traversal of the whole tree visits before the subtree in
the lowest slot of the chain. -/
def ctxBefore : Ctx K T → List (K × T)
  | [] => []
  | f :: rest =>
      if f.isLeft then ctxBefore rest
      else ctxBefore rest ++ (toList f.brother ++ [(f.key, f.data)])

/-- The pairs that the in-order traversal of the whole tree visits after the subtree in
the lowest slot of the chain. -/
def ctxAfter : Ctx K T → List (K × T)
  | [] => []
  | f :: rest =>
      if f.isLeft then ((f.key, f.data) :: toList f.brother) ++ ctxAfter rest
      else ctxAfter rest

/-- The subtree `x` may replace the subtree `y`: same pairs in the same order, same `size`
at the root, and exact sizes in `y` give exact sizes in `x`. -/
def Same (x y : Tree K T) : Prop :=
  toList x = toList y ∧ Size x = Size y ∧ (SizeInv y → SizeInv x)

/-! ## Sample trees -/

section Ordered
variable [LinearOrder K]

/-- The call `Insert` made for each pair of a list in turn, starting from the tree `t`. -/
def insertAll (t : Tree K T) : List (K × T) → Option (Tree K T)
  | [] => some t
  | (key, data) :: rest => (Insert t key data).bind fun t' => insertAll t' rest

end Ordered

/-- A red-black tree with exact sizes holding the keys 10, 20 and 30. -/
def exampleTree : Tree Nat Unit :=
  Tree.node 20 () Color.BLACK 3 (Tree.node 10 () Color.RED 1 Tree.nil Tree.nil)
    (Tree.node 30 () Color.RED 1 Tree.nil Tree.nil)

/-- The parent chain of the node holding 30 in `exampleTree`. -/
def exampleCtx : Ctx Nat Unit :=
  [⟨false, 20, (), Color.BLACK, 3, Tree.node 10 () Color.RED 1 Tree.nil Tree.nil⟩]

/-- The node holding 30 in `exampleTree`. -/
def exampleNode : Tree Nat Unit := Tree.node 30 () Color.RED 1 Tree.nil Tree.nil

/-- The tree built by inserting 10, 20, 30, 25. -/
def erasureFaultTree : Tree Nat Unit :=
  Tree.node 20 () Color.BLACK 4 (Tree.node 10 () Color.BLACK 1 Tree.nil Tree.nil)
    (Tree.node 30 () Color.BLACK 2 (Tree.node 25 () Color.RED 1 Tree.nil Tree.nil) Tree.nil)

/-- The tree built by inserting 30, 20, 10, 15. -/
def mirrorFaultTree : Tree Nat Unit :=
  Tree.node 20 () Color.BLACK 4
    (Tree.node 10 () Color.BLACK 2 Tree.nil (Tree.node 15 () Color.RED 1 Tree.nil Tree.nil))
    (Tree.node 30 () Color.BLACK 1 Tree.nil Tree.nil)

/-- The tree built by inserting 10, 20, 30, 40. -/
def staleSizeTree : Tree Nat Unit :=
  Tree.node 20 () Color.BLACK 4 (Tree.node 10 () Color.BLACK 1 Tree.nil Tree.nil)
    (Tree.node 30 () Color.BLACK 2 Tree.nil (Tree.node 40 () Color.RED 1 Tree.nil Tree.nil))

/-! ## Further observations -/

/-- The call `Data()` through a pointer: the value the node's `data` points at. -/
def Data : Tree K T → Option T
  | Tree.nil => none
  | Tree.node _ d _ _ _ _ => some d

/-- Number of nodes on the longest path from the root to an absent child. -/
def height : Tree K T → Nat
  | Tree.nil => 0
  | Tree.node _ _ _ _ l r => max (height l) (height r) + 1

section Ordered
variable [LinearOrder K]

/-- The call `Erase` made for each key of a list in turn, starting from the tree `t`. -/
def eraseAll (t : Tree K T) : List K → Option (Tree K T)
  | [] => some t
  | key :: rest => (Erase t key).bind fun t' => eraseAll t' rest

end Ordered

/-- One call on the public interface: `Insert(key, data)` or `Erase(key)`. -/
inductive Op (K T : Type) where
  | insert (key : K) (data : T) : Op K T
  | erase (key : K) : Op K T

section Ordered
variable [LinearOrder K]

/-- A sequence of calls made in turn, starting from the tree `t`; `none` as soon as one of
them faults. -/
def runOps (t : Tree K T) : List (Op K T) → Option (Tree K T)
  | [] => some t
  | Op.insert key data :: rest => (Insert t key data).bind fun t' => runOps t' rest
  | Op.erase key :: rest => (Erase t key).bind fun t' => runOps t' rest

end Ordered

/-- The tree built by inserting 1, 2, 3, 4, 5, 6, 7 in this order. -/
def scenarioBTree : Tree Nat Unit :=
  Tree.node 2 () Color.BLACK 7 (Tree.node 1 () Color.BLACK 1 Tree.nil Tree.nil)
    (Tree.node 4 () Color.RED 5 (Tree.node 3 () Color.BLACK 1 Tree.nil Tree.nil)
      (Tree.node 6 () Color.BLACK 3 (Tree.node 5 () Color.RED 1 Tree.nil Tree.nil)
        (Tree.node 7 () Color.RED 1 Tree.nil Tree.nil)))

/-- The tree built by inserting 3, 1, 4, 2 in this order. -/
def roundTripTree : Tree Nat Unit :=
  Tree.node 3 () Color.BLACK 4
    (Tree.node 1 () Color.BLACK 2 Tree.nil (Tree.node 2 () Color.RED 1 Tree.nil Tree.nil))
    (Tree.node 4 () Color.BLACK 1 Tree.nil Tree.nil)

/-- The tree built by inserting 5, 3, 8, 1, 4, 7, 9, 2 in this order. -/
def lookupFaultTree : Tree Nat Unit :=
  Tree.node 5 () Color.BLACK 8
    (Tree.node 3 () Color.RED 4
      (Tree.node 1 () Color.BLACK 2 Tree.nil (Tree.node 2 () Color.RED 1 Tree.nil Tree.nil))
      (Tree.node 4 () Color.BLACK 1 Tree.nil Tree.nil))
    (Tree.node 8 () Color.BLACK 3 (Tree.node 7 () Color.RED 1 Tree.nil Tree.nil)
      (Tree.node 9 () Color.RED 1 Tree.nil Tree.nil))

/-- The map built by inserting (2, 200), (1, 100), (4, 400), (3, 300) in this order. -/
def valueFaultTree : Tree Nat Nat :=
  Tree.node 2 200 Color.BLACK 4 (Tree.node 1 100 Color.BLACK 1 Tree.nil Tree.nil)
    (Tree.node 4 400 Color.BLACK 2 (Tree.node 3 300 Color.RED 1 Tree.nil Tree.nil) Tree.nil)

/-! ## Rotations, placement and duplicates -/

/-- The size invariant at one node: `size = 1 + size(left) + size(right)`. -/
def SizeAt : Tree K T → Prop
  | Tree.nil => True
  | Tree.node _ _ _ s l r => s = 1 + Size l + Size r

/-- The tree with `left` and `right` swapped at every node. -/
def mirror : Tree K T → Tree K T
  | Tree.nil => Tree.nil
  | Tree.node k d c s l r => Tree.node k d c s (mirror r) (mirror l)

/-- The parent chain of the corresponding node in the mirrored tree. -/
def mirrorCtx (ctx : Ctx K T) : Ctx K T :=
  ctx.map fun f => { f with isLeft := !f.isLeft, brother := mirror f.brother }

/-- The parent chain after `size++` at every ancestor. -/
def bump (ctx : Ctx K T) : Ctx K T :=
  ctx.map fun f => { f with size := f.size + 1 }

/-- The tree built by inserting 20, 10, 30, 5, 40 in this order. -/
def scenarioCTree : Tree Nat Unit :=
  Tree.node 20 () Color.BLACK 5
    (Tree.node 10 () Color.BLACK 2 (Tree.node 5 () Color.RED 1 Tree.nil Tree.nil) Tree.nil)
    (Tree.node 30 () Color.BLACK 2 Tree.nil (Tree.node 40 () Color.RED 1 Tree.nil Tree.nil))

/-- The node `Erase` takes out of a target that is not a leaf, as a pointer relative to
the target: `target->hasRightChild() ? MinNode(target->right) : MaxNode(target->left)`,
for a target with children `tl` and `tr`. -/
def SpliceNode (tl tr : Tree K T) : Loc K T :=
  match tr with
  | Tree.node _ _ _ _ _ _ => MinNode [] tr
  | Tree.nil => MaxNode [] tl

/-- The only child of the node taken out,
`node->hasLeftChild() ? node->left : node->right`. -/
def SpliceChild : Tree K T → Tree K T
  | Tree.nil => Tree.nil
  | Tree.node _ _ _ _ (Tree.node lk ld lc ls ll lr) _ => Tree.node lk ld lc ls ll lr
  | Tree.node _ _ _ _ Tree.nil r => r

/-- The link from a target with fields `tk td tc ts` and children `tl`, `tr` down to the
subtree in which `Erase` looks for the node to take out. -/
def SpliceFrame (tk : K) (td : T) (tc : Color) (ts : Nat) (tl tr : Tree K T) : Frame K T :=
  match tr with
  | Tree.node _ _ _ _ _ _ => ⟨false, tk, td, tc, ts, tl⟩
  | Tree.nil => ⟨true, tk, td, tc, ts, tr⟩

/-! ## The rotations on the linked nodes

To speak of the `parent` links themselves, `RotateLeft` and `RotateRight` are translated a
second time, statement by statement, on a memory of nodes with explicit `parent`, `left`
and `right` addresses.  A read or write through `nullptr` or through an address that holds
no node is a fault (`none`); the counter `size` is a `Nat` as before. -/

/-- One allocated `Node` as it lies in memory; the three links are addresses, `none` being
`nullptr`. -/
structure Cell (K T : Type) where
  key : K
  data : T
  color : Color
  size : Nat
  parent : Option Nat
  left : Option Nat
  right : Option Nat

/-- The memory: the allocated nodes by address, and the member `root` of the tree. -/
structure Mem (K T : Type) where
  cells : Nat → Option (Cell K T)
  root : Option Nat

/-- Assignment to the fields of the node at address `a`. -/
def Mem.write (m : Mem K T) (a : Nat) (c : Cell K T) : Mem K T :=
  { m with cells := fun x => if x = a then some c else m.cells x }

/-- The call `LeftSize()` on the node `c`: `hasLeftChild() ? left->size : 0`. -/
def LeftSizePtr (m : Mem K T) (c : Cell K T) : Option Nat :=
  match c.left with
  | none => some 0
  | some l => (m.cells l).map fun lc => lc.size

/-- The call `RightSize()` on the node `c`: `hasRightChild() ? right->size : 0`. -/
def RightSizePtr (m : Mem K T) (c : Cell K T) : Option Nat :=
  match c.right with
  | none => some 0
  | some r => (m.cells r).map fun rc => rc.size

/-- Assignment `a->parent = p`; `none` when nothing is allocated at `a`. -/
def setParent (m : Mem K T) (a : Nat) (p : Option Nat) : Option (Mem K T) :=
  match m.cells a with
  | some c => some (m.write a { c with parent := p })
  | none => none

/-- Assignment `a->left = p`; `none` when nothing is allocated at `a`. -/
def setLeft (m : Mem K T) (a : Nat) (p : Option Nat) : Option (Mem K T) :=
  match m.cells a with
  | some c => some (m.write a { c with left := p })
  | none => none

/-- Assignment `a->right = p`; `none` when nothing is allocated at `a`. -/
def setRight (m : Mem K T) (a : Nat) (p : Option Nat) : Option (Mem K T) :=
  match m.cells a with
  | some c => some (m.write a { c with right := p })
  | none => none

/-- Assignment `a->size = s`; `none` when nothing is allocated at `a`. -/
def setSize (m : Mem K T) (a : Nat) (s : Nat) : Option (Mem K T) :=
  match m.cells a with
  | some c => some (m.write a { c with size := s })
  | none => none

/-- The block `if (!node->isRoot()) { if (node->isLeftChild()) node->parent->left = pivot;
else node->parent->right = pivot; } else { root = pivot; }` of both rotations. -/
def relinkParent (m : Mem K T) (node pivot : Nat) : Option (Mem K T) :=
  match m.cells node with
  | none => none
  | some n =>
    match n.parent with
    | some g =>
      match m.cells g with
      | none => none
      | some gc =>
        if gc.left = some node then setLeft m g (some pivot) else setRight m g (some pivot)
    | none => some { m with root := some pivot }

/-- The statement `if (p) { p->parent = node; }` for a child link `p`. -/
def adoptChild (m : Mem K T) (p : Option Nat) (node : Nat) : Option (Mem K T) :=
  match p with
  | some b => setParent m b (some node)
  | none => some m

/-- The statement `pivot->parent = node->parent;`. -/
def copyParent (m : Mem K T) (node pivot : Nat) : Option (Mem K T) :=
  match m.cells node with
  | some n => setParent m pivot n.parent
  | none => none

/-- The statement `pivot->size = node->size;`. -/
def copySize (m : Mem K T) (node pivot : Nat) : Option (Mem K T) :=
  match m.cells node with
  | some n => setSize m pivot n.size
  | none => none

/-- The statement `node->size = node->LeftSize() + pivot->LeftSize() + 1;`. -/
def resizeLeft (m : Mem K T) (node pivot : Nat) : Option (Mem K T) :=
  match m.cells node, m.cells pivot with
  | some n, some p =>
    match LeftSizePtr m n, LeftSizePtr m p with
    | some a, some b => setSize m node (a + b + 1)
    | _, _ => none
  | _, _ => none

/-- The statement `node->size = node->RightSize() + pivot->RightSize() + 1;`. -/
def resizeRight (m : Mem K T) (node pivot : Nat) : Option (Mem K T) :=
  match m.cells node, m.cells pivot with
  | some n, some p =>
    match RightSizePtr m n, RightSizePtr m p with
    | some a, some b => setSize m node (a + b + 1)
    | _, _ => none
  | _, _ => none

/-- The statements `node->right = pivot->left; if (pivot->hasLeftChild())
{ pivot->left->parent = node; }`. -/
def moveInnerLeft (m : Mem K T) (node pivot : Nat) : Option (Mem K T) :=
  match m.cells pivot with
  | some p => Option.bind (setRight m node p.left) fun (m1 : Mem K T) =>
      match m1.cells pivot with
      | some p1 => adoptChild m1 p1.left node
      | none => none
  | none => none

/-- The statements `node->left = pivot->right; if (pivot->hasRightChild())
{ pivot->right->parent = node; }`. -/
def moveInnerRight (m : Mem K T) (node pivot : Nat) : Option (Mem K T) :=
  match m.cells pivot with
  | some p => Option.bind (setLeft m node p.right) fun (m1 : Mem K T) =>
      match m1.cells pivot with
      | some p1 => adoptChild m1 p1.right node
      | none => none
  | none => none

/-- The statements of `RotateLeft(node)` after `Node* pivot = node->right;`, in the order
of the source. -/
def RotateLeftSteps (m : Mem K T) (node pivot : Nat) : Option (Mem K T) :=
  Option.bind (copyParent m node pivot) fun (m1 : Mem K T) =>
  Option.bind (copySize m1 node pivot) fun (m2 : Mem K T) =>
  Option.bind (resizeLeft m2 node pivot) fun (m3 : Mem K T) =>
  Option.bind (relinkParent m3 node pivot) fun (m4 : Mem K T) =>
  Option.bind (moveInnerLeft m4 node pivot) fun (m5 : Mem K T) =>
  -- `node->parent = pivot;`
  Option.bind (setParent m5 node (some pivot)) fun (m6 : Mem K T) =>
  -- `pivot->left = node;`
  setLeft m6 pivot (some node)

/-- Source function `RotateLeft(node)` on the memory; `none` when a field is read or
written through a null or unallocated address. -/
def RotateLeftPtr (m : Mem K T) (node : Nat) : Option (Mem K T) :=
  match m.cells node with
  | some n =>
    match n.right with
    | some pivot => RotateLeftSteps m node pivot
    | none => none
  | none => none

/-- The statements of `RotateRight(node)` after `Node* pivot = node->left;`, in the order
of the source. -/
def RotateRightSteps (m : Mem K T) (node pivot : Nat) : Option (Mem K T) :=
  Option.bind (copyParent m node pivot) fun (m1 : Mem K T) =>
  Option.bind (copySize m1 node pivot) fun (m2 : Mem K T) =>
  Option.bind (resizeRight m2 node pivot) fun (m3 : Mem K T) =>
  Option.bind (relinkParent m3 node pivot) fun (m4 : Mem K T) =>
  Option.bind (moveInnerRight m4 node pivot) fun (m5 : Mem K T) =>
  -- `node->parent = pivot;`
  Option.bind (setParent m5 node (some pivot)) fun (m6 : Mem K T) =>
  -- `pivot->right = node;`
  setRight m6 pivot (some node)

/-- Source function `RotateRight(node)` on the memory, the mirror image. -/
def RotateRightPtr (m : Mem K T) (node : Nat) : Option (Mem K T) :=
  match m.cells node with
  | some n =>
    match n.left with
    | some pivot => RotateRightSteps m node pivot
    | none => none
  | none => none

/-- The links of a memory are consistent: a node listed as a child is allocated and has
the listing node as its parent, a node with a parent is listed by it, no node is listed in
both slots of one parent, the root has no parent, and a node without a parent is the
root. -/
structure Linked (m : Mem K T) : Prop where
  left_parent : ∀ x c y, m.cells x = some c → c.left = some y →
    ∃ cy, m.cells y = some cy ∧ cy.parent = some x
  right_parent : ∀ x c y, m.cells x = some c → c.right = some y →
    ∃ cy, m.cells y = some cy ∧ cy.parent = some x
  parent_child : ∀ y cy x, m.cells y = some cy → cy.parent = some x →
    ∃ c, m.cells x = some c ∧ (c.left = some y ∨ c.right = some y)
  distinct : ∀ x c y, m.cells x = some c → c.left = some y → c.right ≠ some y
  root_parent : ∀ r, m.root = some r → ∃ c, m.cells r = some c ∧ c.parent = none
  orphan_root : ∀ x c, m.cells x = some c → c.parent = none → m.root = some x

/-- The child links lead downwards: there is a depth that grows by one along every child
link, so that no node is its own descendant. -/
def Downward (m : Mem K T) : Prop :=
  ∃ depth : Nat → Nat, ∀ x c y, m.cells x = some c →
    (c.left = some y ∨ c.right = some y) → depth y = depth x + 1

/-- The in-order sequence of (key, value) pairs of the nodes below the link `a`, read off
the child links of the memory. -/
inductive InOrderPtr (m : Mem K T) : Option Nat → List (K × T) → Prop
  | null : InOrderPtr m none []
  | node (a : Nat) (c : Cell K T) (xs ys : List (K × T)) :
      m.cells a = some c → InOrderPtr m c.left xs → InOrderPtr m c.right ys →
      InOrderPtr m (some a) (xs ++ (c.key, c.data) :: ys)

/-- The link `q` after a rotation that puts `pivot` in the place of `node`. -/
def relink (node pivot : Nat) (q : Option Nat) : Option Nat :=
  if q = some node then some pivot else q

/-- The frame of a rotation of `node` with `pivot`: every address holds a node afterwards
exactly when it did before, with the same key, value and colour, and with the same size
unless the address is `node` or `pivot`. -/
def KeepsNodes (m m' : Mem K T) (node pivot : Nat) : Prop :=
  ∀ a, (m'.cells a).map Cell.key = (m.cells a).map Cell.key ∧
    (m'.cells a).map Cell.data = (m.cells a).map Cell.data ∧
    (m'.cells a).map Cell.color = (m.cells a).map Cell.color ∧
    (a ≠ node → a ≠ pivot → (m'.cells a).map Cell.size = (m.cells a).map Cell.size)

/-- The sample tree `exampleTree` laid out in memory: the root 20 at address 0, its
children 10 and 30 at the addresses 1 and 2. -/
def exampleMem : Mem Nat Unit where
  cells := fun a =>
    match a with
    | 0 => some ⟨20, (), Color.BLACK, 3, none, some 1, some 2⟩
    | 1 => some ⟨10, (), Color.RED, 1, some 0, none, none⟩
    | 2 => some ⟨30, (), Color.RED, 1, some 0, none, none⟩
    | _ => none
  root := some 0

/-- The root node of `exampleMem`. -/
def exampleCell : Cell Nat Unit := ⟨20, (), Color.BLACK, 3, none, some 1, some 2⟩

/-! ## The fix-ups with a record of their restarts

The fix-up functions once more, each returning next to its result the depths (numbers of
ancestors) of the nodes at which `InsertCase1`, resp. `DeleteCase1`, is entered, in the
order of the calls. -/

mutual
/-- Source function `InsertCase1(node)`, with the depths of the nodes it is entered at. -/
def InsertCase1T : Ctx K T → Tree K T → Option (Tree K T) × List Nat
  | ctx, Tree.nil => (none, [ctx.length])
  | [], Tree.node k d c s l r => (toBlack (Tree.node k d c s l r), [0])
  | f :: rest, Tree.node k d c s l r =>
      let res := InsertCase2T (f :: rest) (Tree.node k d c s l r)
      (res.1, (rest.length + 1) :: res.2)
termination_by ctx => 3 * ctx.length + 2
/-- Source function `InsertCase2(node)`, with the depths at which `InsertCase1` is entered
again. -/
def InsertCase2T : Ctx K T → Tree K T → Option (Tree K T) × List Nat
  | [], _ => (none, [])
  | f :: rest, n =>
      if f.color ≠ Color.BLACK then InsertCase3T (f :: rest) n
      else (some (plug (f :: rest) n), [])
termination_by ctx => 3 * ctx.length + 1
/-- Source function `InsertCase3(node)`, with the depths at which `InsertCase1` is entered
again. -/
def InsertCase3T : Ctx K T → Tree K T → Option (Tree K T) × List Nat
  | f :: g :: rest, n =>
      match g.brother with
      | Tree.node uk ud Color.RED us ul ur =>
          InsertCase1T rest
            (attach { g with color := Color.RED,
                             brother := Tree.node uk ud Color.BLACK us ul ur }
              (attach { f with color := Color.BLACK } n))
      | _ => (InsertCase4 (f :: g :: rest) n, [])
  | ctx, n => (InsertCase4 ctx n, [])
termination_by ctx => 3 * ctx.length
decreasing_by
  all_goals simp_wf
  all_goals omega
end

mutual
/-- Source function `DeleteCase1(node)`, with the depths of the nodes it is entered at. -/
def DeleteCase1T : Ctx K T → Tree K T → Option (Loc K T) × List Nat
  | ctx, Tree.nil => (none, [ctx.length])
  | [], Tree.node k d c s l r => (some ([], Tree.node k d c s l r), [0])
  | f :: rest, Tree.node k d c s l r =>
      let res := DeleteCase2T (f :: rest) (Tree.node k d c s l r)
      (res.1, (rest.length + 1) :: res.2)
termination_by ctx => 3 * ctx.length + 2
/-- Source function `DeleteCase2(node)`, with the depths at which `DeleteCase1` is entered
again. -/
def DeleteCase2T : Ctx K T → Tree K T → Option (Loc K T) × List Nat
  | [], _ => (none, [])
  | f :: rest, n =>
      match isRed f.brother with
      | none => (none, [])
      | some brotherRed =>
        if brotherRed then
          match h : DeleteCase2Rotate f rest n with
          | none => (none, [])
          | some loc => DeleteCase3T loc.1 loc.2
        else DeleteCase3T (f :: rest) n
termination_by ctx => 3 * ctx.length + 1
decreasing_by
  all_goals simp_wf
  · have hm : DeleteCase3Measure loc.1 = 0 := by
      unfold DeleteCase2Rotate at h
      cases hb : f.brother with
      | nil => simp [hb, toBlack] at h
      | node bk bd bc bs bl br =>
        cases hl : f.isLeft
        · simp [hb, hl, toBlack, attach, RotateRight, goRight] at h
          subst h
          simp [DeleteCase3Measure]
        · simp [hb, hl, toBlack, attach, RotateLeft, goLeft] at h
          subst h
          simp [DeleteCase3Measure]
    rw [hm]; omega
  · simp [DeleteCase3Measure]; split <;> omega
/-- Source function `DeleteCase3(node)`, with the depths at which `DeleteCase1` is entered
again. -/
def DeleteCase3T : Ctx K T → Tree K T → Option (Loc K T) × List Nat
  | [], _ => (none, [])
  | f :: rest, n =>
      if hp : f.color = Color.BLACK then
        match f.brother with
        | Tree.nil => (none, [])
        | Tree.node bk bd bc bs bl br =>
            if decide (bc = Color.BLACK) && absentOrBlack bl && absentOrBlack br then
              let res := DeleteCase1T rest
                (attach { f with brother := Tree.node bk bd Color.RED bs bl br } n)
              (res.1.bind fun parent => if f.isLeft then goLeft parent else goRight parent,
                res.2)
            else (DeleteCase4 (f :: rest) n, [])
      else (DeleteCase4 (f :: rest) n, [])
termination_by ctx => DeleteCase3Measure ctx
decreasing_by
  all_goals simp_wf
  all_goals simp [DeleteCase3Measure, hp]
  all_goals omega
end

end OrderStatisticBST

namespace OptimalBST

variable {K T : Type}

/-! ## Bulk construction of the optimal search trees

`OptimalBST::Init` (OptimalBST.h) and `OptimalBSTree::Init` (Optimal_Tree.h) build a tree
from an element list and a frequency list.  The frequencies and the costs are `unsigned
int`: natural numbers with the arithmetic taken modulo `2^32`.  A call has one of three
outcomes: it throws, it runs into undefined behaviour (an access outside a vector or
through a null pointer), or it returns. -/

/-- The constant `UINT_MAX` of a 32-bit `unsigned int`. -/
def UINT_MAX : Nat := 4294967295

/-- The sum of two `unsigned int`. -/
def uadd (a b : Nat) : Nat := (a + b) % 4294967296

/-- The cast `(unsigned int) n` of an index. -/
def toUnsigned (n : Nat) : Nat := n % 4294967296

/-- The conversion of an `unsigned int` to the `int` parameter of `buildTree`. -/
def toInt (u : Nat) : Int := if u < 2147483648 then (u : Int) else (u : Int) - 4294967296

/-- Outcome of a call: an exception thrown with its message, undefined behaviour, a
recursion cut off by the fuel of the model, or a returned value. -/
inductive Outcome (α : Type) where
  | raised (what : String) : Outcome α
  | fault : Outcome α
  | unfinished : Outcome α
  | returned (a : α) : Outcome α
  deriving DecidableEq, Repr

/-- A run of `Init`: the number of nodes created by `new Node`, and the outcome. -/
structure Run (α : Type) where
  created : Nat
  outcome : Outcome α
  deriving DecidableEq, Repr

/-- Sequencing of two steps: the second runs on the value the first returned. -/
def Outcome.bind {α β : Type} (o : Outcome α) (f : α → Outcome β) : Outcome β :=
  match o with
  | Outcome.raised w => Outcome.raised w
  | Outcome.fault => Outcome.fault
  | Outcome.unfinished => Outcome.unfinished
  | Outcome.returned a => f a

/-- The local struct `CachedData` of `OptimalBST::Init`. -/
structure CachedData where
  root : Nat
  cost : Nat
  deriving DecidableEq, Repr

/-- The table `cache`: the entry `cache[i][j]` by row `i` and column `j`. -/
structure Cache where
  entry : Nat → Nat → CachedData

/-- Assignment `cache[i][j] = v`. -/
def Cache.set (c : Cache) (i j : Nat) (v : CachedData) : Cache :=
  { entry := fun a b => if a = i ∧ b = j then v else c.entry a b }

/-- The call `std::accumulate(first, last, init)` on `unsigned int`. -/
def accumulate (xs : List Nat) (init : Nat) : Nat := xs.foldl uadd init

/-- The range `frequency.begin() + i` to `frequency.begin() + j + 1`. -/
def slice (frequency : List Nat) (i j : Nat) : List Nat := (frequency.drop i).take (j + 1 - i)

/-- The table after the first loop of `OptimalBST::Init`: every entry is default
constructed (`root = UINT_MAX`, `cost = UINT_MAX`), then `cache[i][i] = { frequency[i],
(unsigned int) i }` for every `i`. -/
def initCache (frequency : List Nat) : Cache :=
  (List.range frequency.length).foldl
    (fun c i => c.set i i { root := toUnsigned i, cost := frequency.getD i 0 })
    { entry := fun _ _ => { root := UINT_MAX, cost := UINT_MAX } }

/-- Body of the innermost loop of `OptimalBST::Init` for one candidate `root` of the
interval `i..j`. -/
def tryRoot (frequency : List Nat) (i j : Nat) (c : Cache) (root : Nat) : Cache :=
  let cost := accumulate (slice frequency i j)
    (uadd (if root > i then (c.entry i (root - 1)).cost else 0)
      (if root < j then (c.entry (root + 1) j).cost else 0))
  if cost < (c.entry i j).cost then c.set i j { root := toUnsigned root, cost := cost } else c

/-- The loop `for (root = i; root <= j; root++)` with `j = i + length`. -/
def fillInterval (frequency : List Nat) (length : Nat) (c : Cache) (i : Nat) : Cache :=
  (List.range' i (length + 1)).foldl (tryRoot frequency i (i + length)) c

/-- The loop `for (i = 0; i < size - length; i++)`. -/
def fillLength (frequency : List Nat) (size : Nat) (c : Cache) (length : Nat) : Cache :=
  (List.range (size - length)).foldl (fillInterval frequency length) c

/-- The loop `for (length = 1; length < size; length++)`. -/
def fillCache (frequency : List Nat) (size : Nat) (c : Cache) : Cache :=
  (List.range' 1 (size - 1)).foldl (fillLength frequency size) c

/-- A tree of `OptimalBST` nodes as `buildTree` links them; `nil` is `nullptr`. -/
inductive Tree (K T : Type) where
  | nil : Tree K T
  | node (key : K) (data : T) (freq cost : Nat) (left right : Tree K T) : Tree K T
  deriving DecidableEq, Repr

/-- The recursive lambda `buildTree` of `OptimalBST::Init`, on the created nodes (key,
value, frequency) and the filled table.  Reading `cache` or `nodes` outside their bounds
is a fault.  The first argument bounds the depth of the recursion. -/
def buildTree (nodes : List (K × T × Nat)) (cache : Cache) :
    Nat → Int → Int → Outcome (Tree K T)
  | 0, _, _ => Outcome.unfinished
  | fuel + 1, leftBound, rightBound =>
    if leftBound ≤ rightBound then
      if 0 ≤ leftBound ∧ rightBound < nodes.length then
        let entry := cache.entry leftBound.toNat rightBound.toNat
        match nodes[entry.root]? with
        | none => Outcome.fault
        | some (key, data, freq) =>
          (buildTree nodes cache fuel leftBound (toInt (toUnsigned (entry.root + 4294967295)))).bind
            fun l =>
          (buildTree nodes cache fuel (toInt (uadd entry.root 1)) rightBound).bind fun r =>
          Outcome.returned (Tree.node key data freq entry.cost l r)
      else Outcome.fault
    else Outcome.returned Tree.nil

/-- Source function `OptimalBST::Init(elements, frequency)`. -/
def Init (elements : List (K × T)) (frequency : List Nat) : Run (Tree K T) :=
  if elements.length ≠ frequency.length then
    { created := 0,
      outcome := Outcome.raised
        "OptimalBST construction error: elements and frequencies sizes mismatch." }
  else if elements.length = 0 then
    { created := 0, outcome := Outcome.returned Tree.nil }
  else
    let size := elements.length
    let nodes := List.zipWith (fun e f => (e.1, e.2, f)) elements frequency
    let cache := fillCache frequency size (initCache frequency)
    { created := size,
      outcome := buildTree nodes cache (size + 1) 0 (toInt (toUnsigned (size - 1))) }

/-- Source function `InOrder(_root, func)`: the (key, value) pairs of the nodes handed to
`func`, in call order. -/
def InOrder : Tree K T → List (K × T)
  | Tree.nil => []
  | Tree.node k d _ _ l r => InOrder l ++ (k, d) :: InOrder r

/-- The frequencies of the nodes, in in-order. -/
def freqs : Tree K T → List Nat
  | Tree.nil => []
  | Tree.node _ _ f _ l r => freqs l ++ f :: freqs r

/-- Source function `Cost(node)`. -/
def Cost : Tree K T → Nat
  | Tree.nil => 0
  | Tree.node _ _ _ c _ _ => c

/-- The sum over the nodes of frequency times depth, the top node being at depth
`depth`. -/
def weightedAt (depth : Nat) : Tree K T → Nat
  | Tree.nil => 0
  | Tree.node _ _ f _ l r => f * depth + weightedAt (depth + 1) l + weightedAt (depth + 1) r

/-- The weighted path cost of a tree: the sum over the nodes of frequency times depth,
with the root at depth 1. -/
def weightedCost (t : Tree K T) : Nat := weightedAt 1 t

/-- The number `v` is the least weighted path cost of a binary tree whose in-order
frequency sequence is `ws`. -/
def IsMin (K T : Type) (ws : List Nat) (v : Nat) : Prop :=
  (∃ t : Tree K T, freqs t = ws ∧ weightedCost t = v) ∧
    ∀ t : Tree K T, freqs t = ws → v ≤ weightedCost t

/-- The entry `cache[a][b]` is filled in as the dynamic programme intends: its root is a
position `a + p` of the interval, and its cost is the sum of the frequencies of the
interval plus the least costs of the parts left and right of the root, which is the least
cost of the interval. -/
def Filled (K T : Type) (frequency : List Nat) (c : Cache) (a b : Nat) : Prop :=
  ∃ p vL vR, a + p ≤ b ∧ (c.entry a b).root = a + p ∧
    IsMin K T ((slice frequency a b).take p) vL ∧
    IsMin K T ((slice frequency a b).drop (p + 1)) vR ∧
    (c.entry a b).cost = (slice frequency a b).sum + vL + vR ∧
    IsMin K T (slice frequency a b) (c.entry a b).cost

/-- The state of the table when the intervals `i..i + length` are being filled in, those
starting before `i` being done: the shorter intervals and those done are filled in, the
others still hold the default cost. -/
def Progress (K T : Type) (frequency : List Nat) (c : Cache) (length i : Nat) : Prop :=
  (∀ a b, a ≤ b → b < frequency.length → (b - a < length ∨ (b - a = length ∧ a < i)) →
    Filled K T frequency c a b) ∧
  (∀ a b, a < b → b < frequency.length → (length < b - a ∨ (b - a = length ∧ i ≤ a)) →
    (c.entry a b).cost = UINT_MAX)

/-- Three elements with the frequencies 3, 1, 2. -/
def sampleElements : List (Nat × String) := [(1, "a"), (2, "b"), (3, "c")]

end OptimalBST

namespace OptimalBSTree

open OptimalBST (UINT_MAX uadd accumulate slice Outcome Run)

variable {K T : Type}

/-- One `OptimalBSTree::Node`; the links are positions in the vector `nodes`. -/
structure Node (K T : Type) where
  key : K
  data : T
  parent : Option Nat
  left : Option Nat
  right : Option Nat
  cost : Nat
  deriving DecidableEq, Repr

/-- The table `cache` of pairs (cost, root node of the interval): the entry `cache[i][j]`
by row `i` and column `j`. -/
structure Cache where
  entry : Nat → Nat → Nat × Option Nat

/-- Assignment `cache[i][j] = v`. -/
def Cache.set (c : Cache) (i j : Nat) (v : Nat × Option Nat) : Cache :=
  { entry := fun a b => if a = i ∧ b = j then v else c.entry a b }

/-- The vectors `nodes` and `cache` during `OptimalBSTree::Init`. -/
structure State (K T : Type) where
  nodes : List (Node K T)
  cache : Cache

/-- Source function `SetParent(child, parent)`. -/
def SetParent (nodes : List (Node K T)) (child : Option Nat) (parent : Nat) :
    Option (List (Node K T)) :=
  match child with
  | none => some nodes
  | some c =>
    match nodes[c]? with
    | some n => some (nodes.set c { n with parent := some parent })
    | none => none

/-- Source function `KeepParent(node)`; `none` when `node` is `nullptr`. -/
def KeepParent (nodes : List (Node K T)) (node : Option Nat) : Option (List (Node K T)) :=
  match node with
  | none => none
  | some a =>
    match nodes[a]? with
    | none => none
    | some n =>
      match SetParent nodes n.left a with
      | none => none
      | some nodes1 =>
        match nodes1[a]? with
        | none => none
        | some n1 => SetParent nodes1 n1.right a

/-- The state after the first loop of `OptimalBSTree::Init`: `cache[i][i] = { frequency[i],
nodes[i] }` and `cache[i][j] = { UINT_MAX, nullptr }` for `j > i`. -/
def initState (elements : List (K × T)) (frequency : List Nat) : State K T where
  nodes := elements.map fun e =>
    { key := e.1, data := e.2, parent := none, left := none, right := none, cost := 0 }
  cache := { entry := fun i j =>
    if i = j then (frequency.getD i 0, some i)
    else if i < j then (UINT_MAX, none)
    else (0, none) }

/-- Body of the innermost loop of `OptimalBSTree::Init` for one candidate `root`.  The
third argument of `accumulate` is `(root > i) ? cache[i][root - 1].first : 0 + (root < j) ?
cache[root + 1][j].first : 0`, which C++ reads as `(root > i) ? cache[i][root - 1].first :
((0 + (root < j)) ? cache[root + 1][j].first : 0)`. -/
def tryRoot (frequency : List Nat) (i j : Nat) (s : State K T) (root : Nat) :
    Option (State K T) :=
  let cost := accumulate (slice frequency i j)
    (if root > i then (s.cache.entry i (root - 1)).1
      else if root < j then (s.cache.entry (root + 1) j).1 else 0)
  if cost < (s.cache.entry i j).1 then
    match s.nodes[root]? with
    | none => none
    | some n =>
      some {
        nodes := s.nodes.set root { n with
          left := if root > i then (s.cache.entry i (root - 1)).2 else none
          right := if root < j then (s.cache.entry (root + 1) j).2 else none
          cost := cost }
        cache := s.cache.set i j (cost, some root) }
  else some s

/-- The body of the loop over `i`: the loop over the candidate roots of `i..j` with `j = i
+ length`, then `KeepParent(cache[i][j].second)`. -/
def fillInterval (frequency : List Nat) (length : Nat) (s : State K T) (i : Nat) :
    Option (State K T) :=
  match (List.range' i (length + 1)).foldlM (tryRoot frequency i (i + length)) s with
  | none => none
  | some s1 =>
    match KeepParent s1.nodes (s1.cache.entry i (i + length)).2 with
    | none => none
    | some nodes => some { s1 with nodes := nodes }

/-- The loop `for (i = 0; i < size - length; i++)`. -/
def fillLength (frequency : List Nat) (size : Nat) (s : State K T) (length : Nat) :
    Option (State K T) :=
  (List.range (size - length)).foldlM (fillInterval frequency length) s

/-- The loop `for (length = 1; length < size; length++)`. -/
def fillCache (frequency : List Nat) (size : Nat) (s : State K T) : Option (State K T) :=
  (List.range' 1 (size - 1)).foldlM (fillLength frequency size) s

/-- What `OptimalBSTree::Init` returns: the root pointer, and the nodes it points into. -/
structure Built (K T : Type) where
  root : Option Nat
  nodes : List (Node K T)
  deriving DecidableEq, Repr

/-- Source function `OptimalBSTree::Init(elements, frequency)`. -/
def Init (elements : List (K × T)) (frequency : List Nat) : Run (Built K T) :=
  if elements.length ≠ frequency.length then
    { created := 0,
      outcome := Outcome.raised
        "OptimalBST construction error: elements and frequencies sizes mismatch." }
  else if elements.length = 0 then
    { created := 0, outcome := Outcome.returned { root := none, nodes := [] } }
  else
    let size := elements.length
    match fillCache frequency size (initState elements frequency) with
    | none => { created := size, outcome := Outcome.fault }
    | some s =>
      { created := size,
        outcome := Outcome.returned { root := (s.cache.entry 0 (size - 1)).2, nodes := s.nodes } }

/-- Source function `Cost(node)`, on the nodes `Init` returned; `none` when the pointer
leads outside the nodes. -/
def Cost (b : Built K T) (node : Option Nat) : Option Nat :=
  match node with
  | none => some 0
  | some a => b.nodes[a]?.map fun n => n.cost

end OptimalBSTree

namespace RedBlackBST

open OrderStatisticBST (Color)

/-! ## Red-black tree, the plain map

`src/Red_Black_Tree/RedBlackBST.h`, translated in the same representation as the order
statistic tree: a `Node*` is a `Tree`, the `parent` chain of a node is a `Ctx`, and `none`
stands for a read or write through `nullptr`.  The class declares the same `enum class
Color { RED, BLACK }`; the one type `Color` is used for both.  The nodes have no `size`,
and `Erase` copies the key of the replacement node into the target with `PlaceTo`, which
leaves the `data` pointer of the target as it is. -/

/-- A (possibly null) owning pointer to a node: `nil` is `nullptr`. -/
inductive Tree (K T : Type) where
  | nil : Tree K T
  | node (key : K) (data : T) (color : Color) (left right : Tree K T) : Tree K T
deriving DecidableEq, Repr

/-- One step of a `parent` chain: the parent's own fields, whether the child hangs in the
parent's `left` slot, and the parent's other child (`Brother` of the child). -/
structure Frame (K T : Type) where
  isLeft : Bool
  key : K
  data : T
  color : Color
  brother : Tree K T
deriving DecidableEq, Repr

/-- The chain of ancestors of a node, nearest first; `[]` means `parent == nullptr`. -/
abbrev Ctx (K T : Type) := List (Frame K T)

/-- A pointer to a node of a tree: its ancestors and the subtree it roots. -/
abbrev Loc (K T : Type) := Ctx K T × Tree K T

variable {K T : Type}

/-- The parent node described by a frame, with `t` in the slot of the child. -/
def attach (f : Frame K T) (t : Tree K T) : Tree K T :=
  if f.isLeft then Tree.node f.key f.data f.color t f.brother
  else Tree.node f.key f.data f.color f.brother t

/-- The whole tree around a node: follow the parent chain up to the root. -/
def plug : Ctx K T → Tree K T → Tree K T
  | [], t => t
  | f :: rest, t => plug rest (attach f t)

/-- Follow `->left`: `none` when the pointer followed from is `nullptr`. -/
def goLeft : Loc K T → Option (Loc K T)
  | (_, Tree.nil) => none
  | (ctx, Tree.node k d c l r) => some (⟨true, k, d, c, r⟩ :: ctx, l)

/-- Follow `->right`: `none` when the pointer followed from is `nullptr`. -/
def goRight : Loc K T → Option (Loc K T)
  | (_, Tree.nil) => none
  | (ctx, Tree.node k d c l r) => some (⟨false, k, d, c, l⟩ :: ctx, r)

/-- The call `toRed()` through a pointer. -/
def toRed : Tree K T → Option (Tree K T)
  | Tree.nil => none
  | Tree.node k d _ l r => some (Tree.node k d Color.RED l r)

/-- The call `toBlack()` through a pointer. -/
def toBlack : Tree K T → Option (Tree K T)
  | Tree.nil => none
  | Tree.node k d _ l r => some (Tree.node k d Color.BLACK l r)

/-- The call `isRed()` through a pointer. -/
def isRed : Tree K T → Option Bool
  | Tree.nil => none
  | Tree.node _ _ c _ _ => some (decide (c = Color.RED))

/-- The call `isBlack()` through a pointer. -/
def isBlack : Tree K T → Option Bool
  | Tree.nil => none
  | Tree.node _ _ c _ _ => some (decide (c = Color.BLACK))

/-- Source function `RotateLeft(node)` on the subtree rooted at `node`; the result is the
subtree now hanging in the slot `node` occupied (or the new `root`). The pivot is `node->right`.
-/
def RotateLeft : Tree K T → Option (Tree K T)
  | Tree.node k d c l (Tree.node pk pd pc pl pr) =>
      some (Tree.node pk pd pc (Tree.node k d c l pl) pr)
  | _ => none

/-- Source function `RotateRight(node)`, the mirror image; the pivot is `node->left`. -/
def RotateRight : Tree K T → Option (Tree K T)
  | Tree.node k d c (Tree.node pk pd pc pl pr) r =>
      some (Tree.node pk pd pc pl (Tree.node k d c pr r))
  | _ => none

section Ordered
variable [LinearOrder K]

/-- Source function `InsertNode(node, _root, root_parent)`: descend from `_root` (whose
ancestors are `ctx`) and hang the new RED node in the empty slot reached. Returns the
pointer to the new node. -/
def InsertNode (key : K) (data : T) : Ctx K T → Tree K T → Loc K T
  | ctx, Tree.nil => (ctx, Tree.node key data Color.RED Tree.nil Tree.nil)
  | ctx, Tree.node k d c l r =>
      if key > k then InsertNode key data (⟨false, k, d, c, l⟩ :: ctx) r
      else InsertNode key data (⟨true, k, d, c, r⟩ :: ctx) l

end Ordered

/-- Source function `InsertCase5(node)`: parent to BLACK, grandfather to RED, rotate the
grandfather. -/
def InsertCase5 : Ctx K T → Tree K T → Option (Tree K T)
  | f :: g :: rest, n =>
      let parent := attach { f with color := Color.BLACK } n
      let grand_father := attach { g with color := Color.RED } parent
      if f.isLeft then (RotateRight grand_father).map (plug rest)
      else (RotateLeft grand_father).map (plug rest)
  | _, _ => none

/-- Source function `InsertCase4(node)`: straighten a zig-zag by rotating the parent, then case
5 on the former parent. -/
def InsertCase4 : Ctx K T → Tree K T → Option (Tree K T)
  | f :: g :: rest, n =>
      if !f.isLeft && g.isLeft then
        (RotateLeft (attach f n)).bind fun p =>
        (goLeft (g :: rest, p)).bind fun loc => InsertCase5 loc.1 loc.2
      else if f.isLeft && !g.isLeft then
        (RotateRight (attach f n)).bind fun p =>
        (goRight (g :: rest, p)).bind fun loc => InsertCase5 loc.1 loc.2
      else InsertCase5 (f :: g :: rest) n
  | _, _ => none

mutual
/-- Source function `InsertCase1(node)`: a root is painted BLACK. -/
def InsertCase1 : Ctx K T → Tree K T → Option (Tree K T)
  | _, Tree.nil => none
  | [], Tree.node k d c l r => toBlack (Tree.node k d c l r)
  | f :: rest, Tree.node k d c l r => InsertCase2 (f :: rest) (Tree.node k d c l r)
termination_by ctx => 3 * ctx.length + 2
/-- Source function `InsertCase2(node)`: nothing to do under a BLACK parent. -/
def InsertCase2 : Ctx K T → Tree K T → Option (Tree K T)
  | [], _ => none
  | f :: rest, n =>
      if f.color ≠ Color.BLACK then InsertCase3 (f :: rest) n
      else some (plug (f :: rest) n)
termination_by ctx => 3 * ctx.length + 1
/-- Source function `InsertCase3(node)`: a RED uncle is repainted together with the parent and the
grandfather, and the fix-up restarts at the grandfather. -/
def InsertCase3 : Ctx K T → Tree K T → Option (Tree K T)
  | f :: g :: rest, n =>
      match g.brother with
      | Tree.node uk ud Color.RED ul ur =>
          InsertCase1 rest
            (attach { g with color := Color.RED,
                             brother := Tree.node uk ud Color.BLACK ul ur }
              (attach { f with color := Color.BLACK } n))
      | _ => InsertCase4 (f :: g :: rest) n
  | ctx, n => InsertCase4 ctx n
termination_by ctx => 3 * ctx.length
decreasing_by
  all_goals simp_wf
  all_goals omega
end

section Ordered
variable [LinearOrder K]

/-- Source function `Insert(key, data)`: the tree `root` points at afterwards. -/
def Insert (t : Tree K T) (key : K) (data : T) : Option (Tree K T) :=
  let node := InsertNode key data [] t
  InsertCase1 node.1 node.2

end Ordered

section Ordered
variable [LinearOrder K]

/-- Source function `Find(key, _root)`: the loop of the private overload, `ctx` being the
ancestors of `_root`. Returns the pointer reached, `none` for `nullptr`. -/
def Find (key : K) : Ctx K T → Tree K T → Option (Loc K T)
  | _, Tree.nil => none
  | ctx, Tree.node k d c l r =>
      if k ≠ key then
        if k < key then Find key (⟨false, k, d, c, l⟩ :: ctx) r
        else Find key (⟨true, k, d, c, r⟩ :: ctx) l
      else some (ctx, Tree.node k d c l r)

end Ordered

/-- Source function `MinNode(_root)`: follow `left` links while there is a left child. -/
def MinNode : Ctx K T → Tree K T → Loc K T
  | ctx, Tree.nil => (ctx, Tree.nil)
  | ctx, Tree.node k d c Tree.nil r => (ctx, Tree.node k d c Tree.nil r)
  | ctx, Tree.node k d c (Tree.node lk ld lc ll lr) r =>
      MinNode (⟨true, k, d, c, r⟩ :: ctx) (Tree.node lk ld lc ll lr)

/-- Source function `MaxNode(_root)`: follow `right` links while there is a right child. -/
def MaxNode : Ctx K T → Tree K T → Loc K T
  | ctx, Tree.nil => (ctx, Tree.nil)
  | ctx, Tree.node k d c l Tree.nil => (ctx, Tree.node k d c l Tree.nil)
  | ctx, Tree.node k d c l (Tree.node rk rd rc rl rr) =>
      MaxNode (⟨false, k, d, c, l⟩ :: ctx) (Tree.node rk rd rc rl rr)

/-- Source function `InOrder(_root, func)`: the pointers handed to `func`, in call order; `ctx`
is the chain of ancestors of `_root`. -/
def InOrder : Ctx K T → Tree K T → List (Loc K T)
  | _, Tree.nil => []
  | ctx, Tree.node k d c l r =>
      InOrder (⟨true, k, d, c, r⟩ :: ctx) l
        ++ (ctx, Tree.node k d c l r) :: InOrder (⟨false, k, d, c, l⟩ :: ctx) r

/-- Source function `DeleteCase6(node)`: the brother takes the parent's colour, the parent and
the far child of the brother become BLACK, and the parent is rotated towards `node`. Returns the
pointer `node` in the tree as it is afterwards. -/
def DeleteCase6 : Ctx K T → Tree K T → Option (Loc K T)
  | f :: rest, n =>
      match f.brother with
      | Tree.nil => none
      | Tree.node bk bd _ bl br =>
          if f.isLeft then
            (toBlack br).bind fun br1 =>
            (RotateLeft (attach { f with color := Color.BLACK,
                                         brother := Tree.node bk bd f.color bl br1 } n)).bind
              fun p => (goLeft (rest, p)).bind goLeft
          else
            (toBlack bl).bind fun bl1 =>
            (RotateRight (attach { f with color := Color.BLACK,
                                          brother := Tree.node bk bd f.color bl1 br } n)).bind
              fun p => (goRight (rest, p)).bind goRight
  | [], _ => none

/-- Source function `DeleteCase5(node)`: a BLACK brother whose near child is RED and whose far
child is BLACK is painted RED, its near child BLACK, and it is rotated away from `node`; then
case 6. The two flags are computed as the source does, `&&` evaluating left to right and
stopping at the first false operand. -/
def DeleteCase5 : Ctx K T → Tree K T → Option (Loc K T)
  | f :: rest, n =>
      (isBlack f.brother).bind fun brotherBlack =>
      if brotherBlack then
        match f.brother with
        | Tree.nil => none
        | Tree.node bk bd _ bl br =>
            (if f.isLeft then
               (isBlack br).bind fun farBlack => if farBlack then isRed bl else some false
             else some false).bind fun left_child =>
            (if !f.isLeft then
               (isBlack bl).bind fun farBlack => if farBlack then isRed br else some false
             else some false).bind fun rigth_child =>
            if left_child then
              (toBlack bl).bind fun bl1 =>
              (RotateRight (Tree.node bk bd Color.RED bl1 br)).bind fun b1 =>
              DeleteCase6 ({ f with brother := b1 } :: rest) n
            else if rigth_child then
              (toBlack br).bind fun br1 =>
              (RotateLeft (Tree.node bk bd Color.RED bl br1)).bind fun b1 =>
              DeleteCase6 ({ f with brother := b1 } :: rest) n
            else DeleteCase6 (f :: rest) n
      else DeleteCase6 (f :: rest) n
  | [], _ => none

/-- The test `!p || p->isBlack()` applied to a child of the brother. -/
def absentOrBlack : Tree K T → Bool
  | Tree.nil => true
  | Tree.node _ _ c _ _ => decide (c = Color.BLACK)

/-- Source function `DeleteCase4(node)`: RED parent, BLACK brother without RED child: the
brother becomes RED and the parent BLACK. -/
def DeleteCase4 : Ctx K T → Tree K T → Option (Loc K T)
  | f :: rest, n =>
      (if f.color = Color.RED then
         match f.brother with
         | Tree.nil => none
         | Tree.node _ _ bc bl br =>
             some (decide (bc = Color.BLACK) && absentOrBlack bl && absentOrBlack br)
       else some false).bind fun repaint =>
      if repaint then
        (toRed f.brother).map fun b1 =>
          ({ f with color := Color.BLACK, brother := b1 } :: rest, n)
      else DeleteCase5 (f :: rest) n
  | [], _ => none

/-- The parent chain and subtree of `node` after `DeleteCase2` has painted the parent RED,
the brother BLACK and rotated the parent towards `node`. -/
def DeleteCase2Rotate (f : Frame K T) (rest : Ctx K T) (n : Tree K T) : Option (Loc K T) :=
  (toBlack f.brother).bind fun b1 =>
  if f.isLeft then
    (RotateLeft (attach { f with color := Color.RED, brother := b1 } n)).bind
      fun p => (goLeft (rest, p)).bind goLeft
  else
    (RotateRight (attach { f with color := Color.RED, brother := b1 } n)).bind
      fun p => (goRight (rest, p)).bind goRight

/-- Termination measure of `DeleteCase3`: it only restarts under a BLACK parent. -/
def DeleteCase3Measure : Ctx K T → Nat
  | [] => 0
  | f :: rest => if f.color = Color.BLACK then 3 * (rest.length + 1) else 0

mutual
/-- Source function `DeleteCase1(node)`: nothing to do at the root. Returns the pointer `node`
in the tree as it is after the fix-up. -/
def DeleteCase1 : Ctx K T → Tree K T → Option (Loc K T)
  | _, Tree.nil => none
  | [], Tree.node k d c l r => some ([], Tree.node k d c l r)
  | f :: rest, Tree.node k d c l r => DeleteCase2 (f :: rest) (Tree.node k d c l r)
termination_by ctx => 3 * ctx.length + 2
/-- Source function `DeleteCase2(node)`: under a RED brother, paint the parent RED, the brother
BLACK and rotate the parent towards `node`; then case 3. -/
def DeleteCase2 : Ctx K T → Tree K T → Option (Loc K T)
  | [], _ => none
  | f :: rest, n =>
      (isRed f.brother).bind fun brotherRed =>
      if brotherRed then
        match h : DeleteCase2Rotate f rest n with
        | none => none
        | some loc => DeleteCase3 loc.1 loc.2
      else DeleteCase3 (f :: rest) n
termination_by ctx => 3 * ctx.length + 1
decreasing_by
  all_goals simp_wf
  · have hm : DeleteCase3Measure loc.1 = 0 := by
      unfold DeleteCase2Rotate at h
      cases hb : f.brother with
      | nil => simp [hb, toBlack] at h
      | node bk bd bc bl br =>
        cases hl : f.isLeft
        · simp [hb, hl, toBlack, attach, RotateRight, goRight] at h
          subst h
          simp [DeleteCase3Measure]
        · simp [hb, hl, toBlack, attach, RotateLeft, goLeft] at h
          subst h
          simp [DeleteCase3Measure]
    rw [hm]; omega
  · simp [DeleteCase3Measure]; split <;> omega
/-- Source function `DeleteCase3(node)`: BLACK parent, BLACK brother without RED child: the
brother is painted RED and the fix-up restarts at the parent. `node` is afterwards the same
child of its parent as before. -/
def DeleteCase3 : Ctx K T → Tree K T → Option (Loc K T)
  | [], _ => none
  | f :: rest, n =>
      if hp : f.color = Color.BLACK then
        match f.brother with
        | Tree.nil => none
        | Tree.node bk bd bc bl br =>
            if decide (bc = Color.BLACK) && absentOrBlack bl && absentOrBlack br then
              (DeleteCase1 rest
                (attach { f with brother := Tree.node bk bd Color.RED bl br } n)).bind
                fun parent => if f.isLeft then goLeft parent else goRight parent
            else DeleteCase4 (f :: rest) n
      else DeleteCase4 (f :: rest) n
termination_by ctx => DeleteCase3Measure ctx
decreasing_by
  all_goals simp_wf
  all_goals simp [DeleteCase3Measure, hp]
  all_goals omega
end

/-- The effect of `delete node` on the tree `root` points at, for a node without children:
a node with a parent is taken out of its parent's slot; a node without a parent leaves
the tree as it is. -/
def Delete (root : Tree K T) (node : Loc K T) : Tree K T :=
  match node.1 with
  | [] => root
  | f :: rest => plug (f :: rest) Tree.nil

/-- The call `isLeaf()` on an allocated node with children `l` and `r`. -/
def isLeaf (l r : Tree K T) : Bool :=
  match l, r with
  | Tree.nil, Tree.nil => true
  | _, _ => false

/-- The part of `Erase` after the replacement node has been chosen: `target` is the node
with fields `tk td tc` reached through `tctx`, `inner` is the parent chain of `node`
below the target with `targetFrame` the link from the target's child to the target.
`PlaceTo` overwrites the key of the target; its `data` stays. -/
def EraseSplice (tctx : Ctx K T) (targetFrame : Frame K T) (inner : Ctx K T) :
    Tree K T → Option (Tree K T)
  | Tree.nil => none
  | Tree.node nk nd nc nl nr =>
      let child := match nl with
        | Tree.node _ _ _ _ _ => nl
        | Tree.nil => nr
      -- `node->PlaceTo(target)`
      let nctx := inner ++ ({ targetFrame with key := nk } :: tctx)
      match child with
      | Tree.nil =>
          -- `ReplaceIfNotNull(nullptr)` returns at once
          if nc = Color.BLACK then
            (DeleteCase1 nctx (Tree.node nk nd nc nl nr)).map fun loc =>
              Delete (plug loc.1 loc.2) loc
          else some (Delete (plug nctx (Tree.node nk nd nc nl nr))
                       (nctx, Tree.node nk nd nc nl nr))
      | Tree.node ck cd cc cl cr =>
          -- `ReplaceIfNotNull(child)`: the child takes the slot, `node` loses all its links
          let detached : Loc K T := ([], Tree.node nk nd nc Tree.nil Tree.nil)
          if nc = Color.BLACK then
            if cc = Color.RED then
              some (Delete (plug nctx (Tree.node ck cd Color.BLACK cl cr)) detached)
            else
              (DeleteCase1 nctx (Tree.node ck cd cc cl cr)).map fun loc =>
                Delete (plug loc.1 loc.2) detached
          else some (Delete (plug nctx (Tree.node ck cd cc cl cr)) detached)

section Ordered
variable [LinearOrder K]

/-- Source function `Erase(key)`: the tree `root` points at afterwards. -/
def Erase (t : Tree K T) (key : K) : Option (Tree K T) :=
  match Find key [] t with
  | none => some t
  | some (_, Tree.nil) => none
  | some (tctx, Tree.node tk td tc tl tr) =>
      if isLeaf tl tr then
        (if tc = Color.BLACK then DeleteCase1 tctx (Tree.node tk td tc tl tr)
         else some (tctx, Tree.node tk td tc tl tr)).map fun target =>
          -- `if (target->isRoot()) root = nullptr; delete target;`
          Delete (match target.1 with
                  | [] => Tree.nil
                  | _ :: _ => plug target.1 target.2) target
      else
        match tr with
        | Tree.node _ _ _ _ _ =>
            let node := MinNode [] tr
            EraseSplice tctx ⟨false, tk, td, tc, tl⟩ node.1 node.2
        | Tree.nil =>
            let node := MaxNode [] tl
            EraseSplice tctx ⟨true, tk, td, tc, tr⟩ node.1 node.2

end Ordered

/-- The map after `Insert(20, "b")`, `Insert(10, "a")`, `Insert(30, "c")` on the empty
tree: a BLACK root 20 with the RED leaves 10 and 30. -/
def sampleMap : Tree Nat String :=
  Tree.node 20 "b" Color.BLACK (Tree.node 10 "a" Color.RED Tree.nil Tree.nil)
    (Tree.node 30 "c" Color.RED Tree.nil Tree.nil)

/-- A sequence of `Insert` calls, from left to right. -/
def insertAll [LinearOrder K] : Tree K T → List (K × T) → Option (Tree K T)
  | t, [] => some t
  | t, (k, d) :: rest => (Insert t k d).bind fun t1 => insertAll t1 rest

/-- The accessor `Data()` of the node a pointer leads to; `none` for `nullptr`. -/
def Data : Option (Loc K T) → Option T
  | some (_, Tree.node _ d _ _ _) => some d
  | _ => none

/-! ## The order statistic tree seen as a red-black tree

The shape of a tree: the keys and the colours at their positions, without the values
(and, for the order statistic tree, without the sizes). -/

/-- The shape of an order statistic tree, as a red-black tree without values. -/
def shapeOS : OrderStatisticBST.Tree K T → Tree K Unit
  | OrderStatisticBST.Tree.nil => Tree.nil
  | OrderStatisticBST.Tree.node k _ c _ l r => Tree.node k () c (shapeOS l) (shapeOS r)

/-- The shape of one step of a parent chain of an order statistic tree. -/
def shapeOSF (f : OrderStatisticBST.Frame K T) : Frame K Unit :=
  ⟨f.isLeft, f.key, (), f.color, shapeOS f.brother⟩

/-- The shape of a red-black tree: the tree without its values. -/
def shape : Tree K T → Tree K Unit
  | Tree.nil => Tree.nil
  | Tree.node k _ c l r => Tree.node k () c (shape l) (shape r)

/-- The shape of one step of a parent chain of a red-black tree. -/
def shapeF (f : Frame K T) : Frame K Unit :=
  ⟨f.isLeft, f.key, (), f.color, shape f.brother⟩

/-- A sequence of calls `Insert(key, data)` and `Erase(key)` made in turn on a red-black
tree, starting from the tree `t`; `none` as soon as one of them faults. -/
def runOps [LinearOrder K] (t : Tree K T) :
    List (OrderStatisticBST.Op K T) → Option (Tree K T)
  | [] => some t
  | OrderStatisticBST.Op.insert key data :: rest =>
      (Insert t key data).bind fun t' => runOps t' rest
  | OrderStatisticBST.Op.erase key :: rest => (Erase t key).bind fun t' => runOps t' rest

end RedBlackBST

namespace PersistentBST

variable {K T : Type}

/-! ## Persistent binary search tree

`src/Persistent_Binary_Search_Tree/PersistentBST.h`.  The nodes are immutable and shared
through `std::shared_ptr<const Node>`; a `NodePtr` is the tree it points at, `nil` being
`nullptr`, and a version of the map is its root pointer. -/

/-- A `NodePtr`: `nil` is `nullptr`. -/
inductive Tree (K T : Type) where
  | nil : Tree K T
  | node (key : K) (data : T) (left right : Tree K T) : Tree K T
  deriving DecidableEq, Repr

/-- The accessor `Key()` through a pointer; `none` for `nullptr`. -/
def Key : Tree K T → Option K
  | Tree.nil => none
  | Tree.node k _ _ _ => some k

/-- The accessor `Data()` through a pointer; `none` for `nullptr`. -/
def Data : Tree K T → Option T
  | Tree.nil => none
  | Tree.node _ d _ _ => some d

/-- The in-order sequence of (key, value) pairs below a pointer. -/
def toList : Tree K T → List (K × T)
  | Tree.nil => []
  | Tree.node k d l r => toList l ++ (k, d) :: toList r

/-- The in-order sequence of keys below a pointer. -/
def keys (t : Tree K T) : List K := (toList t).map Prod.fst

section Ordered
variable [LinearOrder K]

/-- A version is BST-ordered when its in-order key sequence is strictly ascending. -/
def Ordered (t : Tree K T) : Prop := (keys t).Sorted (· < ·)

/-- Source function `Insert(root, key, data)`; `MakeNode(root, l, r)` copies the key and
the value of `root` into a new node with the children `l` and `r`. -/
def Insert : Tree K T → K → T → Tree K T
  | Tree.nil, key, data => Tree.node key data Tree.nil Tree.nil
  | Tree.node k d l r, key, data =>
      if k > key then Tree.node k d (Insert l key data) r
      else if k < key then Tree.node k d l (Insert r key data)
      else Tree.node k d l r

/-- Source function `Find(root, key)`; the result `nil` is `nullptr`. -/
def Find : Tree K T → K → Tree K T
  | Tree.nil, _ => Tree.nil
  | Tree.node k d l r, key =>
      if k < key then Find r key
      else if k > key then Find l key
      else Tree.node k d l r

end Ordered

/-- The local lambda `FindMinNode(node, minNode)` of `Erase`, called on the allocated node
with the fields `k`, `d`, `l`, `r`: the branch without its leftmost node, and the key and
value of the leftmost node (`minNode`, of which `MakeNode` reads these two fields). -/
def FindMinNode (k : K) (d : T) : Tree K T → Tree K T → Tree K T × (K × T)
  | Tree.nil, r => (r, (k, d))
  | Tree.node lk ld ll lr, r =>
      let res := FindMinNode lk ld ll lr
      (Tree.node k d res.1 r, res.2)

section Ordered
variable [LinearOrder K]

/-- Source function `Erase(root, key)`. -/
def Erase : Tree K T → K → Tree K T
  | Tree.nil, _ => Tree.nil
  | Tree.node k d l r, key =>
      if k > key then Tree.node k d (Erase l key) r
      else if k < key then Tree.node k d l (Erase r key)
      else
        match l, r with
        | Tree.nil, r => r
        | l, Tree.nil => l
        | l, Tree.node rk rd rl rr =>
            let res := FindMinNode rk rd rl rr
            Tree.node res.2.1 res.2.2 l res.1

end Ordered

/-- A sample version: 20 at the root, 10 and 30 below. -/
def sample : Tree Nat String :=
  Tree.node 20 "b" (Tree.node 10 "a" Tree.nil Tree.nil) (Tree.node 30 "c" Tree.nil Tree.nil)

end PersistentBST

namespace BinomialHeap

variable {T : Type}

/-! ## Binomial heap

`src/Binomial_Heap/BinomialHeap.h`.  A `std::unique_ptr<Node>` is an `Option`: `none` is
the empty pointer, also the state of a pointer that has been moved from. -/

/-- Outcome of a call: an exception thrown with its message, undefined behaviour (an access
outside a vector or through an empty pointer), or a returned value. -/
inductive Outcome (α : Type) where
  | raised (what : String) : Outcome α
  | fault : Outcome α
  | returned (a : α) : Outcome α
  deriving DecidableEq, Repr

/-- Sequencing of two steps: the second runs on the value the first returned. -/
def Outcome.bind {α β : Type} (o : Outcome α) (f : α → Outcome β) : Outcome β :=
  match o with
  | Outcome.raised w => Outcome.raised w
  | Outcome.fault => Outcome.fault
  | Outcome.returned a => f a

/-- The class `BinomialTree<T>::Node`: a value and the vector of children. -/
inductive Node (T : Type) where
  | mk (value : T) (children : List (Node T)) : Node T

/-- The member `value` of a node. -/
def Node.value : Node T → T
  | Node.mk v _ => v

/-- The member `children` of a node. -/
def Node.children : Node T → List (Node T)
  | Node.mk _ cs => cs

/-- The class `BinomialTree<T>`: the owning pointer `root` and the `order`. -/
structure BinomialTree (T : Type) where
  root : Option (Node T)
  order : Nat

/-- The class `BinomialHeap<T>`: the vector `trees` and `minTreeIndex` (`-1` when unset). -/
structure Heap (T : Type) where
  trees : List (BinomialTree T)
  minTreeIndex : Int

/-- The default constructor `BinomialHeap()`. -/
def Heap.empty : Heap T := { trees := [], minTreeIndex := -1 }

/-- The state of a tree after `std::move`: the pointer is empty, the order is copied. -/
def movedFrom (t : BinomialTree T) : BinomialTree T := { root := none, order := t.order }

section Ordered
variable [LinearOrder T]

/-- Source function `BinomialTree::Merge(first, second)`; the call `first.append(second)`
pushes the root of `second` to the end of the children of the root of `first` and
increments the order. -/
def TreeMerge (first second : BinomialTree T) : Outcome (BinomialTree T) :=
  if first.order ≠ second.order then
    Outcome.raised "Attempt to merge binomial trees of the different order."
  else
    match first.root, second.root with
    | none, _ => Outcome.returned second
    | some _, none => Outcome.returned first
    | some a, some b =>
        if a.value < b.value then
          Outcome.returned { root := some (Node.mk a.value (a.children ++ [b])),
                             order := first.order + 1 }
        else
          Outcome.returned { root := some (Node.mk b.value (b.children ++ [a])),
                             order := second.order + 1 }

/-- Source function `First()`: `trees[minTreeIndex].Root()->Value()`. -/
def First (h : Heap T) : Outcome T :=
  if h.minTreeIndex < 0 then Outcome.fault
  else
    match h.trees[h.minTreeIndex.toNat]? with
    | none => Outcome.fault
    | some t =>
        match t.root with
        | none => Outcome.fault
        | some n => Outcome.returned n.value

/-- Source function `append(tree)` of the heap: the tree is put at the end of `trees`, and
`minTreeIndex` is set to its index when it was unset or the new root is smaller than
`First()`. -/
def append (h : Heap T) (tree : BinomialTree T) : Outcome (Heap T) :=
  let h1 : Heap T := { h with trees := h.trees ++ [tree] }
  if h.minTreeIndex = -1 then
    Outcome.returned { h1 with minTreeIndex := (h.trees.length : Int) }
  else
    match tree.root with
    | none => Outcome.fault
    | some n =>
        (First h1).bind fun m =>
          if n.value < m then
            Outcome.returned { h1 with minTreeIndex := (h.trees.length : Int) }
          else Outcome.returned h1

/-- The statements of `appendOrMerge(tree)` after the test of `trees.empty()`. -/
def appendOrMergeLast (h : Heap T) (tree : BinomialTree T) : Outcome (Heap T) :=
  match h.trees.getLast? with
  | none => Outcome.fault
  | some lastInsertedTree =>
      if tree.order > lastInsertedTree.order then append h tree
      else
        (TreeMerge tree lastInsertedTree).bind fun merged =>
          Outcome.returned { h with trees := h.trees.dropLast ++ [merged] }

/-- Source function `appendOrMerge(tree)`.  The branch for an empty heap has no `return`:
after `append(tree)` the statements below it run on the moved-from `tree`. -/
def appendOrMerge (h : Heap T) (tree : BinomialTree T) : Outcome (Heap T) :=
  if h.trees.isEmpty then
    (append h tree).bind fun h1 => appendOrMergeLast h1 (movedFrom tree)
  else appendOrMergeLast h tree

/-- The call `std::for_each(firstIter, firstEnd, ...)` at the end of `Merge`. -/
def appendRest (result : Heap T) : List (BinomialTree T) → Outcome (Heap T)
  | [] => Outcome.returned result
  | t :: ts => (appendOrMerge result t).bind fun r => appendRest r ts

/-- The `while` loop of `Merge` on the two ranges still to be read, followed by the
statements after it.  The first argument bounds the number of rounds; every round reads
a tree, so the bound that `Merge` passes is never used up (`mergeLoop_enough`). -/
def mergeLoop : Nat → List (BinomialTree T) → List (BinomialTree T) → Heap T →
    Outcome (Heap T)
  | 0, _, _, _ => Outcome.fault
  | _ + 1, [], second, result => appendRest result second
  | _ + 1, first, [], result => appendRest result first
  | fuel + 1, f :: first, s :: second, result =>
      if f.order < s.order then
        (appendOrMerge result f).bind fun r => mergeLoop fuel first (s :: second) r
      else if f.order > s.order then
        (appendOrMerge result s).bind fun r => mergeLoop fuel (f :: first) second r
      else
        (TreeMerge f s).bind fun m =>
        (append result m).bind fun r => mergeLoop fuel first second r

/-- Source function `BinomialHeap::Merge(first, second)`. -/
def Merge (first second : Heap T) : Outcome (Heap T) :=
  mergeLoop (first.trees.length + second.trees.length + 1) first.trees second.trees
    Heap.empty

/-- Source function `Push(value)`. -/
def Push (h : Heap T) (value : T) : Outcome (Heap T) :=
  Merge h { trees := [{ root := some (Node.mk value []), order := 0 }], minTreeIndex := 0 }

/-- The constructor `BinomialHeap(roots)`: the `i`-th root becomes a tree of order `i`;
`minTreeIndex` keeps its default `-1`. -/
def ofRoots (roots : List (Node T)) : Heap T :=
  { trees := roots.enum.map fun p => { root := some p.2, order := p.1 },
    minTreeIndex := -1 }

/-- Source function `Pop()`. -/
def Pop (h : Heap T) : Outcome (Heap T) :=
  if h.minTreeIndex = -1 then Outcome.raised "BinomialHeap is empty."
  else if h.minTreeIndex < 0 then Outcome.fault
  else
    match h.trees[h.minTreeIndex.toNat]? with
    | none => Outcome.fault
    | some minTree =>
        match minTree.root with
        | none => Outcome.fault
        | some n =>
            Merge { h with trees := h.trees.eraseIdx h.minTreeIndex.toNat }
              (ofRoots n.children)

/-- A call of the public interface. -/
inductive Op (T : Type) where
  | push (value : T) : Op T
  | pop : Op T

/-- A sequence of calls on a heap. -/
def run : Heap T → List (Op T) → Outcome (Heap T)
  | h, [] => Outcome.returned h
  | h, Op.push v :: ops => (Push h v).bind fun h1 => run h1 ops
  | h, Op.pop :: ops => (Pop h).bind fun h1 => run h1 ops

end Ordered

/-- The values at the roots of the trees of a heap, in the order of `trees`. -/
def rootValues (h : Heap T) : List (Option T) :=
  h.trees.map fun t => t.root.map Node.value

/-- Eleven calls of `Push`, then one call of `Pop`. -/
def popAfterEleven : List (Op Nat) :=
  [Op.push 5, Op.push 4, Op.push 3, Op.push 2, Op.push 8, Op.push 7, Op.push 6, Op.push 1,
    Op.push 9, Op.push 10, Op.push 11, Op.pop]

end BinomialHeap

namespace SplayBST

variable {K T : Type}

/-! ## Splay tree

`src/Splay_Tree/SplayBST.h`.  As for the red-black trees a `Node*` is a `Tree` and the
`parent` chain of a node is a `Ctx`.  Every node carries its address, so that the member
`m_root` (an address, `none` for `nullptr`) and the comparison `root == m_root` can be
followed. -/

/-- A (possibly null) pointer to a node: `nil` is `nullptr`, `addr` the address of the
node. -/
inductive Tree (K T : Type) where
  | nil : Tree K T
  | node (addr : Nat) (key : K) (data : T) (left right : Tree K T) : Tree K T
  deriving DecidableEq, Repr

/-- One step of a `parent` chain: the fields of the parent, whether the child hangs in
its `left` slot, and its other child. -/
structure Frame (K T : Type) where
  isLeft : Bool
  addr : Nat
  key : K
  data : T
  brother : Tree K T
  deriving DecidableEq, Repr

/-- The chain of ancestors of a node, nearest first; `[]` means `parent == nullptr`. -/
abbrev Ctx (K T : Type) := List (Frame K T)

/-- The parent node described by a frame, with `t` in the slot of the child. -/
def attach (f : Frame K T) (t : Tree K T) : Tree K T :=
  if f.isLeft then Tree.node f.addr f.key f.data t f.brother
  else Tree.node f.addr f.key f.data f.brother t

/-- The whole tree around a node: follow the parent chain up to the node without parent. -/
def plug : Ctx K T → Tree K T → Tree K T
  | [], t => t
  | f :: rest, t => plug rest (attach f t)

/-- The value of a pointer: the address of the node, `none` for `nullptr`. -/
def addrOf : Tree K T → Option Nat
  | Tree.nil => none
  | Tree.node a _ _ _ _ => some a

/-- The accessor `Key()` through a pointer; `none` for `nullptr`. -/
def Key : Tree K T → Option K
  | Tree.nil => none
  | Tree.node _ k _ _ _ => some k

/-- The tests `hasLeftChild()` and `hasRightChild()`, applied to the child link. -/
def present : Tree K T → Bool
  | Tree.nil => false
  | Tree.node _ _ _ _ _ => true

/-- Source function `InOrder(_root, func)`: the (key, value) pairs of the nodes handed to
`func`, in call order. -/
def toList : Tree K T → List (K × T)
  | Tree.nil => []
  | Tree.node _ k d l r => toList l ++ (k, d) :: toList r

/-- The in-order sequence of keys. -/
def keys (t : Tree K T) : List K := (toList t).map Prod.fst

/-- Source function `Rotate(parent, child)`: `child` is the node reached through the
chain `f :: ctx`, `f` describing `parent`.  Returns the new value of `m_root` and `child`
in the place of `parent`; `none` when `child` is `nullptr`. -/
def Rotate (m_root : Option Nat) (f : Frame K T) (ctx : Ctx K T) :
    Tree K T → Option (Option Nat × Tree K T)
  | Tree.nil => none
  | Tree.node a k d l r =>
      some
        (match ctx with
          | [] => some a
          | _ :: _ => m_root,
         if f.isLeft then Tree.node a k d l (Tree.node f.addr f.key f.data r f.brother)
         else Tree.node a k d (Tree.node f.addr f.key f.data f.brother l) r)

/-- Follow the `left` (flag `true`) or `right` link of a node: the link from the child
back to the node, and the child.  `none` for `nullptr`. -/
def down (isLeft : Bool) : Tree K T → Option (Frame K T × Tree K T)
  | Tree.nil => none
  | Tree.node a k d l r =>
      if isLeft then some (⟨true, a, k, d, r⟩, l) else some (⟨false, a, k, d, l⟩, r)

/-- Source function `Splay(node)` for the node reached through the chain given.  Returns
the new value of `m_root` and the tree with `node` on top; `none` when `node` is
`nullptr`. -/
def Splay (m_root : Option Nat) : Ctx K T → Tree K T → Option (Option Nat × Tree K T)
  | _, Tree.nil => none
  | [], Tree.node a k d l r => some (m_root, Tree.node a k d l r)
  | [p], Tree.node a k d l r => Rotate m_root p [] (Tree.node a k d l r)
  | p :: g :: rest, Tree.node a k d l r =>
      if g.isLeft = p.isLeft then
        -- zig-zig: `Rotate(grand_parent, parent); Rotate(parent, node);`
        match Rotate m_root g rest (attach p (Tree.node a k d l r)) with
        | none => none
        | some (m1, parent) =>
            -- `node` is still the same child of `parent`
            match down p.isLeft parent with
            | none => none
            | some (p1, n1) =>
                match Rotate m1 p1 rest n1 with
                | none => none
                | some (m2, n2) => Splay m2 rest n2
      else
        -- zig-zag: `Rotate(parent, node); Rotate(grand_parent, node);`
        match Rotate m_root p (g :: rest) (Tree.node a k d l r) with
        | none => none
        | some (m1, n1) =>
            match Rotate m1 g rest n1 with
            | none => none
            | some (m2, n2) => Splay m2 rest n2

section Ordered
variable [LinearOrder K]

/-- A tree is BST-ordered when its in-order key sequence is strictly ascending. -/
def Ordered (t : Tree K T) : Prop := (keys t).Sorted (· < ·)

/-- Source function `Find(node, key)`, `ctx` being the ancestors of `node`.  Returns the
new value of `m_root` and the pointer returned: `nil` for `nullptr`, otherwise the tree
with the node that was splayed on top. -/
def Find (m_root : Option Nat) (key : K) :
    Ctx K T → Tree K T → Option (Option Nat × Tree K T)
  | _, Tree.nil => some (m_root, Tree.nil)
  | ctx, Tree.node a k d l r =>
      if key = k then Splay m_root ctx (Tree.node a k d l r)
      else if key < k ∧ present l = true then Find m_root key (⟨true, a, k, d, r⟩ :: ctx) l
      else if key > k ∧ present r = true then Find m_root key (⟨false, a, k, d, l⟩ :: ctx) r
      else Splay m_root ctx (Tree.node a k d l r)

/-- The class `SplayBST`: the member `m_root` and the tree of nodes it points at. -/
structure State (K T : Type) where
  m_root : Option Nat
  tree : Tree K T

/-- The member `m_root` points at the node on top of the tree. -/
def State.WF (s : State K T) : Prop := s.m_root = addrOf s.tree

/-- Outcome of a call: an exception thrown with its message, undefined behaviour (an
access through `nullptr`), or a returned value. -/
inductive Outcome (α : Type) where
  | raised (what : String) : Outcome α
  | fault : Outcome α
  | returned (a : α) : Outcome α

/-- Source function `Find(key)`: the state afterwards and the pointer returned. -/
def FindKey (s : State K T) (key : K) : Option (State K T × Option Nat) :=
  match Find s.m_root key [] s.tree with
  | none => none
  | some (m, Tree.nil) => some ({ m_root := m, tree := s.tree }, none)
  | some (m, Tree.node a k d l r) =>
      some ({ m_root := m, tree := Tree.node a k d l r }, if k ≠ key then none else some a)

/-- Source function `Merge(left, right)` on two trees without parent.  Returns the new
value of `m_root` and the pointer returned. -/
def Merge (m_root : Option Nat) (left right : Tree K T) :
    Option (Option Nat × Tree K T) :=
  match right, left with
  | Tree.nil, left => some (m_root, left)
  | right, Tree.nil => some (m_root, right)
  | Tree.node ra rk rd rl rr, Tree.node la lk ld ll lr =>
      match Find m_root lk [] (Tree.node ra rk rd rl rr) with
      | none => none
      | some (_, Tree.nil) => none
      | some (m, Tree.node a k d _ r) =>
          -- `right->left = left; left->parent = right;`
          some (m, Tree.node a k d (Tree.node la lk ld ll lr) r)

/-- Source function `Erase(key)`, that is `Erase(m_root, key)`. -/
def Erase (s : State K T) (key : K) : Outcome (State K T) :=
  match Find s.m_root key [] s.tree with
  | none => Outcome.fault
  | some (_, Tree.nil) => Outcome.raised "Erasure failed: key does not exist."
  | some (m, Tree.node a k _ l r) =>
      if k ≠ key then Outcome.raised "Erasure failed: key does not exist."
      else
        match Merge m l r with
        | none => Outcome.fault
        | some (m1, result) =>
            -- `if (root == m_root) { m_root = result; }`
            Outcome.returned
              { m_root := if m1 = some a then addrOf result else m1, tree := result }

end Ordered

/-- A sample tree: 20 on top, 10 and 30 below, 25 below 30. -/
def sample : State Nat String :=
  { m_root := some 0,
    tree := Tree.node 0 20 "b" (Tree.node 1 10 "a" Tree.nil Tree.nil)
      (Tree.node 2 30 "c" (Tree.node 3 25 "d" Tree.nil Tree.nil) Tree.nil) }

end SplayBST

namespace OrderStatisticBST

variable {K T : Type}

/-! ## Theorems -/

@[simp]
theorem Size_nil : Size (Tree.nil : Tree K T) = 0 := rfl

@[simp]
theorem Size_node (k : K) (d : T) (c : Color) (s : Nat) (l r : Tree K T) :
    Size (Tree.node k d c s l r) = s := rfl

theorem Size_attach (f : Frame K T) (t : Tree K T) : Size (attach f t) = f.size := by
  unfold attach; split <;> rfl

theorem SizeInv_attach (f : Frame K T) (t : Tree K T) :
    SizeInv (attach f t) ↔
      f.size = 1 + Size t + Size f.brother ∧ SizeInv t ∧ SizeInv f.brother := by
  unfold attach
  split
  · simp [SizeInv]
  · simp only [SizeInv]
    constructor
    · rintro ⟨h1, h2, h3⟩; exact ⟨by omega, h3, h2⟩
    · rintro ⟨h1, h2, h3⟩; exact ⟨by omega, h3, h2⟩

theorem SizeInv_plug (ctx : Ctx K T) (t : Tree K T) :
    SizeInv (plug ctx t) ↔ SizeInv t ∧ CtxSizeInv ctx (Size t) := by
  induction ctx generalizing t with
  | nil => simp [plug, CtxSizeInv]
  | cons f rest ih =>
    simp only [plug, CtxSizeInv]
    rw [ih, SizeInv_attach, Size_attach]
    tauto

theorem frame_eta_left (f : Frame K T) (h : f.isLeft = true) :
    (⟨true, f.key, f.data, f.color, f.size, f.brother⟩ : Frame K T) = f := by
  cases f; simp_all

theorem frame_eta_right (f : Frame K T) (h : f.isLeft = false) :
    (⟨false, f.key, f.data, f.color, f.size, f.brother⟩ : Frame K T) = f := by
  cases f; simp_all

theorem FindByRank_attach (ctx : Ctx K T) (f : Frame K T) (n : Tree K T) (k : Int)
    (h1 : 1 ≤ k) (h2 : k ≤ Size n) :
    FindByRank ctx (attach f n)
        (if f.isLeft then k else k + ((Size f.brother : Int) + 1))
      = FindByRank (f :: ctx) n k := by
  cases hl : f.isLeft
  · have hne : ¬ ((Size f.brother : Int) + 1 = k + ((Size f.brother : Int) + 1)) := by omega
    have hlt : ¬ (k + ((Size f.brother : Int) + 1) < (Size f.brother : Int) + 1) := by omega
    simp only [attach, hl, FindByRank, Bool.false_eq_true, if_false, hne, hlt]
    rw [frame_eta_right f hl]
    congr 1; omega
  · have hne : ¬ ((Size n : Int) + 1 = k) := by omega
    have hlt : k < (Size n : Int) + 1 := by omega
    simp only [attach, hl, FindByRank, if_true, hne, hlt, if_false]
    rw [frame_eta_left f hl]

theorem FindByRank_plug (ctx0 ctx : Ctx K T) (n : Tree K T) (k : Int)
    (h : CtxSizeInv ctx (Size n)) (h1 : 1 ≤ k) (h2 : k ≤ Size n) :
    FindByRank ctx0 (plug ctx n) (RankLoop ctx k) = FindByRank (ctx ++ ctx0) n k := by
  induction ctx generalizing n k with
  | nil => simp [plug, RankLoop]
  | cons f rest ih =>
    obtain ⟨hs, _, hrest⟩ := h
    have hk : RankLoop (f :: rest) k
        = RankLoop rest (if f.isLeft then k else k + ((Size f.brother : Int) + 1)) := by
      simp only [RankLoop]; split <;> rfl
    rw [plug, hk, ih (attach f n) _ (by rw [Size_attach]; exact hrest)
      (by split <;> omega) (by rw [Size_attach]; split <;> omega)]
    rw [FindByRank_attach _ _ _ _ h1 h2]
    rfl

theorem RankLoop_bounds (ctx : Ctx K T) (n : Tree K T) (k : Int)
    (h : CtxSizeInv ctx (Size n)) (h1 : 1 ≤ k) (h2 : k ≤ Size n) :
    1 ≤ RankLoop ctx k ∧ RankLoop ctx k ≤ Size (plug ctx n) := by
  induction ctx generalizing n k with
  | nil => simpa [plug, RankLoop] using ⟨h1, h2⟩
  | cons f rest ih =>
    obtain ⟨hs, _, hrest⟩ := h
    have hk : RankLoop (f :: rest) k
        = RankLoop rest (if f.isLeft then k else k + ((Size f.brother : Int) + 1)) := by
      simp only [RankLoop]; split <;> rfl
    rw [plug, hk]
    exact ih (attach f n) _ (by rw [Size_attach]; exact hrest)
      (by split <;> omega) (by rw [Size_attach]; split <;> omega)

theorem length_InOrder (ctx : Ctx K T) (t : Tree K T) (h : SizeInv t) :
    (InOrder ctx t).length = Size t := by
  induction t generalizing ctx with
  | nil => rfl
  | node k d c s l r ihl ihr =>
    obtain ⟨hs, hl, hr⟩ := h
    simp only [InOrder, List.length_append, List.length_cons, ihl _ hl, ihr _ hr, Size_node]
    omega

theorem FindByRank_eq_getElem (ctx : Ctx K T) (t : Tree K T) (k : Int)
    (h : SizeInv t) (h1 : 1 ≤ k) (h2 : k ≤ Size t) :
    FindByRank ctx t k = (InOrder ctx t)[(k - 1).toNat]? := by
  induction t generalizing ctx k with
  | nil => simp only [Size_nil] at h2; omega
  | node key d c s l r ihl ihr =>
    obtain ⟨hs, hl, hr⟩ := h
    simp only [Size_node] at h2
    simp only [FindByRank, InOrder]
    by_cases e : (Size l : Int) + 1 = k
    · rw [if_pos e]
      have : (k - 1).toNat = (InOrder (⟨true, key, d, c, s, r⟩ :: ctx) l).length := by
        rw [length_InOrder _ _ hl]; omega
      rw [this, List.getElem?_append_right (le_refl _)]
      simp
    · rw [if_neg e]
      by_cases lt : k < (Size l : Int) + 1
      · rw [if_pos lt, ihl _ _ hl h1 (by omega)]
        rw [List.getElem?_append_left]
        rw [length_InOrder _ _ hl]; omega
      · rw [if_neg lt, ihr _ _ hr (by omega) (by omega)]
        have hlen := length_InOrder (⟨true, key, d, c, s, r⟩ :: ctx) l hl
        rw [List.getElem?_append_right (by rw [hlen]; omega)]
        have : (k - 1).toNat - (InOrder (⟨true, key, d, c, s, r⟩ :: ctx) l).length
            = (k - ((Size l : Int) + 1) - 1).toNat + 1 := by
          rw [hlen]; omega
        rw [this]
        simp

theorem InOrder_suffix (ctx : Ctx K T) (t : Tree K T) :
    ∀ x ∈ InOrder ctx t, ∃ pre, x.1 = pre ++ ctx := by
  induction t generalizing ctx with
  | nil => simp [InOrder]
  | node k d c s l r ihl ihr =>
    intro x hx
    simp only [InOrder, List.mem_append, List.mem_cons] at hx
    rcases hx with hx | hx | hx
    · obtain ⟨pre, hp⟩ := ihl _ x hx
      exact ⟨pre ++ [⟨true, k, d, c, s, r⟩], by simp [hp]⟩
    · exact ⟨[], by simp [hx]⟩
    · obtain ⟨pre, hp⟩ := ihr _ x hx
      exact ⟨pre ++ [⟨false, k, d, c, s, l⟩], by simp [hp]⟩

theorem InOrder_nodup (ctx : Ctx K T) (t : Tree K T) : (InOrder ctx t).Nodup := by
  induction t generalizing ctx with
  | nil => simp [InOrder]
  | node k d c s l r ihl ihr =>
    simp only [InOrder]
    rw [List.nodup_append]
    refine ⟨ihl _, ?_, ?_⟩
    · rw [List.nodup_cons]
      refine ⟨?_, ihr _⟩
      intro hmem
      obtain ⟨pre, hp⟩ := InOrder_suffix _ _ _ hmem
      have := congrArg List.length hp
      simp at this
      omega
    · intro a ha hb
      obtain ⟨p1, h1⟩ := InOrder_suffix _ _ _ ha
      rw [List.mem_cons] at hb
      rcases hb with hb | hb
      · rw [hb] at h1
        have := congrArg List.length h1
        simp at this
        omega
      · obtain ⟨p2, h2⟩ := InOrder_suffix _ _ _ hb
        rw [h1] at h2
        have hlen : p1.length = p2.length := by
          have := congrArg List.length h2
          simp at this
          omega
        have := (List.append_inj h2 hlen).2
        simp at this

@[simp]
theorem Key_node (k : K) (d : T) (c : Color) (s : Nat) (l r : Tree K T) :
    Key (Tree.node k d c s l r) = some k := rfl

theorem InOrder_keys (ctx : Ctx K T) (t : Tree K T) :
    (InOrder ctx t).map (fun x => Key x.2) = (keysOf t).map some := by
  induction t generalizing ctx with
  | nil => rfl
  | node k d c s l r ihl ihr =>
    simp only [InOrder, keysOf, List.map_append, List.map_cons, ihl, ihr, Key_node]

theorem InOrder_filterMap_keys (ctx : Ctx K T) (t : Tree K T) :
    (InOrder ctx t).filterMap (fun x => Key x.2) = keysOf t := by
  induction t generalizing ctx with
  | nil => rfl
  | node k d c s l r ihl ihr =>
    simp only [InOrder, keysOf, List.filterMap_append, List.filterMap_cons, ihl, ihr, Key_node]

theorem inorderKeys_eq (t : Tree K T) : inorderKeys t = keysOf t :=
  InOrder_filterMap_keys [] t

theorem count_eq_Size (t : Tree K T) (h : SizeInv t) : count t = Size t := by
  induction t with
  | nil => rfl
  | node k d c s l r ihl ihr =>
    obtain ⟨hs, hl, hr⟩ := h
    simp only [count, ihl hl, ihr hr, Size_node]
    omega

section Ordered
variable [LinearOrder K]

theorem keysOf_sorted (t : Tree K T) (h : BSTOrder t) : (keysOf t).Pairwise (· < ·) := by
  induction t with
  | nil => simp [keysOf]
  | node k d c s l r ihl ihr =>
    obtain ⟨h1, h2, hl, hr⟩ := h
    simp only [keysOf]
    rw [List.pairwise_append]
    refine ⟨ihl hl, ?_, ?_⟩
    · rw [List.pairwise_cons]
      exact ⟨h2, ihr hr⟩
    · intro a ha b hb
      rw [List.mem_cons] at hb
      rcases hb with hb | hb
      · rw [hb]; exact h1 a ha
      · exact lt_trans (h1 a ha) (h2 b hb)

theorem sorted_filter_lt (l : List K) (h : l.Pairwise (· < ·)) (i : Nat) (a : K)
    (hi : l[i]? = some a) : (l.filter (fun x => decide (x < a))).length = i := by
  induction l generalizing i with
  | nil => simp at hi
  | cons b l ih =>
    rw [List.pairwise_cons] at h
    cases i with
    | zero =>
      simp only [List.getElem?_cons_zero, Option.some.injEq] at hi
      subst hi
      rw [List.length_eq_zero, List.filter_eq_nil_iff]
      intro x hx
      rw [List.mem_cons] at hx
      rcases hx with hx | hx
      · simp [hx]
      · simpa using le_of_lt (h.1 x hx)
    | succ i =>
      simp only [List.getElem?_cons_succ] at hi
      have hb : b < a := h.1 a (List.getElem?_mem hi)
      simp [List.filter_cons, hb, ih h.2 i hi]

theorem sorted_filter_le (l : List K) (h : l.Pairwise (· < ·)) (i : Nat) (a : K)
    (hi : l[i]? = some a) : (l.filter (fun x => decide (x ≤ a))).length = i + 1 := by
  induction l generalizing i with
  | nil => simp at hi
  | cons b l ih =>
    rw [List.pairwise_cons] at h
    cases i with
    | zero =>
      simp only [List.getElem?_cons_zero, Option.some.injEq] at hi
      subst hi
      have : l.filter (fun x => decide (x ≤ b)) = [] := by
        rw [List.filter_eq_nil_iff]
        intro x hx
        simpa using h.1 x hx
      simp [List.filter_cons, this]
    | succ i =>
      simp only [List.getElem?_cons_succ] at hi
      have hb : b ≤ a := le_of_lt (h.1 a (List.getElem?_mem hi))
      simp [List.filter_cons, hb, ih h.2 i hi]

end Ordered

theorem InOrder_getElem_key (t : Tree K T) (i : Nat) (x : Loc K T)
    (h : (InOrder [] t)[i]? = some x) : (keysOf t)[i]? = Key x.2 := by
  have hk := InOrder_keys ([] : Ctx K T) t
  have h1 : ((InOrder [] t).map (fun x => Key x.2))[i]? = some (Key x.2) := by
    rw [List.getElem?_map, h]; rfl
  rw [hk, List.getElem?_map] at h1
  cases hq : (keysOf t)[i]? with
  | none => rw [hq] at h1; simp at h1
  | some a => rw [hq] at h1; simp at h1; rw [h1]

/-! ### Black counts -/

theorem blackHeight_mem_blackCounts (t : Tree K T) : blackHeight t ∈ blackCounts t := by
  induction t with
  | nil => simp [blackHeight, blackCounts]
  | node k d c s l r ihl _ =>
    simp only [blackCounts, blackHeight, List.mem_map, List.mem_append]
    refine ⟨blackHeight l, Or.inl ihl, ?_⟩
    split <;> rfl

theorem blackCounts_of_Balanced (t : Tree K T) (h : Balanced t) :
    ∀ a ∈ blackCounts t, a = blackHeight t := by
  induction t with
  | nil => simp [blackHeight, blackCounts]
  | node k d c s l r ihl ihr =>
    obtain ⟨hb, hl, hr⟩ := h
    intro a ha
    simp only [blackCounts, List.mem_map, List.mem_append] at ha
    obtain ⟨n, hn, rfl⟩ := ha
    have hn' : n = blackHeight l := by
      rcases hn with hn | hn
      · exact ihl hl n hn
      · rw [hb]; exact ihr hr n hn
    simp only [blackHeight, hn']

theorem Balanced_of_blackCounts (t : Tree K T) (h : BlackBalanced t) : Balanced t := by
  induction t with
  | nil => trivial
  | node k d c s l r ihl ihr =>
    have key : ∀ a ∈ blackCounts l ++ blackCounts r, ∀ b ∈ blackCounts l ++ blackCounts r,
        a = b := by
      intro a ha b hb
      have := h (if c = Color.BLACK then a + 1 else a)
        (by simp only [blackCounts, List.mem_map]; exact ⟨a, ha, rfl⟩)
        (if c = Color.BLACK then b + 1 else b)
        (by simp only [blackCounts, List.mem_map]; exact ⟨b, hb, rfl⟩)
      split at this <;> omega
    refine ⟨?_, ?_, ?_⟩
    · exact key _ (List.mem_append_left _ (blackHeight_mem_blackCounts l)) _
        (List.mem_append_right _ (blackHeight_mem_blackCounts r))
    · exact ihl fun a ha b hb =>
        key a (List.mem_append_left _ ha) b (List.mem_append_left _ hb)
    · exact ihr fun a ha b hb =>
        key a (List.mem_append_right _ ha) b (List.mem_append_right _ hb)

theorem BlackBalanced_iff (t : Tree K T) : BlackBalanced t ↔ Balanced t := by
  constructor
  · exact Balanced_of_blackCounts t
  · intro h a ha b hb
    rw [blackCounts_of_Balanced t h a ha, blackCounts_of_Balanced t h b hb]

/-! ### One parent link -/

@[simp]
theorem rootColor_attach (f : Frame K T) (t : Tree K T) :
    rootColor (attach f t) = f.color := by
  unfold attach; split <;> rfl

theorem toList_attach (f : Frame K T) (t : Tree K T) :
    toList (attach f t) =
      if f.isLeft then toList t ++ (f.key, f.data) :: toList f.brother
      else toList f.brother ++ (f.key, f.data) :: toList t := by
  unfold attach; split <;> rfl

theorem Balanced_attach (f : Frame K T) (t : Tree K T) :
    Balanced (attach f t) ↔
      blackHeight f.brother = blackHeight t ∧ Balanced t ∧ Balanced f.brother := by
  unfold attach
  split
  · simp only [Balanced]
    constructor
    · rintro ⟨h1, h2, h3⟩; exact ⟨h1.symm, h2, h3⟩
    · rintro ⟨h1, h2, h3⟩; exact ⟨h1.symm, h2, h3⟩
  · simp only [Balanced]
    constructor
    · rintro ⟨h1, h2, h3⟩; exact ⟨h1, h3, h2⟩
    · rintro ⟨h1, h2, h3⟩; exact ⟨h1, h3, h2⟩

theorem blackHeight_attach (f : Frame K T) (t : Tree K T)
    (h : blackHeight f.brother = blackHeight t) :
    blackHeight (attach f t)
      = if f.color = Color.BLACK then blackHeight t + 1 else blackHeight t := by
  unfold attach
  split
  · rfl
  · simp only [blackHeight, h]

theorem NoRedRed_attach (f : Frame K T) (t : Tree K T) :
    NoRedRed (attach f t) ↔
      (f.color = Color.RED → rootColor t = Color.BLACK ∧ rootColor f.brother = Color.BLACK)
        ∧ NoRedRed t ∧ NoRedRed f.brother := by
  unfold attach
  split
  · simp only [NoRedRed]
  · simp only [NoRedRed]
    constructor
    · rintro ⟨h1, h2, h3⟩; exact ⟨fun hc => ⟨(h1 hc).2, (h1 hc).1⟩, h3, h2⟩
    · rintro ⟨h1, h2, h3⟩; exact ⟨fun hc => ⟨(h1 hc).2, (h1 hc).1⟩, h3, h2⟩

theorem color_cases (c : Color) : c = Color.RED ∨ c = Color.BLACK := by
  cases c <;> simp

theorem not_red_iff (c : Color) : ¬ c = Color.RED ↔ c = Color.BLACK := by
  cases c <;> simp

theorem not_black_iff (c : Color) : ¬ c = Color.BLACK ↔ c = Color.RED := by
  cases c <;> simp

/-! ### Filling the slot of a parent chain -/

theorem TopOK_of_CtxRB (f : Frame K T) (rest : Ctx K T) (h : Nat)
    (hc : CtxRB (f :: rest) h) : TopOK rest f.color := by
  obtain ⟨_, _, _, hred, _⟩ := hc
  cases rest with
  | nil =>
    rcases color_cases f.color with hf | hf
    · exact (hred hf).2.elim
    · exact hf
  | cons g rest =>
    intro hg
    rcases color_cases f.color with hf | hf
    · have := (hred hf).2
      simp only [ParentBlack] at this
      rw [this] at hg
      cases hg
    · exact hf

theorem plug_redBlack (ctx : Ctx K T) (s : Tree K T) (h : Nat) (hc : CtxRB ctx h)
    (hb : Balanced s) (hh : blackHeight s = h) (hr : NoRedRed s)
    (ht : TopOK ctx (rootColor s)) :
    rootColor (plug ctx s) = Color.BLACK ∧ NoRedRed (plug ctx s) ∧ Balanced (plug ctx s) := by
  induction ctx generalizing s h with
  | nil => exact ⟨ht, hr, hb⟩
  | cons f rest ih =>
    have htop := TopOK_of_CtxRB f rest h hc
    obtain ⟨hbb, hbh, hbr, hred, hrest⟩ := hc
    simp only [plug]
    refine ih (attach f s) _ hrest ?_ ?_ ?_ ?_
    · rw [Balanced_attach]; exact ⟨by omega, hb, hbb⟩
    · rw [blackHeight_attach f s (by omega), hh]
    · rw [NoRedRed_attach]
      exact ⟨fun hcf => ⟨ht hcf, (hred hcf).1⟩, hr, hbr⟩
    · rw [rootColor_attach]; exact htop

/-! ### Replacing a subtree -/

theorem toList_plug (ctx : Ctx K T) (s : Tree K T) :
    toList (plug ctx s) = ctxBefore ctx ++ toList s ++ ctxAfter ctx := by
  induction ctx generalizing s with
  | nil => simp [plug, ctxBefore, ctxAfter]
  | cons f rest ih =>
    simp only [plug, ih, toList_attach, ctxBefore, ctxAfter]
    split <;> simp

theorem Size_plug (ctx : Ctx K T) (x y : Tree K T) (h : Size x = Size y) :
    Size (plug ctx x) = Size (plug ctx y) := by
  cases ctx with
  | nil => exact h
  | cons f rest =>
    simp only [plug]
    have : ∀ (c : Ctx K T) (a b : Tree K T), Size a = Size b →
        Size (plug c a) = Size (plug c b) := by
      intro c
      induction c with
      | nil => intro a b hab; exact hab
      | cons g c ih => intro a b _; simp only [plug]; exact ih _ _ (by simp [Size_attach])
    exact this rest _ _ (by simp [Size_attach])

theorem Same.refl (x : Tree K T) : Same x x := ⟨rfl, rfl, id⟩

theorem Same.trans {x y z : Tree K T} (h1 : Same x y) (h2 : Same y z) : Same x z :=
  ⟨h1.1.trans h2.1, h1.2.1.trans h2.2.1, fun hz => h1.2.2 (h2.2.2 hz)⟩

theorem Same.plug {x y : Tree K T} (ctx : Ctx K T) (h : Same x y) :
    Same (plug ctx x) (plug ctx y) := by
  obtain ⟨h1, h2, h3⟩ := h
  refine ⟨?_, Size_plug ctx x y h2, ?_⟩
  · rw [toList_plug, toList_plug, h1]
  · rw [SizeInv_plug, SizeInv_plug, h2]
    exact fun ⟨hy, hc⟩ => ⟨h3 hy, hc⟩

@[simp]
theorem rootColor_nil : rootColor (Tree.nil : Tree K T) = Color.BLACK := rfl

@[simp]
theorem rootColor_node (k : K) (d : T) (c : Color) (s : Nat) (l r : Tree K T) :
    rootColor (Tree.node k d c s l r) = c := rfl

theorem InsertCase3_of_black (f g : Frame K T) (rest : Ctx K T) (n : Tree K T)
    (h : rootColor g.brother = Color.BLACK) :
    InsertCase3 (f :: g :: rest) n = InsertCase4 (f :: g :: rest) n := by
  rw [InsertCase3]
  cases hb : g.brother with
  | nil => rfl
  | node uk ud uc us ul ur =>
    rw [hb] at h
    simp only [rootColor_node] at h
    subst h
    rfl

theorem InsertCase4_spec (f g : Frame K T) (rest : Ctx K T) (k : K) (d : T) (s : Nat)
    (l r : Tree K T) (h : Nat) (hf : f.color = Color.RED) (hg : g.color = Color.BLACK)
    (hu : rootColor g.brother = Color.BLACK) (hc : CtxRB (f :: g :: rest) h)
    (hl : Balanced l) (hr : Balanced r) (hhl : blackHeight l = h) (hhr : blackHeight r = h)
    (hnl : NoRedRed l) (hnr : NoRedRed r)
    (hcl : rootColor l = Color.BLACK) (hcr : rootColor r = Color.BLACK) :
    ∃ x, InsertCase4 (f :: g :: rest) (Tree.node k d Color.RED s l r) = some (plug rest x) ∧
      rootColor x = Color.BLACK ∧ NoRedRed x ∧ Balanced x ∧ blackHeight x = h + 1 ∧
      Same x (attach g (attach f (Tree.node k d Color.RED s l r))) := by
  obtain ⟨fl, fk, fd, fc, fs, fb⟩ := f
  obtain ⟨gl, gk, gd, gc, gs, gb⟩ := g
  simp only at hf hg hu
  subst hf hg
  simp only [CtxRB, reduceCtorEq, if_false, true_implies, if_true, false_implies] at hc
  obtain ⟨hfb, hfh, hfn, ⟨hfc, _⟩, hgb, hgh, hgn, _, hrest⟩ := hc
  cases fl <;> cases gl
  · -- node right of parent, parent right of grandfather
    refine ⟨Tree.node fk fd Color.BLACK gs
      (Tree.node gk gd Color.RED (Size gb + Size fb + 1) gb fb) (Tree.node k d Color.RED s l r),
      ?_, ?_⟩
    · simp [InsertCase4, InsertCase5, attach, RotateLeft]
    · simp [NoRedRed, Balanced, blackHeight, Same, toList, SizeInv, attach, *]
      intros
      (repeat' constructor) <;> first | assumption | omega
  · -- node right of parent, parent left of grandfather
    refine ⟨Tree.node k d Color.BLACK gs
      (Tree.node fk fd Color.RED (Size fb + Size l + 1) fb l)
      (Tree.node gk gd Color.RED (Size gb + Size r + 1) r gb), ?_, ?_⟩
    · simp [InsertCase4, InsertCase5, attach, RotateLeft, RotateRight, goLeft]
    · simp [NoRedRed, Balanced, blackHeight, Same, toList, SizeInv, attach, *]
      intros
      (repeat' constructor) <;> first | assumption | omega
  · -- node left of parent, parent right of grandfather
    refine ⟨Tree.node k d Color.BLACK gs
      (Tree.node gk gd Color.RED (Size gb + Size l + 1) gb l)
      (Tree.node fk fd Color.RED (Size fb + Size r + 1) r fb), ?_, ?_⟩
    · simp [InsertCase4, InsertCase5, attach, RotateLeft, RotateRight, goRight]
    · simp [NoRedRed, Balanced, blackHeight, Same, toList, SizeInv, attach, *]
      intros
      (repeat' constructor) <;> first | assumption | omega
  · -- node left of parent, parent left of grandfather
    refine ⟨Tree.node fk fd Color.BLACK gs (Tree.node k d Color.RED s l r)
      (Tree.node gk gd Color.RED (Size gb + Size fb + 1) fb gb), ?_, ?_⟩
    · simp [InsertCase4, InsertCase5, attach, RotateRight]
    · simp [NoRedRed, Balanced, blackHeight, Same, toList, SizeInv, attach, *]
      intros
      (repeat' constructor) <;> first | assumption | omega

theorem Same_attach (f f' : Frame K T) (x y : Tree K T) (hl : f'.isLeft = f.isLeft)
    (hk : f'.key = f.key) (hd : f'.data = f.data) (hs : f'.size = f.size)
    (hb : Same f'.brother f.brother) (hxy : Same x y) : Same (attach f' x) (attach f y) := by
  obtain ⟨b1, b2, b3⟩ := hb
  obtain ⟨x1, x2, x3⟩ := hxy
  refine ⟨?_, ?_, ?_⟩
  · rw [toList_attach, toList_attach, hl, hk, hd, b1, x1]
  · rw [Size_attach, Size_attach, hs]
  · rw [SizeInv_attach, SizeInv_attach, hs, b2, x2]
    exact fun ⟨h1, h2, h3⟩ => ⟨h1, x3 h2, b3 h3⟩

theorem Same_recolor (k : K) (d : T) (c c' : Color) (s : Nat) (l r : Tree K T) :
    Same (Tree.node k d c s l r) (Tree.node k d c' s l r) :=
  ⟨rfl, rfl, id⟩

theorem InsertCase1_spec : (ctx : Ctx K T) → (k : K) → (d : T) → (s : Nat) →
    (l r : Tree K T) → (h : Nat) → CtxRB ctx h → Balanced l → Balanced r →
    blackHeight l = h → blackHeight r = h → NoRedRed l → NoRedRed r →
    rootColor l = Color.BLACK → rootColor r = Color.BLACK →
    ∃ t, InsertCase1 ctx (Tree.node k d Color.RED s l r) = some t ∧
      rootColor t = Color.BLACK ∧ NoRedRed t ∧ Balanced t ∧
      Same t (plug ctx (Tree.node k d Color.RED s l r))
  | [], k, d, s, l, r, h, _, hl, hr, hhl, hhr, hnl, hnr, _, _ => by
    refine ⟨Tree.node k d Color.BLACK s l r, by simp [InsertCase1, toBlack], rfl, ?_, ?_, ?_⟩
    · simp [NoRedRed, hnl, hnr]
    · exact ⟨by omega, hl, hr⟩
    · simp [Same, plug, toList, SizeInv]
  | [f], k, d, s, l, r, h, hc, hl, hr, hhl, hhr, hnl, hnr, hcl, hcr => by
    have hfc : f.color = Color.BLACK := TopOK_of_CtxRB f [] h hc
    refine ⟨plug [f] (Tree.node k d Color.RED s l r), ?_, ?_⟩
    · rw [InsertCase1, InsertCase2]; simp [hfc]
    · obtain ⟨h1, h2, h3⟩ := plug_redBlack [f] (Tree.node k d Color.RED s l r) h hc
        ⟨by omega, hl, hr⟩ (by simp [blackHeight, hhl]) (by simp [NoRedRed, *])
        (by simp [TopOK, hfc])
      exact ⟨h1, h2, h3, Same.refl _⟩
  | f :: g :: rest, k, d, s, l, r, h, hc, hl, hr, hhl, hhr, hnl, hnr, hcl, hcr => by
    rcases color_cases f.color with hfc | hfc
    · -- RED parent: the grandfather is BLACK
      have hc' := hc
      obtain ⟨hfb, hfh, hfn, hfred, hgc⟩ := hc'
      have hgcol : g.color = Color.BLACK := (hfred hfc).2
      have hfbc : rootColor f.brother = Color.BLACK := (hfred hfc).1
      simp only [hfc, reduceCtorEq, if_false] at hgc
      obtain ⟨hgb, hgh, hgn, _, hrest⟩ := hgc
      simp only [hgcol, if_true] at hrest
      have h13 : InsertCase1 (f :: g :: rest) (Tree.node k d Color.RED s l r)
          = InsertCase3 (f :: g :: rest) (Tree.node k d Color.RED s l r) := by
        rw [InsertCase1, InsertCase2]; simp [hfc]
      rw [h13]
      rcases color_cases (rootColor g.brother) with hu | hu
      · -- RED uncle: repaint and restart at the grandfather
        obtain ⟨gl, gk, gd, gc, gs, gb⟩ := g
        simp only at hgcol hu hgb hgh hgn
        subst hgcol
        cases gb with
        | nil => simp at hu
        | node uk ud uc us ul ur =>
          simp only [rootColor_node] at hu
          subst hu
          obtain ⟨hub, hul, hur⟩ := hgb
          simp only [blackHeight, reduceCtorEq, if_false] at hgh
          obtain ⟨hured, hunl, hunr⟩ := hgn
          have hparent_b : Balanced (attach { f with color := Color.BLACK }
              (Tree.node k d Color.RED s l r)) := by
            rw [Balanced_attach]
            exact ⟨by simp [blackHeight]; omega, ⟨by omega, hl, hr⟩, hfb⟩
          have hparent_h : blackHeight (attach { f with color := Color.BLACK }
              (Tree.node k d Color.RED s l r)) = h + 1 := by
            rw [blackHeight_attach _ _ (by simp [blackHeight]; omega)]
            simp [blackHeight, hhl]
          have hparent_n : NoRedRed (attach { f with color := Color.BLACK }
              (Tree.node k d Color.RED s l r)) := by
            rw [NoRedRed_attach]; simp [NoRedRed, *]
          have hunc_b : Balanced (Tree.node uk ud Color.BLACK us ul ur) := ⟨hub, hul, hur⟩
          have hunc_h : blackHeight (Tree.node uk ud Color.BLACK us ul ur) = h + 1 := by
            simp [blackHeight, hgh]
          have hunc_n : NoRedRed (Tree.node uk ud Color.BLACK us ul ur) := by
            simp [NoRedRed, *]
          cases gl
          · obtain ⟨t, ht, h1, h2, h3, h4⟩ := InsertCase1_spec rest gk gd gs
              (Tree.node uk ud Color.BLACK us ul ur)
              (attach { f with color := Color.BLACK } (Tree.node k d Color.RED s l r))
              (h + 1) hrest hunc_b hparent_b hunc_h hparent_h hunc_n hparent_n rfl (by simp)
            refine ⟨t, ?_, h1, h2, h3, h4.trans (Same.plug rest ?_)⟩
            · rw [InsertCase3, ← ht]; rfl
            · exact Same_attach
                ⟨false, gk, gd, Color.BLACK, gs, Tree.node uk ud Color.RED us ul ur⟩
                ⟨false, gk, gd, Color.RED, gs, Tree.node uk ud Color.BLACK us ul ur⟩
                _ _ rfl rfl rfl rfl (Same_recolor _ _ _ _ _ _ _)
                (Same_attach f { f with color := Color.BLACK } _ _ rfl rfl rfl rfl
                  (Same.refl _) (Same.refl _))
          · obtain ⟨t, ht, h1, h2, h3, h4⟩ := InsertCase1_spec rest gk gd gs
              (attach { f with color := Color.BLACK } (Tree.node k d Color.RED s l r))
              (Tree.node uk ud Color.BLACK us ul ur)
              (h + 1) hrest hparent_b hunc_b hparent_h hunc_h hparent_n hunc_n (by simp) rfl
            refine ⟨t, ?_, h1, h2, h3, h4.trans (Same.plug rest ?_)⟩
            · rw [InsertCase3, ← ht]; rfl
            · exact Same_attach
                ⟨true, gk, gd, Color.BLACK, gs, Tree.node uk ud Color.RED us ul ur⟩
                ⟨true, gk, gd, Color.RED, gs, Tree.node uk ud Color.BLACK us ul ur⟩
                _ _ rfl rfl rfl rfl (Same_recolor _ _ _ _ _ _ _)
                (Same_attach f { f with color := Color.BLACK } _ _ rfl rfl rfl rfl
                  (Same.refl _) (Same.refl _))
      · -- BLACK or absent uncle: rotations
        rw [InsertCase3_of_black f g rest _ hu]
        obtain ⟨x, hx, h1, h2, h3, h4, h5⟩ := InsertCase4_spec f g rest k d s l r h hfc hgcol hu
          hc hl hr hhl hhr hnl hnr hcl hcr
        obtain ⟨p1, p2, p3⟩ := plug_redBlack rest x (h + 1) hrest h3 h4 h2
          (by cases rest <;> simp [TopOK, h1])
        exact ⟨plug rest x, hx, p1, p2, p3, Same.plug rest h5⟩
    · -- BLACK parent: nothing to do
      refine ⟨plug (f :: g :: rest) (Tree.node k d Color.RED s l r), ?_, ?_⟩
      · rw [InsertCase1, InsertCase2]; simp [hfc]
      · obtain ⟨h1, h2, h3⟩ := plug_redBlack (f :: g :: rest)
          (Tree.node k d Color.RED s l r) h hc ⟨by omega, hl, hr⟩
          (by simp [blackHeight, hhl]) (by simp [NoRedRed, *])
          (by simp [TopOK, hfc])
        exact ⟨h1, h2, h3, Same.refl _⟩

theorem keysOf_eq_map_toList (t : Tree K T) : keysOf t = (toList t).map Prod.fst := by
  induction t with
  | nil => rfl
  | node k d c s l r ihl ihr => simp [keysOf, toList, ihl, ihr]

section Ordered
variable [LinearOrder K]

theorem InsertNode_snd (key : K) (data : T) (ctx : Ctx K T) (t : Tree K T) :
    (InsertNode key data ctx t).2 = Tree.node key data Color.RED 1 Tree.nil Tree.nil := by
  induction t generalizing ctx with
  | nil => rfl
  | node k d c s l r ihl ihr =>
    simp only [InsertNode]
    split
    · exact ihr _
    · exact ihl _

theorem InsertNode_CtxRB (key : K) (data : T) (ctx : Ctx K T) (t : Tree K T)
    (hc : CtxRB ctx (blackHeight t)) (hb : Balanced t) (hn : NoRedRed t)
    (ht : TopOK ctx (rootColor t)) : CtxRB (InsertNode key data ctx t).1 0 := by
  induction t generalizing ctx with
  | nil => exact hc
  | node k d c s l r ihl ihr =>
    obtain ⟨hh, hbl, hbr⟩ := hb
    obtain ⟨hred, hnl, hnr⟩ := hn
    have hpar : c = Color.RED → ParentBlack ctx := by
      intro hcr
      cases ctx with
      | nil => simp [TopOK, hcr] at ht
      | cons g rest =>
        simp only [TopOK, rootColor_node, hcr, reduceCtorEq, imp_false] at ht
        exact (not_red_iff _).1 ht
    simp only [InsertNode]
    split
    · refine ihr _ ⟨hbl, hh, hnl, fun hcr => ⟨(hred hcr).1, hpar hcr⟩, ?_⟩ hbr hnr
        (fun hcr => (hred hcr).2)
      simpa only [blackHeight, hh] using hc
    · refine ihl _ ⟨hbr, hh.symm, hnr, fun hcr => ⟨(hred hcr).2, hpar hcr⟩, ?_⟩ hbl hnl
        (fun hcr => (hred hcr).1)
      simpa only [blackHeight] using hc

theorem InsertNode_CtxSizeInv (key : K) (data : T) (ctx : Ctx K T) (t : Tree K T)
    (hs : SizeInv t) (hc : CtxSizeInv ctx (Size t + 1)) :
    CtxSizeInv (InsertNode key data ctx t).1 1 := by
  induction t generalizing ctx with
  | nil => exact hc
  | node k d c s l r ihl ihr =>
    obtain ⟨h1, hl, hr⟩ := hs
    simp only [InsertNode]
    split
    · exact ihr _ hr ⟨by simp only [Size_node]; omega, hl, hc⟩
    · exact ihl _ hl ⟨by simp only [Size_node]; omega, hr, hc⟩

theorem InsertNode_rootSize (key : K) (data : T) (ctx : Ctx K T) (t y : Tree K T)
    (hy : Size y = Size t + 1) :
    Size (plug (InsertNode key data ctx t).1 (InsertNode key data ctx t).2)
      = Size (plug ctx y) := by
  induction t generalizing ctx y with
  | nil => exact Size_plug ctx _ _ (by rw [hy]; rfl)
  | node k d c s l r ihl ihr =>
    simp only [InsertNode]
    split
    · rw [ihr _ (Tree.node key data Color.RED (Size r + 1) Tree.nil Tree.nil) rfl]
      exact Size_plug ctx _ _ (by rw [Size_attach, hy]; rfl)
    · rw [ihl _ (Tree.node key data Color.RED (Size l + 1) Tree.nil Tree.nil) rfl]
      exact Size_plug ctx _ _ (by rw [Size_attach, hy]; rfl)

theorem InsertNode_toList (key : K) (data : T) (ctx : Ctx K T) (t : Tree K T) :
    ∃ pre post, toList t = pre ++ post ∧
      ctxBefore (InsertNode key data ctx t).1 = ctxBefore ctx ++ pre ∧
      ctxAfter (InsertNode key data ctx t).1 = post ++ ctxAfter ctx ∧
      (BSTOrder t → key ∉ keysOf t →
        (∀ x ∈ pre, x.1 < key) ∧ (∀ x ∈ post, key < x.1)) := by
  induction t generalizing ctx with
  | nil => exact ⟨[], [], rfl, by simp [InsertNode], by simp [InsertNode], by simp⟩
  | node k d c s l r ihl ihr =>
    simp only [InsertNode]
    split
    · rename_i hgt
      obtain ⟨pre, post, h1, h2, h3, h4⟩ := ihr (⟨false, k, d, c, s + 1, l⟩ :: ctx)
      refine ⟨toList l ++ (k, d) :: pre, post, ?_, ?_, ?_, ?_⟩
      · simp [toList, h1]
      · rw [h2]; simp [ctxBefore]
      · rw [h3]; simp [ctxAfter]
      · intro hbst hkey
        obtain ⟨hlt, hgt', hbl, hbr⟩ := hbst
        simp only [keysOf, List.mem_append, List.mem_cons, not_or] at hkey
        obtain ⟨hpre, hpost⟩ := h4 hbr hkey.2.2
        refine ⟨?_, hpost⟩
        intro x hx
        simp only [List.mem_append, List.mem_cons] at hx
        rcases hx with hx | hx | hx
        · have : x.1 ∈ keysOf l := by
            rw [keysOf_eq_map_toList]; exact List.mem_map_of_mem _ hx
          exact lt_trans (hlt _ this) hgt
        · rw [hx]; exact hgt
        · exact hpre x hx
    · rename_i hgt
      obtain ⟨pre, post, h1, h2, h3, h4⟩ := ihl (⟨true, k, d, c, s + 1, r⟩ :: ctx)
      refine ⟨pre, post ++ (k, d) :: toList r, ?_, ?_, ?_, ?_⟩
      · simp [toList, h1]
      · rw [h2]; simp [ctxBefore]
      · rw [h3]; simp [ctxAfter]
      · intro hbst hkey
        obtain ⟨hlt, hgt', hbl, hbr⟩ := hbst
        simp only [keysOf, List.mem_append, List.mem_cons, not_or] at hkey
        obtain ⟨hpre, hpost⟩ := h4 hbl hkey.1
        have hk : key < k := lt_of_le_of_ne (not_lt.1 hgt) hkey.2.1
        refine ⟨hpre, ?_⟩
        intro x hx
        simp only [List.mem_append, List.mem_cons] at hx
        rcases hx with hx | hx | hx
        · exact hpost x hx
        · rw [hx]; exact hk
        · have : x.1 ∈ keysOf r := by
            rw [keysOf_eq_map_toList]; exact List.mem_map_of_mem _ hx
          exact lt_trans hk (hgt' _ this)

/-- What `Insert` does on a red-black tree: it returns a tree, which is again red-black
and holds the pairs and sizes of the tree right after `InsertNode`. -/
theorem Insert_spec (t : Tree K T) (key : K) (data : T) (hroot : RootBlack t)
    (hred : NoRedRed t) (hbal : Balanced t) :
    ∃ t', Insert t key data = some t' ∧ rootColor t' = Color.BLACK ∧ NoRedRed t' ∧
      Balanced t' ∧
      Same t' (plug (InsertNode key data [] t).1 (InsertNode key data [] t).2) := by
  unfold Insert
  simp only [InsertNode_snd]
  exact InsertCase1_spec _ key data 1 Tree.nil Tree.nil 0
    (InsertNode_CtxRB key data [] t trivial hbal hred hroot) trivial trivial rfl rfl
    trivial trivial rfl rfl

end Ordered

theorem exampleTree_invariants : Invariants exampleTree where
  bst := by simp [exampleTree, BSTOrder, keysOf]
  rootBlack := rfl
  noRedRed := by simp [exampleTree, NoRedRed]
  balanced := by simp [exampleTree, BlackBalanced, blackCounts]
  sizes := by simp [exampleTree, SizeInv]

section Ordered
variable [LinearOrder K]

/-- C1: on a tree that satisfies the four invariants, `Insert(key, value)` of a key that is
not stored returns a (non-empty) tree whose root is BLACK, in which no RED node has a RED
child, and in which every path from the root to an absent child holds the same number of
BLACK nodes. -/
theorem insert_keeps_red_black (t : Tree K T) (key : K) (data : T) (hinv : Invariants t)
    (_hkey : key ∉ keysOf t) :
    ∃ t', Insert t key data = some t' ∧ t' ≠ Tree.nil ∧ RootBlack t' ∧ NoRedRed t' ∧
      BlackBalanced t' := by
  obtain ⟨t', h1, h2, h3, h4, h5⟩ := Insert_spec t key data hinv.rootBlack hinv.noRedRed
    ((BlackBalanced_iff t).1 hinv.balanced)
  refine ⟨t', h1, ?_, h2, h3, (BlackBalanced_iff t').2 h4⟩
  intro hnil
  have := h5.1
  rw [hnil, toList_plug, InsertNode_snd] at this
  simp [toList] at this

theorem insert_keeps_red_black_witness :
    Invariants exampleTree ∧ 25 ∉ keysOf exampleTree ∧
      ∃ t', Insert exampleTree 25 () = some t' ∧ t' ≠ Tree.nil ∧ RootBlack t' ∧
        NoRedRed t' ∧ BlackBalanced t' :=
  ⟨exampleTree_invariants, by simp [exampleTree, keysOf],
    insert_keeps_red_black exampleTree 25 () exampleTree_invariants
      (by simp [exampleTree, keysOf])⟩

/-- C2: on a tree that satisfies the four invariants, after `Insert(key, value)` of a key
that is not stored every node has `size = 1 + size(left) + size(right)`, and the size at
the root is one more than before (the empty tree counting 0). -/
theorem insert_keeps_sizes (t : Tree K T) (key : K) (data : T) (hinv : Invariants t)
    (_hkey : key ∉ keysOf t) :
    ∃ t', Insert t key data = some t' ∧ SizeInv t' ∧ Size t' = Size t + 1 := by
  obtain ⟨t', h1, _, _, _, h5⟩ := Insert_spec t key data hinv.rootBlack hinv.noRedRed
    ((BlackBalanced_iff t).1 hinv.balanced)
  refine ⟨t', h1, h5.2.2 ?_, ?_⟩
  · rw [SizeInv_plug, InsertNode_snd]
    exact ⟨by simp [SizeInv], InsertNode_CtxSizeInv key data [] t hinv.sizes trivial⟩
  · rw [h5.2.1, InsertNode_rootSize key data [] t
      (Tree.node key data Color.RED (Size t + 1) Tree.nil Tree.nil) rfl]
    rfl

theorem insert_keeps_sizes_witness :
    Invariants exampleTree ∧ 25 ∉ keysOf exampleTree ∧
      ∃ t', Insert exampleTree 25 () = some t' ∧ SizeInv t' ∧
        Size t' = Size exampleTree + 1 :=
  ⟨exampleTree_invariants, by simp [exampleTree, keysOf],
    insert_keeps_sizes exampleTree 25 () exampleTree_invariants
      (by simp [exampleTree, keysOf])⟩

/-- C3: on a tree that satisfies the four invariants, `Insert(key, value)` of a key that is
not stored puts the key at its sorted position of the in-order key sequence: the old
sequence is `pre ++ post` with every key of `pre` below and every key of `post` above the
new key, the new sequence is `pre ++ key :: post`, and it is strictly ascending. -/
theorem insert_inorder (t : Tree K T) (key : K) (data : T) (hinv : Invariants t)
    (hkey : key ∉ keysOf t) :
    ∃ t' pre post, Insert t key data = some t' ∧ inorderKeys t = pre ++ post ∧
      inorderKeys t' = pre ++ key :: post ∧
      (∀ x ∈ pre, x < key) ∧ (∀ x ∈ post, key < x) ∧
      (inorderKeys t').Pairwise (· < ·) := by
  obtain ⟨t', h1, _, _, _, h5⟩ := Insert_spec t key data hinv.rootBlack hinv.noRedRed
    ((BlackBalanced_iff t).1 hinv.balanced)
  obtain ⟨pre, post, e1, e2, e3, e4⟩ := InsertNode_toList key data [] t
  obtain ⟨hpre, hpost⟩ := e4 hinv.bst hkey
  have hold : inorderKeys t = pre.map Prod.fst ++ post.map Prod.fst := by
    rw [inorderKeys_eq, keysOf_eq_map_toList, e1, List.map_append]
  have hnew : inorderKeys t' = pre.map Prod.fst ++ key :: post.map Prod.fst := by
    rw [inorderKeys_eq, keysOf_eq_map_toList, h5.1, toList_plug, e2, e3, InsertNode_snd]
    simp [toList, ctxBefore, ctxAfter]
  have hpre' : ∀ x ∈ pre.map Prod.fst, x < key := by
    intro x hx
    obtain ⟨p, hp, rfl⟩ := List.mem_map.1 hx
    exact hpre p hp
  have hpost' : ∀ x ∈ post.map Prod.fst, key < x := by
    intro x hx
    obtain ⟨p, hp, rfl⟩ := List.mem_map.1 hx
    exact hpost p hp
  refine ⟨t', pre.map Prod.fst, post.map Prod.fst, h1, hold, hnew, hpre', hpost', ?_⟩
  have hsorted := keysOf_sorted t hinv.bst
  rw [← inorderKeys_eq, hold, List.pairwise_append] at hsorted
  obtain ⟨s1, s2, s3⟩ := hsorted
  rw [hnew, List.pairwise_append]
  refine ⟨s1, List.pairwise_cons.2 ⟨hpost', s2⟩, ?_⟩
  intro a ha b hb
  rcases List.mem_cons.1 hb with hb | hb
  · rw [hb]; exact hpre' a ha
  · exact s3 a ha b hb

theorem insert_inorder_witness :
    Invariants exampleTree ∧ 25 ∉ keysOf exampleTree ∧
      ∃ t' pre post, Insert exampleTree 25 () = some t' ∧
        inorderKeys exampleTree = pre ++ post ∧ inorderKeys t' = pre ++ 25 :: post ∧
        (∀ x ∈ pre, x < 25) ∧ (∀ x ∈ post, 25 < x) ∧
        (inorderKeys t').Pairwise (· < ·) :=
  ⟨exampleTree_invariants, by simp [exampleTree, keysOf],
    insert_inorder exampleTree 25 () exampleTree_invariants (by simp [exampleTree, keysOf])⟩

end Ordered

/-- C4 (code defect): `erasureFaultTree` satisfies the four invariants and is what the
inserts 10, 20, 30, 25 build; `Erase(10)` removes a BLACK leaf whose BLACK brother 30 has a
RED near child 25 and no far child, and `DeleteCase5` reads `brother->right->isBlack()`
through the null pointer: there is no tree after the call. -/
theorem erase_red_black_fault :
    insertAll Tree.nil [(10, ()), (20, ()), (30, ()), (25, ())] = some erasureFaultTree ∧
      Invariants erasureFaultTree ∧ 10 ∈ keysOf erasureFaultTree ∧
      Erase erasureFaultTree 10 = none := by
  refine ⟨?_, ⟨?_, rfl, ?_, ?_, ?_⟩, ?_, ?_⟩
  · simp [insertAll, Insert, InsertNode, InsertCase1, InsertCase2, InsertCase3, InsertCase4,
      InsertCase5, toBlack, plug, attach, RotateLeft, RotateRight, goLeft, goRight, Size,
      erasureFaultTree]
  · simp [erasureFaultTree, BSTOrder, keysOf]
  · simp [erasureFaultTree, NoRedRed, rootColor]
  · simp [erasureFaultTree, BlackBalanced, blackCounts]
  · simp [erasureFaultTree, SizeInv, Size]
  · simp [erasureFaultTree, keysOf]
  · simp [Erase, erasureFaultTree, Find, isLeaf, DeleteCase1, DeleteCase2, DeleteCase3,
      DeleteCase4, DeleteCase5, isRed, isBlack, absentOrBlack]

/-- C5 (code defect): `staleSizeTree` satisfies the four invariants and is what the inserts
10, 20, 30, 40 build; `Erase(20)` splices out the node 30, whose child 40 takes its slot.
`ReplaceIfNotNull` has cleared the parent link of the removed node before `delete`, so no
ancestor is decremented: the root keeps `size` 4 above two leaves. -/
theorem erase_leaves_stale_size :
    insertAll Tree.nil [(10, ()), (20, ()), (30, ()), (40, ())] = some staleSizeTree ∧
      Invariants staleSizeTree ∧ 20 ∈ keysOf staleSizeTree ∧
      Erase staleSizeTree 20 =
        some (Tree.node 30 () Color.BLACK 4 (Tree.node 10 () Color.BLACK 1 Tree.nil Tree.nil)
          (Tree.node 40 () Color.BLACK 1 Tree.nil Tree.nil)) ∧
      ¬ SizeInv (Tree.node 30 () Color.BLACK 4
          (Tree.node 10 () Color.BLACK 1 Tree.nil Tree.nil)
          (Tree.node 40 () Color.BLACK 1 Tree.nil Tree.nil)) := by
  refine ⟨?_, ⟨?_, rfl, ?_, ?_, ?_⟩, ?_, ?_, ?_⟩
  · simp [insertAll, Insert, InsertNode, InsertCase1, InsertCase2, InsertCase3, InsertCase4,
      InsertCase5, toBlack, plug, attach, RotateLeft, RotateRight, goLeft, goRight, Size,
      staleSizeTree]
  · simp [staleSizeTree, BSTOrder, keysOf]
  · simp [staleSizeTree, NoRedRed, rootColor]
  · simp [staleSizeTree, BlackBalanced, blackCounts]
  · simp [staleSizeTree, SizeInv, Size]
  · simp [staleSizeTree, keysOf]
  · simp [Erase, staleSizeTree, Find, isLeaf, MinNode, EraseSplice, Delete, plug, attach]
  · simp [SizeInv, Size]

/-- C6 (code defect): `mirrorFaultTree` satisfies the four invariants and is what the
inserts 30, 20, 10, 15 build; `Erase(30)` removes a BLACK leaf whose BLACK brother 10 has a
RED near child 15 and no far child, and `DeleteCase5` reads `brother->left->isBlack()`
through the null pointer: no in-order sequence is left to compare. -/
theorem erase_inorder_fault :
    insertAll Tree.nil [(30, ()), (20, ()), (10, ()), (15, ())] = some mirrorFaultTree ∧
      Invariants mirrorFaultTree ∧ 30 ∈ keysOf mirrorFaultTree ∧
      Erase mirrorFaultTree 30 = none := by
  refine ⟨?_, ⟨?_, rfl, ?_, ?_, ?_⟩, ?_, ?_⟩
  · simp [insertAll, Insert, InsertNode, InsertCase1, InsertCase2, InsertCase3, InsertCase4,
      InsertCase5, toBlack, plug, attach, RotateLeft, RotateRight, goLeft, goRight, Size,
      mirrorFaultTree]
  · simp [mirrorFaultTree, BSTOrder, keysOf]
  · simp [mirrorFaultTree, NoRedRed, rootColor]
  · simp [mirrorFaultTree, BlackBalanced, blackCounts]
  · simp [mirrorFaultTree, SizeInv, Size]
  · simp [mirrorFaultTree, keysOf]
  · simp [Erase, mirrorFaultTree, Find, isLeaf, DeleteCase1, DeleteCase2, DeleteCase3,
      DeleteCase4, DeleteCase5, isRed, isBlack, absentOrBlack]

/-- C7 (code defect): in `mirrorFaultTree`, which satisfies the four invariants,
`Erase(20)` moves the successor 30 into the root and starts the fix-up at the BLACK leaf
30.  Its brother 10 is BLACK with a RED near child 15 and an absent far child: case 3 and
case 4 pass, and `DeleteCase5` faults on the absent far child instead of treating it as
BLACK, so `Erase` does not complete. -/
theorem deleteCase5_reads_absent_far_child :
    Invariants mirrorFaultTree ∧ 20 ∈ keysOf mirrorFaultTree ∧
      DeleteCase5
        [⟨false, 30, (), Color.BLACK, 4,
          Tree.node 10 () Color.BLACK 2 Tree.nil (Tree.node 15 () Color.RED 1 Tree.nil Tree.nil)⟩]
        (Tree.node 30 () Color.BLACK 1 Tree.nil Tree.nil) = none ∧
      Erase mirrorFaultTree 20 = none := by
  refine ⟨⟨?_, rfl, ?_, ?_, ?_⟩, ?_, ?_, ?_⟩
  · simp [mirrorFaultTree, BSTOrder, keysOf]
  · simp [mirrorFaultTree, NoRedRed, rootColor]
  · simp [mirrorFaultTree, BlackBalanced, blackCounts]
  · simp [mirrorFaultTree, SizeInv, Size]
  · simp [mirrorFaultTree, keysOf]
  · simp [DeleteCase5, isRed, isBlack]
  · simp [Erase, mirrorFaultTree, Find, isLeaf, MinNode, EraseSplice, DeleteCase1,
      DeleteCase2, DeleteCase3, DeleteCase4, DeleteCase5, isRed, isBlack, absentOrBlack]

theorem Rank_FindByRank (ctx : Ctx K T) (x : Tree K T) (hx : x ≠ Tree.nil)
    (h : SizeInv (plug ctx x)) :
    ∃ r : Int, Rank ctx x = some r ∧ 1 ≤ r ∧ r ≤ Size (plug ctx x) ∧
      FindByRank [] (plug ctx x) r = some (ctx, x) := by
  cases x with
  | nil => exact absurd rfl hx
  | node k d c s l r =>
    rw [SizeInv_plug] at h
    obtain ⟨⟨hs, _, _⟩, hctx⟩ := h
    have h1 : (1 : Int) ≤ (Size l : Int) + 1 := by omega
    have h2 : (Size l : Int) + 1 ≤ (Size (Tree.node k d c s l r) : Int) := by
      simp only [Size_node]; omega
    obtain ⟨hb1, hb2⟩ := RankLoop_bounds ctx _ _ hctx h1 h2
    refine ⟨RankLoop ctx ((Size l : Int) + 1), rfl, hb1, hb2, ?_⟩
    rw [FindByRank_plug [] ctx _ _ hctx h1 h2]
    simp [FindByRank]

/-- C8 (rank/select duality): in a tree whose sizes are exact at every node, for every node
`x` (reached through the parent chain `ctx`), `x.Rank()` returns a rank `r` and
`FindByRank(Root(), r)` returns the pointer to `x` itself. -/
theorem findByRank_of_rank (ctx : Ctx K T) (x : Tree K T) (hx : x ≠ Tree.nil)
    (h : SizeInv (plug ctx x)) :
    ∃ r : Int, Rank ctx x = some r ∧ FindByRank [] (plug ctx x) r = some (ctx, x) := by
  obtain ⟨r, h1, _, _, h2⟩ := Rank_FindByRank ctx x hx h
  exact ⟨r, h1, h2⟩

theorem findByRank_of_rank_witness :
    exampleNode ≠ Tree.nil ∧ SizeInv (plug exampleCtx exampleNode) ∧
      ∃ r : Int, Rank exampleCtx exampleNode = some r ∧
        FindByRank [] (plug exampleCtx exampleNode) r = some (exampleCtx, exampleNode) :=
  ⟨by simp [exampleNode], by simp [plug, attach, SizeInv, exampleCtx, exampleNode],
    findByRank_of_rank exampleCtx exampleNode (by simp [exampleNode])
      (by simp [plug, attach, SizeInv, exampleCtx, exampleNode])⟩

section Ordered
variable [LinearOrder K]

/-- C9: in a tree with BST order and exact sizes that has `n` nodes, for `1 ≤ k ≤ n` the
call `FindByRank(Root(), k)` returns the `k`-th node (1-based) handed out by the in-order
traversal, and the key of that node is the `k`-th smallest: exactly `k - 1` stored keys are
smaller. -/
theorem findByRank_kth_smallest (t : Tree K T) (k : Int) (hbst : BSTOrder t)
    (hsz : SizeInv t) (h1 : 1 ≤ k) (h2 : k ≤ count t) :
    ∃ x key, FindByRank [] t k = some x ∧ (InOrder [] t)[(k - 1).toNat]? = some x ∧
      Key x.2 = some key ∧
      (((inorderKeys t).filter (fun y => decide (y < key))).length : Int) = k - 1 := by
  rw [count_eq_Size t hsz] at h2
  have hlen := length_InOrder ([] : Ctx K T) t hsz
  have hklen : (keysOf t).length = (InOrder ([] : Ctx K T) t).length := by
    have := congrArg List.length (InOrder_keys ([] : Ctx K T) t)
    simpa using this.symm
  cases hx : (InOrder ([] : Ctx K T) t)[(k - 1).toNat]? with
  | none =>
    rw [List.getElem?_eq_none_iff] at hx
    omega
  | some x =>
    cases hkey : (keysOf t)[(k - 1).toNat]? with
    | none =>
      rw [List.getElem?_eq_none_iff] at hkey
      omega
    | some key =>
      refine ⟨x, key, ?_, rfl, ?_, ?_⟩
      · rw [FindByRank_eq_getElem [] t k hsz h1 h2, hx]
      · rw [← InOrder_getElem_key t _ _ hx, hkey]
      · rw [inorderKeys_eq, sorted_filter_lt _ (keysOf_sorted t hbst) _ _ hkey]
        omega

/-- C10: in a tree whose sizes are exact at every node, for every node `x` the value `r` of
`x.Rank()` is the 1-based position of `x` in the in-order traversal of the whole tree (`x`
stands at index `r - 1` and nowhere else); with BST order, `r` is the number of stored keys
that are at most the key of `x`. -/
theorem rank_is_inorder_position (ctx : Ctx K T) (x : Tree K T) (hx : x ≠ Tree.nil)
    (h : SizeInv (plug ctx x)) :
    ∃ r : Int, Rank ctx x = some r ∧ 1 ≤ r ∧
      (InOrder [] (plug ctx x))[(r - 1).toNat]? = some (ctx, x) ∧
      (∀ j : Nat, (InOrder [] (plug ctx x))[j]? = some (ctx, x) → (j : Int) + 1 = r) ∧
      (BSTOrder (plug ctx x) → ∀ key, Key x = some key →
        (((inorderKeys (plug ctx x)).filter (fun y => decide (y ≤ key))).length : Int) = r) := by
  obtain ⟨r, hr, h1, h2, hf⟩ := Rank_FindByRank ctx x hx h
  have hpos : (InOrder [] (plug ctx x))[(r - 1).toNat]? = some (ctx, x) := by
    rw [← FindByRank_eq_getElem [] _ r h h1 h2]; exact hf
  have hlt : (r - 1).toNat < (InOrder ([] : Ctx K T) (plug ctx x)).length := by
    rw [length_InOrder _ _ h]; omega
  refine ⟨r, hr, h1, hpos, ?_, ?_⟩
  · intro j hj
    have := List.getElem?_inj hlt (InOrder_nodup [] (plug ctx x)) (hpos.trans hj.symm)
    omega
  · intro hbst key hkey
    have hk := InOrder_getElem_key _ _ _ hpos
    simp only at hk
    rw [hkey] at hk
    rw [inorderKeys_eq, sorted_filter_le _ (keysOf_sorted _ hbst) _ _ hk]
    omega

end Ordered

theorem findByRank_kth_smallest_witness :
    BSTOrder exampleTree ∧ SizeInv exampleTree ∧ (1 : Int) ≤ 3 ∧
      (3 : Int) ≤ count exampleTree ∧
      ∃ x key, FindByRank [] exampleTree 3 = some x ∧
        (InOrder [] exampleTree)[((3 : Int) - 1).toNat]? = some x ∧ Key x.2 = some key ∧
        (((inorderKeys exampleTree).filter (fun y => decide (y < key))).length : Int) = 3 - 1 :=
  ⟨exampleTree_invariants.bst, exampleTree_invariants.sizes, by decide,
    by simp [exampleTree, count],
    findByRank_kth_smallest exampleTree 3 exampleTree_invariants.bst
      exampleTree_invariants.sizes (by decide) (by simp [exampleTree, count])⟩

theorem rank_is_inorder_position_witness :
    exampleNode ≠ Tree.nil ∧ SizeInv (plug exampleCtx exampleNode) ∧
      ∃ r : Int, Rank exampleCtx exampleNode = some r ∧ 1 ≤ r ∧
        (InOrder [] (plug exampleCtx exampleNode))[(r - 1).toNat]?
          = some (exampleCtx, exampleNode) ∧
        (∀ j : Nat, (InOrder [] (plug exampleCtx exampleNode))[j]?
          = some (exampleCtx, exampleNode) → (j : Int) + 1 = r) ∧
        (BSTOrder (plug exampleCtx exampleNode) → ∀ key, Key exampleNode = some key →
          (((inorderKeys (plug exampleCtx exampleNode)).filter
            (fun y => decide (y ≤ key))).length : Int) = r) :=
  ⟨by simp [exampleNode], by simp [plug, attach, SizeInv, exampleCtx, exampleNode],
    rank_is_inorder_position exampleCtx exampleNode (by simp [exampleNode])
      (by simp [plug, attach, SizeInv, exampleCtx, exampleNode])⟩

/-! ### Lookup by rank and by key -/

theorem FindByRank_none_iff (ctx : Ctx K T) (t : Tree K T) (k : Int) (h : SizeInv t) :
    FindByRank ctx t k = none ↔ (k < 1 ∨ (Size t : Int) < k) := by
  induction t generalizing ctx k with
  | nil =>
    simp only [FindByRank, Size_nil, true_iff]
    omega
  | node key d c s l r ihl ihr =>
    obtain ⟨hs, hl, hr⟩ := h
    simp only [FindByRank, Size_node]
    by_cases e : (Size l : Int) + 1 = k
    · rw [if_pos e]
      simp only [reduceCtorEq, false_iff]
      omega
    · rw [if_neg e]
      by_cases lt : k < (Size l : Int) + 1
      · rw [if_pos lt, ihl _ _ hl]
        omega
      · rw [if_neg lt, ihr _ _ hr]
        omega

/-- C11: in a tree with exact sizes, for every integer `k` (zero and negative ones
included) `FindByRank(Root(), k)` returns the null pointer if and only if `k` is outside
`[1, size(root)]`, the size of the empty tree being 0. -/
theorem findByRank_not_found_iff (t : Tree K T) (k : Int) (h : SizeInv t) :
    FindByRank [] t k = none ↔ (k < 1 ∨ (Size t : Int) < k) :=
  FindByRank_none_iff [] t k h

theorem findByRank_not_found_iff_witness :
    SizeInv exampleTree ∧
      (FindByRank [] exampleTree 0 = none ↔ ((0 : Int) < 1 ∨ (Size exampleTree : Int) < 0)) :=
  ⟨exampleTree_invariants.sizes,
    findByRank_not_found_iff exampleTree 0 exampleTree_invariants.sizes⟩

@[simp]
theorem Data_node (k : K) (d : T) (c : Color) (s : Nat) (l r : Tree K T) :
    Data (Tree.node k d c s l r) = some d := rfl

theorem mem_keysOf_of_mem_toList (t : Tree K T) (k : K) (d : T) (h : (k, d) ∈ toList t) :
    k ∈ keysOf t := by
  rw [keysOf_eq_map_toList]
  exact List.mem_map_of_mem Prod.fst h

theorem mem_toList_of_mem_keysOf (t : Tree K T) (k : K) (h : k ∈ keysOf t) :
    ∃ d, (k, d) ∈ toList t := by
  rw [keysOf_eq_map_toList] at h
  obtain ⟨p, hp, rfl⟩ := List.mem_map.1 h
  exact ⟨p.2, hp⟩

section Ordered
variable [LinearOrder K]

theorem Find_none (key : K) (ctx : Ctx K T) (t : Tree K T) (h : key ∉ keysOf t) :
    Find key ctx t = none := by
  induction t generalizing ctx with
  | nil => rfl
  | node k d c s l r ihl ihr =>
    simp only [keysOf, List.mem_append, List.mem_cons, not_or] at h
    obtain ⟨h1, h2, h3⟩ := h
    have hne : k ≠ key := fun e => h2 e.symm
    simp only [Find, if_pos hne]
    split
    · exact ihr _ h3
    · exact ihl _ h1

theorem Find_of_mem (key : K) (dd : T) (ctx : Ctx K T) (t : Tree K T) (hb : BSTOrder t)
    (h : (key, dd) ∈ toList t) :
    ∃ x, Find key ctx t = some x ∧ Key x.2 = some key ∧ Data x.2 = some dd ∧
      plug x.1 x.2 = plug ctx t := by
  induction t generalizing ctx with
  | nil => simp [toList] at h
  | node k d c s l r ihl ihr =>
    obtain ⟨hlt, hgt, hbl, hbr⟩ := hb
    simp only [toList, List.mem_append, List.mem_cons, Prod.mk.injEq] at h
    rcases h with h | ⟨h1, h2⟩ | h
    · have hk : key < k := hlt key (mem_keysOf_of_mem_toList l key dd h)
      have hne : k ≠ key := ne_of_gt hk
      obtain ⟨x, hx, h1, h2, h3⟩ := ihl (⟨true, k, d, c, s, r⟩ :: ctx) hbl h
      refine ⟨x, ?_, h1, h2, ?_⟩
      · simp only [Find, if_pos hne, if_neg (not_lt_of_gt hk)]
        exact hx
      · rw [h3]; simp [plug, attach]
    · subst h1 h2
      exact ⟨(ctx, Tree.node key dd c s l r), by simp [Find], rfl, rfl, rfl⟩
    · have hk : k < key := hgt key (mem_keysOf_of_mem_toList r key dd h)
      have hne : k ≠ key := ne_of_lt hk
      obtain ⟨x, hx, h1, h2, h3⟩ := ihr (⟨false, k, d, c, s, l⟩ :: ctx) hbr h
      refine ⟨x, ?_, h1, h2, ?_⟩
      · simp only [Find, if_pos hne, if_pos hk]
        exact hx
      · rw [h3]; simp [plug, attach]

/-- C12: in a tree with BST order, `Find(key)` returns a node of the tree whose key is
`key` when the key is stored, and the null pointer when it is not. -/
theorem find_stored_or_not_found (t : Tree K T) (key : K) (h : BSTOrder t) :
    (key ∈ keysOf t →
        ∃ x, Find key [] t = some x ∧ Key x.2 = some key ∧ plug x.1 x.2 = t) ∧
      (key ∉ keysOf t → Find key [] t = none) := by
  refine ⟨?_, Find_none key [] t⟩
  intro hk
  obtain ⟨d, hd⟩ := mem_toList_of_mem_keysOf t key hk
  obtain ⟨x, h1, h2, _, h4⟩ := Find_of_mem key d [] t h hd
  exact ⟨x, h1, h2, h4⟩

/-- C13: in a tree with BST order, `Erase(key)` of a key that is not stored returns the
very same tree: shape, keys, values, colours and sizes of all nodes are untouched, and so
is the in-order sequence. -/
theorem erase_absent_key (t : Tree K T) (key : K) (_h : BSTOrder t)
    (hk : key ∉ keysOf t) : Erase t key = some t := by
  unfold Erase
  rw [Find_none key [] t hk]

end Ordered

theorem find_stored_or_not_found_witness :
    BSTOrder exampleTree ∧
      ((30 ∈ keysOf exampleTree →
          ∃ x, Find 30 [] exampleTree = some x ∧ Key x.2 = some 30 ∧
            plug x.1 x.2 = exampleTree) ∧
        (30 ∉ keysOf exampleTree → Find 30 [] exampleTree = none)) :=
  ⟨exampleTree_invariants.bst,
    find_stored_or_not_found exampleTree 30 exampleTree_invariants.bst⟩

theorem erase_absent_key_witness :
    BSTOrder exampleTree ∧ 25 ∉ keysOf exampleTree ∧
      Erase exampleTree 25 = some exampleTree :=
  ⟨exampleTree_invariants.bst, by simp [exampleTree, keysOf],
    erase_absent_key exampleTree 25 exampleTree_invariants.bst
      (by simp [exampleTree, keysOf])⟩

/-! ### Lookup after insertion -/

section Ordered
variable [LinearOrder K]

theorem BSTOrder_of_sorted (t : Tree K T) (h : (keysOf t).Pairwise (· < ·)) : BSTOrder t := by
  induction t with
  | nil => trivial
  | node k d c s l r ihl ihr =>
    simp only [keysOf] at h
    rw [List.pairwise_append] at h
    obtain ⟨hl, hkr, hlr⟩ := h
    rw [List.pairwise_cons] at hkr
    exact ⟨fun x hx => hlr x hx k (List.mem_cons_self _ _), hkr.1, ihl hl, ihr hkr.2⟩

/-- The pairs stored after `Insert` of a new key into a tree with the four invariants: the
old in-order sequence with the new pair at its sorted position. -/
theorem Insert_pairs (t : Tree K T) (key : K) (data : T) (hinv : Invariants t)
    (hkey : key ∉ keysOf t) :
    ∃ t' pre post, Insert t key data = some t' ∧ toList t = pre ++ post ∧
      toList t' = pre ++ (key, data) :: post ∧
      (∀ x ∈ pre, x.1 < key) ∧ (∀ x ∈ post, key < x.1) ∧ BSTOrder t' := by
  obtain ⟨t', h1, _, _, _, h5⟩ := Insert_spec t key data hinv.rootBlack hinv.noRedRed
    ((BlackBalanced_iff t).1 hinv.balanced)
  obtain ⟨pre, post, e1, e2, e3, e4⟩ := InsertNode_toList key data [] t
  obtain ⟨hpre, hpost⟩ := e4 hinv.bst hkey
  have hnew : toList t' = pre ++ (key, data) :: post := by
    rw [h5.1, toList_plug, e2, e3, InsertNode_snd]
    simp [toList, ctxBefore, ctxAfter]
  refine ⟨t', pre, post, h1, e1, hnew, hpre, hpost, BSTOrder_of_sorted t' ?_⟩
  have hsorted := keysOf_sorted t hinv.bst
  rw [keysOf_eq_map_toList, e1, List.map_append, List.pairwise_append] at hsorted
  obtain ⟨s1, s2, s3⟩ := hsorted
  rw [keysOf_eq_map_toList, hnew, List.map_append, List.map_cons, List.pairwise_append]
  refine ⟨s1, List.pairwise_cons.2 ⟨?_, s2⟩, ?_⟩
  · intro a ha
    obtain ⟨p, hp, rfl⟩ := List.mem_map.1 ha
    exact hpost p hp
  · intro a ha b hb
    rcases List.mem_cons.1 hb with hb | hb
    · obtain ⟨p, hp, rfl⟩ := List.mem_map.1 ha
      rw [hb]; exact hpre p hp
    · exact s3 a ha b hb

/-- C17: in a tree with the four invariants, after `Insert(k, v)` of a key that is not
stored, `Find(k)` returns a node with key `k` and value `v`, and `Find` of every key stored
before returns a node with that key and with the value `Find` returned for it before. -/
theorem find_after_insert (t : Tree K T) (key : K) (data : T) (hinv : Invariants t)
    (hkey : key ∉ keysOf t) :
    ∃ t', Insert t key data = some t' ∧
      (∃ x, Find key [] t' = some x ∧ Key x.2 = some key ∧ Data x.2 = some data) ∧
      (∀ k ∈ keysOf t, ∃ y x d, Find k [] t = some y ∧ Data y.2 = some d ∧
        Find k [] t' = some x ∧ Key x.2 = some k ∧ Data x.2 = some d) := by
  obtain ⟨t', pre, post, h1, e1, e2, _, _, hb⟩ := Insert_pairs t key data hinv hkey
  refine ⟨t', h1, ?_, ?_⟩
  · obtain ⟨x, hx, k1, k2, _⟩ := Find_of_mem key data [] t' hb (by rw [e2]; simp)
    exact ⟨x, hx, k1, k2⟩
  · intro k hk
    obtain ⟨d, hd⟩ := mem_toList_of_mem_keysOf t k hk
    obtain ⟨y, hy, _, y2, _⟩ := Find_of_mem k d [] t hinv.bst hd
    have hd' : (k, d) ∈ toList t' := by
      rw [e1] at hd
      rw [e2]
      simp only [List.mem_append, List.mem_cons] at hd ⊢
      tauto
    obtain ⟨x, hx, x1, x2, _⟩ := Find_of_mem k d [] t' hb hd'
    exact ⟨y, x, d, hy, y2, hx, x1, x2⟩

end Ordered

theorem find_after_insert_witness :
    Invariants exampleTree ∧ 25 ∉ keysOf exampleTree ∧
      ∃ t', Insert exampleTree 25 () = some t' ∧
        (∃ x, Find 25 [] t' = some x ∧ Key x.2 = some 25 ∧ Data x.2 = some ()) ∧
        (∀ k ∈ keysOf exampleTree, ∃ y x d, Find k [] exampleTree = some y ∧
          Data y.2 = some d ∧ Find k [] t' = some x ∧ Key x.2 = some k ∧ Data x.2 = some d) :=
  ⟨exampleTree_invariants, by simp [exampleTree, keysOf],
    find_after_insert exampleTree 25 () exampleTree_invariants
      (by simp [exampleTree, keysOf])⟩

/-! ### Height of a red-black tree -/

theorem height_le_blackHeight (t : Tree K T) (hn : NoRedRed t) (hb : Balanced t) :
    height t ≤ 2 * blackHeight t + (if rootColor t = Color.RED then 1 else 0) := by
  induction t with
  | nil => simp [height, blackHeight]
  | node k d c s l r ihl ihr =>
    obtain ⟨hred, hnl, hnr⟩ := hn
    obtain ⟨hh, hbl, hbr⟩ := hb
    have il := ihl hnl hbl
    have ir := ihr hnr hbr
    simp only [height, blackHeight, rootColor_node]
    rcases color_cases c with hc | hc
    · obtain ⟨cl, cr⟩ := hred hc
      rw [cl] at il
      rw [cr] at ir
      simp only [reduceCtorEq, if_false] at il ir
      simp only [hc, reduceCtorEq, if_false, if_true]
      omega
    · simp only [hc, reduceCtorEq, if_false, if_true]
      split at il <;> split at ir <;> omega

theorem pow_blackHeight_le_count (t : Tree K T) (hb : Balanced t) :
    2 ^ blackHeight t ≤ count t + 1 := by
  induction t with
  | nil => simp [blackHeight, count]
  | node k d c s l r ihl ihr =>
    obtain ⟨hh, hbl, hbr⟩ := hb
    have il := ihl hbl
    have ir := ihr hbr
    rw [hh] at il
    simp only [blackHeight, count]
    split
    · rw [hh, pow_succ]; omega
    · rw [hh]; omega

/-- The height bound of red-black trees: with a BLACK root, no RED node with a RED child and
equal black heights, `2 ^ height ≤ (number of nodes + 1) ^ 2`. -/
theorem redBlack_height_bound (t : Tree K T) (hr : RootBlack t) (hn : NoRedRed t)
    (hb : Balanced t) : 2 ^ height t ≤ (count t + 1) ^ 2 := by
  have h1 := height_le_blackHeight t hn hb
  rw [hr] at h1
  simp only [reduceCtorEq, if_false, Nat.add_zero] at h1
  calc 2 ^ height t ≤ 2 ^ (2 * blackHeight t) := Nat.pow_le_pow_right (by omega) h1
    _ = (2 ^ blackHeight t) ^ 2 := by rw [Nat.mul_comm, pow_mul]
    _ ≤ (count t + 1) ^ 2 := Nat.pow_le_pow_left (pow_blackHeight_le_count t hb) 2

section Ordered
variable [LinearOrder K]

/-- Sequences of `Insert` calls alone never fault and keep the height bound. -/
theorem insertAll_height_bound (l : List (K × T)) (t : Tree K T) (hr : RootBlack t)
    (hn : NoRedRed t) (hb : Balanced t) :
    ∃ t', insertAll t l = some t' ∧ 2 ^ height t' ≤ (count t' + 1) ^ 2 := by
  induction l generalizing t with
  | nil => exact ⟨t, rfl, redBlack_height_bound t hr hn hb⟩
  | cons p l ih =>
    obtain ⟨key, data⟩ := p
    obtain ⟨t1, h1, h2, h3, h4, _⟩ := Insert_spec t key data hr hn hb
    obtain ⟨t', e1, e2⟩ := ih t1 h2 h3 h4
    exact ⟨t', by simp [insertAll, h1, e1], e2⟩

end Ordered

/-! ### Scenarios and faulting call sequences -/

/-- C14 (code defect): the distinct keys 3, 1, 4, 2 inserted into the empty tree give
`roundTripTree`; erasing them in the order 4, 3, 2, 1 (a permutation of the list) does not
leave the empty tree: the first call `Erase(4)` removes a BLACK leaf whose BLACK brother 1
has a RED near child 2 and no far child, and `DeleteCase5` reads through the null
pointer. -/
theorem round_trip_fault :
    insertAll Tree.nil [(3, ()), (1, ()), (4, ()), (2, ())] = some roundTripTree ∧
      [3, 1, 4, 2].Nodup ∧ List.Perm [4, 3, 2, 1] [3, 1, 4, 2] ∧
      eraseAll roundTripTree [4, 3, 2, 1] = none := by
  refine ⟨?_, by decide, by decide, ?_⟩
  · simp [insertAll, Insert, InsertNode, InsertCase1, InsertCase2, InsertCase3, InsertCase4,
      InsertCase5, toBlack, plug, attach, RotateLeft, RotateRight, goLeft, goRight, Size,
      roundTripTree]
  · simp [eraseAll, Erase, roundTripTree, Find, isLeaf, DeleteCase1, DeleteCase2, DeleteCase3,
      DeleteCase4, DeleteCase5, isRed, isBlack, absentOrBlack]

theorem lookupFaultTree_invariants : Invariants lookupFaultTree where
  bst := by simp [lookupFaultTree, BSTOrder, keysOf]
  rootBlack := rfl
  noRedRed := by simp [lookupFaultTree, NoRedRed, rootColor]
  balanced := by simp [lookupFaultTree, BlackBalanced, blackCounts]
  sizes := by simp [lookupFaultTree, SizeInv, Size]

/-- C15 (code defect): `lookupFaultTree` satisfies the four invariants and stores 4, but
`Erase(4)` faults in `DeleteCase5` (BLACK leaf 4, BLACK brother 1 with RED near child 2 and
no far child): there is no tree in which `Find` could be called afterwards. -/
theorem erase_then_find_fault :
    insertAll Tree.nil [(5, ()), (3, ()), (8, ()), (1, ()), (4, ()), (7, ()), (9, ()), (2, ())]
        = some lookupFaultTree ∧
      Invariants lookupFaultTree ∧ 4 ∈ keysOf lookupFaultTree ∧
      Erase lookupFaultTree 4 = none := by
  refine ⟨?_, lookupFaultTree_invariants, ?_, ?_⟩
  · simp [insertAll, Insert, InsertNode, InsertCase1, InsertCase2, InsertCase3, InsertCase4,
      InsertCase5, toBlack, plug, attach, RotateLeft, RotateRight, goLeft, goRight, Size,
      lookupFaultTree]
  · simp [lookupFaultTree, keysOf]
  · simp [Erase, lookupFaultTree, Find, isLeaf, DeleteCase1, DeleteCase2, DeleteCase3,
      DeleteCase4, DeleteCase5, isRed, isBlack, absentOrBlack]

theorem valueFaultTree_invariants : Invariants valueFaultTree where
  bst := by simp [valueFaultTree, BSTOrder, keysOf]
  rootBlack := rfl
  noRedRed := by simp [valueFaultTree, NoRedRed, rootColor]
  balanced := by simp [valueFaultTree, BlackBalanced, blackCounts]
  sizes := by simp [valueFaultTree, SizeInv, Size]

/-- C16 (code defect): `valueFaultTree` satisfies the four invariants and maps 1 to 100,
2 to 200, 3 to 300 and 4 to 400; `Erase(1)` faults in `DeleteCase5` (BLACK leaf 1, BLACK
brother 4 with RED near child 3 and no far child), so the remaining keys 2, 3 and 4 are not
found with their values afterwards: there is no tree left to search. -/
theorem erase_values_fault :
    insertAll Tree.nil [(2, 200), (1, 100), (4, 400), (3, 300)] = some valueFaultTree ∧
      Invariants valueFaultTree ∧
      toList valueFaultTree = [(1, 100), (2, 200), (3, 300), (4, 400)] ∧
      Erase valueFaultTree 1 = none := by
  refine ⟨?_, valueFaultTree_invariants, ?_, ?_⟩
  · simp [insertAll, Insert, InsertNode, InsertCase1, InsertCase2, InsertCase3, InsertCase4,
      InsertCase5, toBlack, plug, attach, RotateLeft, RotateRight, goLeft, goRight, Size,
      valueFaultTree]
  · simp [valueFaultTree, toList]
  · simp [Erase, valueFaultTree, Find, isLeaf, DeleteCase1, DeleteCase2, DeleteCase3,
      DeleteCase4, DeleteCase5, isRed, isBlack, absentOrBlack]

/-- C18 (code defect): the call sequence Insert 1, 2, 3, 4, 5, Erase 1, Erase 5 on the empty
tree inserts only new keys and erases only stored ones.  After `Erase(1)` the tree is
`2 (BLACK, right child 3 RED)` and `5` (BLACK leaf) under the root `4`; `Erase(5)` then
faults in `DeleteCase5` on the absent far child of the brother 2, so the sequence ends
without a tree whose height could be bounded. -/
theorem height_bound_sequence_fault :
    runOps (Tree.nil : Tree Nat Unit)
        [Op.insert 1 (), Op.insert 2 (), Op.insert 3 (), Op.insert 4 (), Op.insert 5 (),
          Op.erase 1] =
      some (Tree.node 4 () Color.BLACK 4
        (Tree.node 2 () Color.BLACK 2 Tree.nil (Tree.node 3 () Color.RED 1 Tree.nil Tree.nil))
        (Tree.node 5 () Color.BLACK 1 Tree.nil Tree.nil)) ∧
    runOps (Tree.nil : Tree Nat Unit)
        [Op.insert 1 (), Op.insert 2 (), Op.insert 3 (), Op.insert 4 (), Op.insert 5 (),
          Op.erase 1, Op.erase 5] = none := by
  constructor <;>
  simp [runOps, Insert, InsertNode, InsertCase1, InsertCase2, InsertCase3, InsertCase4,
    InsertCase5, toBlack, toRed, plug, attach, RotateLeft, RotateRight, goLeft, goRight, Size,
    Erase, Find, isLeaf, DeleteCase1, DeleteCase2, DeleteCase3, DeleteCase4, DeleteCase5,
    DeleteCase6, DeleteCase2Rotate, isRed, isBlack, absentOrBlack, Delete, shrink, MinNode,
    MaxNode, EraseSplice]

/-- C19 (Scenario A): inserting the keys 10, 20, 30 in this order into the empty tree gives
the root 20, BLACK, of size 3, with the RED leaf 10 as left child and the RED leaf 30 as
right child (each of size 1), whatever the values. -/
theorem scenario_A (a b c : T) :
    insertAll (Tree.nil : Tree Nat T) [(10, a), (20, b), (30, c)] =
      some (Tree.node 20 b Color.BLACK 3 (Tree.node 10 a Color.RED 1 Tree.nil Tree.nil)
        (Tree.node 30 c Color.RED 1 Tree.nil Tree.nil)) := by
  simp [insertAll, Insert, InsertNode, InsertCase1, InsertCase2, InsertCase3, InsertCase4,
    InsertCase5, toBlack, plug, attach, RotateLeft, RotateRight, goLeft, goRight, Size]

/-- C20 (Scenario B): inserting the keys 1 to 7 in ascending order into the empty tree
gives `scenarioBTree`; there `FindByRank(Root(), 4)` returns the node holding the key 4 (the
right child of the root 2), and `Rank()` of that node returns 4. -/
theorem scenario_B :
    insertAll Tree.nil [(1, ()), (2, ()), (3, ()), (4, ()), (5, ()), (6, ()), (7, ())]
        = some scenarioBTree ∧
      ∃ x, FindByRank [] scenarioBTree 4 = some x ∧ Key x.2 = some 4 ∧
        plug x.1 x.2 = scenarioBTree ∧ Rank x.1 x.2 = some 4 := by
  refine ⟨?_, ?_⟩
  · simp [insertAll, Insert, InsertNode, InsertCase1, InsertCase2, InsertCase3, InsertCase4,
      InsertCase5, toBlack, plug, attach, RotateLeft, RotateRight, goLeft, goRight, Size,
      scenarioBTree]
  · refine ⟨([⟨false, 2, (), Color.BLACK, 7,
        Tree.node 1 () Color.BLACK 1 Tree.nil Tree.nil⟩],
      Tree.node 4 () Color.RED 5 (Tree.node 3 () Color.BLACK 1 Tree.nil Tree.nil)
        (Tree.node 6 () Color.BLACK 3 (Tree.node 5 () Color.RED 1 Tree.nil Tree.nil)
          (Tree.node 7 () Color.RED 1 Tree.nil Tree.nil))), ?_, rfl, ?_, ?_⟩
    · simp [FindByRank, scenarioBTree, Size]
    · simp [plug, attach, scenarioBTree]
    · simp [Rank, RankLoop, Size]

/-! ### Rotations on the subtree -/

/-- C23: when the pivot is present and the size invariant holds at the node and at the
pivot, `RotateLeft(node)` (pivot: right child) and `RotateRight(node)` (pivot: left child)
return the pivot on top of the node; the pivot carries the old size of the node, the node
carries `1 +` the sizes of its new children, and the size invariant holds at both. -/
theorem rotate_sizes (k pk : K) (d pd : T) (c pc : Color) (s ps : Nat)
    (a pl pr : Tree K T)
    (hl : SizeAt (Tree.node k d c s a (Tree.node pk pd pc ps pl pr)))
    (hr : SizeAt (Tree.node k d c s (Tree.node pk pd pc ps pl pr) a))
    (hp : SizeAt (Tree.node pk pd pc ps pl pr)) :
    (∃ s1 s2, RotateLeft (Tree.node k d c s a (Tree.node pk pd pc ps pl pr))
          = some (Tree.node pk pd pc s1 (Tree.node k d c s2 a pl) pr) ∧
        s1 = s ∧ s2 = 1 + Size a + Size pl ∧
        SizeAt (Tree.node k d c s2 a pl) ∧
        SizeAt (Tree.node pk pd pc s1 (Tree.node k d c s2 a pl) pr)) ∧
    (∃ s1 s2, RotateRight (Tree.node k d c s (Tree.node pk pd pc ps pl pr) a)
          = some (Tree.node pk pd pc s1 pl (Tree.node k d c s2 pr a)) ∧
        s1 = s ∧ s2 = 1 + Size pr + Size a ∧
        SizeAt (Tree.node k d c s2 pr a) ∧
        SizeAt (Tree.node pk pd pc s1 pl (Tree.node k d c s2 pr a))) := by
  simp only [SizeAt, Size_node] at hl hr hp
  constructor
  · refine ⟨s, Size a + Size pl + 1, rfl, rfl, by omega, ?_, ?_⟩
    · simp only [SizeAt]; omega
    · simp only [SizeAt, Size_node]; omega
  · clear hl
    refine ⟨s, Size a + Size pr + 1, rfl, rfl, by omega, ?_, ?_⟩
    · simp only [SizeAt]; omega
    · simp only [SizeAt, Size_node]; omega

theorem rotate_sizes_witness :
    SizeAt (Tree.node 5 () Color.BLACK 4 Tree.nil exampleTree) ∧
      SizeAt (Tree.node 5 () Color.BLACK 4 exampleTree Tree.nil) ∧
      SizeAt exampleTree ∧
      (∃ s1 s2, RotateLeft (Tree.node 5 () Color.BLACK 4 Tree.nil exampleTree)
          = some (Tree.node 20 () Color.BLACK s1
              (Tree.node 5 () Color.BLACK s2 Tree.nil
                (Tree.node 10 () Color.RED 1 Tree.nil Tree.nil))
              (Tree.node 30 () Color.RED 1 Tree.nil Tree.nil)) ∧
        s1 = 4 ∧ s2 = 1 + Size (Tree.nil : Tree Nat Unit)
          + Size (Tree.node 10 () Color.RED 1 Tree.nil Tree.nil) ∧
        SizeAt (Tree.node 5 () Color.BLACK s2 Tree.nil
          (Tree.node 10 () Color.RED 1 Tree.nil Tree.nil)) ∧
        SizeAt (Tree.node 20 () Color.BLACK s1
          (Tree.node 5 () Color.BLACK s2 Tree.nil
            (Tree.node 10 () Color.RED 1 Tree.nil Tree.nil))
          (Tree.node 30 () Color.RED 1 Tree.nil Tree.nil))) ∧
      (∃ s1 s2, RotateRight (Tree.node 5 () Color.BLACK 4 exampleTree Tree.nil)
          = some (Tree.node 20 () Color.BLACK s1
              (Tree.node 10 () Color.RED 1 Tree.nil Tree.nil)
              (Tree.node 5 () Color.BLACK s2
                (Tree.node 30 () Color.RED 1 Tree.nil Tree.nil) Tree.nil)) ∧
        s1 = 4 ∧ s2 = 1 + Size (Tree.node 30 () Color.RED 1 Tree.nil Tree.nil)
          + Size (Tree.nil : Tree Nat Unit) ∧
        SizeAt (Tree.node 5 () Color.BLACK s2
          (Tree.node 30 () Color.RED 1 Tree.nil Tree.nil) Tree.nil) ∧
        SizeAt (Tree.node 20 () Color.BLACK s1
          (Tree.node 10 () Color.RED 1 Tree.nil Tree.nil)
          (Tree.node 5 () Color.BLACK s2
            (Tree.node 30 () Color.RED 1 Tree.nil Tree.nil) Tree.nil))) :=
  ⟨by simp [SizeAt, exampleTree], by simp [SizeAt, exampleTree], by simp [SizeAt, exampleTree],
    rotate_sizes 5 20 () () Color.BLACK Color.BLACK 4 3 Tree.nil
      (Tree.node 10 () Color.RED 1 Tree.nil Tree.nil)
      (Tree.node 30 () Color.RED 1 Tree.nil Tree.nil)
      (by simp [SizeAt]) (by simp [SizeAt]) (by simp [SizeAt])⟩

@[simp]
theorem Size_mirror (t : Tree K T) : Size (mirror t) = Size t := by
  cases t <;> rfl

theorem mirror_mirror (t : Tree K T) : mirror (mirror t) = t := by
  induction t with
  | nil => rfl
  | node k d c s l r ihl ihr => simp [mirror, ihl, ihr]

theorem mirror_attach (f : Frame K T) (t : Tree K T) :
    mirror (attach f t)
      = attach { f with isLeft := !f.isLeft, brother := mirror f.brother } (mirror t) := by
  cases h : f.isLeft <;> simp [attach, h, mirror]

theorem mirror_plug (ctx : Ctx K T) (t : Tree K T) :
    mirror (plug ctx t) = plug (mirrorCtx ctx) (mirror t) := by
  induction ctx generalizing t with
  | nil => rfl
  | cons f rest ih =>
    simp only [plug, mirrorCtx, List.map_cons]
    rw [ih, mirror_attach]
    rfl

theorem mirrorCtx_mirrorCtx (ctx : Ctx K T) : mirrorCtx (mirrorCtx ctx) = ctx := by
  induction ctx with
  | nil => rfl
  | cons f rest ih =>
    simp only [mirrorCtx, List.map_cons] at ih ⊢
    rw [ih]
    cases f
    simp [mirror_mirror]

theorem RotateRight_mirror (t : Tree K T) :
    RotateRight t = (RotateLeft (mirror t)).map mirror := by
  cases t with
  | nil => rfl
  | node k d c s l r =>
    cases l with
    | nil => rfl
    | node pk pd pc ps pl pr =>
      simp [RotateRight, RotateLeft, mirror, mirror_mirror]

/-- C25: the rotations are mirror images.  For every node `n` reached through the parent
chain `ctx`, the tree after `RotateRight(n)` is the mirror image of the tree obtained by
`RotateLeft` at the corresponding node of the mirrored tree: shape, keys, values, colours
and sizes agree, and when `n` has no left child both calls fault. -/
theorem rotateRight_is_mirrored_rotateLeft (ctx : Ctx K T) (n : Tree K T) :
    plug (mirrorCtx ctx) (mirror n) = mirror (plug ctx n) ∧
      (RotateRight n).map (plug ctx)
        = ((RotateLeft (mirror n)).map (plug (mirrorCtx ctx))).map mirror := by
  refine ⟨(mirror_plug ctx n).symm, ?_⟩
  rw [RotateRight_mirror]
  cases h : RotateLeft (mirror n) with
  | none => rfl
  | some p =>
    simp only [Option.map_some']
    rw [mirror_plug, mirrorCtx_mirrorCtx]

/-! ### Placement of the new node -/

section Ordered
variable [LinearOrder K]

theorem InsertNode_path (key : K) (data : T) (t : Tree K T) :
    ∃ path : Ctx K T, plug path Tree.nil = t ∧
      ∀ ctx, InsertNode key data ctx t
        = (bump path ++ ctx, Tree.node key data Color.RED 1 Tree.nil Tree.nil) ∧
          plug ctx t = plug (path ++ ctx) Tree.nil := by
  induction t with
  | nil => exact ⟨[], rfl, fun ctx => ⟨rfl, rfl⟩⟩
  | node k d c s l r ihl ihr =>
    by_cases hgt : key > k
    · obtain ⟨path, hp, h⟩ := ihr
      refine ⟨path ++ [⟨false, k, d, c, s, l⟩], ?_, ?_⟩
      · have := (h [⟨false, k, d, c, s, l⟩]).2
        rw [← this]; simp [plug, attach]
      · intro ctx
        simp only [InsertNode, if_pos hgt]
        refine ⟨?_, ?_⟩
        · rw [(h _).1]; simp [bump]
        · have := (h (⟨false, k, d, c, s, l⟩ :: ctx)).2
          simp only [List.append_assoc, List.singleton_append]
          rw [← this]; simp [plug, attach]
    · obtain ⟨path, hp, h⟩ := ihl
      refine ⟨path ++ [⟨true, k, d, c, s, r⟩], ?_, ?_⟩
      · have := (h [⟨true, k, d, c, s, r⟩]).2
        rw [← this]; simp [plug, attach]
      · intro ctx
        simp only [InsertNode, if_neg hgt]
        refine ⟨?_, ?_⟩
        · rw [(h _).1]; simp [bump]
        · have := (h (⟨true, k, d, c, s, r⟩ :: ctx)).2
          simp only [List.append_assoc, List.singleton_append]
          rw [← this]; simp [plug, attach]

/-- C26: `InsertNode` on the whole tree `t` finds an absent child slot of `t` (the tree is
`plug path nil`, `path` being the descent path) and returns the pointer to the new node:
a RED leaf of size 1 holding the key and the value, hanging in that slot, below the same
ancestors with `size` incremented by one (`bump path`).  The ancestors keep key, value,
colour and their other child, and those other subtrees are untouched. -/
theorem insertNode_frame (key : K) (data : T) (t : Tree K T) :
    ∃ path : Ctx K T, plug path Tree.nil = t ∧
      InsertNode key data [] t
        = (bump path, Tree.node key data Color.RED 1 Tree.nil Tree.nil) ∧
      (bump path).length = path.length ∧
      ∀ (i : Nat) (f : Frame K T), path[i]? = some f →
        (bump path)[i]? = some { f with size := f.size + 1 } := by
  obtain ⟨path, hp, h⟩ := InsertNode_path key data t
  refine ⟨path, hp, by simpa using (h []).1, by simp [bump], ?_⟩
  intro i f hf
  simp [bump, List.getElem?_map, hf]

end Ordered

/-! ### Insert of a key that is already stored -/

theorem count_eq_length_toList (t : Tree K T) : count t = (toList t).length := by
  induction t with
  | nil => rfl
  | node k d c s l r ihl ihr => simp [count, toList, ihl, ihr]; omega

section Ordered
variable [LinearOrder K]

/-- What every `Insert` on a red-black tree does, whether or not the key is stored: one
more pair in the in-order sequence, one more node, the root size one larger. -/
theorem Insert_adds_node (t : Tree K T) (key : K) (data : T) (hroot : RootBlack t)
    (hred : NoRedRed t) (hbal : Balanced t) :
    ∃ t' pre post, Insert t key data = some t' ∧ toList t = pre ++ post ∧
      toList t' = pre ++ (key, data) :: post ∧ count t' = count t + 1 ∧
      Size t' = Size t + 1 := by
  obtain ⟨t', h1, _, _, _, h5⟩ := Insert_spec t key data hroot hred hbal
  obtain ⟨pre, post, e1, e2, e3, _⟩ := InsertNode_toList key data [] t
  have hnew : toList t' = pre ++ (key, data) :: post := by
    rw [h5.1, toList_plug, e2, e3, InsertNode_snd]
    simp [toList, ctxBefore, ctxAfter]
  refine ⟨t', pre, post, h1, e1, hnew, ?_, ?_⟩
  · rw [count_eq_length_toList, count_eq_length_toList, hnew, e1]
    simp only [List.length_append, List.length_cons]
    omega
  · rw [h5.2.1, InsertNode_rootSize key data [] t
      (Tree.node key data Color.RED (Size t + 1) Tree.nil Tree.nil) rfl]
    rfl

/-- C22 (as amended): `Insert` creates a node at every call, also when a node with the key
already exists: for every tree satisfying the four invariants and every key already stored
in it, `Insert(key, value)` returns a tree with exactly one node more. -/
theorem insert_creates_node_for_stored_key (t : Tree K T) (key : K) (data : T)
    (hinv : Invariants t) (_hk : key ∈ keysOf t) :
    ∃ t', Insert t key data = some t' ∧ count t' = count t + 1 := by
  obtain ⟨t', _, _, h1, _, _, h2, _⟩ := Insert_adds_node t key data hinv.rootBlack
    hinv.noRedRed ((BlackBalanced_iff t).1 hinv.balanced)
  exact ⟨t', h1, h2⟩

/-- C28: for every tree satisfying the four invariants and every key already stored in it,
`Insert(key, value)` adds a second node with that key: the key stood once in the in-order
key sequence and stands twice in the new one, which is the old one with the key put in;
the number of nodes and the size at the root grow by one. -/
theorem insert_duplicate_key (t : Tree K T) (key : K) (data : T) (hinv : Invariants t)
    (hk : key ∈ keysOf t) :
    ∃ t' pre post, Insert t key data = some t' ∧ inorderKeys t = pre ++ post ∧
      inorderKeys t' = pre ++ key :: post ∧
      (inorderKeys t).count key = 1 ∧ (inorderKeys t').count key = 2 ∧
      count t' = count t + 1 ∧ Size t' = Size t + 1 := by
  obtain ⟨t', pre, post, h1, e1, e2, h2, h3⟩ := Insert_adds_node t key data hinv.rootBlack
    hinv.noRedRed ((BlackBalanced_iff t).1 hinv.balanced)
  have hold : inorderKeys t = pre.map Prod.fst ++ post.map Prod.fst := by
    rw [inorderKeys_eq, keysOf_eq_map_toList, e1, List.map_append]
  have hnew : inorderKeys t' = pre.map Prod.fst ++ key :: post.map Prod.fst := by
    rw [inorderKeys_eq, keysOf_eq_map_toList, e2, List.map_append, List.map_cons]
  have hnodup : (inorderKeys t).Nodup := by
    rw [inorderKeys_eq]
    exact (keysOf_sorted t hinv.bst).imp ne_of_lt
  have hone : (inorderKeys t).count key = 1 :=
    List.count_eq_one_of_mem hnodup (by rw [inorderKeys_eq]; exact hk)
  refine ⟨t', pre.map Prod.fst, post.map Prod.fst, h1, hold, hnew, hone, ?_, h2, h3⟩
  rw [hold, List.count_append] at hone
  rw [hnew, List.count_append, List.count_cons_self]
  omega

end Ordered

/-- C22 (the claim as stated fails): 20 is stored in `exampleTree`, and `Insert(20, value)`
returns a tree with four nodes instead of three: a second node with key 20 hangs below
the node 10. -/
theorem insert_stored_key_adds_node :
    20 ∈ keysOf exampleTree ∧
      Insert exampleTree 20 () =
        some (Tree.node 20 () Color.BLACK 4
          (Tree.node 10 () Color.BLACK 2 Tree.nil
            (Tree.node 20 () Color.RED 1 Tree.nil Tree.nil))
          (Tree.node 30 () Color.BLACK 1 Tree.nil Tree.nil)) ∧
      count (Tree.node 20 () Color.BLACK 4
          (Tree.node 10 () Color.BLACK 2 Tree.nil
            (Tree.node 20 () Color.RED 1 Tree.nil Tree.nil))
          (Tree.node 30 () Color.BLACK 1 Tree.nil Tree.nil)) ≠ count exampleTree := by
  refine ⟨by simp [exampleTree, keysOf], ?_, by simp [count, exampleTree]⟩
  simp [Insert, InsertNode, InsertCase1, InsertCase2, InsertCase3, InsertCase4,
    InsertCase5, toBlack, plug, attach, RotateLeft, RotateRight, goLeft, goRight, Size,
    exampleTree]

theorem insert_creates_node_for_stored_key_witness :
    Invariants exampleTree ∧ 10 ∈ keysOf exampleTree ∧
      ∃ t', Insert exampleTree 10 () = some t' ∧ count t' = count exampleTree + 1 :=
  ⟨exampleTree_invariants, by simp [exampleTree, keysOf],
    insert_creates_node_for_stored_key exampleTree 10 () exampleTree_invariants
      (by simp [exampleTree, keysOf])⟩

theorem insert_duplicate_key_witness :
    Invariants exampleTree ∧ 30 ∈ keysOf exampleTree ∧
      ∃ t' pre post, Insert exampleTree 30 () = some t' ∧
        inorderKeys exampleTree = pre ++ post ∧ inorderKeys t' = pre ++ 30 :: post ∧
        (inorderKeys exampleTree).count 30 = 1 ∧ (inorderKeys t').count 30 = 2 ∧
        count t' = count exampleTree + 1 ∧ Size t' = Size exampleTree + 1 :=
  ⟨exampleTree_invariants, by simp [exampleTree, keysOf],
    insert_duplicate_key exampleTree 30 () exampleTree_invariants
      (by simp [exampleTree, keysOf])⟩

/-! ### Scenario C and the node taken out by `Erase` -/

/-- C21 (code defect): the distinct keys 20, 10, 30, 5, 40 inserted into the empty tree give
`scenarioCTree` with 20 at the root.  `Erase(20)` copies the successor 30 into the root
and links its child 40 into its slot; the result keeps the red-black shape and the keys
5, 10, 30, 40, but no ancestor of the removed node is decremented: the root has `size` 5
above four nodes, so the size invariant fails. -/
theorem scenario_C_stale_size :
    insertAll Tree.nil [(20, ()), (10, ()), (30, ()), (5, ()), (40, ())]
        = some scenarioCTree ∧
      Key scenarioCTree = some 20 ∧
      Erase scenarioCTree 20 =
        some (Tree.node 30 () Color.BLACK 5
          (Tree.node 10 () Color.BLACK 2 (Tree.node 5 () Color.RED 1 Tree.nil Tree.nil)
            Tree.nil)
          (Tree.node 40 () Color.BLACK 1 Tree.nil Tree.nil)) ∧
      ¬ SizeInv (Tree.node 30 () Color.BLACK 5
          (Tree.node 10 () Color.BLACK 2 (Tree.node 5 () Color.RED 1 Tree.nil Tree.nil)
            Tree.nil)
          (Tree.node 40 () Color.BLACK 1 Tree.nil Tree.nil)) := by
  refine ⟨?_, rfl, ?_, by simp [SizeInv, Size]⟩
  · simp [insertAll, Insert, InsertNode, InsertCase1, InsertCase2, InsertCase3, InsertCase4,
      InsertCase5, toBlack, plug, attach, RotateLeft, RotateRight, goLeft, goRight, Size,
      scenarioCTree]
  · simp [Erase, scenarioCTree, Find, isLeaf, MinNode, EraseSplice, Delete, plug, attach]

theorem staleSizeTree_invariants : Invariants staleSizeTree where
  bst := by simp [staleSizeTree, BSTOrder, keysOf]
  rootBlack := rfl
  noRedRed := by simp [staleSizeTree, NoRedRed, rootColor]
  balanced := by simp [staleSizeTree, BlackBalanced, blackCounts]
  sizes := by simp [staleSizeTree, SizeInv, Size]

theorem NoRedRed_of_plug (ctx : Ctx K T) (s : Tree K T) (h : NoRedRed (plug ctx s)) :
    NoRedRed s := by
  induction ctx generalizing s with
  | nil => exact h
  | cons f rest ih => exact ((NoRedRed_attach f s).1 (ih _ h)).2.1

theorem Balanced_of_plug (ctx : Ctx K T) (s : Tree K T) (h : Balanced (plug ctx s)) :
    Balanced s := by
  induction ctx generalizing s with
  | nil => exact h
  | cons f rest ih => exact ((Balanced_attach f s).1 (ih _ h)).2.1

theorem MinNode_shape (ctx : Ctx K T) (s : Tree K T) (hs : s ≠ Tree.nil) (hn : NoRedRed s)
    (hb : Balanced s) :
    ∃ ctx' k d c sz r, MinNode ctx s = (ctx', Tree.node k d c sz Tree.nil r) ∧
      NoRedRed (Tree.node k d c sz Tree.nil r) ∧ Balanced (Tree.node k d c sz Tree.nil r) := by
  induction s generalizing ctx with
  | nil => exact absurd rfl hs
  | node k d c sz l r ihl _ =>
    cases l with
    | nil => exact ⟨ctx, k, d, c, sz, r, rfl, hn, hb⟩
    | node lk ld lc ls ll lr =>
      simp only [MinNode]
      exact ihl _ (by simp) hn.2.1 hb.2.1

theorem MaxNode_shape (ctx : Ctx K T) (s : Tree K T) (hs : s ≠ Tree.nil) (hn : NoRedRed s)
    (hb : Balanced s) :
    ∃ ctx' k d c sz l, MaxNode ctx s = (ctx', Tree.node k d c sz l Tree.nil) ∧
      NoRedRed (Tree.node k d c sz l Tree.nil) ∧ Balanced (Tree.node k d c sz l Tree.nil) := by
  induction s generalizing ctx with
  | nil => exact absurd rfl hs
  | node k d c sz l r _ ihr =>
    cases r with
    | nil => exact ⟨ctx, k, d, c, sz, l, rfl, hn, hb⟩
    | node rk rd rc rs rl rr =>
      simp only [MaxNode]
      exact ihr _ (by simp) hn.2.2 hb.2.2

/-- A subtree of black height 0 in a red-black tree is absent or a RED leaf. -/
theorem redLeaf_of_blackHeight_zero (x : Tree K T) (hn : NoRedRed x) (hb : Balanced x)
    (h0 : blackHeight x = 0) :
    x = Tree.nil ∨ ∃ k d s, x = Tree.node k d Color.RED s Tree.nil Tree.nil := by
  cases x with
  | nil => exact Or.inl rfl
  | node k d c s l r =>
    right
    obtain ⟨hred, hnl, hnr⟩ := hn
    obtain ⟨hh, hbl, hbr⟩ := hb
    rcases color_cases c with hc | hc
    · subst hc
      simp only [blackHeight, reduceCtorEq, if_false] at h0
      obtain ⟨cl, cr⟩ := hred rfl
      have hl : l = Tree.nil := by
        cases l with
        | nil => rfl
        | node lk ld lc ls ll lr =>
          simp only [rootColor_node] at cl
          subst cl
          simp [blackHeight] at h0
      have hr : r = Tree.nil := by
        cases r with
        | nil => rfl
        | node rk rd rc rs rl rr =>
          simp only [rootColor_node] at cr
          subst cr
          rw [h0] at hh
          simp [blackHeight] at hh
      exact ⟨k, d, s, by rw [hl, hr]⟩
    · subst hc
      simp [blackHeight] at h0

theorem Find_plug [LinearOrder K] (key : K) (ctx : Ctx K T) (t : Tree K T) (x : Loc K T)
    (h : Find key ctx t = some x) : plug x.1 x.2 = plug ctx t := by
  induction t generalizing ctx with
  | nil => simp [Find] at h
  | node k d c s l r ihl ihr =>
    simp only [Find] at h
    split at h
    · split at h
      · rw [ihr _ h]; simp [plug, attach]
      · rw [ihl _ h]; simp [plug, attach]
    · cases h; rfl

section Ordered
variable [LinearOrder K]

/-- C30: in a tree satisfying the four invariants, let `Find(key)` return a target that is
not a leaf.  The node `Erase` takes out (`SpliceNode`, with which `Erase` continues) has at
most one child; a child that is present is a RED leaf and the node taken out is BLACK, so
`Erase` never starts the fix-up at a BLACK child. -/
theorem splice_node_shape (t : Tree K T) (key : K) (hinv : Invariants t) (tctx : Ctx K T)
    (tk : K) (td : T) (tc : Color) (ts : Nat) (tl tr : Tree K T)
    (hfind : Find key [] t = some (tctx, Tree.node tk td tc ts tl tr))
    (hleaf : isLeaf tl tr = false) :
    ∃ inner nk nd nc ns nl nr,
      SpliceNode tl tr = (inner, Tree.node nk nd nc ns nl nr) ∧
      Erase t key =
        EraseSplice tctx (SpliceFrame tk td tc ts tl tr) inner
          (Tree.node nk nd nc ns nl nr) ∧
      (nl = Tree.nil ∨ nr = Tree.nil) ∧
      (SpliceChild (Tree.node nk nd nc ns nl nr) = Tree.nil ∨
        (nc = Color.BLACK ∧ ∃ ck cd cs,
          SpliceChild (Tree.node nk nd nc ns nl nr)
            = Tree.node ck cd Color.RED cs Tree.nil Tree.nil)) := by
  have hplug := Find_plug key [] t _ hfind
  simp only [plug] at hplug
  have hn : NoRedRed (Tree.node tk td tc ts tl tr) :=
    NoRedRed_of_plug tctx _ (by rw [hplug]; exact hinv.noRedRed)
  have hb : Balanced (Tree.node tk td tc ts tl tr) :=
    Balanced_of_plug tctx _ (by rw [hplug]; exact (BlackBalanced_iff t).1 hinv.balanced)
  cases tr with
  | node rk rd rc rs rl rr =>
    obtain ⟨inner, nk, nd, nc, ns, nr, h1, h2, h3⟩ :=
      MinNode_shape [] (Tree.node rk rd rc rs rl rr) (by simp) hn.2.2 hb.2.2
    refine ⟨inner, nk, nd, nc, ns, Tree.nil, nr, h1, ?_, Or.inl rfl, ?_⟩
    · unfold Erase
      rw [hfind]
      simp only [hleaf, Bool.false_eq_true, if_false, h1, SpliceFrame]
    · have h0 : blackHeight nr = 0 := by
        have := h3.1
        simp only [blackHeight] at this
        exact this.symm
      rcases redLeaf_of_blackHeight_zero nr h2.2.2 h3.2.2 h0 with hnil | ⟨ck, cd, cs, hc⟩
      · left; rw [hnil]; rfl
      · right
        subst hc
        refine ⟨?_, ck, cd, cs, rfl⟩
        rcases color_cases nc with hnc | hnc
        · have := (h2.1 hnc).2
          simp at this
        · exact hnc
  | nil =>
    cases tl with
    | nil => simp [isLeaf] at hleaf
    | node lk ld lc ls ll lr =>
      obtain ⟨inner, nk, nd, nc, ns, nl, h1, h2, h3⟩ :=
        MaxNode_shape [] (Tree.node lk ld lc ls ll lr) (by simp) hn.2.1 hb.2.1
      refine ⟨inner, nk, nd, nc, ns, nl, Tree.nil, h1, ?_, Or.inr rfl, ?_⟩
      · unfold Erase
        rw [hfind]
        simp only [hleaf, Bool.false_eq_true, if_false, h1, SpliceFrame]
      · have h0 : blackHeight nl = 0 := by
          have := h3.1
          simp only [blackHeight] at this
          exact this
        rcases redLeaf_of_blackHeight_zero nl h2.2.1 h3.2.1 h0 with hnil | ⟨ck, cd, cs, hc⟩
        · left; rw [hnil]; rfl
        · right
          subst hc
          refine ⟨?_, ck, cd, cs, rfl⟩
          rcases color_cases nc with hnc | hnc
          · have := (h2.1 hnc).1
            simp at this
          · exact hnc

end Ordered

theorem splice_node_shape_witness :
    Invariants staleSizeTree ∧
      Find 20 [] staleSizeTree = some ([], Tree.node 20 () Color.BLACK 4
        (Tree.node 10 () Color.BLACK 1 Tree.nil Tree.nil)
        (Tree.node 30 () Color.BLACK 2 Tree.nil
          (Tree.node 40 () Color.RED 1 Tree.nil Tree.nil))) ∧
      isLeaf (Tree.node 10 () Color.BLACK 1 Tree.nil Tree.nil)
        (Tree.node 30 () Color.BLACK 2 Tree.nil
          (Tree.node 40 () Color.RED 1 Tree.nil Tree.nil)) = false ∧
      ∃ inner nk nd nc ns nl nr,
        SpliceNode (Tree.node 10 () Color.BLACK 1 Tree.nil Tree.nil)
            (Tree.node 30 () Color.BLACK 2 Tree.nil
              (Tree.node 40 () Color.RED 1 Tree.nil Tree.nil))
          = (inner, Tree.node nk nd nc ns nl nr) ∧
        Erase staleSizeTree 20 =
          EraseSplice [] (SpliceFrame 20 () Color.BLACK 4
              (Tree.node 10 () Color.BLACK 1 Tree.nil Tree.nil)
              (Tree.node 30 () Color.BLACK 2 Tree.nil
                (Tree.node 40 () Color.RED 1 Tree.nil Tree.nil))) inner
            (Tree.node nk nd nc ns nl nr) ∧
        (nl = Tree.nil ∨ nr = Tree.nil) ∧
        (SpliceChild (Tree.node nk nd nc ns nl nr) = Tree.nil ∨
          (nc = Color.BLACK ∧ ∃ ck cd cs,
            SpliceChild (Tree.node nk nd nc ns nl nr)
              = Tree.node ck cd Color.RED cs Tree.nil Tree.nil)) :=
  ⟨staleSizeTree_invariants, by simp [staleSizeTree, Find], by simp [isLeaf],
    splice_node_shape staleSizeTree 20 staleSizeTree_invariants [] 20 () Color.BLACK 4 _ _
      (by simp [staleSizeTree, Find]) (by simp [isLeaf])⟩

@[simp]
theorem write_cells (m : Mem K T) (a : Nat) (c : Cell K T) (x : Nat) :
    (m.write a c).cells x = if x = a then some c else m.cells x := rfl

@[simp]
theorem write_root (m : Mem K T) (a : Nat) (c : Cell K T) : (m.write a c).root = m.root := rfl

theorem setParent_spec (m : Mem K T) (a : Nat) (q : Option Nat) (c : Cell K T)
    (h : m.cells a = some c) :
    ∃ m', setParent m a q = some m' ∧ m'.root = m.root ∧
      ∀ x, m'.cells x = if x = a then some { c with parent := q } else m.cells x :=
  ⟨m.write a { c with parent := q }, by simp [setParent, h], rfl, fun _ => rfl⟩

theorem setLeft_spec (m : Mem K T) (a : Nat) (q : Option Nat) (c : Cell K T)
    (h : m.cells a = some c) :
    ∃ m', setLeft m a q = some m' ∧ m'.root = m.root ∧
      ∀ x, m'.cells x = if x = a then some { c with left := q } else m.cells x :=
  ⟨m.write a { c with left := q }, by simp [setLeft, h], rfl, fun _ => rfl⟩

theorem setRight_spec (m : Mem K T) (a : Nat) (q : Option Nat) (c : Cell K T)
    (h : m.cells a = some c) :
    ∃ m', setRight m a q = some m' ∧ m'.root = m.root ∧
      ∀ x, m'.cells x = if x = a then some { c with right := q } else m.cells x :=
  ⟨m.write a { c with right := q }, by simp [setRight, h], rfl, fun _ => rfl⟩

theorem setSize_spec (m : Mem K T) (a : Nat) (s : Nat) (c : Cell K T)
    (h : m.cells a = some c) :
    ∃ m', setSize m a s = some m' ∧ m'.root = m.root ∧
      ∀ x, m'.cells x = if x = a then some { c with size := s } else m.cells x :=
  ⟨m.write a { c with size := s }, by simp [setSize, h], rfl, fun _ => rfl⟩

theorem relinkParent_spec (m : Mem K T) (node pivot : Nat) (n : Cell K T)
    (hn : m.cells node = some n)
    (hg : ∀ g, n.parent = some g → ∃ gc, m.cells g = some gc) :
    ∃ m', relinkParent m node pivot = some m' ∧
      m'.root = (if n.parent = none then some pivot else m.root) ∧
      ∀ x, m'.cells x =
        if n.parent = some x then
          (m.cells x).map fun gc =>
            if gc.left = some node then { gc with left := some pivot }
            else { gc with right := some pivot }
        else m.cells x := by
  cases hpar : n.parent with
  | none =>
    exact ⟨{ m with root := some pivot }, by simp [relinkParent, hn, hpar], by simp,
      fun x => by simp⟩
  | some g =>
    obtain ⟨gc, hgc⟩ := hg g hpar
    by_cases hside : gc.left = some node
    · refine ⟨m.write g { gc with left := some pivot },
        by simp [relinkParent, hn, hpar, hgc, hside, setLeft], by simp, fun x => ?_⟩
      by_cases hx : x = g
      · subst hx; simp [hgc, hside]
      · have : g ≠ x := fun h => hx h.symm
        simp [hx, this]
    · refine ⟨m.write g { gc with right := some pivot },
        by simp [relinkParent, hn, hpar, hgc, hside, setRight], by simp, fun x => ?_⟩
      by_cases hx : x = g
      · subst hx; simp [hgc, hside]
      · have : g ≠ x := fun h => hx h.symm
        simp [hx, this]

theorem adoptChild_spec (m : Mem K T) (q : Option Nat) (node : Nat)
    (hb : ∀ b, q = some b → ∃ bc, m.cells b = some bc) :
    ∃ m', adoptChild m q node = some m' ∧ m'.root = m.root ∧
      ∀ x, m'.cells x =
        if q = some x then (m.cells x).map fun bc => { bc with parent := some node }
        else m.cells x := by
  cases q with
  | none => exact ⟨m, rfl, rfl, fun x => by simp⟩
  | some b =>
    obtain ⟨bc, hbc⟩ := hb b rfl
    refine ⟨m.write b { bc with parent := some node },
      by simp [adoptChild, setParent, hbc], by simp, fun x => ?_⟩
    by_cases hx : x = b
    · subst hx; simp [hbc]
    · have : b ≠ x := fun h => hx h.symm
      simp [hx, this]

theorem LeftSizePtr_spec (m : Mem K T) (c : Cell K T)
    (h : ∀ y, c.left = some y → ∃ cy, m.cells y = some cy) :
    ∃ s, LeftSizePtr m c = some s := by
  unfold LeftSizePtr
  cases hc : c.left with
  | none => exact ⟨0, rfl⟩
  | some a =>
    obtain ⟨ca, hca⟩ := h a hc
    exact ⟨ca.size, by simp [hca]⟩

theorem RightSizePtr_spec (m : Mem K T) (c : Cell K T)
    (h : ∀ y, c.right = some y → ∃ cy, m.cells y = some cy) :
    ∃ s, RightSizePtr m c = some s := by
  unfold RightSizePtr
  cases hc : c.right with
  | none => exact ⟨0, rfl⟩
  | some a =>
    obtain ⟨ca, hca⟩ := h a hc
    exact ⟨ca.size, by simp [hca]⟩

/-- The memory after `RotateLeft(node)`, cell by cell, for a consistently linked tree. -/
theorem RotateLeftPtr_cells (m : Mem K T) (node pivot : Nat) (n : Cell K T)
    (hl : Linked m) (hd : Downward m) (hn : m.cells node = some n)
    (hr : n.right = some pivot) :
    ∃ p s m', m.cells pivot = some p ∧ RotateLeftPtr m node = some m' ∧
      m'.root = (if n.parent = none then some pivot else m.root) ∧
      ∀ x, m'.cells x =
        if x = pivot then
          some { p with parent := n.parent, size := n.size, left := some node }
        else if x = node then
          some { n with size := s, right := p.left, parent := some pivot }
        else if n.parent = some x then
          (m.cells x).map fun gc =>
            if gc.left = some node then { gc with left := some pivot }
            else { gc with right := some pivot }
        else if p.left = some x then
          (m.cells x).map fun bc => { bc with parent := some node }
        else m.cells x := by
  obtain ⟨depth, hdep⟩ := hd
  obtain ⟨p, hp, hpp⟩ := hl.right_parent node n pivot hn hr
  have d1 : depth pivot = depth node + 1 := hdep node n pivot hn (Or.inr hr)
  have hne : pivot ≠ node := by intro h; rw [h] at d1; omega
  have hne' : node ≠ pivot := fun h => hne h.symm
  -- facts on the parent of the node and the inner child of the pivot
  have hg : ∀ g, n.parent = some g →
      ∃ gc, m.cells g = some gc ∧ depth node = depth g + 1 := by
    intro g hg
    obtain ⟨gc, hgc, hside⟩ := hl.parent_child node n g hn hg
    exact ⟨gc, hgc, hdep g gc node hgc hside⟩
  have hb : ∀ b, p.left = some b →
      ∃ bc, m.cells b = some bc ∧ depth b = depth pivot + 1 := by
    intro b hb
    obtain ⟨bc, hbc, _⟩ := hl.left_parent pivot p b hp hb
    exact ⟨bc, hbc, hdep pivot p b hp (Or.inl hb)⟩
  have ha : ∀ a, n.left = some a → ∃ ac, m.cells a = some ac ∧ a ≠ pivot := by
    intro a ha
    obtain ⟨ac, hac, _⟩ := hl.left_parent node n a hn ha
    refine ⟨ac, hac, ?_⟩
    intro h
    exact hl.distinct node n a hn ha (by rw [hr, h])
  have hgp : n.parent ≠ some pivot := by
    intro h; obtain ⟨_, _, h'⟩ := hg pivot h; omega
  have hgn : n.parent ≠ some node := by
    intro h; obtain ⟨_, _, h'⟩ := hg node h; omega
  have hbp : p.left ≠ some pivot := by
    intro h; obtain ⟨_, _, h'⟩ := hb pivot h; omega
  have hbn : p.left ≠ some node := by
    intro h; obtain ⟨_, _, h'⟩ := hb node h; omega
  have hgb : ∀ x, n.parent = some x → p.left ≠ some x := by
    intro x h1 h2
    obtain ⟨_, _, h'⟩ := hg x h1
    obtain ⟨_, _, h''⟩ := hb x h2
    omega
  -- `pivot->parent = node->parent;`
  obtain ⟨m1, e1, r1, c1⟩ := setParent_spec m pivot n.parent p hp
  have e1' : copyParent m node pivot = some m1 := by simp [copyParent, hn, e1]
  -- `pivot->size = node->size;`
  have hn1 : m1.cells node = some n := by simp [c1, hne', hn]
  have hp1 : m1.cells pivot = some { p with parent := n.parent } := by simp [c1]
  obtain ⟨m2, e2, r2, c2⟩ := setSize_spec m1 pivot n.size _ hp1
  have e2' : copySize m1 node pivot = some m2 := by simp [copySize, hn1, e2]
  -- `node->size = node->LeftSize() + pivot->LeftSize() + 1;`
  have hn2 : m2.cells node = some n := by simp [c2, hne', hn1]
  have hp2 : m2.cells pivot = some { p with parent := n.parent, size := n.size } := by
    simp [c2]
  obtain ⟨sa, hsa⟩ := LeftSizePtr_spec m2 n (by
    intro y hy
    obtain ⟨ac, hac, hne⟩ := ha y hy
    exact ⟨ac, by simp [c2, c1, hne, hac]⟩)
  obtain ⟨sb, hsb⟩ := LeftSizePtr_spec m2 { p with parent := n.parent, size := n.size } (by
    intro y hy
    obtain ⟨bc, hbc, _⟩ := hb y hy
    have : y ≠ pivot := by intro h; rw [h] at hy; exact hbp hy
    exact ⟨bc, by simp [c2, c1, this, hbc]⟩)
  obtain ⟨m3, e3, r3, c3⟩ := setSize_spec m2 node (sa + sb + 1) n hn2
  have e3' : resizeLeft m2 node pivot = some m3 := by
    simp [resizeLeft, hn2, hp2, hsa, hsb, e3]
  -- `if (!node->isRoot()) { ... } else { root = pivot; }`
  have hn3 : m3.cells node = some { n with size := sa + sb + 1 } := by simp [c3]
  obtain ⟨m4, e4, r4, c4⟩ := relinkParent_spec m3 node pivot _ hn3 (by
      intro g hg'
      obtain ⟨gc, hgc, _⟩ := hg g hg'
      have h1 : g ≠ node := by intro h; rw [h] at hg'; exact hgn hg'
      have h2 : g ≠ pivot := by intro h; rw [h] at hg'; exact hgp hg'
      exact ⟨gc, by simp [c3, c2, c1, h1, h2, hgc]⟩)
  -- `node->right = pivot->left; if (pivot->hasLeftChild()) { pivot->left->parent = node; }`
  have hp4 : m4.cells pivot = some { p with parent := n.parent, size := n.size } := by
    simp [c4, c3, hgp, hne, hp2]
  have hn4 : m4.cells node = some { n with size := sa + sb + 1 } := by
    simp [c4, hgn, hn3]
  obtain ⟨m5, e5, r5, c5⟩ := setRight_spec m4 node p.left _ hn4
  have hp5 : m5.cells pivot = some { p with parent := n.parent, size := n.size } := by
    simp [c5, hne, hp4]
  obtain ⟨m6, e6, r6, c6⟩ := adoptChild_spec m5 p.left node (by
      intro b hb'
      obtain ⟨bc, hbc, _⟩ := hb b hb'
      have h1 : b ≠ node := by intro h; rw [h] at hb'; exact hbn hb'
      have h2 : b ≠ pivot := by intro h; rw [h] at hb'; exact hbp hb'
      have h3 : n.parent ≠ some b := fun h => hgb b h hb'
      exact ⟨bc, by simp [c5, c4, c3, c2, c1, h1, h2, h3, hbc]⟩)
  have e56 : moveInnerLeft m4 node pivot = some m6 := by
    simp [moveInnerLeft, hp4, e5, hp5, e6]
  -- `node->parent = pivot;`
  have hn6 : m6.cells node = some { n with size := sa + sb + 1, right := p.left } := by
    simp [c6, hbn, c5]
  obtain ⟨m7, e7, r7, c7⟩ := setParent_spec m6 node (some pivot) _ hn6
  -- `pivot->left = node;`
  have hp7 : m7.cells pivot = some { p with parent := n.parent, size := n.size } := by
    simp [c7, c6, hne, hbp, hp5]
  obtain ⟨m8, e8, r8, c8⟩ := setLeft_spec m7 pivot (some node) _ hp7
  refine ⟨p, sa + sb + 1, m8, hp, ?_, ?_, ?_⟩
  · simp [RotateLeftPtr, RotateLeftSteps, hn, hr, e1', e2', e3', e4, e56, e7, e8]
  · rw [r8, r7, r6, r5, r4, r3, r2, r1]
  · intro x
    by_cases hxp : x = pivot
    · simp [c8, hxp]
    by_cases hxn : x = node
    · simp [c8, c7, hxp, hxn, hne']
    by_cases hxg : n.parent = some x
    · have hxb : p.left ≠ some x := hgb x hxg
      simp [c8, c7, c6, c5, c4, c3, c2, c1, hxp, hxn, hxg, hxb]
    by_cases hxb : p.left = some x
    · simp [c8, c7, c6, c5, c4, c3, c2, c1, hxp, hxn, hxg, hxb]
    · simp [c8, c7, c6, c5, c4, c3, c2, c1, hxp, hxn, hxg, hxb]

/-- The effect of `RotateLeft(node)` on a consistently linked tree: the call returns, and
the new memory is described cell by cell. -/
theorem RotateLeftPtr_view (m : Mem K T) (node pivot : Nat) (n : Cell K T)
    (hl : Linked m) (hd : Downward m) (hn : m.cells node = some n)
    (hr : n.right = some pivot) :
    ∃ p s m', m.cells pivot = some p ∧ RotateLeftPtr m node = some m' ∧
      m'.root = (if n.parent = none then some pivot else m.root) ∧
      m'.cells pivot =
        some { p with parent := n.parent, size := n.size, left := some node } ∧
      m'.cells node = some { n with size := s, right := p.left, parent := some pivot } ∧
      (∀ x, x ≠ pivot → x ≠ node → m.cells x = none → m'.cells x = none) ∧
      ∀ x c, x ≠ pivot → x ≠ node → m.cells x = some c →
        ∃ c', m'.cells x = some c' ∧ c'.key = c.key ∧ c'.data = c.data ∧
          c'.color = c.color ∧ c'.size = c.size ∧
          c'.left = relink node pivot c.left ∧ c'.right = relink node pivot c.right ∧
          c'.parent = (if p.left = some x then some node else c.parent) := by
  obtain ⟨p, s, m', hp, hrot, hroot, hcells⟩ := RotateLeftPtr_cells m node pivot n hl hd hn hr
  refine ⟨p, s, m', hp, hrot, hroot, by simp [hcells], ?_, ?_, ?_⟩
  · obtain ⟨depth, hdep⟩ := hd
    have d1 : depth pivot = depth node + 1 := hdep node n pivot hn (Or.inr hr)
    have hne : node ≠ pivot := by intro h; rw [h] at d1; omega
    simp [hcells, hne]
  · intro x hxp hxn hx
    simp [hcells, hxp, hxn, hx]
  · intro x c hxp hxn hx
    by_cases hxg : n.parent = some x
    · obtain ⟨depth, hdep⟩ := hd
      have hxb : p.left ≠ some x := by
        intro hb
        have := hdep pivot p x hp (Or.inl hb)
        have := hdep node n pivot hn (Or.inr hr)
        obtain ⟨gc, hgc, hside⟩ := hl.parent_child node n x hn hxg
        have := hdep x gc node hgc hside
        omega
      obtain ⟨gc, hgc, hside⟩ := hl.parent_child node n x hn hxg
      have hcg : c = gc := by rw [hx] at hgc; exact Option.some.inj hgc
      subst hcg
      by_cases hgl : c.left = some node
      · have hgr : c.right ≠ some node := hl.distinct x c node hx hgl
        exact ⟨_, by simp [hcells, hxp, hxn, hxg, hx, hgl]; rfl, by simp [relink, *]⟩
      · have hgr : c.right = some node := by
          cases hside with
          | inl h => exact absurd h hgl
          | inr h => exact h
        exact ⟨_, by simp [hcells, hxp, hxn, hxg, hx, hgl]; rfl, by simp [relink, *]⟩
    · have hleft : c.left ≠ some node := by
        intro h
        obtain ⟨cy, hcy, hpar⟩ := hl.left_parent x c node hx h
        rw [hn] at hcy
        cases hcy
        exact hxg hpar
      have hright : c.right ≠ some node := by
        intro h
        obtain ⟨cy, hcy, hpar⟩ := hl.right_parent x c node hx h
        rw [hn] at hcy
        cases hcy
        exact hxg hpar
      by_cases hxb : p.left = some x
      · exact ⟨_, by simp [hcells, hxp, hxn, hxg, hx, hxb]; rfl, by simp [relink, *]⟩
      · exact ⟨_, by simp [hcells, hxp, hxn, hxg, hx, hxb]; rfl, by simp [relink, *]⟩

/-- The links stay consistent under `RotateLeft(node)`. -/
theorem RotateLeftPtr_linked (m : Mem K T) (node pivot : Nat) (n : Cell K T)
    (hl : Linked m) (hd : Downward m) (hn : m.cells node = some n)
    (hr : n.right = some pivot) :
    ∃ m', RotateLeftPtr m node = some m' ∧ Linked m' := by
  obtain ⟨p, s, m', hp, hrot, hroot, hP, hN, hnone, hV⟩ :=
    RotateLeftPtr_view m node pivot n hl hd hn hr
  refine ⟨m', hrot, ?_⟩
  obtain ⟨depth, hdep⟩ := hd
  obtain ⟨p0, hp0, hpp⟩ := hl.right_parent node n pivot hn hr
  rw [hp] at hp0
  cases hp0
  have d1 : depth pivot = depth node + 1 := hdep node n pivot hn (Or.inr hr)
  have hne : pivot ≠ node := by intro h; rw [h] at d1; omega
  -- every cell of the new memory comes from a cell of the old one
  have hback : ∀ x c', m'.cells x = some c' → ∃ c, m.cells x = some c := by
    intro x c' hc'
    by_cases hxp : x = pivot
    · exact ⟨p, hxp ▸ hp⟩
    by_cases hxn : x = node
    · exact ⟨n, hxn ▸ hn⟩
    cases hx : m.cells x with
    | none => rw [hnone x hxp hxn hx] at hc'; cases hc'
    | some c => exact ⟨c, rfl⟩
  -- a node outside the rotation that is not the inner child keeps its parent
  have hkeep : ∀ y cy, y ≠ pivot → y ≠ node → m.cells y = some cy →
      p.left ≠ some y →
      ∃ cy', m'.cells y = some cy' ∧ cy'.parent = cy.parent := by
    intro y cy hyp hyn hcy hb
    obtain ⟨cy', hcy', _, _, _, _, _, _, hpar⟩ := hV y cy hyp hyn hcy
    exact ⟨cy', hcy', by rw [hpar, if_neg hb]⟩
  -- the pivot is listed by the node only
  have honly : ∀ x c, m.cells x = some c → (c.left = some pivot ∨ c.right = some pivot) →
      x = node := by
    intro x c hc h
    have : ∃ cy, m.cells pivot = some cy ∧ cy.parent = some x := by
      cases h with
      | inl h => exact hl.left_parent x c pivot hc h
      | inr h => exact hl.right_parent x c pivot hc h
    obtain ⟨cy, hcy, hpar⟩ := this
    rw [hp] at hcy
    cases hcy
    rw [hpp] at hpar
    cases hpar
    rfl
  -- the inner child is listed by the pivot only
  have hinner : ∀ x c y, m.cells x = some c → (c.left = some y ∨ c.right = some y) →
      p.left = some y → x = pivot := by
    intro x c y hc h hb
    have h1 : ∃ cy, m.cells y = some cy ∧ cy.parent = some x := by
      cases h with
      | inl h => exact hl.left_parent x c y hc h
      | inr h => exact hl.right_parent x c y hc h
    obtain ⟨cy, hcy, hpar⟩ := h1
    obtain ⟨cy2, hcy2, hpar2⟩ := hl.left_parent pivot p y hp hb
    rw [hcy] at hcy2
    cases hcy2
    rw [hpar] at hpar2
    cases hpar2
    rfl
  -- the child links of the nodes outside the rotation
  have hchild : ∀ x c y cy, x ≠ pivot → x ≠ node → m.cells x = some c →
      (c.left = some y ∨ c.right = some y) → m.cells y = some cy → cy.parent = some x →
      ∃ cy', m'.cells (if y = node then pivot else y) = some cy' ∧ cy'.parent = some x := by
    intro x c y cy hxp hxn hc h hcy hpar
    by_cases hyn : y = node
    · subst hyn
      rw [hn] at hcy
      cases hcy
      rw [if_pos rfl]
      exact ⟨_, hP, hpar⟩
    · rw [if_neg hyn]
      have hyp : y ≠ pivot := by
        intro h'; subst h'; exact hxn (honly x c hc h)
      have hb : p.left ≠ some y := fun hb => hxp (hinner x c y hc h hb)
      obtain ⟨cy', hcy', hpar'⟩ := hkeep y cy hyp hyn hcy hb
      exact ⟨cy', hcy', by rw [hpar', hpar]⟩
  have hrel : ∀ q y, relink node pivot q = some y →
      ∃ y0, q = some y0 ∧ y = (if y0 = node then pivot else y0) := by
    intro q y h
    unfold relink at h
    by_cases hq : q = some node
    · rw [if_pos hq] at h
      cases h
      exact ⟨node, hq, by simp⟩
    · rw [if_neg hq] at h
      refine ⟨y, h, ?_⟩
      rw [if_neg]
      intro h'; subst h'; exact hq h
  constructor
  case left_parent =>
    intro x c' y hc' hy
    by_cases hxp : x = pivot
    · subst hxp
      rw [hP] at hc'
      cases hc'
      cases hy
      exact ⟨_, hN, rfl⟩
    by_cases hxn : x = node
    · subst hxn
      rw [hN] at hc'
      cases hc'
      obtain ⟨cy, hcy, hcyp⟩ := hl.left_parent x n y hn hy
      have dy := hdep x n y hn (Or.inl hy)
      have hyp : y ≠ pivot := by
        intro h; exact hl.distinct x n y hn hy (by rw [hr, h])
      have hyn : y ≠ x := by intro h; rw [h] at dy; omega
      have hb : p.left ≠ some y := by
        intro hb
        have := hdep pivot p y hp (Or.inl hb)
        omega
      obtain ⟨cy', hcy', hpar⟩ := hkeep y cy hyp hyn hcy hb
      exact ⟨cy', hcy', by rw [hpar, hcyp]⟩
    obtain ⟨c, hc⟩ := hback x c' hc'
    obtain ⟨c'', hc'', _, _, _, _, hleft, _, _⟩ := hV x c hxp hxn hc
    rw [hc'] at hc''
    cases hc''
    rw [hleft] at hy
    obtain ⟨y0, hy0, rfl⟩ := hrel _ _ hy
    obtain ⟨cy, hcy, hpar⟩ := hl.left_parent x c y0 hc hy0
    exact hchild x c y0 cy hxp hxn hc (Or.inl hy0) hcy hpar
  case right_parent =>
    intro x c' y hc' hy
    by_cases hxp : x = pivot
    · subst hxp
      rw [hP] at hc'
      cases hc'
      obtain ⟨cy, hcy, hcyp⟩ := hl.right_parent x p y hp hy
      have dy := hdep x p y hp (Or.inr hy)
      have hyp : y ≠ x := by intro h; rw [h] at dy; omega
      have hyn : y ≠ node := by intro h; rw [h] at dy; omega
      have hb : p.left ≠ some y := fun hb => hl.distinct x p y hp hb hy
      obtain ⟨cy', hcy', hpar⟩ := hkeep y cy hyp hyn hcy hb
      exact ⟨cy', hcy', by rw [hpar, hcyp]⟩
    by_cases hxn : x = node
    · subst hxn
      rw [hN] at hc'
      cases hc'
      obtain ⟨cy, hcy, hcyp⟩ := hl.left_parent pivot p y hp hy
      have dy := hdep pivot p y hp (Or.inl hy)
      have hyp : y ≠ pivot := by intro h; rw [h] at dy; omega
      have hyn : y ≠ x := by intro h; rw [h] at dy; omega
      obtain ⟨cy', hcy', _, _, _, _, _, _, hpar⟩ := hV y cy hyp hyn hcy
      exact ⟨cy', hcy', by rw [hpar, if_pos hy]⟩
    obtain ⟨c, hc⟩ := hback x c' hc'
    obtain ⟨c'', hc'', _, _, _, _, _, hright, _⟩ := hV x c hxp hxn hc
    rw [hc'] at hc''
    cases hc''
    rw [hright] at hy
    obtain ⟨y0, hy0, rfl⟩ := hrel _ _ hy
    obtain ⟨cy, hcy, hpar⟩ := hl.right_parent x c y0 hc hy0
    exact hchild x c y0 cy hxp hxn hc (Or.inr hy0) hcy hpar
  case parent_child =>
    intro y cy' x hcy' hpar'
    by_cases hyp : y = pivot
    · subst hyp
      rw [hP] at hcy'
      cases hcy'
      have hg : n.parent = some x := hpar'
      obtain ⟨gc, hgc, hside⟩ := hl.parent_child node n x hn hg
      have dg := hdep x gc node hgc hside
      have hxp : x ≠ y := by intro h; rw [h] at dg; omega
      have hxn : x ≠ node := by intro h; rw [h] at dg; omega
      obtain ⟨gc', hgc', _, _, _, _, hleft, hright, _⟩ := hV x gc hxp hxn hgc
      refine ⟨gc', hgc', ?_⟩
      cases hside with
      | inl h => left; rw [hleft, h]; simp [relink]
      | inr h => right; rw [hright, h]; simp [relink]
    by_cases hyn : y = node
    · subst hyn
      rw [hN] at hcy'
      cases hcy'
      cases hpar'
      exact ⟨_, hP, Or.inl rfl⟩
    obtain ⟨cy, hcy⟩ := hback y cy' hcy'
    obtain ⟨cy'', hcy'', _, _, _, _, _, _, hpar⟩ := hV y cy hyp hyn hcy
    rw [hcy'] at hcy''
    cases hcy''
    rw [hpar] at hpar'
    by_cases hb : p.left = some y
    · rw [if_pos hb] at hpar'
      cases hpar'
      exact ⟨_, hN, Or.inr hb⟩
    rw [if_neg hb] at hpar'
    obtain ⟨c, hc, hside⟩ := hl.parent_child y cy x hcy hpar'
    by_cases hxp : x = pivot
    · subst hxp
      rw [hp] at hc
      cases hc
      refine ⟨_, hP, Or.inr ?_⟩
      cases hside with
      | inl h => exact absurd h hb
      | inr h => exact h
    by_cases hxn : x = node
    · subst hxn
      rw [hn] at hc
      cases hc
      refine ⟨_, hN, Or.inl ?_⟩
      cases hside with
      | inl h => exact h
      | inr h => rw [hr] at h; cases h; exact absurd rfl hyp
    obtain ⟨c', hc', _, _, _, _, hleft, hright, _⟩ := hV x c hxp hxn hc
    refine ⟨c', hc', ?_⟩
    cases hside with
    | inl h => left; rw [hleft, h]; simp [relink, hyn]
    | inr h => right; rw [hright, h]; simp [relink, hyn]
  case distinct =>
    intro x c' y hc' hy hy2
    by_cases hxp : x = pivot
    · subst hxp
      rw [hP] at hc'
      cases hc'
      have hy' : node = y := Option.some.inj hy
      have := hdep x p y hp (Or.inr hy2)
      rw [← hy'] at this
      omega
    by_cases hxn : x = node
    · subst hxn
      rw [hN] at hc'
      cases hc'
      have := hdep x n y hn (Or.inl hy)
      have := hdep pivot p y hp (Or.inl hy2)
      omega
    obtain ⟨c, hc⟩ := hback x c' hc'
    obtain ⟨c'', hc'', _, _, _, _, hleft, hright, _⟩ := hV x c hxp hxn hc
    rw [hc'] at hc''
    cases hc''
    rw [hleft] at hy
    rw [hright] at hy2
    obtain ⟨y1, hy1, e1⟩ := hrel _ _ hy
    obtain ⟨y2, hy2', e2⟩ := hrel _ _ hy2
    have hy1p : y1 ≠ pivot := by
      intro h; rw [h] at hy1; exact hxn (honly x c hc (Or.inl hy1))
    have hy2p : y2 ≠ pivot := by
      intro h; rw [h] at hy2'; exact hxn (honly x c hc (Or.inr hy2'))
    have : y1 = y2 := by
      by_cases h1 : y1 = node <;> by_cases h2 : y2 = node
      · rw [h1, h2]
      · rw [if_pos h1] at e1; rw [if_neg h2] at e2; rw [e1] at e2; exact absurd e2.symm hy2p
      · rw [if_neg h1] at e1; rw [if_pos h2] at e2; rw [e1] at e2; exact absurd e2 hy1p
      · rw [if_neg h1] at e1; rw [if_neg h2] at e2; rw [← e1, ← e2]
    rw [← this] at hy2'
    exact hl.distinct x c y1 hc hy1 hy2'
  case root_parent =>
    intro r hr'
    rw [hroot] at hr'
    by_cases hpar : n.parent = none
    · rw [if_pos hpar] at hr'
      cases hr'
      exact ⟨_, hP, hpar⟩
    rw [if_neg hpar] at hr'
    obtain ⟨rc, hrc, hrp⟩ := hl.root_parent r hr'
    have hrp' : r ≠ pivot := by
      intro h; rw [h, hp] at hrc; cases hrc; rw [hpp] at hrp; cases hrp
    have hrn : r ≠ node := by
      intro h; rw [h, hn] at hrc; cases hrc; exact hpar hrp
    have hb : p.left ≠ some r := by
      intro hb
      obtain ⟨cy, hcy, hcyp⟩ := hl.left_parent pivot p r hp hb
      rw [hrc] at hcy
      cases hcy
      rw [hrp] at hcyp
      cases hcyp
    obtain ⟨rc', hrc', hpar'⟩ := hkeep r rc hrp' hrn hrc hb
    exact ⟨rc', hrc', by rw [hpar', hrp]⟩
  case orphan_root =>
    intro x c' hc' hpar'
    rw [hroot]
    by_cases hxp : x = pivot
    · subst hxp
      rw [hP] at hc'
      cases hc'
      rw [if_pos hpar']
    by_cases hxn : x = node
    · subst hxn
      rw [hN] at hc'
      cases hc'
      cases hpar'
    obtain ⟨c, hc⟩ := hback x c' hc'
    obtain ⟨c'', hc'', _, _, _, _, _, _, hpar⟩ := hV x c hxp hxn hc
    rw [hc'] at hc''
    cases hc''
    rw [hpar] at hpar'
    by_cases hb : p.left = some x
    · rw [if_pos hb] at hpar'; cases hpar'
    rw [if_neg hb] at hpar'
    have hroot0 := hl.orphan_root x c hc hpar'
    rw [if_neg]
    · exact hroot0
    · intro hnp
      have := hl.orphan_root node n hn hnp
      rw [hroot0] at this
      cases this
      exact hxn rfl

/-- The in-order sequence of the tree is the same after `RotateLeft(node)`. -/
theorem RotateLeftPtr_inorder (m m' : Mem K T) (node pivot : Nat) (n : Cell K T)
    (hl : Linked m) (hd : Downward m) (hn : m.cells node = some n)
    (hr : n.right = some pivot) (hrot' : RotateLeftPtr m node = some m')
    (xs : List (K × T)) (hxs : InOrderPtr m m.root xs) : InOrderPtr m' m'.root xs := by
  obtain ⟨p, s, m'', hp, hrot, hroot, hP, hN, hnone, hV⟩ :=
    RotateLeftPtr_view m node pivot n hl hd hn hr
  rw [hrot'] at hrot
  cases hrot
  obtain ⟨depth, hdep⟩ := hd
  obtain ⟨p0, hp0, hpp⟩ := hl.right_parent node n pivot hn hr
  rw [hp] at hp0
  cases hp0
  have d1 : depth pivot = depth node + 1 := hdep node n pivot hn (Or.inr hr)
  have hne : pivot ≠ node := by intro h; rw [h] at d1; omega
  have honly : ∀ x c, m.cells x = some c → (c.left = some pivot ∨ c.right = some pivot) →
      x = node := by
    intro x c hc h
    have : ∃ cy, m.cells pivot = some cy ∧ cy.parent = some x := by
      cases h with
      | inl h => exact hl.left_parent x c pivot hc h
      | inr h => exact hl.right_parent x c pivot hc h
    obtain ⟨cy, hcy, hpar⟩ := this
    rw [hp] at hcy
    cases hcy
    rw [hpp] at hpar
    cases hpar
    rfl
  have main : ∀ r ys, InOrderPtr m r ys →
      (r ≠ some pivot → InOrderPtr m' (relink node pivot r) ys) ∧
      (r = some pivot → ∃ B R, ys = B ++ (p.key, p.data) :: R ∧
        InOrderPtr m' p.left B ∧ InOrderPtr m' p.right R) := by
    intro r ys h
    induction h with
    | null => exact ⟨fun _ => InOrderPtr.null, fun h => by cases h⟩
    | node a c us vs hc hlt hrt ihl ihr =>
      by_cases hap : a = pivot
      · subst hap
        rw [hp] at hc
        cases hc
        refine ⟨fun h => absurd rfl h, fun _ => ⟨us, vs, rfl, ?_, ?_⟩⟩
        · have h1 : p.left ≠ some a := by
            intro h; have := hdep a p a hp (Or.inl h); omega
          have h2 : p.left ≠ some node := by
            intro h; have := hdep a p node hp (Or.inl h); omega
          have := ihl.1 h1
          rwa [relink, if_neg h2] at this
        · have h1 : p.right ≠ some a := by
            intro h; have := hdep a p a hp (Or.inr h); omega
          have h2 : p.right ≠ some node := by
            intro h; have := hdep a p node hp (Or.inr h); omega
          have := ihr.1 h1
          rwa [relink, if_neg h2] at this
      by_cases han : a = node
      · subst han
        rw [hn] at hc
        cases hc
        refine ⟨fun _ => ?_, fun h => absurd (Option.some.inj h) hap⟩
        obtain ⟨B, R, rfl, hB, hR⟩ := ihr.2 hr
        have h1 : n.left ≠ some pivot := fun h => hl.distinct a n pivot hn h hr
        have h2 : n.left ≠ some a := by
          intro h; have := hdep a n a hn (Or.inl h); omega
        have hA := ihl.1 h1
        rw [relink, if_neg h2] at hA
        have hnode := InOrderPtr.node a _ us B hN hA hB
        have hpivot := InOrderPtr.node pivot _ _ R hP hnode hR
        simp only [relink, if_true]
        simpa using hpivot
      · refine ⟨fun _ => ?_, fun h => absurd (Option.some.inj h) hap⟩
        obtain ⟨c', hc', hkey, hdata, _, _, hleft, hright, _⟩ := hV a c hap han hc
        have h1 : c.left ≠ some pivot := fun h => han (honly a c hc (Or.inl h))
        have h2 : c.right ≠ some pivot := fun h => han (honly a c hc (Or.inr h))
        have hA := ihl.1 h1
        have hB := ihr.1 h2
        rw [← hleft] at hA
        rw [← hright] at hB
        have := InOrderPtr.node a c' us vs hc' hA hB
        rw [hkey, hdata] at this
        have e : relink node pivot (some a) = some a := by
          unfold relink
          rw [if_neg]
          intro h; exact han (Option.some.inj h)
        rw [e]
        exact this
  have hrp : m.root ≠ some pivot := by
    intro h
    obtain ⟨rc, hrc, hrp⟩ := hl.root_parent pivot h
    rw [hp] at hrc
    cases hrc
    rw [hpp] at hrp
    cases hrp
  have := (main m.root xs hxs).1 hrp
  rw [hroot]
  by_cases hpar : n.parent = none
  · rw [if_pos hpar]
    have hroot0 := hl.orphan_root node n hn hpar
    rw [hroot0] at this
    simpa [relink] using this
  · rw [if_neg hpar]
    have e : relink node pivot m.root = m.root := by
      unfold relink
      rw [if_neg]
      intro h
      obtain ⟨rc, hrc, hrp⟩ := hl.root_parent node h
      rw [hn] at hrc
      cases hrc
      exact hpar hrp
    rwa [e] at this

theorem Linked.distinct_flip {m : Mem K T} (hl : Linked m) (x : Nat) (c : Cell K T) (y : Nat)
    (hc : m.cells x = some c) (hr : c.right = some y) : c.left ≠ some y :=
  fun h => hl.distinct x c y hc h hr

/-- The memory after `RotateRight(node)`, cell by cell, for a consistently linked tree. -/
theorem RotateRightPtr_cells (m : Mem K T) (node pivot : Nat) (n : Cell K T)
    (hl : Linked m) (hd : Downward m) (hn : m.cells node = some n)
    (hr : n.left = some pivot) :
    ∃ p s m', m.cells pivot = some p ∧ RotateRightPtr m node = some m' ∧
      m'.root = (if n.parent = none then some pivot else m.root) ∧
      ∀ x, m'.cells x =
        if x = pivot then
          some { p with parent := n.parent, size := n.size, right := some node }
        else if x = node then
          some { n with size := s, left := p.right, parent := some pivot }
        else if n.parent = some x then
          (m.cells x).map fun gc =>
            if gc.left = some node then { gc with left := some pivot }
            else { gc with right := some pivot }
        else if p.right = some x then
          (m.cells x).map fun bc => { bc with parent := some node }
        else m.cells x := by
  obtain ⟨depth, hdep⟩ := hd
  obtain ⟨p, hp, hpp⟩ := hl.left_parent node n pivot hn hr
  have d1 : depth pivot = depth node + 1 := hdep node n pivot hn (Or.inl hr)
  have hne : pivot ≠ node := by intro h; rw [h] at d1; omega
  have hne' : node ≠ pivot := fun h => hne h.symm
  -- facts on the parent of the node and the inner child of the pivot
  have hg : ∀ g, n.parent = some g →
      ∃ gc, m.cells g = some gc ∧ depth node = depth g + 1 := by
    intro g hg
    obtain ⟨gc, hgc, hside⟩ := hl.parent_child node n g hn hg
    exact ⟨gc, hgc, hdep g gc node hgc hside⟩
  have hb : ∀ b, p.right = some b →
      ∃ bc, m.cells b = some bc ∧ depth b = depth pivot + 1 := by
    intro b hb
    obtain ⟨bc, hbc, _⟩ := hl.right_parent pivot p b hp hb
    exact ⟨bc, hbc, hdep pivot p b hp (Or.inr hb)⟩
  have ha : ∀ a, n.right = some a → ∃ ac, m.cells a = some ac ∧ a ≠ pivot := by
    intro a ha
    obtain ⟨ac, hac, _⟩ := hl.right_parent node n a hn ha
    refine ⟨ac, hac, ?_⟩
    intro h
    exact hl.distinct_flip node n a hn ha (by rw [hr, h])
  have hgp : n.parent ≠ some pivot := by
    intro h; obtain ⟨_, _, h'⟩ := hg pivot h; omega
  have hgn : n.parent ≠ some node := by
    intro h; obtain ⟨_, _, h'⟩ := hg node h; omega
  have hbp : p.right ≠ some pivot := by
    intro h; obtain ⟨_, _, h'⟩ := hb pivot h; omega
  have hbn : p.right ≠ some node := by
    intro h; obtain ⟨_, _, h'⟩ := hb node h; omega
  have hgb : ∀ x, n.parent = some x → p.right ≠ some x := by
    intro x h1 h2
    obtain ⟨_, _, h'⟩ := hg x h1
    obtain ⟨_, _, h''⟩ := hb x h2
    omega
  -- `pivot->parent = node->parent;`
  obtain ⟨m1, e1, r1, c1⟩ := setParent_spec m pivot n.parent p hp
  have e1' : copyParent m node pivot = some m1 := by simp [copyParent, hn, e1]
  -- `pivot->size = node->size;`
  have hn1 : m1.cells node = some n := by simp [c1, hne', hn]
  have hp1 : m1.cells pivot = some { p with parent := n.parent } := by simp [c1]
  obtain ⟨m2, e2, r2, c2⟩ := setSize_spec m1 pivot n.size _ hp1
  have e2' : copySize m1 node pivot = some m2 := by simp [copySize, hn1, e2]
  -- `node->size = node->RightSize() + pivot->RightSize() + 1;`
  have hn2 : m2.cells node = some n := by simp [c2, hne', hn1]
  have hp2 : m2.cells pivot = some { p with parent := n.parent, size := n.size } := by
    simp [c2]
  obtain ⟨sa, hsa⟩ := RightSizePtr_spec m2 n (by
    intro y hy
    obtain ⟨ac, hac, hne⟩ := ha y hy
    exact ⟨ac, by simp [c2, c1, hne, hac]⟩)
  obtain ⟨sb, hsb⟩ := RightSizePtr_spec m2 { p with parent := n.parent, size := n.size } (by
    intro y hy
    obtain ⟨bc, hbc, _⟩ := hb y hy
    have : y ≠ pivot := by intro h; rw [h] at hy; exact hbp hy
    exact ⟨bc, by simp [c2, c1, this, hbc]⟩)
  obtain ⟨m3, e3, r3, c3⟩ := setSize_spec m2 node (sa + sb + 1) n hn2
  have e3' : resizeRight m2 node pivot = some m3 := by
    simp [resizeRight, hn2, hp2, hsa, hsb, e3]
  -- `if (!node->isRoot()) { ... } else { root = pivot; }`
  have hn3 : m3.cells node = some { n with size := sa + sb + 1 } := by simp [c3]
  obtain ⟨m4, e4, r4, c4⟩ := relinkParent_spec m3 node pivot _ hn3 (by
      intro g hg'
      obtain ⟨gc, hgc, _⟩ := hg g hg'
      have h1 : g ≠ node := by intro h; rw [h] at hg'; exact hgn hg'
      have h2 : g ≠ pivot := by intro h; rw [h] at hg'; exact hgp hg'
      exact ⟨gc, by simp [c3, c2, c1, h1, h2, hgc]⟩)
  -- `node->left = pivot->right; if (pivot->hasRightChild()) { pivot->right->parent = node; }`
  have hp4 : m4.cells pivot = some { p with parent := n.parent, size := n.size } := by
    simp [c4, c3, hgp, hne, hp2]
  have hn4 : m4.cells node = some { n with size := sa + sb + 1 } := by
    simp [c4, hgn, hn3]
  obtain ⟨m5, e5, r5, c5⟩ := setLeft_spec m4 node p.right _ hn4
  have hp5 : m5.cells pivot = some { p with parent := n.parent, size := n.size } := by
    simp [c5, hne, hp4]
  obtain ⟨m6, e6, r6, c6⟩ := adoptChild_spec m5 p.right node (by
      intro b hb'
      obtain ⟨bc, hbc, _⟩ := hb b hb'
      have h1 : b ≠ node := by intro h; rw [h] at hb'; exact hbn hb'
      have h2 : b ≠ pivot := by intro h; rw [h] at hb'; exact hbp hb'
      have h3 : n.parent ≠ some b := fun h => hgb b h hb'
      exact ⟨bc, by simp [c5, c4, c3, c2, c1, h1, h2, h3, hbc]⟩)
  have e56 : moveInnerRight m4 node pivot = some m6 := by
    simp [moveInnerRight, hp4, e5, hp5, e6]
  -- `node->parent = pivot;`
  have hn6 : m6.cells node = some { n with size := sa + sb + 1, left := p.right } := by
    simp [c6, hbn, c5]
  obtain ⟨m7, e7, r7, c7⟩ := setParent_spec m6 node (some pivot) _ hn6
  -- `pivot->right = node;`
  have hp7 : m7.cells pivot = some { p with parent := n.parent, size := n.size } := by
    simp [c7, c6, hne, hbp, hp5]
  obtain ⟨m8, e8, r8, c8⟩ := setRight_spec m7 pivot (some node) _ hp7
  refine ⟨p, sa + sb + 1, m8, hp, ?_, ?_, ?_⟩
  · simp [RotateRightPtr, RotateRightSteps, hn, hr, e1', e2', e3', e4, e56, e7, e8]
  · rw [r8, r7, r6, r5, r4, r3, r2, r1]
  · intro x
    by_cases hxp : x = pivot
    · simp [c8, hxp]
    by_cases hxn : x = node
    · simp [c8, c7, hxp, hxn, hne']
    by_cases hxg : n.parent = some x
    · have hxb : p.right ≠ some x := hgb x hxg
      simp [c8, c7, c6, c5, c4, c3, c2, c1, hxp, hxn, hxg, hxb]
    by_cases hxb : p.right = some x
    · simp [c8, c7, c6, c5, c4, c3, c2, c1, hxp, hxn, hxg, hxb]
    · simp [c8, c7, c6, c5, c4, c3, c2, c1, hxp, hxn, hxg, hxb]

/-- The effect of `RotateRight(node)` on a consistently linked tree: the call returns, and
the new memory is described cell by cell. -/
theorem RotateRightPtr_view (m : Mem K T) (node pivot : Nat) (n : Cell K T)
    (hl : Linked m) (hd : Downward m) (hn : m.cells node = some n)
    (hr : n.left = some pivot) :
    ∃ p s m', m.cells pivot = some p ∧ RotateRightPtr m node = some m' ∧
      m'.root = (if n.parent = none then some pivot else m.root) ∧
      m'.cells pivot =
        some { p with parent := n.parent, size := n.size, right := some node } ∧
      m'.cells node = some { n with size := s, left := p.right, parent := some pivot } ∧
      (∀ x, x ≠ pivot → x ≠ node → m.cells x = none → m'.cells x = none) ∧
      ∀ x c, x ≠ pivot → x ≠ node → m.cells x = some c →
        ∃ c', m'.cells x = some c' ∧ c'.key = c.key ∧ c'.data = c.data ∧
          c'.color = c.color ∧ c'.size = c.size ∧
          c'.left = relink node pivot c.left ∧ c'.right = relink node pivot c.right ∧
          c'.parent = (if p.right = some x then some node else c.parent) := by
  obtain ⟨p, s, m', hp, hrot, hroot, hcells⟩ := RotateRightPtr_cells m node pivot n hl hd hn hr
  refine ⟨p, s, m', hp, hrot, hroot, by simp [hcells], ?_, ?_, ?_⟩
  · obtain ⟨depth, hdep⟩ := hd
    have d1 : depth pivot = depth node + 1 := hdep node n pivot hn (Or.inl hr)
    have hne : node ≠ pivot := by intro h; rw [h] at d1; omega
    simp [hcells, hne]
  · intro x hxp hxn hx
    simp [hcells, hxp, hxn, hx]
  · intro x c hxp hxn hx
    by_cases hxg : n.parent = some x
    · obtain ⟨depth, hdep⟩ := hd
      have hxb : p.right ≠ some x := by
        intro hb
        have := hdep pivot p x hp (Or.inr hb)
        have := hdep node n pivot hn (Or.inl hr)
        obtain ⟨gc, hgc, hside⟩ := hl.parent_child node n x hn hxg
        have := hdep x gc node hgc hside
        omega
      obtain ⟨gc, hgc, hside⟩ := hl.parent_child node n x hn hxg
      have hcg : c = gc := by rw [hx] at hgc; exact Option.some.inj hgc
      subst hcg
      by_cases hgl : c.left = some node
      · have hgr : c.right ≠ some node := hl.distinct x c node hx hgl
        exact ⟨_, by simp [hcells, hxp, hxn, hxg, hx, hgl]; rfl, by simp [relink, *]⟩
      · have hgr : c.right = some node := by
          cases hside with
          | inl h => exact absurd h hgl
          | inr h => exact h
        exact ⟨_, by simp [hcells, hxp, hxn, hxg, hx, hgl]; rfl, by simp [relink, *]⟩
    · have hright : c.right ≠ some node := by
        intro h
        obtain ⟨cy, hcy, hpar⟩ := hl.right_parent x c node hx h
        rw [hn] at hcy
        cases hcy
        exact hxg hpar
      have hleft : c.left ≠ some node := by
        intro h
        obtain ⟨cy, hcy, hpar⟩ := hl.left_parent x c node hx h
        rw [hn] at hcy
        cases hcy
        exact hxg hpar
      by_cases hxb : p.right = some x
      · exact ⟨_, by simp [hcells, hxp, hxn, hxg, hx, hxb]; rfl, by simp [relink, *]⟩
      · exact ⟨_, by simp [hcells, hxp, hxn, hxg, hx, hxb]; rfl, by simp [relink, *]⟩

/-- The links stay consistent under `RotateRight(node)`. -/
theorem RotateRightPtr_linked (m : Mem K T) (node pivot : Nat) (n : Cell K T)
    (hl : Linked m) (hd : Downward m) (hn : m.cells node = some n)
    (hr : n.left = some pivot) :
    ∃ m', RotateRightPtr m node = some m' ∧ Linked m' := by
  obtain ⟨p, s, m', hp, hrot, hroot, hP, hN, hnone, hV⟩ :=
    RotateRightPtr_view m node pivot n hl hd hn hr
  refine ⟨m', hrot, ?_⟩
  obtain ⟨depth, hdep⟩ := hd
  obtain ⟨p0, hp0, hpp⟩ := hl.left_parent node n pivot hn hr
  rw [hp] at hp0
  cases hp0
  have d1 : depth pivot = depth node + 1 := hdep node n pivot hn (Or.inl hr)
  have hne : pivot ≠ node := by intro h; rw [h] at d1; omega
  -- every cell of the new memory comes from a cell of the old one
  have hback : ∀ x c', m'.cells x = some c' → ∃ c, m.cells x = some c := by
    intro x c' hc'
    by_cases hxp : x = pivot
    · exact ⟨p, hxp ▸ hp⟩
    by_cases hxn : x = node
    · exact ⟨n, hxn ▸ hn⟩
    cases hx : m.cells x with
    | none => rw [hnone x hxp hxn hx] at hc'; cases hc'
    | some c => exact ⟨c, rfl⟩
  -- a node outside the rotation that is not the inner child keeps its parent
  have hkeep : ∀ y cy, y ≠ pivot → y ≠ node → m.cells y = some cy →
      p.right ≠ some y →
      ∃ cy', m'.cells y = some cy' ∧ cy'.parent = cy.parent := by
    intro y cy hyp hyn hcy hb
    obtain ⟨cy', hcy', _, _, _, _, _, _, hpar⟩ := hV y cy hyp hyn hcy
    exact ⟨cy', hcy', by rw [hpar, if_neg hb]⟩
  -- the pivot is listed by the node only
  have honly : ∀ x c, m.cells x = some c → (c.left = some pivot ∨ c.right = some pivot) →
      x = node := by
    intro x c hc h
    have : ∃ cy, m.cells pivot = some cy ∧ cy.parent = some x := by
      cases h with
      | inr h => exact hl.right_parent x c pivot hc h
      | inl h => exact hl.left_parent x c pivot hc h
    obtain ⟨cy, hcy, hpar⟩ := this
    rw [hp] at hcy
    cases hcy
    rw [hpp] at hpar
    cases hpar
    rfl
  -- the inner child is listed by the pivot only
  have hinner : ∀ x c y, m.cells x = some c → (c.left = some y ∨ c.right = some y) →
      p.right = some y → x = pivot := by
    intro x c y hc h hb
    have h1 : ∃ cy, m.cells y = some cy ∧ cy.parent = some x := by
      cases h with
      | inr h => exact hl.right_parent x c y hc h
      | inl h => exact hl.left_parent x c y hc h
    obtain ⟨cy, hcy, hpar⟩ := h1
    obtain ⟨cy2, hcy2, hpar2⟩ := hl.right_parent pivot p y hp hb
    rw [hcy] at hcy2
    cases hcy2
    rw [hpar] at hpar2
    cases hpar2
    rfl
  -- the child links of the nodes outside the rotation
  have hchild : ∀ x c y cy, x ≠ pivot → x ≠ node → m.cells x = some c →
      (c.left = some y ∨ c.right = some y) → m.cells y = some cy → cy.parent = some x →
      ∃ cy', m'.cells (if y = node then pivot else y) = some cy' ∧ cy'.parent = some x := by
    intro x c y cy hxp hxn hc h hcy hpar
    by_cases hyn : y = node
    · subst hyn
      rw [hn] at hcy
      cases hcy
      rw [if_pos rfl]
      exact ⟨_, hP, hpar⟩
    · rw [if_neg hyn]
      have hyp : y ≠ pivot := by
        intro h'; subst h'; exact hxn (honly x c hc h)
      have hb : p.right ≠ some y := fun hb => hxp (hinner x c y hc h hb)
      obtain ⟨cy', hcy', hpar'⟩ := hkeep y cy hyp hyn hcy hb
      exact ⟨cy', hcy', by rw [hpar', hpar]⟩
  have hrel : ∀ q y, relink node pivot q = some y →
      ∃ y0, q = some y0 ∧ y = (if y0 = node then pivot else y0) := by
    intro q y h
    unfold relink at h
    by_cases hq : q = some node
    · rw [if_pos hq] at h
      cases h
      exact ⟨node, hq, by simp⟩
    · rw [if_neg hq] at h
      refine ⟨y, h, ?_⟩
      rw [if_neg]
      intro h'; subst h'; exact hq h
  constructor
  case right_parent =>
    intro x c' y hc' hy
    by_cases hxp : x = pivot
    · subst hxp
      rw [hP] at hc'
      cases hc'
      cases hy
      exact ⟨_, hN, rfl⟩
    by_cases hxn : x = node
    · subst hxn
      rw [hN] at hc'
      cases hc'
      obtain ⟨cy, hcy, hcyp⟩ := hl.right_parent x n y hn hy
      have dy := hdep x n y hn (Or.inr hy)
      have hyp : y ≠ pivot := by
        intro h; exact hl.distinct_flip x n y hn hy (by rw [hr, h])
      have hyn : y ≠ x := by intro h; rw [h] at dy; omega
      have hb : p.right ≠ some y := by
        intro hb
        have := hdep pivot p y hp (Or.inr hb)
        omega
      obtain ⟨cy', hcy', hpar⟩ := hkeep y cy hyp hyn hcy hb
      exact ⟨cy', hcy', by rw [hpar, hcyp]⟩
    obtain ⟨c, hc⟩ := hback x c' hc'
    obtain ⟨c'', hc'', _, _, _, _, _, hright, _⟩ := hV x c hxp hxn hc
    rw [hc'] at hc''
    cases hc''
    rw [hright] at hy
    obtain ⟨y0, hy0, rfl⟩ := hrel _ _ hy
    obtain ⟨cy, hcy, hpar⟩ := hl.right_parent x c y0 hc hy0
    exact hchild x c y0 cy hxp hxn hc (Or.inr hy0) hcy hpar
  case left_parent =>
    intro x c' y hc' hy
    by_cases hxp : x = pivot
    · subst hxp
      rw [hP] at hc'
      cases hc'
      obtain ⟨cy, hcy, hcyp⟩ := hl.left_parent x p y hp hy
      have dy := hdep x p y hp (Or.inl hy)
      have hyp : y ≠ x := by intro h; rw [h] at dy; omega
      have hyn : y ≠ node := by intro h; rw [h] at dy; omega
      have hb : p.right ≠ some y := fun hb => hl.distinct_flip x p y hp hb hy
      obtain ⟨cy', hcy', hpar⟩ := hkeep y cy hyp hyn hcy hb
      exact ⟨cy', hcy', by rw [hpar, hcyp]⟩
    by_cases hxn : x = node
    · subst hxn
      rw [hN] at hc'
      cases hc'
      obtain ⟨cy, hcy, hcyp⟩ := hl.right_parent pivot p y hp hy
      have dy := hdep pivot p y hp (Or.inr hy)
      have hyp : y ≠ pivot := by intro h; rw [h] at dy; omega
      have hyn : y ≠ x := by intro h; rw [h] at dy; omega
      obtain ⟨cy', hcy', _, _, _, _, _, _, hpar⟩ := hV y cy hyp hyn hcy
      exact ⟨cy', hcy', by rw [hpar, if_pos hy]⟩
    obtain ⟨c, hc⟩ := hback x c' hc'
    obtain ⟨c'', hc'', _, _, _, _, hleft, _, _⟩ := hV x c hxp hxn hc
    rw [hc'] at hc''
    cases hc''
    rw [hleft] at hy
    obtain ⟨y0, hy0, rfl⟩ := hrel _ _ hy
    obtain ⟨cy, hcy, hpar⟩ := hl.left_parent x c y0 hc hy0
    exact hchild x c y0 cy hxp hxn hc (Or.inl hy0) hcy hpar
  case parent_child =>
    intro y cy' x hcy' hpar'
    by_cases hyp : y = pivot
    · subst hyp
      rw [hP] at hcy'
      cases hcy'
      have hg : n.parent = some x := hpar'
      obtain ⟨gc, hgc, hside⟩ := hl.parent_child node n x hn hg
      have dg := hdep x gc node hgc hside
      have hxp : x ≠ y := by intro h; rw [h] at dg; omega
      have hxn : x ≠ node := by intro h; rw [h] at dg; omega
      obtain ⟨gc', hgc', _, _, _, _, hleft, hright, _⟩ := hV x gc hxp hxn hgc
      refine ⟨gc', hgc', ?_⟩
      cases hside with
      | inr h => right; rw [hright, h]; simp [relink]
      | inl h => left; rw [hleft, h]; simp [relink]
    by_cases hyn : y = node
    · subst hyn
      rw [hN] at hcy'
      cases hcy'
      cases hpar'
      exact ⟨_, hP, Or.inr rfl⟩
    obtain ⟨cy, hcy⟩ := hback y cy' hcy'
    obtain ⟨cy'', hcy'', _, _, _, _, _, _, hpar⟩ := hV y cy hyp hyn hcy
    rw [hcy'] at hcy''
    cases hcy''
    rw [hpar] at hpar'
    by_cases hb : p.right = some y
    · rw [if_pos hb] at hpar'
      cases hpar'
      exact ⟨_, hN, Or.inl hb⟩
    rw [if_neg hb] at hpar'
    obtain ⟨c, hc, hside⟩ := hl.parent_child y cy x hcy hpar'
    by_cases hxp : x = pivot
    · subst hxp
      rw [hp] at hc
      cases hc
      refine ⟨_, hP, Or.inl ?_⟩
      cases hside with
      | inr h => exact absurd h hb
      | inl h => exact h
    by_cases hxn : x = node
    · subst hxn
      rw [hn] at hc
      cases hc
      refine ⟨_, hN, Or.inr ?_⟩
      cases hside with
      | inr h => exact h
      | inl h => rw [hr] at h; cases h; exact absurd rfl hyp
    obtain ⟨c', hc', _, _, _, _, hleft, hright, _⟩ := hV x c hxp hxn hc
    refine ⟨c', hc', ?_⟩
    cases hside with
    | inr h => right; rw [hright, h]; simp [relink, hyn]
    | inl h => left; rw [hleft, h]; simp [relink, hyn]
  case distinct =>
    intro x c' y hc' hy2 hy
    by_cases hxp : x = pivot
    · subst hxp
      rw [hP] at hc'
      cases hc'
      have hy' : node = y := Option.some.inj hy
      have := hdep x p y hp (Or.inl hy2)
      rw [← hy'] at this
      omega
    by_cases hxn : x = node
    · subst hxn
      rw [hN] at hc'
      cases hc'
      have := hdep x n y hn (Or.inr hy)
      have := hdep pivot p y hp (Or.inr hy2)
      omega
    obtain ⟨c, hc⟩ := hback x c' hc'
    obtain ⟨c'', hc'', _, _, _, _, hleft, hright, _⟩ := hV x c hxp hxn hc
    rw [hc'] at hc''
    cases hc''
    rw [hright] at hy
    rw [hleft] at hy2
    obtain ⟨y1, hy1, e1⟩ := hrel _ _ hy
    obtain ⟨y2, hy2', e2⟩ := hrel _ _ hy2
    have hy1p : y1 ≠ pivot := by
      intro h; rw [h] at hy1; exact hxn (honly x c hc (Or.inr hy1))
    have hy2p : y2 ≠ pivot := by
      intro h; rw [h] at hy2'; exact hxn (honly x c hc (Or.inl hy2'))
    have : y1 = y2 := by
      by_cases h1 : y1 = node <;> by_cases h2 : y2 = node
      · rw [h1, h2]
      · rw [if_pos h1] at e1; rw [if_neg h2] at e2; rw [e1] at e2; exact absurd e2.symm hy2p
      · rw [if_neg h1] at e1; rw [if_pos h2] at e2; rw [e1] at e2; exact absurd e2 hy1p
      · rw [if_neg h1] at e1; rw [if_neg h2] at e2; rw [← e1, ← e2]
    rw [← this] at hy2'
    exact hl.distinct_flip x c y1 hc hy1 hy2'
  case root_parent =>
    intro r hr'
    rw [hroot] at hr'
    by_cases hpar : n.parent = none
    · rw [if_pos hpar] at hr'
      cases hr'
      exact ⟨_, hP, hpar⟩
    rw [if_neg hpar] at hr'
    obtain ⟨rc, hrc, hrp⟩ := hl.root_parent r hr'
    have hrp' : r ≠ pivot := by
      intro h; rw [h, hp] at hrc; cases hrc; rw [hpp] at hrp; cases hrp
    have hrn : r ≠ node := by
      intro h; rw [h, hn] at hrc; cases hrc; exact hpar hrp
    have hb : p.right ≠ some r := by
      intro hb
      obtain ⟨cy, hcy, hcyp⟩ := hl.right_parent pivot p r hp hb
      rw [hrc] at hcy
      cases hcy
      rw [hrp] at hcyp
      cases hcyp
    obtain ⟨rc', hrc', hpar'⟩ := hkeep r rc hrp' hrn hrc hb
    exact ⟨rc', hrc', by rw [hpar', hrp]⟩
  case orphan_root =>
    intro x c' hc' hpar'
    rw [hroot]
    by_cases hxp : x = pivot
    · subst hxp
      rw [hP] at hc'
      cases hc'
      rw [if_pos hpar']
    by_cases hxn : x = node
    · subst hxn
      rw [hN] at hc'
      cases hc'
      cases hpar'
    obtain ⟨c, hc⟩ := hback x c' hc'
    obtain ⟨c'', hc'', _, _, _, _, _, _, hpar⟩ := hV x c hxp hxn hc
    rw [hc'] at hc''
    cases hc''
    rw [hpar] at hpar'
    by_cases hb : p.right = some x
    · rw [if_pos hb] at hpar'; cases hpar'
    rw [if_neg hb] at hpar'
    have hroot0 := hl.orphan_root x c hc hpar'
    rw [if_neg]
    · exact hroot0
    · intro hnp
      have := hl.orphan_root node n hn hnp
      rw [hroot0] at this
      cases this
      exact hxn rfl

/-- The in-order sequence of the tree is the same after `RotateRight(node)`. -/
theorem RotateRightPtr_inorder (m m' : Mem K T) (node pivot : Nat) (n : Cell K T)
    (hl : Linked m) (hd : Downward m) (hn : m.cells node = some n)
    (hr : n.left = some pivot) (hrot' : RotateRightPtr m node = some m')
    (xs : List (K × T)) (hxs : InOrderPtr m m.root xs) : InOrderPtr m' m'.root xs := by
  obtain ⟨p, s, m'', hp, hrot, hroot, hP, hN, hnone, hV⟩ :=
    RotateRightPtr_view m node pivot n hl hd hn hr
  rw [hrot'] at hrot
  cases hrot
  obtain ⟨depth, hdep⟩ := hd
  obtain ⟨p0, hp0, hpp⟩ := hl.left_parent node n pivot hn hr
  rw [hp] at hp0
  cases hp0
  have d1 : depth pivot = depth node + 1 := hdep node n pivot hn (Or.inl hr)
  have hne : pivot ≠ node := by intro h; rw [h] at d1; omega
  have honly : ∀ x c, m.cells x = some c → (c.left = some pivot ∨ c.right = some pivot) →
      x = node := by
    intro x c hc h
    have : ∃ cy, m.cells pivot = some cy ∧ cy.parent = some x := by
      cases h with
      | inl h => exact hl.left_parent x c pivot hc h
      | inr h => exact hl.right_parent x c pivot hc h
    obtain ⟨cy, hcy, hpar⟩ := this
    rw [hp] at hcy
    cases hcy
    rw [hpp] at hpar
    cases hpar
    rfl
  have main : ∀ r ys, InOrderPtr m r ys →
      (r ≠ some pivot → InOrderPtr m' (relink node pivot r) ys) ∧
      (r = some pivot → ∃ B R, ys = B ++ (p.key, p.data) :: R ∧
        InOrderPtr m' p.left B ∧ InOrderPtr m' p.right R) := by
    intro r ys h
    induction h with
    | null => exact ⟨fun _ => InOrderPtr.null, fun h => by cases h⟩
    | node a c us vs hc hlt hrt ihl ihr =>
      by_cases hap : a = pivot
      · subst hap
        rw [hp] at hc
        cases hc
        refine ⟨fun h => absurd rfl h, fun _ => ⟨us, vs, rfl, ?_, ?_⟩⟩
        · have h1 : p.left ≠ some a := by
            intro h; have := hdep a p a hp (Or.inl h); omega
          have h2 : p.left ≠ some node := by
            intro h; have := hdep a p node hp (Or.inl h); omega
          have := ihl.1 h1
          rwa [relink, if_neg h2] at this
        · have h1 : p.right ≠ some a := by
            intro h; have := hdep a p a hp (Or.inr h); omega
          have h2 : p.right ≠ some node := by
            intro h; have := hdep a p node hp (Or.inr h); omega
          have := ihr.1 h1
          rwa [relink, if_neg h2] at this
      by_cases han : a = node
      · subst han
        rw [hn] at hc
        cases hc
        refine ⟨fun _ => ?_, fun h => absurd (Option.some.inj h) hap⟩
        obtain ⟨B, R, rfl, hB, hR⟩ := ihl.2 hr
        have h1 : n.right ≠ some pivot := fun h => hl.distinct a n pivot hn hr h
        have h2 : n.right ≠ some a := by
          intro h; have := hdep a n a hn (Or.inr h); omega
        have hA := ihr.1 h1
        rw [relink, if_neg h2] at hA
        have hnode := InOrderPtr.node a _ R vs hN hR hA
        have hpivot := InOrderPtr.node pivot _ B _ hP hB hnode
        simp only [relink, if_true]
        simpa using hpivot
      · refine ⟨fun _ => ?_, fun h => absurd (Option.some.inj h) hap⟩
        obtain ⟨c', hc', hkey, hdata, _, _, hleft, hright, _⟩ := hV a c hap han hc
        have h1 : c.left ≠ some pivot := fun h => han (honly a c hc (Or.inl h))
        have h2 : c.right ≠ some pivot := fun h => han (honly a c hc (Or.inr h))
        have hA := ihl.1 h1
        have hB := ihr.1 h2
        rw [← hleft] at hA
        rw [← hright] at hB
        have := InOrderPtr.node a c' us vs hc' hA hB
        rw [hkey, hdata] at this
        have e : relink node pivot (some a) = some a := by
          unfold relink
          rw [if_neg]
          intro h; exact han (Option.some.inj h)
        rw [e]
        exact this
  have hrp : m.root ≠ some pivot := by
    intro h
    obtain ⟨rc, hrc, hrp⟩ := hl.root_parent pivot h
    rw [hp] at hrc
    cases hrc
    rw [hpp] at hrp
    cases hrp
  have := (main m.root xs hxs).1 hrp
  rw [hroot]
  by_cases hpar : n.parent = none
  · rw [if_pos hpar]
    have hroot0 := hl.orphan_root node n hn hpar
    rw [hroot0] at this
    simpa [relink] using this
  · rw [if_neg hpar]
    have e : relink node pivot m.root = m.root := by
      unfold relink
      rw [if_neg]
      intro h
      obtain ⟨rc, hrc, hrp⟩ := hl.root_parent node h
      rw [hn] at hrc
      cases hrc
      exact hpar hrp
    rwa [e] at this

theorem KeepsNodes_refl (m : Mem K T) (a b : Nat) : KeepsNodes m m a b :=
  fun _ => ⟨rfl, rfl, rfl, fun _ _ => rfl⟩

theorem KeepsNodes_trans {m1 m2 m3 : Mem K T} {a b : Nat} (h1 : KeepsNodes m1 m2 a b)
    (h2 : KeepsNodes m2 m3 a b) : KeepsNodes m1 m3 a b := by
  intro x
  obtain ⟨k1, d1, c1, s1⟩ := h1 x
  obtain ⟨k2, d2, c2, s2⟩ := h2 x
  exact ⟨k2.trans k1, d2.trans d1, c2.trans c1, fun ha hb => (s2 ha hb).trans (s1 ha hb)⟩

theorem write_keeps (m : Mem K T) (x : Nat) (c c' : Cell K T) (a b : Nat)
    (hc : m.cells x = some c) (hk : c'.key = c.key) (hd : c'.data = c.data)
    (hcol : c'.color = c.color) (hs : x ≠ a → x ≠ b → c'.size = c.size) :
    KeepsNodes m (m.write x c') a b := by
  intro y
  by_cases hy : y = x
  · subst hy
    simp [hc, hk, hd, hcol]
    exact hs
  · simp [hy]

theorem setParent_keeps (m m' : Mem K T) (x : Nat) (q : Option Nat) (a b : Nat)
    (h : setParent m x q = some m') : KeepsNodes m m' a b := by
  unfold setParent at h
  cases hc : m.cells x with
  | none => rw [hc] at h; cases h
  | some c =>
    rw [hc] at h
    cases h
    exact write_keeps m x c _ a b hc rfl rfl rfl (fun _ _ => rfl)

theorem setLeft_keeps (m m' : Mem K T) (x : Nat) (q : Option Nat) (a b : Nat)
    (h : setLeft m x q = some m') : KeepsNodes m m' a b := by
  unfold setLeft at h
  cases hc : m.cells x with
  | none => rw [hc] at h; cases h
  | some c =>
    rw [hc] at h
    cases h
    exact write_keeps m x c _ a b hc rfl rfl rfl (fun _ _ => rfl)

theorem setRight_keeps (m m' : Mem K T) (x : Nat) (q : Option Nat) (a b : Nat)
    (h : setRight m x q = some m') : KeepsNodes m m' a b := by
  unfold setRight at h
  cases hc : m.cells x with
  | none => rw [hc] at h; cases h
  | some c =>
    rw [hc] at h
    cases h
    exact write_keeps m x c _ a b hc rfl rfl rfl (fun _ _ => rfl)

theorem setSize_keeps_left (m m' : Mem K T) (x : Nat) (s : Nat) (b : Nat)
    (h : setSize m x s = some m') : KeepsNodes m m' x b := by
  unfold setSize at h
  cases hc : m.cells x with
  | none => rw [hc] at h; cases h
  | some c =>
    rw [hc] at h
    cases h
    exact write_keeps m x c _ x b hc rfl rfl rfl (fun h _ => absurd rfl h)

theorem setSize_keeps_right (m m' : Mem K T) (x : Nat) (s : Nat) (a : Nat)
    (h : setSize m x s = some m') : KeepsNodes m m' a x := by
  unfold setSize at h
  cases hc : m.cells x with
  | none => rw [hc] at h; cases h
  | some c =>
    rw [hc] at h
    cases h
    exact write_keeps m x c _ a x hc rfl rfl rfl (fun _ h => absurd rfl h)

theorem relinkParent_keeps (m m' : Mem K T) (node pivot a b : Nat)
    (h : relinkParent m node pivot = some m') : KeepsNodes m m' a b := by
  unfold relinkParent at h
  split at h
  · cases h
  · split at h
    · split at h
      · cases h
      · split at h
        · exact setLeft_keeps _ _ _ _ a b h
        · exact setRight_keeps _ _ _ _ a b h
    · cases h
      exact fun _ => ⟨rfl, rfl, rfl, fun _ _ => rfl⟩

theorem adoptChild_keeps (m m' : Mem K T) (q : Option Nat) (node a b : Nat)
    (h : adoptChild m q node = some m') : KeepsNodes m m' a b := by
  unfold adoptChild at h
  split at h
  · exact setParent_keeps _ _ _ _ a b h
  · cases h
    exact KeepsNodes_refl _ a b

theorem moveInnerLeft_keeps (m m' : Mem K T) (node pivot a b : Nat)
    (h : moveInnerLeft m node pivot = some m') : KeepsNodes m m' a b := by
  unfold moveInnerLeft at h
  split at h
  · simp only [Option.bind_eq_some] at h
    obtain ⟨m1, h1, h2⟩ := h
    split at h2
    · exact KeepsNodes_trans (setRight_keeps _ _ _ _ a b h1) (adoptChild_keeps _ _ _ _ a b h2)
    · cases h2
  · cases h

theorem moveInnerRight_keeps (m m' : Mem K T) (node pivot a b : Nat)
    (h : moveInnerRight m node pivot = some m') : KeepsNodes m m' a b := by
  unfold moveInnerRight at h
  split at h
  · simp only [Option.bind_eq_some] at h
    obtain ⟨m1, h1, h2⟩ := h
    split at h2
    · exact KeepsNodes_trans (setLeft_keeps _ _ _ _ a b h1) (adoptChild_keeps _ _ _ _ a b h2)
    · cases h2
  · cases h

theorem copyParent_keeps (m m' : Mem K T) (node pivot a b : Nat)
    (h : copyParent m node pivot = some m') : KeepsNodes m m' a b := by
  unfold copyParent at h
  split at h
  · exact setParent_keeps _ _ _ _ a b h
  · cases h

theorem copySize_keeps (m m' : Mem K T) (node pivot a : Nat)
    (h : copySize m node pivot = some m') : KeepsNodes m m' a pivot := by
  unfold copySize at h
  split at h
  · exact setSize_keeps_right _ _ _ _ a h
  · cases h

theorem resizeLeft_keeps (m m' : Mem K T) (node pivot b : Nat)
    (h : resizeLeft m node pivot = some m') : KeepsNodes m m' node b := by
  unfold resizeLeft at h
  split at h
  · split at h
    · exact setSize_keeps_left _ _ _ _ b h
    · cases h
  · cases h

theorem resizeRight_keeps (m m' : Mem K T) (node pivot b : Nat)
    (h : resizeRight m node pivot = some m') : KeepsNodes m m' node b := by
  unfold resizeRight at h
  split at h
  · split at h
    · exact setSize_keeps_left _ _ _ _ b h
    · cases h
  · cases h

theorem RotateLeftSteps_keeps (m m' : Mem K T) (node pivot : Nat)
    (h : RotateLeftSteps m node pivot = some m') : KeepsNodes m m' node pivot := by
  unfold RotateLeftSteps at h
  simp only [Option.bind_eq_some] at h
  obtain ⟨m1, h1, m2, h2, m3, h3, m4, h4, m5, h5, m6, h6, h7⟩ := h
  exact KeepsNodes_trans (copyParent_keeps _ _ _ _ _ _ h1) <|
    KeepsNodes_trans (copySize_keeps _ _ _ _ _ h2) <|
    KeepsNodes_trans (resizeLeft_keeps _ _ _ _ _ h3) <|
    KeepsNodes_trans (relinkParent_keeps _ _ _ _ _ _ h4) <|
    KeepsNodes_trans (moveInnerLeft_keeps _ _ _ _ _ _ h5) <|
    KeepsNodes_trans (setParent_keeps _ _ _ _ _ _ h6) (setLeft_keeps _ _ _ _ _ _ h7)

theorem RotateRightSteps_keeps (m m' : Mem K T) (node pivot : Nat)
    (h : RotateRightSteps m node pivot = some m') : KeepsNodes m m' node pivot := by
  unfold RotateRightSteps at h
  simp only [Option.bind_eq_some] at h
  obtain ⟨m1, h1, m2, h2, m3, h3, m4, h4, m5, h5, m6, h6, h7⟩ := h
  exact KeepsNodes_trans (copyParent_keeps _ _ _ _ _ _ h1) <|
    KeepsNodes_trans (copySize_keeps _ _ _ _ _ h2) <|
    KeepsNodes_trans (resizeRight_keeps _ _ _ _ _ h3) <|
    KeepsNodes_trans (relinkParent_keeps _ _ _ _ _ _ h4) <|
    KeepsNodes_trans (moveInnerRight_keeps _ _ _ _ _ _ h5) <|
    KeepsNodes_trans (setParent_keeps _ _ _ _ _ _ h6) (setRight_keeps _ _ _ _ _ _ h7)

/-- C24: a rotation leaves the colour, the key and the value of every node as they were,
and the size of every node other than the rotated node and its pivot: when
`RotateLeft(node)` (pivot `node->right`) or `RotateRight(node)` (pivot `node->left`)
turns the memory `m` into `m'`, every address holds the same key, value and colour in `m'`
as in `m`, and the same size unless it is `node` or `pivot`. -/
theorem rotate_frame (m m' : Mem K T) (node pivot : Nat) (n : Cell K T)
    (hn : m.cells node = some n)
    (hrot : (n.right = some pivot ∧ RotateLeftPtr m node = some m') ∨
      (n.left = some pivot ∧ RotateRightPtr m node = some m')) :
    ∀ a, (m'.cells a).map Cell.key = (m.cells a).map Cell.key ∧
      (m'.cells a).map Cell.data = (m.cells a).map Cell.data ∧
      (m'.cells a).map Cell.color = (m.cells a).map Cell.color ∧
      (a ≠ node → a ≠ pivot → (m'.cells a).map Cell.size = (m.cells a).map Cell.size) := by
  cases hrot with
  | inl h =>
    obtain ⟨hr, h⟩ := h
    simp only [RotateLeftPtr, hn, hr] at h
    exact RotateLeftSteps_keeps m m' node pivot h
  | inr h =>
    obtain ⟨hr, h⟩ := h
    simp only [RotateRightPtr, hn, hr] at h
    exact RotateRightSteps_keeps m m' node pivot h

theorem InOrderPtr_unique (m : Mem K T) (r : Option Nat) (xs ys : List (K × T))
    (hx : InOrderPtr m r xs) (hy : InOrderPtr m r ys) : xs = ys := by
  induction hx generalizing ys with
  | null => cases hy; rfl
  | node a c us vs hc _ _ ihl ihr =>
    cases hy with
    | node _ c2 us2 vs2 hc2 hl2 hr2 =>
      rw [hc] at hc2
      cases hc2
      rw [ihl us2 hl2, ihr vs2 hr2]

theorem exampleMem_linked : Linked exampleMem := by
  constructor
  case left_parent =>
    intro x c y hc hy
    rcases x with _ | _ | _ | x <;> simp [exampleMem] at hc <;> subst hc <;>
      simp at hy <;> subst hy <;> simp [exampleMem]
  case right_parent =>
    intro x c y hc hy
    rcases x with _ | _ | _ | x <;> simp [exampleMem] at hc <;> subst hc <;>
      simp at hy <;> subst hy <;> simp [exampleMem]
  case parent_child =>
    intro y cy x hc hx
    rcases y with _ | _ | _ | y <;> simp [exampleMem] at hc <;> subst hc <;>
      simp at hx <;> subst hx <;> simp [exampleMem]
  case distinct =>
    intro x c y hc hy
    rcases x with _ | _ | _ | x <;> simp [exampleMem] at hc <;> subst hc <;>
      simp at hy ⊢ <;> omega
  case root_parent =>
    intro r hr
    simp [exampleMem] at hr
    subst hr
    simp [exampleMem]
  case orphan_root =>
    intro x c hc hp
    rcases x with _ | _ | _ | x <;> simp [exampleMem] at hc <;> subst hc <;>
      simp at hp ⊢ <;> rfl

theorem exampleMem_downward : Downward exampleMem := by
  refine ⟨fun x => if x = 0 then 0 else 1, ?_⟩
  intro x c y hc hy
  rcases x with _ | _ | _ | x <;> simp [exampleMem] at hc <;> subst hc <;>
    simp at hy <;> rcases hy with hy | hy <;> subst hy <;> simp

theorem exampleMem_inorder :
    InOrderPtr exampleMem exampleMem.root [(10, ()), (20, ()), (30, ())] :=
  InOrderPtr.node 0 exampleCell [(10, ())] [(30, ())] rfl
    (InOrderPtr.node 1 ⟨10, (), Color.RED, 1, some 0, none, none⟩ [] [] rfl
      InOrderPtr.null InOrderPtr.null)
    (InOrderPtr.node 2 ⟨30, (), Color.RED, 1, some 0, none, none⟩ [] [] rfl
      InOrderPtr.null InOrderPtr.null)

/-- C29: the rotations preserve the order and keep the links consistent.  For every
consistently linked tree in memory (a child's parent is the node that lists it, the root
has no parent, child links lead downwards) with in-order sequence `xs` and every node of
it: when the node has a right child `RotateLeft(node)` returns, and when it has a left
child `RotateRight(node)` returns; the tree they leave has the in-order sequence `xs` and
no other, and its links are consistent. -/
theorem rotate_preserves_order_and_links (m : Mem K T) (node : Nat) (n : Cell K T)
    (xs : List (K × T)) (hl : Linked m) (hd : Downward m) (hn : m.cells node = some n)
    (hxs : InOrderPtr m m.root xs) :
    (n.right ≠ none → ∃ m', RotateLeftPtr m node = some m' ∧
      (∀ ys, InOrderPtr m' m'.root ys ↔ ys = xs) ∧ Linked m') ∧
    (n.left ≠ none → ∃ m', RotateRightPtr m node = some m' ∧
      (∀ ys, InOrderPtr m' m'.root ys ↔ ys = xs) ∧ Linked m') := by
  constructor
  · intro hr
    cases hr' : n.right with
    | none => exact absurd hr' hr
    | some pivot =>
      obtain ⟨m', hrot, hl'⟩ := RotateLeftPtr_linked m node pivot n hl hd hn hr'
      have hin := RotateLeftPtr_inorder m m' node pivot n hl hd hn hr' hrot xs hxs
      exact ⟨m', hrot, fun ys => ⟨fun h => InOrderPtr_unique m' _ ys xs h hin,
        fun h => h ▸ hin⟩, hl'⟩
  · intro hr
    cases hr' : n.left with
    | none => exact absurd hr' hr
    | some pivot =>
      obtain ⟨m', hrot, hl'⟩ := RotateRightPtr_linked m node pivot n hl hd hn hr'
      have hin := RotateRightPtr_inorder m m' node pivot n hl hd hn hr' hrot xs hxs
      exact ⟨m', hrot, fun ys => ⟨fun h => InOrderPtr_unique m' _ ys xs h hin,
        fun h => h ▸ hin⟩, hl'⟩

theorem rotate_preserves_order_and_links_witness :
    (∃ m', RotateLeftPtr exampleMem 0 = some m' ∧
      (∀ ys, InOrderPtr m' m'.root ys ↔ ys = [(10, ()), (20, ()), (30, ())]) ∧ Linked m') ∧
    (∃ m', RotateRightPtr exampleMem 0 = some m' ∧
      (∀ ys, InOrderPtr m' m'.root ys ↔ ys = [(10, ()), (20, ()), (30, ())]) ∧ Linked m') :=
  have h := rotate_preserves_order_and_links exampleMem 0 exampleCell
    [(10, ()), (20, ()), (30, ())] exampleMem_linked exampleMem_downward rfl
    exampleMem_inorder
  ⟨h.1 (by simp [exampleCell]), h.2 (by simp [exampleCell])⟩

theorem rotate_frame_witness :
    ∃ m', RotateLeftPtr exampleMem 0 = some m' ∧
      ∀ a, (m'.cells a).map Cell.key = (exampleMem.cells a).map Cell.key ∧
        (m'.cells a).map Cell.data = (exampleMem.cells a).map Cell.data ∧
        (m'.cells a).map Cell.color = (exampleMem.cells a).map Cell.color ∧
        (a ≠ 0 → a ≠ 2 →
          (m'.cells a).map Cell.size = (exampleMem.cells a).map Cell.size) := by
  obtain ⟨m', h⟩ := Option.isSome_iff_exists.mp
    (rfl : (RotateLeftPtr exampleMem 0).isSome = true)
  exact ⟨m', h, rotate_frame exampleMem m' 0 2 exampleCell rfl (Or.inl ⟨rfl, h⟩)⟩

/-! ### Termination of the fix-ups -/

theorem length_le_of_sorted_gt (l : List Nat) (m : Nat) (hs : l.Sorted (· > ·))
    (hb : ∀ d ∈ l, d ≤ m) : l.length ≤ m + 1 := by
  induction l generalizing m with
  | nil => simp
  | cons a l ih =>
    have ha : a ≤ m := hb a (List.mem_cons_self _ _)
    rw [List.sorted_cons] at hs
    cases m with
    | zero =>
      cases l with
      | nil => simp
      | cons b l =>
        have := hs.1 b (List.mem_cons_self _ _)
        omega
    | succ m =>
      have := ih m hs.2 (fun d hd => by have := hs.1 d hd; omega)
      simp only [List.length_cons]
      omega

/-- The fix-up of `Insert` with its record: the result is that of the fix-up, and the
restarts are at strictly decreasing depths below the depth of the starting node. -/
theorem InsertCaseT_spec : (ctx : Ctx K T) → (n : Tree K T) →
    ((InsertCase1T ctx n).1 = InsertCase1 ctx n ∧
      ∃ later, (InsertCase1T ctx n).2 = ctx.length :: later ∧
        (ctx.length :: later).Sorted (· > ·)) ∧
    ((InsertCase2T ctx n).1 = InsertCase2 ctx n ∧ (InsertCase2T ctx n).2.Sorted (· > ·) ∧
      ∀ d ∈ (InsertCase2T ctx n).2, d < ctx.length) ∧
    ((InsertCase3T ctx n).1 = InsertCase3 ctx n ∧ (InsertCase3T ctx n).2.Sorted (· > ·) ∧
      ∀ d ∈ (InsertCase3T ctx n).2, d < ctx.length)
  | [], n => by
    refine ⟨?_, ?_, ?_⟩
    · cases n with
      | nil => exact ⟨by rw [InsertCase1T, InsertCase1], [], by simp [InsertCase1T], by simp⟩
      | node k d c s l r =>
        exact ⟨by rw [InsertCase1T, InsertCase1], [], by rw [InsertCase1T]; rfl, by simp⟩
    · rw [InsertCase2T, InsertCase2]; simp
    · simp [InsertCase3T, InsertCase3]
  | [f], n => by
    have h3 : (InsertCase3T [f] n).1 = InsertCase3 [f] n ∧
        (InsertCase3T [f] n).2.Sorted (· > ·) ∧ ∀ d ∈ (InsertCase3T [f] n).2, d < [f].length := by
      simp [InsertCase3T, InsertCase3]
    have h2 : (InsertCase2T [f] n).1 = InsertCase2 [f] n ∧
        (InsertCase2T [f] n).2.Sorted (· > ·) ∧ ∀ d ∈ (InsertCase2T [f] n).2, d < [f].length := by
      rw [InsertCase2T, InsertCase2]
      split_ifs
      · exact h3
      · simp
    refine ⟨?_, h2, h3⟩
    cases n with
    | nil => exact ⟨by rw [InsertCase1T, InsertCase1], [], by simp [InsertCase1T], by simp⟩
    | node k d c s l r =>
      rw [InsertCase1T, InsertCase1]
      refine ⟨h2.1, _, rfl, ?_⟩
      rw [List.sorted_cons]
      exact ⟨fun d hd => h2.2.2 d hd, h2.2.1⟩
  | f :: g :: rest, n => by
    have h3 : (InsertCase3T (f :: g :: rest) n).1 = InsertCase3 (f :: g :: rest) n ∧
        (InsertCase3T (f :: g :: rest) n).2.Sorted (· > ·) ∧
        ∀ d ∈ (InsertCase3T (f :: g :: rest) n).2, d < (f :: g :: rest).length := by
      obtain ⟨gl, gk, gd, gc, gs, gb⟩ := g
      cases gb with
      | nil => simp [InsertCase3T, InsertCase3]
      | node uk ud uc us ul ur =>
        cases uc with
        | BLACK => simp [InsertCase3T, InsertCase3]
        | RED =>
          obtain ⟨⟨h1, later, h2, h3⟩, _, _⟩ := InsertCaseT_spec rest
            (attach { isLeft := gl, key := gk, data := gd, color := Color.RED, size := gs,
                      brother := Tree.node uk ud Color.BLACK us ul ur }
              (attach { f with color := Color.BLACK } n))
          rw [InsertCase3T, InsertCase3]
          refine ⟨h1, by rw [h2]; exact h3, ?_⟩
          intro d hd
          rw [h2] at hd
          rw [List.sorted_cons] at h3
          rcases List.mem_cons.1 hd with hd | hd
          · simp only [List.length_cons]
            omega
          · have := h3.1 d hd
            simp only [List.length_cons]
            omega
    have h2 : (InsertCase2T (f :: g :: rest) n).1 = InsertCase2 (f :: g :: rest) n ∧
        (InsertCase2T (f :: g :: rest) n).2.Sorted (· > ·) ∧
        ∀ d ∈ (InsertCase2T (f :: g :: rest) n).2, d < (f :: g :: rest).length := by
      rw [InsertCase2T, InsertCase2]
      split_ifs
      · exact h3
      · simp
    refine ⟨?_, h2, h3⟩
    cases n with
    | nil => exact ⟨by rw [InsertCase1T, InsertCase1], [], by simp [InsertCase1T], by simp⟩
    | node k d c s l r =>
      rw [InsertCase1T, InsertCase1]
      refine ⟨h2.1, _, rfl, ?_⟩
      rw [List.sorted_cons]
      exact ⟨fun d hd => h2.2.2 d hd, h2.2.1⟩

theorem DeleteCase2Rotate_measure (f : Frame K T) (rest : Ctx K T) (n : Tree K T)
    (loc : Loc K T) (h : DeleteCase2Rotate f rest n = some loc) :
    DeleteCase3Measure loc.1 = 0 := by
  unfold DeleteCase2Rotate at h
  cases hb : f.brother with
  | nil => simp [hb, toBlack] at h
  | node bk bd bc bs bl br =>
    cases hl : f.isLeft
    · simp [hb, hl, toBlack, attach, RotateRight, goRight] at h
      subst h
      simp [DeleteCase3Measure]
    · simp [hb, hl, toBlack, attach, RotateLeft, goLeft] at h
      subst h
      simp [DeleteCase3Measure]

theorem DeleteCase3T_of_measure (ctx : Ctx K T) (n : Tree K T)
    (h : DeleteCase3Measure ctx = 0) :
    (DeleteCase3T ctx n).1 = DeleteCase3 ctx n ∧ (DeleteCase3T ctx n).2 = [] := by
  cases ctx with
  | nil => simp [DeleteCase3T, DeleteCase3]
  | cons f rest =>
    have hc : f.color ≠ Color.BLACK := by
      intro hc
      simp [DeleteCase3Measure, hc] at h
    rw [DeleteCase3T, DeleteCase3]
    simp [hc]

/-- The fix-up of `Erase` with its record: the result is that of the fix-up, and the
restarts are at strictly decreasing depths below the depth of the starting node. -/
theorem DeleteCaseT_spec (ctx : Ctx K T) : ∀ n : Tree K T,
    ((DeleteCase1T ctx n).1 = DeleteCase1 ctx n ∧
      ∃ later, (DeleteCase1T ctx n).2 = ctx.length :: later ∧
        (ctx.length :: later).Sorted (· > ·)) ∧
    ((DeleteCase2T ctx n).1 = DeleteCase2 ctx n ∧ (DeleteCase2T ctx n).2.Sorted (· > ·) ∧
      ∀ d ∈ (DeleteCase2T ctx n).2, d < ctx.length) ∧
    ((DeleteCase3T ctx n).1 = DeleteCase3 ctx n ∧ (DeleteCase3T ctx n).2.Sorted (· > ·) ∧
      ∀ d ∈ (DeleteCase3T ctx n).2, d < ctx.length) := by
  induction ctx with
  | nil =>
    intro n
    refine ⟨?_, ?_, ?_⟩
    · cases n with
      | nil => exact ⟨by rw [DeleteCase1T, DeleteCase1], [], by simp [DeleteCase1T], by simp⟩
      | node k d c s l r =>
        exact ⟨by rw [DeleteCase1T, DeleteCase1], [], by rw [DeleteCase1T]; rfl, by simp⟩
    · rw [DeleteCase2T, DeleteCase2]; simp
    · rw [DeleteCase3T, DeleteCase3]; simp
  | cons f rest ih =>
    intro n
    have h3 : ∀ m : Tree K T, (DeleteCase3T (f :: rest) m).1 = DeleteCase3 (f :: rest) m ∧
        (DeleteCase3T (f :: rest) m).2.Sorted (· > ·) ∧
        ∀ d ∈ (DeleteCase3T (f :: rest) m).2, d < (f :: rest).length := by
      intro m
      by_cases hc : f.color = Color.BLACK
      · obtain ⟨fl, fk, fd, fc, fs, fb⟩ := f
        simp only at hc
        subst hc
        cases fb with
        | nil => simp [DeleteCase3T, DeleteCase3]
        | node bk bd bc bs bl br =>
          by_cases hrep :
              (decide (bc = Color.BLACK) && absentOrBlack bl && absentOrBlack br) = true
          · obtain ⟨⟨h1, later, h2, h3⟩, _, _⟩ := ih
              (attach { isLeft := fl, key := fk, data := fd, color := Color.BLACK, size := fs,
                        brother := Tree.node bk bd Color.RED bs bl br } m)
            rw [DeleteCase3T, DeleteCase3]
            simp only [dif_pos, hrep, if_true]
            refine ⟨by rw [h1], by rw [h2]; exact h3, ?_⟩
            intro d hd
            rw [h2] at hd
            rw [List.sorted_cons] at h3
            rcases List.mem_cons.1 hd with hd | hd
            · simp only [List.length_cons]
              omega
            · have := h3.1 d hd
              simp only [List.length_cons]
              omega
          · rw [DeleteCase3T, DeleteCase3]
            simp [hrep]
      · obtain ⟨e1, e2⟩ := DeleteCase3T_of_measure (f :: rest) m
          (by simp [DeleteCase3Measure, hc])
        exact ⟨e1, by rw [e2]; simp, by rw [e2]; simp⟩
    have h2 : (DeleteCase2T (f :: rest) n).1 = DeleteCase2 (f :: rest) n ∧
        (DeleteCase2T (f :: rest) n).2.Sorted (· > ·) ∧
        ∀ d ∈ (DeleteCase2T (f :: rest) n).2, d < (f :: rest).length := by
      rw [DeleteCase2T, DeleteCase2]
      cases hred : isRed f.brother with
      | none => simp
      | some brotherRed =>
        simp only [Option.bind_some] 
        cases brotherRed with
        | false => simpa using h3 n
        | true =>
          simp only [if_true]
          split
          next e1 => simp
          next loc e1 =>
            obtain ⟨e3, e4⟩ := DeleteCase3T_of_measure loc.1 loc.2
              (DeleteCase2Rotate_measure f rest n loc e1)
            exact ⟨by simpa using e3, by rw [e4]; simp, by rw [e4]; simp⟩
    refine ⟨?_, h2, h3 n⟩
    cases n with
    | nil => exact ⟨by rw [DeleteCase1T, DeleteCase1], [], by simp [DeleteCase1T], by simp⟩
    | node k d c s l r =>
      rw [DeleteCase1T, DeleteCase1]
      refine ⟨h2.1, _, rfl, ?_⟩
      rw [List.sorted_cons]
      exact ⟨fun d hd => h2.2.2 d hd, h2.2.1⟩

/-- C32: the fix-ups terminate.  `InsertCase1` and `DeleteCase1` are total functions of the
node they start at; recorded with the depths of the nodes at which `InsertCase1`, resp.
`DeleteCase1`, is entered, they return the same result, the record starts with the depth of
the starting node and is strictly decreasing (every restart is at a node strictly closer
to the root), so the number of restarts is at most the depth of the starting node. -/
theorem fixups_terminate (ctx : Ctx K T) (n : Tree K T) :
    ((InsertCase1T ctx n).1 = InsertCase1 ctx n ∧
      (InsertCase1T ctx n).2.head? = some ctx.length ∧
      (InsertCase1T ctx n).2.Sorted (· > ·) ∧
      (InsertCase1T ctx n).2.length - 1 ≤ ctx.length) ∧
    ((DeleteCase1T ctx n).1 = DeleteCase1 ctx n ∧
      (DeleteCase1T ctx n).2.head? = some ctx.length ∧
      (DeleteCase1T ctx n).2.Sorted (· > ·) ∧
      (DeleteCase1T ctx n).2.length - 1 ≤ ctx.length) := by
  obtain ⟨⟨h1, l1, h2, h3⟩, _, _⟩ := InsertCaseT_spec ctx n
  obtain ⟨⟨g1, l2, g2, g3⟩, _, _⟩ := DeleteCaseT_spec ctx n
  have bound : ∀ later : List Nat, (ctx.length :: later).Sorted (· > ·) →
      (ctx.length :: later).length - 1 ≤ ctx.length := by
    intro later hs
    have := length_le_of_sorted_gt (ctx.length :: later) ctx.length hs (by
      intro d hd
      rw [List.sorted_cons] at hs
      rcases List.mem_cons.1 hd with hd | hd
      · omega
      · have := hs.1 d hd; omega)
    omega
  refine ⟨⟨h1, by rw [h2]; rfl, by rw [h2]; exact h3, by rw [h2]; exact bound l1 h3⟩,
    ⟨g1, by rw [g2]; rfl, by rw [g2]; exact g3, by rw [g2]; exact bound l2 g3⟩⟩

end OrderStatisticBST

namespace OptimalBST

variable {K T : Type}

theorem bind_raised {α β : Type} (o : Outcome α) (f : α → Outcome β) (w : String)
    (h : o.bind f = Outcome.raised w) :
    o = Outcome.raised w ∨ ∃ a, o = Outcome.returned a ∧ f a = Outcome.raised w := by
  cases o with
  | raised v => left; simpa [Outcome.bind] using h
  | fault => simp [Outcome.bind] at h
  | unfinished => simp [Outcome.bind] at h
  | returned a => exact Or.inr ⟨a, rfl, h⟩

/-- The recursive lambda `buildTree` contains no `throw`. -/
theorem buildTree_not_raised (nodes : List (K × T × Nat)) (cache : Cache) (fuel : Nat)
    (l r : Int) (w : String) : buildTree nodes cache fuel l r ≠ Outcome.raised w := by
  induction fuel generalizing l r w with
  | zero => simp [buildTree]
  | succ fuel ih =>
    intro h
    unfold buildTree at h
    split at h
    · split at h
      · simp only at h
        split at h
        · cases h
        · rcases bind_raised _ _ w h with h1 | ⟨a, _, h1⟩
          · exact ih _ _ w h1
          · rcases bind_raised _ _ w h1 with h2 | ⟨b, _, h2⟩
            · exact ih _ _ w h2
            · cases h2
      · cases h
    · cases h

/-- C27: both bulk constructions raise an error exactly when the element list and the
frequency list have different lengths, and then no node has been created: `OptimalBST::Init`
and `OptimalBSTree::Init` end in a thrown exception if and only if `elements.size() !=
frequency.size()`, and in that case the count of `new Node` calls made is zero.  (`Init` is
called from the constructor only, so no tree exists yet whose state could be modified.) -/
theorem init_raises_iff_sizes_differ (elements : List (K × T)) (frequency : List Nat) :
    ((∃ w, (Init elements frequency).outcome = Outcome.raised w) ↔
      elements.length ≠ frequency.length) ∧
    ((∃ w, (OptimalBSTree.Init elements frequency).outcome = Outcome.raised w) ↔
      elements.length ≠ frequency.length) ∧
    (elements.length ≠ frequency.length →
      (Init elements frequency).created = 0 ∧
      (OptimalBSTree.Init elements frequency).created = 0) := by
  refine ⟨?_, ?_, ?_⟩
  · constructor
    · rintro ⟨w, h⟩
      intro hlen
      unfold Init at h
      rw [if_neg (not_not.mpr hlen)] at h
      split at h
      · cases h
      · exact buildTree_not_raised _ _ _ _ _ w h
    · intro hlen
      exact ⟨_, by unfold Init; rw [if_pos hlen]⟩
  · constructor
    · rintro ⟨w, h⟩
      intro hlen
      unfold OptimalBSTree.Init at h
      rw [if_neg (not_not.mpr hlen)] at h
      split at h
      · cases h
      · simp only at h
        split at h <;> cases h
    · intro hlen
      exact ⟨_, by unfold OptimalBSTree.Init; rw [if_pos hlen]⟩
  · intro hlen
    constructor
    · unfold Init; rw [if_pos hlen]
    · unfold OptimalBSTree.Init; rw [if_pos hlen]

/-! ### Weighted path cost and the table of `Init` -/

theorem weightedAt_succ (t : Tree K T) : ∀ d, weightedAt (d + 1) t =
    weightedAt d t + (freqs t).sum := by
  induction t with
  | nil => intro d; simp [weightedAt, freqs]
  | node k v f c l r ihl ihr =>
    intro d
    simp only [weightedAt, freqs, List.sum_append, List.sum_cons]
    rw [ihl (d + 1), ihr (d + 1)]
    ring

theorem weightedCost_node (k : K) (v : T) (f c : Nat) (l r : Tree K T) :
    weightedCost (Tree.node k v f c l r) =
      (freqs (Tree.node k v f c l r)).sum + weightedCost l + weightedCost r := by
  unfold weightedCost
  simp only [weightedAt, freqs, List.sum_append, List.sum_cons]
  rw [weightedAt_succ l 1, weightedAt_succ r 1]
  ring

theorem weightedCost_le (t : Tree K T) :
    weightedCost t ≤ (freqs t).length * (freqs t).sum := by
  induction t with
  | nil => simp [weightedCost, weightedAt]
  | node k v f c l r ihl ihr =>
    rw [weightedCost_node]
    simp only [freqs, List.sum_append, List.sum_cons, List.length_append, List.length_cons]
    have h1 : (freqs l).length * (freqs l).sum
        ≤ (freqs l).length * ((freqs l).sum + (f + (freqs r).sum)) :=
      Nat.mul_le_mul_left _ (by omega)
    have h2 : (freqs r).length * (freqs r).sum
        ≤ (freqs r).length * ((freqs l).sum + (f + (freqs r).sum)) :=
      Nat.mul_le_mul_left _ (by omega)
    have h3 : ((freqs l).length + ((freqs r).length + 1)) *
        ((freqs l).sum + (f + (freqs r).sum)) =
        (freqs l).length * ((freqs l).sum + (f + (freqs r).sum)) +
        (freqs r).length * ((freqs l).sum + (f + (freqs r).sum)) +
        ((freqs l).sum + (f + (freqs r).sum)) := by ring
    rw [h3]
    omega

theorem extend_right (k0 : K) (d0 : T) (suf : List Nat) : ∀ t : Tree K T,
    ∃ t' : Tree K T, freqs t' = freqs t ++ suf ∧ weightedCost t ≤ weightedCost t' := by
  induction suf with
  | nil => intro t; exact ⟨t, by simp, le_refl _⟩
  | cons s ss ih =>
    intro t
    obtain ⟨t', h1, h2⟩ := ih (Tree.node k0 d0 s 0 t Tree.nil)
    refine ⟨t', ?_, ?_⟩
    · rw [h1]; simp [freqs]
    · refine le_trans ?_ h2
      rw [weightedCost_node]
      omega

theorem extend_both (k0 : K) (d0 : T) (pre suf : List Nat) (t : Tree K T) :
    ∃ t' : Tree K T, freqs t' = pre ++ freqs t ++ suf ∧ weightedCost t ≤ weightedCost t' := by
  induction pre with
  | nil =>
    obtain ⟨t', h1, h2⟩ := extend_right k0 d0 suf t
    exact ⟨t', by simpa using h1, h2⟩
  | cons p ps ih =>
    obtain ⟨t', h1, h2⟩ := ih
    refine ⟨Tree.node k0 d0 p 0 Tree.nil t', ?_, ?_⟩
    · simp [freqs, h1]
    · refine le_trans h2 ?_
      rw [weightedCost_node]
      omega

theorem IsMin_nil : IsMin K T [] 0 :=
  ⟨⟨Tree.nil, rfl, rfl⟩, fun _ _ => Nat.zero_le _⟩

theorem IsMin_unique {ws : List Nat} {v w : Nat} (h1 : IsMin K T ws v) (h2 : IsMin K T ws w) :
    v = w := by
  obtain ⟨⟨t1, e1, c1⟩, m1⟩ := h1
  obtain ⟨⟨t2, e2, c2⟩, m2⟩ := h2
  have := m1 t2 e2
  have := m2 t1 e1
  omega

theorem IsMin_node (k0 : K) (d0 : T) (ws : List Nat) (vl vr : Nat → Nat) (p0 : Nat)
    (hp0 : p0 < ws.length)
    (hv : ∀ p, p < ws.length → IsMin K T (ws.take p) (vl p) ∧ IsMin K T (ws.drop (p + 1)) (vr p))
    (hmin : ∀ p, p < ws.length → vl p0 + vr p0 ≤ vl p + vr p) :
    IsMin K T ws (ws.sum + vl p0 + vr p0) := by
  constructor
  · obtain ⟨⟨⟨tl, fl, cl⟩, _⟩, ⟨⟨tr, fr, cr⟩, _⟩⟩ := hv p0 hp0
    refine ⟨Tree.node k0 d0 (ws.get ⟨p0, hp0⟩) 0 tl tr, ?_, ?_⟩
    · simp only [freqs, fl, fr]
      have := List.drop_eq_getElem_cons hp0
      rw [List.get_eq_getElem, ← this, List.take_append_drop]
    · have hf : freqs (Tree.node k0 d0 (ws.get ⟨p0, hp0⟩) 0 tl tr) = ws := by
        simp only [freqs, fl, fr]
        have := List.drop_eq_getElem_cons hp0
        rw [List.get_eq_getElem, ← this, List.take_append_drop]
      rw [weightedCost_node, hf, cl, cr]
  · intro t ht
    cases t with
    | nil =>
      simp only [freqs] at ht
      rw [← ht] at hp0
      simp at hp0
    | node k v f c l r =>
      rw [weightedCost_node, ht]
      simp only [freqs] at ht
      have hp : (freqs l).length < ws.length := by
        rw [← ht]; simp
      have hl : ws.take (freqs l).length = freqs l := by
        rw [← ht]; simp
      have hr : ws.drop ((freqs l).length + 1) = freqs r := by
        rw [← ht]; simp
      obtain ⟨⟨_, ml⟩, ⟨_, mr⟩⟩ := hv _ hp
      have h1 := ml l hl.symm
      have h2 := mr r hr.symm
      have h3 := hmin _ hp
      omega

theorem IsMin_singleton (k0 : K) (d0 : T) (x : Nat) : IsMin K T [x] x := by
  have h := IsMin_node k0 d0 [x] (fun _ => 0) (fun _ => 0) 0 (by simp)
    (fun p hp => by
      have hp0 : p = 0 := by simpa using hp
      subst hp0
      exact ⟨IsMin_nil, IsMin_nil⟩) (fun _ _ => le_refl _)
  simpa using h

theorem accumulate_eq (xs : List Nat) : ∀ init, init < 4294967296 →
    accumulate xs init = (init + xs.sum) % 4294967296 := by
  induction xs with
  | nil =>
    intro init h
    simp only [accumulate, List.foldl_nil, List.sum_nil, Nat.add_zero]
    omega
  | cons x xs ih =>
    intro init _
    have h : accumulate (x :: xs) init = accumulate xs (uadd init x) := rfl
    rw [h, ih _ (by unfold uadd; omega), List.sum_cons]
    unfold uadd
    omega

theorem foldl_range'_inv {α : Type} (f : α → Nat → α) (P : Nat → α → Prop) (s m : Nat)
    (init : α) (h0 : P 0 init)
    (hstep : ∀ k, k < m → ∀ x, P k x → P (k + 1) (f x (s + k))) :
    P m ((List.range' s m).foldl f init) := by
  induction m with
  | zero => simpa using h0
  | succ m ih =>
    rw [List.range'_concat, List.foldl_append]
    simp only [List.foldl_cons, List.foldl_nil, one_mul]
    exact hstep m (Nat.lt_succ_self m) _
      (ih (fun k hk x hx => hstep k (Nat.lt_succ_of_lt hk) x hx))

theorem foldl_range_inv {α : Type} (f : α → Nat → α) (P : Nat → α → Prop) (m : Nat)
    (init : α) (h0 : P 0 init)
    (hstep : ∀ k, k < m → ∀ x, P k x → P (k + 1) (f x k)) :
    P m ((List.range m).foldl f init) := by
  rw [List.range_eq_range']
  exact foldl_range'_inv f P 0 m init h0 (fun k hk x hx => by simpa using hstep k hk x hx)

theorem set_entry (c : Cache) (i j : Nat) (v : CachedData) (a b : Nat) :
    (c.set i j v).entry a b = if a = i ∧ b = j then v else c.entry a b := rfl

theorem initCache_entry (frequency : List Nat) (a b : Nat) :
    (initCache frequency).entry a b =
      if a = b ∧ a < frequency.length then
        { root := toUnsigned a, cost := frequency.getD a 0 }
      else { root := UINT_MAX, cost := UINT_MAX } := by
  unfold initCache
  refine foldl_range_inv
    (fun (c : Cache) i => c.set i i { root := toUnsigned i, cost := frequency.getD i 0 })
    (fun m (c : Cache) => c.entry a b = if a = b ∧ a < m then
        ({ root := toUnsigned a, cost := frequency.getD a 0 } : CachedData)
      else { root := UINT_MAX, cost := UINT_MAX }) frequency.length _ (by simp) ?_
  intro k _ c hc
  rw [set_entry]
  by_cases h1 : a = k ∧ b = k
  · obtain ⟨rfl, rfl⟩ := h1
    simp
  · rw [if_neg h1, hc]
    by_cases h2 : a = b
    · subst h2
      have h3 : a ≠ k := fun h => h1 ⟨h, h⟩
      by_cases h4 : a < k
      · rw [if_pos ⟨rfl, h4⟩, if_pos ⟨rfl, by omega⟩]
      · rw [if_neg (fun h => h4 h.2), if_neg (fun h => by omega)]
    · rw [if_neg (fun h => h2 h.1), if_neg (fun h => h2 h.1)]

theorem slice_length (frequency : List Nat) (a b : Nat) (hb : b < frequency.length) :
    (slice frequency a b).length = b + 1 - a := by
  unfold slice
  rw [List.length_take, List.length_drop]
  omega

theorem slice_take (frequency : List Nat) (a b p : Nat) (hp : a + p ≤ b) :
    (slice frequency a b).take (p + 1) = slice frequency a (a + p) := by
  unfold slice
  rw [List.take_take]
  congr 1
  omega

theorem slice_drop (frequency : List Nat) (a b p : Nat) (hp : a + p ≤ b) :
    (slice frequency a b).drop (p + 1) = slice frequency (a + p + 1) b := by
  unfold slice
  rw [List.drop_take, List.drop_drop]
  congr 1
  omega

theorem slice_self (frequency : List Nat) (a : Nat) (ha : a < frequency.length) :
    slice frequency a a = [frequency.getD a 0] := by
  unfold slice
  have h : a + 1 - a = 1 := by omega
  rw [h, List.drop_eq_getElem_cons ha, List.getD_eq_getElem _ _ ha]
  rfl

theorem Filled_congr {frequency : List Nat} {c c' : Cache} {a b : Nat}
    (h : c'.entry a b = c.entry a b) (hf : Filled K T frequency c a b) :
    Filled K T frequency c' a b := by
  unfold Filled at *
  rw [h]
  exact hf

/-- Every binary tree over a part of the frequencies costs no more than some binary tree
over all of them. -/
theorem slice_bound (k0 : K) (d0 : T) (frequency : List Nat)
    (hbound : ∀ t : Tree K T, freqs t = frequency → weightedCost t < UINT_MAX)
    (a b : Nat) (t : Tree K T) (ht : freqs t = slice frequency a b) :
    weightedCost t < UINT_MAX := by
  obtain ⟨t', h1, h2⟩ := extend_both k0 d0 (frequency.take a) (frequency.drop (a + (b + 1 - a))) t
  refine lt_of_le_of_lt h2 (hbound t' ?_)
  rw [h1, ht]
  unfold slice
  rw [List.append_assoc]
  have h3 : List.take (b + 1 - a) (List.drop a frequency) ++
      List.drop (a + (b + 1 - a)) frequency = List.drop a frequency := by
    rw [← List.drop_drop, List.take_append_drop]
  rw [h3, List.take_append_drop]

theorem node_exists (k0 : K) (d0 : T) (ws : List Nat) (p vL vR : Nat) (hp : p < ws.length)
    (hl : IsMin K T (ws.take p) vL) (hr : IsMin K T (ws.drop (p + 1)) vR) :
    ∃ t : Tree K T, freqs t = ws ∧ weightedCost t = ws.sum + vL + vR := by
  obtain ⟨⟨tl, fl, cl⟩, _⟩ := hl
  obtain ⟨⟨tr, fr, cr⟩, _⟩ := hr
  have hf : freqs (Tree.node k0 d0 (ws.get ⟨p, hp⟩) 0 tl tr) = ws := by
    simp only [freqs, fl, fr]
    have := List.drop_eq_getElem_cons hp
    rw [List.get_eq_getElem, ← this, List.take_append_drop]
  exact ⟨_, hf, by rw [weightedCost_node, hf, cl, cr]⟩

/-- If every binary tree over the frequencies costs less than `UINT_MAX`, so does every
candidate of the table: the frequency sum of an interval plus the least costs of the parts
left and right of a root. -/
theorem candidates_below (k0 : K) (d0 : T) (frequency : List Nat)
    (hbound : ∀ t : Tree K T, freqs t = frequency → weightedCost t < UINT_MAX)
    (a b p vL vR : Nat) (hp : a + p ≤ b) (hb : b < frequency.length)
    (hl : IsMin K T ((slice frequency a b).take p) vL)
    (hr : IsMin K T ((slice frequency a b).drop (p + 1)) vR) :
    (slice frequency a b).sum + vL + vR < UINT_MAX := by
  have hlen : p < (slice frequency a b).length := by
    rw [slice_length _ _ _ hb]; omega
  obtain ⟨t, ht1, ht2⟩ := node_exists k0 d0 (slice frequency a b) p vL vR hlen hl hr
  rw [← ht2]
  exact slice_bound k0 d0 frequency hbound a b t ht1

theorem tryRoot_def (frequency : List Nat) (i j : Nat) (c : Cache) (root : Nat) :
    tryRoot frequency i j c root =
      if accumulate (slice frequency i j)
          (uadd (if root > i then (c.entry i (root - 1)).cost else 0)
            (if root < j then (c.entry (root + 1) j).cost else 0)) < (c.entry i j).cost then
        c.set i j ⟨toUnsigned root, accumulate (slice frequency i j)
          (uadd (if root > i then (c.entry i (root - 1)).cost else 0)
            (if root < j then (c.entry (root + 1) j).cost else 0))⟩
      else c := rfl

theorem toUnsigned_of_lt (n : Nat) (h : n < 4294967296) : toUnsigned n = n :=
  Nat.mod_eq_of_lt h

/-- One pass of the loop over the candidate roots fills in the entry of the interval
`i..i + length`, the table being filled in for the shorter intervals. -/
theorem fillInterval_progress (k0 : K) (d0 : T) (frequency : List Nat)
    (hsize : frequency.length < 4294967296)
    (hB : ∀ a b p vL vR : Nat, a + p ≤ b → b < frequency.length →
      IsMin K T ((slice frequency a b).take p) vL →
      IsMin K T ((slice frequency a b).drop (p + 1)) vR →
      (slice frequency a b).sum + vL + vR < UINT_MAX)
    (length i : Nat) (hi : i + length < frequency.length) (c : Cache)
    (hc : Progress K T frequency c length i) (hlen : 1 ≤ length) :
    Progress K T frequency (fillInterval frequency length c i) length (i + 1) := by
  obtain ⟨hdone, htodo⟩ := hc
  obtain ⟨vl, hvl⟩ : ∃ vl : Nat → Nat, ∀ p, vl p =
      if i + p > i then (c.entry i (i + p - 1)).cost else 0 := ⟨_, fun _ => rfl⟩
  obtain ⟨vr, hvr⟩ : ∃ vr : Nat → Nat, ∀ p, vr p =
      if i + p < i + length then (c.entry (i + p + 1) (i + length)).cost else 0 :=
    ⟨_, fun _ => rfl⟩
  obtain ⟨ws, hwsdef⟩ : ∃ ws, ws = slice frequency i (i + length) := ⟨_, rfl⟩
  have hws : ws.length = length + 1 := by
    rw [hwsdef, slice_length _ _ _ hi]; omega
  have hv : ∀ p, p < ws.length →
      IsMin K T (ws.take p) (vl p) ∧ IsMin K T (ws.drop (p + 1)) (vr p) := by
    intro p hp
    rw [hws] at hp
    constructor
    · cases p with
      | zero =>
        rw [hvl, if_neg (by omega), List.take_zero]
        exact IsMin_nil
      | succ q =>
        obtain ⟨_, _, _, _, _, _, _, _, hmin⟩ :=
          hdone i (i + q) (by omega) (by omega) (Or.inl (by omega))
        rw [hwsdef, slice_take _ _ _ _ (by omega), hvl, if_pos (by omega)]
        have : i + (q + 1) - 1 = i + q := by omega
        rw [this]
        exact hmin
    · by_cases h : i + p < i + length
      · obtain ⟨_, _, _, _, _, _, _, _, hmin⟩ :=
          hdone (i + p + 1) (i + length) (by omega) hi (Or.inl (by omega))
        rw [hwsdef, slice_drop _ _ _ _ (by omega), hvr, if_pos h]
        exact hmin
      · rw [hvr, if_neg h, List.drop_eq_nil_of_le (by rw [hws]; omega)]
        exact IsMin_nil
  have hcand : ∀ p, p ≤ length → ws.sum + vl p + vr p < UINT_MAX := by
    intro p hp
    obtain ⟨h1, h2⟩ := hv p (by rw [hws]; omega)
    rw [hwsdef] at h1 h2 ⊢
    exact hB i (i + length) p (vl p) (vr p) (by omega) hi h1 h2
  have hloop := foldl_range'_inv (tryRoot frequency i (i + length))
    (fun k (c' : Cache) =>
      (∀ x y, ¬(x = i ∧ y = i + length) → c'.entry x y = c.entry x y) ∧
      ((k = 0 ∧ (c'.entry i (i + length)).cost = UINT_MAX) ∨
        ∃ p0, p0 < k ∧
          c'.entry i (i + length)
            = { root := toUnsigned (i + p0), cost := ws.sum + vl p0 + vr p0 } ∧
          ∀ p, p < k → ws.sum + vl p0 + vr p0 ≤ ws.sum + vl p + vr p))
    i (length + 1) c
    ⟨fun _ _ _ => rfl, Or.inl ⟨rfl, htodo i (i + length) (by omega) hi
      (Or.inr ⟨by omega, le_refl _⟩)⟩⟩
    (by
      intro k hk c' hJ
      obtain ⟨hsame, hcur⟩ := hJ
      have hcost : accumulate (slice frequency i (i + length))
          (uadd (if i + k > i then (c'.entry i (i + k - 1)).cost else 0)
            (if i + k < i + length then (c'.entry (i + k + 1) (i + length)).cost else 0))
          = ws.sum + vl k + vr k := by
        have e1 : (if i + k > i then (c'.entry i (i + k - 1)).cost else 0) = vl k := by
          rw [hvl]
          by_cases h : i + k > i
          · rw [if_pos h, if_pos h, hsame _ _ (by omega)]
          · rw [if_neg h, if_neg h]
        have e2 : (if i + k < i + length then (c'.entry (i + k + 1) (i + length)).cost
            else 0) = vr k := by
          rw [hvr]
          by_cases h : i + k < i + length
          · rw [if_pos h, if_pos h, hsame _ _ (by omega)]
          · rw [if_neg h, if_neg h]
        rw [e1, e2, accumulate_eq _ _ (by unfold uadd; omega), ← hwsdef]
        have := hcand k (by omega)
        unfold UINT_MAX at this
        unfold uadd
        omega
      rw [tryRoot_def, hcost]
      by_cases hlt : ws.sum + vl k + vr k < (c'.entry i (i + length)).cost
      · rw [if_pos hlt]
        refine ⟨fun x y hxy => by rw [set_entry, if_neg hxy]; exact hsame x y hxy,
          Or.inr ⟨k, Nat.lt_succ_self k, by rw [set_entry, if_pos ⟨rfl, rfl⟩], ?_⟩⟩
        intro p hp
        rcases hcur with ⟨hk0, _⟩ | ⟨p0, hp0, he, hmin⟩
        · subst hk0
          have : p = 0 := by omega
          subst this
          exact le_refl _
        · rw [he] at hlt
          simp only at hlt
          rcases Nat.lt_succ_iff_lt_or_eq.1 hp with hp | hp
          · have := hmin p hp
            omega
          · subst hp
            exact le_refl _
      · rw [if_neg hlt]
        refine ⟨hsame, ?_⟩
        rcases hcur with ⟨hk0, hmax⟩ | ⟨p0, hp0, he, hmin⟩
        · exfalso
          apply hlt
          rw [hmax]
          exact hcand k (by omega)
        · refine Or.inr ⟨p0, Nat.lt_succ_of_lt hp0, he, ?_⟩
          intro p hp
          rw [he] at hlt
          simp only at hlt
          rcases Nat.lt_succ_iff_lt_or_eq.1 hp with hp | hp
          · exact hmin p hp
          · subst hp
            omega)
  obtain ⟨hsame, hfin⟩ := hloop
  rcases hfin with ⟨h0, _⟩ | ⟨p0, hp0, he, hmin⟩
  · omega
  have hnew : Filled K T frequency (fillInterval frequency length c i) i (i + length) := by
    refine ⟨p0, vl p0, vr p0, by omega, ?_, ?_, ?_, ?_, ?_⟩
    · show ((List.foldl (tryRoot frequency i (i + length)) c
        (List.range' i (length + 1))).entry i (i + length)).root = i + p0
      rw [he]
      exact toUnsigned_of_lt _ (by omega)
    · rw [← hwsdef]; exact (hv p0 (by rw [hws]; exact hp0)).1
    · rw [← hwsdef]; exact (hv p0 (by rw [hws]; exact hp0)).2
    · show ((List.foldl (tryRoot frequency i (i + length)) c
        (List.range' i (length + 1))).entry i (i + length)).cost = _
      rw [he, ← hwsdef]
    · show IsMin K T _ ((List.foldl (tryRoot frequency i (i + length)) c
        (List.range' i (length + 1))).entry i (i + length)).cost
      rw [he, ← hwsdef]
      exact IsMin_node k0 d0 ws vl vr p0 (by rw [hws]; exact hp0) hv
        (fun p hp => by
          have := hmin p (by rw [hws] at hp; exact hp)
          omega)
  constructor
  · intro a b hab hb hcase
    by_cases h : a = i ∧ b = i + length
    · obtain ⟨rfl, rfl⟩ := h
      exact hnew
    · exact Filled_congr (hsame a b h) (hdone a b hab hb (by omega))
  · intro a b hab hb hcase
    have h : ¬(a = i ∧ b = i + length) := by omega
    show ((List.foldl (tryRoot frequency i (i + length)) c
        (List.range' i (length + 1))).entry a b).cost = UINT_MAX
    rw [hsame a b h]
    exact htodo a b hab hb (by omega)

theorem fillLength_progress (k0 : K) (d0 : T) (frequency : List Nat)
    (hsize : frequency.length < 4294967296)
    (hB : ∀ a b p vL vR : Nat, a + p ≤ b → b < frequency.length →
      IsMin K T ((slice frequency a b).take p) vL →
      IsMin K T ((slice frequency a b).drop (p + 1)) vR →
      (slice frequency a b).sum + vL + vR < UINT_MAX)
    (length : Nat) (hlen : 1 ≤ length) (c : Cache)
    (hc : Progress K T frequency c length 0) :
    Progress K T frequency (fillLength frequency frequency.length c length) (length + 1) 0 := by
  have h := foldl_range_inv (fillInterval frequency length)
    (fun k (c' : Cache) => Progress K T frequency c' length k)
    (frequency.length - length) c hc
    (fun k hk c' hc' =>
      fillInterval_progress k0 d0 frequency hsize hB length k (by omega) c' hc' hlen)
  obtain ⟨h1, h2⟩ := h
  exact ⟨fun a b hab hb hcase => h1 a b hab hb (by omega),
    fun a b hab hb hcase => h2 a b hab hb (by omega)⟩

theorem initCache_progress (k0 : K) (d0 : T) (frequency : List Nat)
    (hsize : frequency.length < 4294967296) :
    Progress K T frequency (initCache frequency) 1 0 := by
  constructor
  · intro a b hab hb hcase
    have hba : b = a := by omega
    subst hba
    have he : (initCache frequency).entry b b
        = { root := toUnsigned b, cost := frequency.getD b 0 } := by
      rw [initCache_entry, if_pos ⟨rfl, hb⟩]
    have hmin := IsMin_node k0 d0 [frequency.getD b 0] (fun _ => 0) (fun _ => 0) 0
      (by simp) (fun p hp => by
        have hp0 : p = 0 := by simpa using hp
        subst hp0
        exact ⟨IsMin_nil, IsMin_nil⟩) (fun _ _ => le_refl _)
    refine ⟨0, 0, 0, le_refl _, ?_, ?_, ?_, ?_, ?_⟩
    · rw [he]; exact toUnsigned_of_lt _ (by omega)
    · rw [List.take_zero]; exact IsMin_nil
    · rw [slice_self _ _ hb]; exact IsMin_nil
    · rw [he, slice_self _ _ hb]; simp
    · rw [he, slice_self _ _ hb]
      simpa using hmin
  · intro a b hab hb _
    rw [initCache_entry, if_neg (by omega)]

/-- After the loops of `Init` every entry of the table on or above the diagonal is filled
in. -/
theorem fillCache_filled (k0 : K) (d0 : T) (frequency : List Nat)
    (hsize : frequency.length < 4294967296)
    (hB : ∀ a b p vL vR : Nat, a + p ≤ b → b < frequency.length →
      IsMin K T ((slice frequency a b).take p) vL →
      IsMin K T ((slice frequency a b).drop (p + 1)) vR →
      (slice frequency a b).sum + vL + vR < UINT_MAX)
    (a b : Nat) (hab : a ≤ b) (hb : b < frequency.length) :
    Filled K T frequency (fillCache frequency frequency.length (initCache frequency)) a b := by
  have h := foldl_range'_inv (fillLength frequency frequency.length)
    (fun k (c' : Cache) => Progress K T frequency c' (1 + k) 0)
    1 (frequency.length - 1) (initCache frequency) (initCache_progress k0 d0 frequency hsize)
    (fun k hk c' hc' =>
      fillLength_progress k0 d0 frequency hsize hB (1 + k) (by omega) c' hc')
  exact h.1 a b hab hb (Or.inl (by omega))

theorem toInt_pred (r : Nat) (h : r < 2147483648) :
    toInt (toUnsigned (r + 4294967295)) = (r : Int) - 1 := by
  unfold toInt toUnsigned
  split_ifs <;> omega

theorem toInt_succ (r : Nat) (h : r + 1 < 2147483648) :
    toInt (uadd r 1) = ((r + 1 : Nat) : Int) := by
  unfold toInt uadd
  split_ifs <;> omega

theorem buildTree_empty (nodes : List (K × T × Nat)) (c : Cache) (fuel : Nat)
    (lb rb : Int) (h : rb < lb) :
    buildTree nodes c (fuel + 1) lb rb = Outcome.returned Tree.nil := by
  rw [buildTree, if_neg (not_le.2 h)]

theorem buildTree_node (nodes : List (K × T × Nat)) (c : Cache) (fuel a b : Nat)
    (hab : a ≤ b) (hb : b < nodes.length) (key : K) (data : T) (freq : Nat)
    (hroot : nodes[(c.entry a b).root]? = some (key, data, freq)) :
    buildTree nodes c (fuel + 1) (a : Int) (b : Int) =
      (buildTree nodes c fuel a (toInt (toUnsigned ((c.entry a b).root + 4294967295)))).bind
        fun l => (buildTree nodes c fuel (toInt (uadd (c.entry a b).root 1)) b).bind
          fun r => Outcome.returned (Tree.node key data freq (c.entry a b).cost l r) := by
  rw [buildTree, if_pos (by exact_mod_cast hab),
    if_pos ⟨by exact_mod_cast Nat.zero_le a, by exact_mod_cast hb⟩]
  simp only [Int.toNat_ofNat, hroot]

theorem take_split {α : Type} (E : List α) (lb p m : Nat) (hp : p ≤ m)
    (h : lb + p < E.length) :
    (E.drop lb).take (m + 1) =
      (E.drop lb).take p ++ E.get ⟨lb + p, h⟩ :: (E.drop (lb + p + 1)).take (m - p) := by
  have h1 : m + 1 = p + (m - p + 1) := by omega
  have h2 : p < (E.drop lb).length := by rw [List.length_drop]; omega
  rw [h1, List.take_add, List.drop_eq_getElem_cons h2, List.take_succ_cons, List.drop_drop,
    List.getElem_drop, List.get_eq_getElem]
  rfl

/-- The lambda `buildTree` on the filled table returns, for the `cnt` positions from `lb`
on, a tree over these positions whose `cost` field is its weighted path cost, which is
the least one. -/
theorem buildTree_spec (elements : List (K × T)) (frequency : List Nat)
    (hlen : elements.length = frequency.length) (hsize : frequency.length < 2147483648)
    (c : Cache) (hc : ∀ a b, a ≤ b → b < frequency.length → Filled K T frequency c a b) :
    ∀ cnt fuel lb, cnt + 1 ≤ fuel → lb + cnt ≤ frequency.length →
      ∃ t, buildTree (List.zipWith (fun e f => (e.1, e.2, f)) elements frequency) c fuel
          (lb : Int) (((lb + cnt : Nat) : Int) - 1) = Outcome.returned t ∧
        InOrder t = (elements.drop lb).take cnt ∧ freqs t = (frequency.drop lb).take cnt ∧
        Cost t = weightedCost t ∧ IsMin K T (freqs t) (weightedCost t) := by
  intro cnt
  induction cnt using Nat.strong_induction_on with
  | _ cnt ih =>
    intro fuel lb hfuel hn
    obtain ⟨fuel', rfl⟩ : ∃ f, fuel = f + 1 := ⟨fuel - 1, by omega⟩
    cases cnt with
    | zero =>
      refine ⟨Tree.nil, buildTree_empty _ _ _ _ _ (by simp), by simp [InOrder],
        by simp [freqs], rfl, ?_⟩
      simpa [freqs, weightedCost, weightedAt] using (IsMin_nil : IsMin K T [] 0)
    | succ m =>
      obtain ⟨p, vL, vR, hp, hroot, hminL, hminR, hcost, hmin⟩ :=
        hc lb (lb + m) (by omega) (by omega)
      have hrb : (((lb + (m + 1) : Nat) : Int) - 1) = ((lb + m : Nat) : Int) := by
        push_cast; ring
      have hrE : lb + p < elements.length := by omega
      have hrF : lb + p < frequency.length := by omega
      have hnode : (List.zipWith (fun (e : K × T) f => (e.1, e.2, f)) elements frequency)[
          (c.entry lb (lb + m)).root]? =
          some ((elements.get ⟨lb + p, hrE⟩).1, (elements.get ⟨lb + p, hrE⟩).2,
            frequency.get ⟨lb + p, hrF⟩) := by
        rw [hroot, List.getElem?_zipWith, List.getElem?_eq_getElem hrE,
          List.getElem?_eq_getElem hrF]
        rfl
      have hlenN : (List.zipWith (fun (e : K × T) f => (e.1, e.2, f)) elements
          frequency).length = frequency.length := by
        rw [List.length_zipWith, hlen, min_self]
      obtain ⟨tl, hl1, hl2, hl3, hl4, hl5⟩ := ih p (by omega) fuel' lb (by omega) (by omega)
      obtain ⟨tr, hr1, hr2, hr3, hr4, hr5⟩ :=
        ih (m - p) (by omega) fuel' (lb + p + 1) (by omega) (by omega)
      have hab : lb ≤ lb + m := by omega
      have hbn : lb + m < (List.zipWith (fun (e : K × T) f => (e.1, e.2, f)) elements
          frequency).length := by rw [hlenN]; omega
      have hpm : p ≤ m := by omega
      have hr31 : lb + p < 2147483648 := by omega
      have hr32 : lb + p + 1 < 2147483648 := by omega
      have hrb2 : ((lb + m : Nat) : Int) = ((lb + p + 1 + (m - p) : Nat) : Int) - 1 := by
        omega
      have hslice : slice frequency lb (lb + m) = (frequency.drop lb).take (m + 1) := by
        unfold slice
        congr 1
        omega
      have hfl : freqs tl = (slice frequency lb (lb + m)).take p := by
        rw [hl3, hslice, List.take_take]
        congr 1
        omega
      have hfr : freqs tr = (slice frequency lb (lb + m)).drop (p + 1) := by
        rw [hr3, slice_drop _ _ _ _ hp]
        unfold slice
        congr 1
        omega
      have hft : freqs (Tree.node (elements.get ⟨lb + p, hrE⟩).1 (elements.get ⟨lb + p, hrE⟩).2
          (frequency.get ⟨lb + p, hrF⟩) (c.entry lb (lb + m)).cost tl tr)
          = (frequency.drop lb).take (m + 1) := by
        simp only [freqs]
        rw [hl3, hr3, take_split frequency lb p m hpm hrF]
      have hwl : weightedCost tl = vL := IsMin_unique (by rw [hfl] at hl5; exact hl5) hminL
      have hwr : weightedCost tr = vR := IsMin_unique (by rw [hfr] at hr5; exact hr5) hminR
      have hw : (c.entry lb (lb + m)).cost = weightedCost
          (Tree.node (elements.get ⟨lb + p, hrE⟩).1 (elements.get ⟨lb + p, hrE⟩).2
            (frequency.get ⟨lb + p, hrF⟩) (c.entry lb (lb + m)).cost tl tr) := by
        rw [weightedCost_node, hft, ← hslice, hwl, hwr, hcost]
      have hleft : toInt (toUnsigned ((c.entry lb (lb + m)).root + 4294967295))
          = ((lb + p : Nat) : Int) - 1 := by
        rw [hroot, toInt_pred _ hr31]
      have hright : toInt (uadd (c.entry lb (lb + m)).root 1) = ((lb + p + 1 : Nat) : Int) := by
        rw [hroot, toInt_succ _ hr32]
      refine ⟨Tree.node (elements.get ⟨lb + p, hrE⟩).1 (elements.get ⟨lb + p, hrE⟩).2
          (frequency.get ⟨lb + p, hrF⟩) (c.entry lb (lb + m)).cost tl tr, ?_, ?_, hft, hw, ?_⟩
      · rw [hrb, buildTree_node _ _ _ _ _ hab hbn _ _ _ hnode, hleft, hl1, hright]
        nth_rewrite 1 [hrb2]
        rw [hr1]
        rfl
      · simp only [InOrder]
        rw [hl2, hr2, take_split elements lb p m hpm hrE]
      · rw [hft, ← hslice, ← hw]
        exact hmin

/-- C39 (amended): for every non-empty element list of fewer than `2^31` elements (the
bounds of `buildTree` are `int`) with a frequency list of the same length, such that no
candidate cost of the table reaches `2^32 - 1` (for every interval `a..b` and every root
`a + p` in it, the frequency sum of the interval plus the least costs of the parts left
and right of the root is below `UINT_MAX`), `Init` returns a tree whose in-order sequence
is the element list (with the frequencies in input order), whose weighted path cost
(frequency times depth, the root at depth 1) is minimal among all binary trees with that
in-order frequency sequence, and `Cost` of its root is that minimum. -/
theorem init_optimal (elements : List (K × T)) (frequency : List Nat)
    (hne : elements ≠ []) (hlen : elements.length = frequency.length)
    (hsize : elements.length < 2147483648)
    (hcand : ∀ a b p vL vR : Nat, a + p ≤ b → b < frequency.length →
      IsMin K T ((slice frequency a b).take p) vL →
      IsMin K T ((slice frequency a b).drop (p + 1)) vR →
      (slice frequency a b).sum + vL + vR < UINT_MAX) :
    ∃ t, (Init elements frequency).outcome = Outcome.returned t ∧
      InOrder t = elements ∧ freqs t = frequency ∧
      (∀ t' : Tree K T, freqs t' = frequency → weightedCost t ≤ weightedCost t') ∧
      Cost t = weightedCost t := by
  obtain ⟨⟨k0, d0⟩, rest, rfl⟩ : ∃ e rest, elements = e :: rest := by
    cases elements with
    | nil => exact absurd rfl hne
    | cons e rest => exact ⟨e, rest, rfl⟩
  have hn : 0 < frequency.length := by rw [← hlen]; simp
  have hfilled := fillCache_filled k0 d0 frequency (by omega) hcand
  obtain ⟨t, h1, h2, h3, h4, h5⟩ := buildTree_spec ((k0, d0) :: rest) frequency hlen (by omega)
    (fillCache frequency frequency.length (initCache frequency)) hfilled
    frequency.length (frequency.length + 1) 0 (le_refl _) (by omega)
  have hlast : toInt (toUnsigned (frequency.length - 1))
      = ((0 + frequency.length : Nat) : Int) - 1 := by
    unfold toInt toUnsigned
    split_ifs <;> omega
  have hE : List.take frequency.length (List.drop 0 ((k0, d0) :: rest)) = (k0, d0) :: rest := by
    rw [List.drop_zero, ← hlen, List.take_length]
  have hF : List.take frequency.length (List.drop 0 frequency) = frequency := by
    rw [List.drop_zero, List.take_length]
  rw [hF] at h3
  refine ⟨t, ?_, by rw [h2, hE], h3, ?_, h4⟩
  · unfold Init
    rw [if_neg (not_not.2 hlen), if_neg (by simp)]
    simp only [hlen, hlast]
    exact h1
  · intro t' ht'
    rw [h3] at h5
    exact h5.2 t' ht'

theorem init_optimal_witness :
    sampleElements ≠ [] ∧ sampleElements.length = [3, 1, 2].length ∧
    ∃ t, (Init sampleElements [3, 1, 2]).outcome = Outcome.returned t ∧
      InOrder t = sampleElements ∧ freqs t = [3, 1, 2] ∧
      (∀ t' : Tree Nat String, freqs t' = [3, 1, 2] → weightedCost t ≤ weightedCost t') ∧
      Cost t = weightedCost t :=
  ⟨by decide, by decide,
    init_optimal sampleElements [3, 1, 2] (by decide) (by decide) (by decide)
      (candidates_below 0 "" [3, 1, 2] (fun t ht => by
        have h := weightedCost_le t
        rw [ht] at h
        exact lt_of_le_of_lt h (by decide)))⟩

/-- C39 (the bound as stated does not suffice): with the elements 1, 2 and the frequencies
1, 3221225472 the least weighted path cost of a binary tree is 3221225474, below
`2^32 - 1`.  The candidate with the first element as root costs 6442450945, which is
stored as 2147483649 and preferred: `Init` returns the tree with the first element as
root, whose weighted path cost 6442450945 is not minimal, and `Cost` of the root is
2147483649, not the minimum. -/
theorem init_wrapped_candidate :
    (Init [(1, "a"), (2, "b")] [1, 3221225472]).outcome = Outcome.returned
      (Tree.node 1 "a" 1 2147483649 Tree.nil
        (Tree.node 2 "b" 3221225472 3221225472 Tree.nil Tree.nil)) ∧
    weightedCost (Tree.node 1 "a" 1 2147483649 Tree.nil
        (Tree.node 2 "b" 3221225472 3221225472 Tree.nil Tree.nil)) = 6442450945 ∧
    Cost (Tree.node 1 "a" 1 2147483649 Tree.nil
        (Tree.node 2 "b" 3221225472 3221225472 Tree.nil Tree.nil)) = 2147483649 ∧
    IsMin Nat String [1, 3221225472] 3221225474 ∧ 3221225474 < UINT_MAX := by
  refine ⟨by decide, by decide, rfl, ?_, by decide⟩
  have h := IsMin_node 0 "" [1, 3221225472] (fun p => if p = 0 then 0 else 1)
    (fun p => if p = 0 then 3221225472 else 0) 1 (by simp)
    (fun p hp => by
      have hp' : p < 2 := by simpa using hp
      interval_cases p
      · exact ⟨IsMin_nil, IsMin_singleton 0 "" 3221225472⟩
      · exact ⟨IsMin_singleton 0 "" 1, IsMin_nil⟩)
    (fun p hp => by
      have hp' : p < 2 := by simpa using hp
      interval_cases p <;> simp)
  simpa using h

end OptimalBST

namespace OptimalBSTree

open OptimalBST (UINT_MAX uadd accumulate slice Outcome Run)

variable {K T : Type}

/-! ### The cost table of `OptimalBSTree::Init` -/

theorem IsMin_single (x : Nat) : OptimalBST.IsMin Nat String [x] x := by
  have h := OptimalBST.IsMin_node 0 "" [x] (fun _ => 0) (fun _ => 0) 0 (by simp)
    (fun p hp => by
      have hp0 : p = 0 := by simpa using hp
      subst hp0
      exact ⟨OptimalBST.IsMin_nil, OptimalBST.IsMin_nil⟩) (fun _ _ => le_refl _)
  simpa using h

theorem IsMin_three : OptimalBST.IsMin Nat String [3, 1, 2] 10 := by
  have h12 : OptimalBST.IsMin Nat String [1, 2] 4 := by
    have h := OptimalBST.IsMin_node 0 "" [1, 2] (fun p => if p = 0 then 0 else 1)
      (fun p => if p = 0 then 2 else 0) 1 (by simp)
      (fun p hp => by
        have hp' : p < 2 := by simpa using hp
        interval_cases p
        · exact ⟨OptimalBST.IsMin_nil, IsMin_single 2⟩
        · exact ⟨IsMin_single 1, OptimalBST.IsMin_nil⟩)
      (fun p hp => by
        have hp' : p < 2 := by simpa using hp
        interval_cases p <;> simp)
    simpa using h
  have h31 : OptimalBST.IsMin Nat String [3, 1] 5 := by
    have h := OptimalBST.IsMin_node 0 "" [3, 1] (fun p => if p = 0 then 0 else 3)
      (fun p => if p = 0 then 1 else 0) 0 (by simp)
      (fun p hp => by
        have hp' : p < 2 := by simpa using hp
        interval_cases p
        · exact ⟨OptimalBST.IsMin_nil, IsMin_single 1⟩
        · exact ⟨IsMin_single 3, OptimalBST.IsMin_nil⟩)
      (fun p hp => by
        have hp' : p < 2 := by simpa using hp
        interval_cases p <;> simp)
    simpa using h
  have h := OptimalBST.IsMin_node 0 "" [3, 1, 2]
    (fun p => if p = 0 then 0 else if p = 1 then 3 else 5)
    (fun p => if p = 0 then 4 else if p = 1 then 2 else 0) 0 (by simp)
    (fun p hp => by
      have hp' : p < 3 := by simpa using hp
      interval_cases p
      · exact ⟨OptimalBST.IsMin_nil, h12⟩
      · exact ⟨IsMin_single 3, IsMin_single 2⟩
      · exact ⟨h31, OptimalBST.IsMin_nil⟩)
    (fun p hp => by
      have hp' : p < 3 := by simpa using hp
      interval_cases p <;> simp)
  simpa using h

/-- C40: with the elements 1, 2, 3 and the frequencies 3, 1, 2 `Init` returns the node of
key 2 as root and `Cost(Root())` is 9: the candidate root 2 of the whole interval was
charged 6 + 3, the cost of its right part being left out.  The least weighted path cost
of a binary tree over these frequencies is 10. -/
theorem cost_below_minimum :
    (Init OptimalBST.sampleElements [3, 1, 2]).outcome = Outcome.returned
      { root := some 1,
        nodes := [
          { key := 1, data := "a", parent := some 1, left := none, right := some 2, cost := 10 },
          { key := 2, data := "b", parent := some 2, left := some 0, right := some 2, cost := 9 },
          { key := 3, data := "c", parent := some 1, left := some 1, right := none, cost := 4 }] }
    ∧ ((Init OptimalBST.sampleElements [3, 1, 2]).outcome.bind fun b =>
        Outcome.returned (Cost b b.root)) = Outcome.returned (some 9)
    ∧ OptimalBST.IsMin Nat String [3, 1, 2] 10 :=
  ⟨by decide, by decide, IsMin_three⟩

end OptimalBSTree

namespace RedBlackBST

open OrderStatisticBST (Color)

variable {K T : Type}

/-- C33 (code defect): the map built by `Insert(20, "b")`, `Insert(10, "a")`,
`Insert(30, "c")` is a valid red-black tree with distinct keys.  `Erase(20)` has a target
that is not a leaf: `PlaceTo` copies the key 30 of the successor into the target node and
leaves the target's `data`, then the successor node is deleted together with its value.
Afterwards `Find(30)` returns the node with the value "b" that was inserted for the key
20, not the value "c" inserted for 30. -/
theorem erase_loses_value :
    insertAll Tree.nil [(20, "b"), (10, "a"), (30, "c")] = some sampleMap ∧
      Data (Find 30 [] sampleMap) = some "c" ∧
      Erase sampleMap 20 =
        some (Tree.node 30 "b" Color.BLACK (Tree.node 10 "a" Color.RED Tree.nil Tree.nil)
          Tree.nil) ∧
      Data (Find 30 []
        (Tree.node 30 "b" Color.BLACK (Tree.node 10 "a" Color.RED Tree.nil Tree.nil)
          Tree.nil)) = some "b" := by
  refine ⟨?_, ?_, ?_, ?_⟩
  · simp [insertAll, Insert, InsertNode, InsertCase1, InsertCase2, InsertCase3, InsertCase4,
      InsertCase5, toBlack, plug, attach, RotateLeft, RotateRight, goLeft, goRight,
      sampleMap]
  · simp [Find, sampleMap, Data]
  · simp [Erase, sampleMap, Find, isLeaf, MinNode, EraseSplice, Delete, plug, attach]
  · simp [Find, Data]

/-! ### The order statistic tree and the red-black tree have the same shape -/

theorem DeleteCase3_of_red_RB (f : Frame K T) (rest : Ctx K T) (n : Tree K T)
    (h : f.color ≠ Color.BLACK) :
    DeleteCase3 (f :: rest) n = DeleteCase4 (f :: rest) n := by
  rw [DeleteCase3]
  simp [h]

/-! ### The functions of the order statistic tree commute with taking the shape -/

@[simp]
theorem shapeOS_nil_OS : shapeOS (OrderStatisticBST.Tree.nil : OrderStatisticBST.Tree K T) =
    Tree.nil := rfl

@[simp]
theorem shapeOS_node_OS (k : K) (d : T) (c : Color) (s : Nat) (l r : OrderStatisticBST.Tree K T) :
    shapeOS (OrderStatisticBST.Tree.node k d c s l r) = Tree.node k () c (shapeOS l) (shapeOS r) :=
        rfl

@[simp]
theorem shapeOSF_mk_OS (il : Bool) (k : K) (d : T) (c : Color) (s : Nat) (b : OrderStatisticBST.Tree
    K T) :
    shapeOSF (⟨il, k, d, c, s, b⟩ : OrderStatisticBST.Frame K T) = ⟨il, k, (), c, shapeOS b⟩ := rfl

@[simp]
theorem shapeOS_attach_OS (f : OrderStatisticBST.Frame K T) (t : OrderStatisticBST.Tree K T) :
    shapeOS (OrderStatisticBST.attach f t) = attach (shapeOSF f) (shapeOS t) := by
  obtain ⟨fl, fk, fd, fc, fs, fb⟩ := f
  cases fl <;> simp [OrderStatisticBST.attach, attach]

@[simp]
theorem shapeOS_plug_OS (ctx : OrderStatisticBST.Ctx K T) : ∀ t : OrderStatisticBST.Tree K T,
    shapeOS (OrderStatisticBST.plug ctx t) = plug (ctx.map shapeOSF) (shapeOS t) := by
  induction ctx with
  | nil => intro t; rfl
  | cons f rest ih =>
    intro t
    simp [OrderStatisticBST.plug, plug, ih]

theorem toRed_OS (t : OrderStatisticBST.Tree K T) : (OrderStatisticBST.toRed t).map shapeOS = toRed
    (shapeOS t) := by
  cases t <;> simp [OrderStatisticBST.toRed, toRed]

theorem toBlack_OS (t : OrderStatisticBST.Tree K T) : (OrderStatisticBST.toBlack t).map shapeOS =
    toBlack (shapeOS t) := by
  cases t <;> simp [OrderStatisticBST.toBlack, toBlack]

theorem isRed_OS (t : OrderStatisticBST.Tree K T) : OrderStatisticBST.isRed t = isRed (shapeOS t) :=
    by
  cases t <;> simp [OrderStatisticBST.isRed, isRed]

theorem isBlack_OS (t : OrderStatisticBST.Tree K T) : OrderStatisticBST.isBlack t = isBlack (shapeOS
    t) := by
  cases t <;> simp [OrderStatisticBST.isBlack, isBlack]

theorem absentOrBlack_OS (t : OrderStatisticBST.Tree K T) :
    OrderStatisticBST.absentOrBlack t = absentOrBlack (shapeOS t) := by
  cases t <;> simp [OrderStatisticBST.absentOrBlack, absentOrBlack]

theorem isLeaf_OS (l r : OrderStatisticBST.Tree K T) : OrderStatisticBST.isLeaf l r = isLeaf
    (shapeOS l) (shapeOS r) := by
  cases l <;> cases r <;> simp [OrderStatisticBST.isLeaf, isLeaf]

theorem RotateLeft_OS (t : OrderStatisticBST.Tree K T) :
    (OrderStatisticBST.RotateLeft t).map shapeOS = RotateLeft (shapeOS t) := by
  rcases t with _ | ⟨xk, xd, xc, xs, xl, xr⟩
  · simp [OrderStatisticBST.RotateLeft, RotateLeft]
  · cases xr <;> simp [OrderStatisticBST.RotateLeft, RotateLeft]

theorem RotateRight_OS (t : OrderStatisticBST.Tree K T) :
    (OrderStatisticBST.RotateRight t).map shapeOS = RotateRight (shapeOS t) := by
  rcases t with _ | ⟨xk, xd, xc, xs, xl, xr⟩
  · simp [OrderStatisticBST.RotateRight, RotateRight]
  · cases xl <;> simp [OrderStatisticBST.RotateRight, RotateRight]

theorem goLeft_OS (loc : OrderStatisticBST.Loc K T) :
    (OrderStatisticBST.goLeft loc).map (Prod.map (List.map shapeOSF) shapeOS)
      = goLeft (Prod.map (List.map shapeOSF) shapeOS loc) := by
  obtain ⟨ctx, t⟩ := loc
  cases t <;> simp [OrderStatisticBST.goLeft, goLeft]

theorem goRight_OS (loc : OrderStatisticBST.Loc K T) :
    (OrderStatisticBST.goRight loc).map (Prod.map (List.map shapeOSF) shapeOS)
      = goRight (Prod.map (List.map shapeOSF) shapeOS loc) := by
  obtain ⟨ctx, t⟩ := loc
  cases t <;> simp [OrderStatisticBST.goRight, goRight]

theorem InsertNode_OS [LinearOrder K] (key : K) (data : T) (t : OrderStatisticBST.Tree K T) :
    ∀ ctx : OrderStatisticBST.Ctx K T, Prod.map (List.map shapeOSF) shapeOS
        (OrderStatisticBST.InsertNode key data ctx t)
      = InsertNode key () (ctx.map shapeOSF) (shapeOS t) := by
  induction t with
  | nil => intro ctx; simp [OrderStatisticBST.InsertNode, InsertNode]
  | node xk xd xc xs xl xr ihl ihr =>
    intro ctx
    simp only [OrderStatisticBST.InsertNode, InsertNode, shapeOS_node_OS]
    split_ifs
    · rw [ihr]; simp
    · rw [ihl]; simp

theorem InsertCase5_OS (ctx : OrderStatisticBST.Ctx K T) (n : OrderStatisticBST.Tree K T) :
    (OrderStatisticBST.InsertCase5 ctx n).map shapeOS = InsertCase5 (ctx.map shapeOSF) (shapeOS n)
        := by
  rcases ctx with _ | ⟨f, _ | ⟨g, rest⟩⟩
  · simp [OrderStatisticBST.InsertCase5, InsertCase5]
  · simp [OrderStatisticBST.InsertCase5, InsertCase5]
  · obtain ⟨fl, fk, fd, fc, fs, fb⟩ := f
    obtain ⟨gl, gk, gd, gc, gs, gb⟩ := g
    cases fl <;> cases gl <;> cases gb <;>
      simp [OrderStatisticBST.InsertCase5, InsertCase5, OrderStatisticBST.attach, attach,
          OrderStatisticBST.RotateRight, RotateRight,
        OrderStatisticBST.RotateLeft, RotateLeft]

theorem InsertCase4_OS (ctx : OrderStatisticBST.Ctx K T) (n : OrderStatisticBST.Tree K T) :
    (OrderStatisticBST.InsertCase4 ctx n).map shapeOS = InsertCase4 (ctx.map shapeOSF) (shapeOS n)
        := by
  rcases ctx with _ | ⟨f, _ | ⟨g, rest⟩⟩
  · simp [OrderStatisticBST.InsertCase4, InsertCase4]
  · simp [OrderStatisticBST.InsertCase4, InsertCase4]
  · obtain ⟨fl, fk, fd, fc, fs, fb⟩ := f
    obtain ⟨gl, gk, gd, gc, gs, gb⟩ := g
    cases fl <;> cases gl <;> cases n <;>
      simp [OrderStatisticBST.InsertCase4, InsertCase4, OrderStatisticBST.attach, attach,
          OrderStatisticBST.RotateRight, RotateRight,
        OrderStatisticBST.RotateLeft, RotateLeft, OrderStatisticBST.goLeft, goLeft,
            OrderStatisticBST.goRight, goRight,
        InsertCase5_OS]

theorem InsertCase_OS : (ctx : OrderStatisticBST.Ctx K T) → (n : OrderStatisticBST.Tree K T) →
    ((OrderStatisticBST.InsertCase1 ctx n).map shapeOS = InsertCase1 (ctx.map shapeOSF) (shapeOS n))
        ∧
    ((OrderStatisticBST.InsertCase2 ctx n).map shapeOS = InsertCase2 (ctx.map shapeOSF) (shapeOS n))
        ∧
    ((OrderStatisticBST.InsertCase3 ctx n).map shapeOS = InsertCase3 (ctx.map shapeOSF) (shapeOS n))
  | [], n => by
    refine ⟨?_, ?_, ?_⟩
    · cases n
      · simp [OrderStatisticBST.InsertCase1, InsertCase1]
      · simp [OrderStatisticBST.InsertCase1, InsertCase1, OrderStatisticBST.toBlack, toBlack]
    · simp [OrderStatisticBST.InsertCase2, InsertCase2]
    · have h := InsertCase4_OS ([] : OrderStatisticBST.Ctx K T) n
      simpa [OrderStatisticBST.InsertCase3, InsertCase3] using h
  | [f], n => by
    have h3 : (OrderStatisticBST.InsertCase3 [f] n).map shapeOS = InsertCase3 ([f].map shapeOSF)
        (shapeOS n) := by
      have h := InsertCase4_OS [f] n
      simpa [OrderStatisticBST.InsertCase3, InsertCase3] using h
    have h2 : (OrderStatisticBST.InsertCase2 [f] n).map shapeOS = InsertCase2 ([f].map shapeOSF)
        (shapeOS n) := by
      obtain ⟨fl, fk, fd, fc, fs, fb⟩ := f
      cases fc
      · simpa [OrderStatisticBST.InsertCase2, InsertCase2] using h3
      · simp [OrderStatisticBST.InsertCase2, InsertCase2]
    refine ⟨?_, h2, h3⟩
    cases n
    · simp [OrderStatisticBST.InsertCase1, InsertCase1]
    · simpa [OrderStatisticBST.InsertCase1, InsertCase1] using h2
  | f :: g :: rest, n => by
    have h3 : (OrderStatisticBST.InsertCase3 (f :: g :: rest) n).map shapeOS
        = InsertCase3 ((f :: g :: rest).map shapeOSF) (shapeOS n) := by
      have h4 := InsertCase4_OS (f :: g :: rest) n
      obtain ⟨gl, gk, gd, gc, gs, gb⟩ := g
      cases gb with
      | nil => simpa [OrderStatisticBST.InsertCase3, InsertCase3] using h4
      | node uk ud uc us ul ur =>
        cases uc with
        | BLACK => simpa [OrderStatisticBST.InsertCase3, InsertCase3] using h4
        | RED =>
          have h1 := (InsertCase_OS rest
            (OrderStatisticBST.attach ⟨gl, gk, gd, Color.RED, gs,
                OrderStatisticBST.Tree.node uk ud Color.BLACK us ul ur⟩
              (OrderStatisticBST.attach { f with color := Color.BLACK } n))).1
          obtain ⟨fl, fk, fd, fc, fs, fb⟩ := f
          simpa [OrderStatisticBST.InsertCase3, InsertCase3] using h1
    have h2 : (OrderStatisticBST.InsertCase2 (f :: g :: rest) n).map shapeOS
        = InsertCase2 ((f :: g :: rest).map shapeOSF) (shapeOS n) := by
      obtain ⟨fl, fk, fd, fc, fs, fb⟩ := f
      cases fc
      · simpa [OrderStatisticBST.InsertCase2, InsertCase2] using h3
      · simp [OrderStatisticBST.InsertCase2, InsertCase2]
    refine ⟨?_, h2, h3⟩
    cases n
    · simp [OrderStatisticBST.InsertCase1, InsertCase1]
    · simpa [OrderStatisticBST.InsertCase1, InsertCase1] using h2

theorem Insert_OS [LinearOrder K] (t : OrderStatisticBST.Tree K T) (key : K) (data : T) :
    (OrderStatisticBST.Insert t key data).map shapeOS = Insert (shapeOS t) key () := by
  have h := InsertNode_OS key data t []
  have h1 := (InsertCase_OS (OrderStatisticBST.InsertNode key data [] t).1
    (OrderStatisticBST.InsertNode key data [] t).2).1
  simp only [List.map_nil] at h
  simp only [OrderStatisticBST.Insert, Insert]
  rw [← h]
  exact h1

theorem Find_OS [LinearOrder K] (key : K) (t : OrderStatisticBST.Tree K T) :
    ∀ ctx : OrderStatisticBST.Ctx K T, (OrderStatisticBST.Find key ctx t).map (Prod.map (List.map
        shapeOSF) shapeOS)
      = Find key (ctx.map shapeOSF) (shapeOS t) := by
  induction t with
  | nil => intro ctx; simp [OrderStatisticBST.Find, Find]
  | node xk xd xc xs xl xr ihl ihr =>
    intro ctx
    simp only [OrderStatisticBST.Find, Find, shapeOS_node_OS]
    split_ifs
    · rw [ihr]; simp
    · rw [ihl]; simp
    · simp

theorem MinNode_OS (t : OrderStatisticBST.Tree K T) :
    ∀ ctx : OrderStatisticBST.Ctx K T, Prod.map (List.map shapeOSF) shapeOS
        (OrderStatisticBST.MinNode ctx t)
      = MinNode (ctx.map shapeOSF) (shapeOS t) := by
  induction t with
  | nil => intro ctx; simp [OrderStatisticBST.MinNode, MinNode]
  | node xk xd xc xs xl xr ihl ihr =>
    intro ctx
    cases xl with
    | nil => simp [OrderStatisticBST.MinNode, MinNode]
    | node yk yd yc ys yl yr =>
      have h := ihl (⟨true, xk, xd, xc, xs, xr⟩ :: ctx)
      simpa [OrderStatisticBST.MinNode, MinNode] using h

theorem MaxNode_OS (t : OrderStatisticBST.Tree K T) :
    ∀ ctx : OrderStatisticBST.Ctx K T, Prod.map (List.map shapeOSF) shapeOS
        (OrderStatisticBST.MaxNode ctx t)
      = MaxNode (ctx.map shapeOSF) (shapeOS t) := by
  induction t with
  | nil => intro ctx; simp [OrderStatisticBST.MaxNode, MaxNode]
  | node xk xd xc xs xl xr ihl ihr =>
    intro ctx
    cases xr with
    | nil => simp [OrderStatisticBST.MaxNode, MaxNode]
    | node yk yd yc ys yl yr =>
      have h := ihr (⟨false, xk, xd, xc, xs, xl⟩ :: ctx)
      simpa [OrderStatisticBST.MaxNode, MaxNode] using h

theorem DeleteCase6_OS (ctx : OrderStatisticBST.Ctx K T) (n : OrderStatisticBST.Tree K T) :
    (OrderStatisticBST.DeleteCase6 ctx n).map (Prod.map (List.map shapeOSF) shapeOS)
      = DeleteCase6 (ctx.map shapeOSF) (shapeOS n) := by
  rcases ctx with _ | ⟨f, rest⟩
  · simp [OrderStatisticBST.DeleteCase6, DeleteCase6]
  · obtain ⟨fl, fk, fd, fc, fs, fb⟩ := f
    rcases fb with _ | ⟨bk, bd, bc, bs, bl, br⟩
    · simp [OrderStatisticBST.DeleteCase6, DeleteCase6]
    · cases fl <;> cases bl <;> cases br <;>
        simp [OrderStatisticBST.DeleteCase6, DeleteCase6, OrderStatisticBST.attach, attach,
            OrderStatisticBST.toBlack, toBlack,
          OrderStatisticBST.RotateRight, RotateRight, OrderStatisticBST.RotateLeft, RotateLeft,
              OrderStatisticBST.goLeft, goLeft,
          OrderStatisticBST.goRight, goRight]

theorem DeleteCase5_OS (ctx : OrderStatisticBST.Ctx K T) (n : OrderStatisticBST.Tree K T) :
    (OrderStatisticBST.DeleteCase5 ctx n).map (Prod.map (List.map shapeOSF) shapeOS)
      = DeleteCase5 (ctx.map shapeOSF) (shapeOS n) := by
  rcases ctx with _ | ⟨f, rest⟩
  · simp [OrderStatisticBST.DeleteCase5, DeleteCase5]
  · obtain ⟨fl, fk, fd, fc, fs, fb⟩ := f
    have h6 := DeleteCase6_OS (⟨fl, fk, fd, fc, fs, fb⟩ :: rest) n
    rcases fb with _ | ⟨bk, bd, bc, bs, bl, br⟩
    · simp [OrderStatisticBST.DeleteCase5, DeleteCase5, OrderStatisticBST.isBlack, isBlack]
    · cases bc
      · simpa [OrderStatisticBST.DeleteCase5, DeleteCase5, OrderStatisticBST.isBlack, isBlack] using
            h6
      · cases fl
        · rcases bl with _ | ⟨xk, xd, xc, xs, xl, xr⟩
          · simp [OrderStatisticBST.DeleteCase5, DeleteCase5, OrderStatisticBST.isBlack, isBlack]
          · cases xc
            · simpa [OrderStatisticBST.DeleteCase5, DeleteCase5, OrderStatisticBST.isBlack, isBlack]
                  using h6
            · rcases br with _ | ⟨yk, yd, yc, ys, yl, yr⟩
              · simp [OrderStatisticBST.DeleteCase5, DeleteCase5, OrderStatisticBST.isBlack,
                    isBlack, OrderStatisticBST.isRed, isRed]
              · cases yc
                · have h6' := DeleteCase6_OS
                    (⟨false, fk, fd, fc, fs, OrderStatisticBST.Tree.node yk yd Color.BLACK bs
                      (OrderStatisticBST.Tree.node bk bd Color.RED
                        (OrderStatisticBST.Size (OrderStatisticBST.Tree.node xk xd Color.BLACK xs xl
                            xr) + OrderStatisticBST.Size yl + 1)
                        (OrderStatisticBST.Tree.node xk xd Color.BLACK xs xl xr) yl) yr⟩ :: rest) n
                  simpa [OrderStatisticBST.DeleteCase5, DeleteCase5, OrderStatisticBST.isBlack,
                      isBlack, OrderStatisticBST.isRed, isRed,
                    OrderStatisticBST.toBlack, toBlack, OrderStatisticBST.RotateLeft, RotateLeft]
                        using h6'
                · simpa [OrderStatisticBST.DeleteCase5, DeleteCase5, OrderStatisticBST.isBlack,
                      isBlack, OrderStatisticBST.isRed,
                    isRed] using h6
        · rcases br with _ | ⟨yk, yd, yc, ys, yl, yr⟩
          · simp [OrderStatisticBST.DeleteCase5, DeleteCase5, OrderStatisticBST.isBlack, isBlack]
          · cases yc
            · simpa [OrderStatisticBST.DeleteCase5, DeleteCase5, OrderStatisticBST.isBlack, isBlack]
                  using h6
            · rcases bl with _ | ⟨xk, xd, xc, xs, xl, xr⟩
              · simp [OrderStatisticBST.DeleteCase5, DeleteCase5, OrderStatisticBST.isBlack,
                    isBlack, OrderStatisticBST.isRed, isRed]
              · cases xc
                · have h6' := DeleteCase6_OS
                    (⟨true, fk, fd, fc, fs, OrderStatisticBST.Tree.node xk xd Color.BLACK bs xl
                      (OrderStatisticBST.Tree.node bk bd Color.RED
                        (OrderStatisticBST.Size (OrderStatisticBST.Tree.node yk yd Color.BLACK ys yl
                            yr) + OrderStatisticBST.Size xr + 1)
                        xr (OrderStatisticBST.Tree.node yk yd Color.BLACK ys yl yr))⟩ :: rest) n
                  simpa [OrderStatisticBST.DeleteCase5, DeleteCase5, OrderStatisticBST.isBlack,
                      isBlack, OrderStatisticBST.isRed, isRed,
                    OrderStatisticBST.toBlack, toBlack, OrderStatisticBST.RotateRight, RotateRight]
                        using h6'
                · simpa [OrderStatisticBST.DeleteCase5, DeleteCase5, OrderStatisticBST.isBlack,
                      isBlack, OrderStatisticBST.isRed,
                    isRed] using h6

theorem DeleteCase4_OS (ctx : OrderStatisticBST.Ctx K T) (n : OrderStatisticBST.Tree K T) :
    (OrderStatisticBST.DeleteCase4 ctx n).map (Prod.map (List.map shapeOSF) shapeOS)
      = DeleteCase4 (ctx.map shapeOSF) (shapeOS n) := by
  rcases ctx with _ | ⟨f, rest⟩
  · simp [OrderStatisticBST.DeleteCase4, DeleteCase4]
  · obtain ⟨fl, fk, fd, fc, fs, fb⟩ := f
    have h5 := DeleteCase5_OS (⟨fl, fk, fd, fc, fs, fb⟩ :: rest) n
    rcases fb with _ | ⟨bk, bd, bc, bs, bl, br⟩
    · cases fc
      · simp [OrderStatisticBST.DeleteCase4, DeleteCase4]
      · simpa [OrderStatisticBST.DeleteCase4, DeleteCase4] using h5
    · cases fc
      · by_cases hrep : (decide (bc = Color.BLACK) && OrderStatisticBST.absentOrBlack bl
            && OrderStatisticBST.absentOrBlack br) = true
        · have hrep' : (decide (bc = Color.BLACK) && absentOrBlack (shapeOS bl)
              && absentOrBlack (shapeOS br)) = true := by
            rw [← absentOrBlack_OS, ← absentOrBlack_OS]; exact hrep
          simp only [Bool.and_eq_true, decide_eq_true_eq] at hrep hrep'
          simp [OrderStatisticBST.DeleteCase4, DeleteCase4, hrep, hrep', OrderStatisticBST.toRed,
              toRed]
        · have hrep' : ¬ (decide (bc = Color.BLACK) && absentOrBlack (shapeOS bl)
              && absentOrBlack (shapeOS br)) = true := by
            rw [← absentOrBlack_OS, ← absentOrBlack_OS]; exact hrep
          simp only [Bool.and_eq_true, decide_eq_true_eq] at hrep hrep'
          simpa [OrderStatisticBST.DeleteCase4, DeleteCase4, hrep, hrep'] using h5
      · simpa [OrderStatisticBST.DeleteCase4, DeleteCase4] using h5

theorem DeleteCase2Rotate_OS (f : OrderStatisticBST.Frame K T) (rest : OrderStatisticBST.Ctx K T) (n
    : OrderStatisticBST.Tree K T) :
    (OrderStatisticBST.DeleteCase2Rotate f rest n).map (Prod.map (List.map shapeOSF) shapeOS)
      = DeleteCase2Rotate (shapeOSF f) (rest.map shapeOSF) (shapeOS n) := by
  obtain ⟨fl, fk, fd, fc, fs, fb⟩ := f
  rcases fb with _ | ⟨bk, bd, bc, bs, bl, br⟩
  · simp [OrderStatisticBST.DeleteCase2Rotate, DeleteCase2Rotate, OrderStatisticBST.toBlack,
        toBlack]
  · cases fl <;>
      simp [OrderStatisticBST.DeleteCase2Rotate, DeleteCase2Rotate, OrderStatisticBST.attach,
          attach, OrderStatisticBST.toBlack, toBlack,
        OrderStatisticBST.RotateRight, RotateRight, OrderStatisticBST.RotateLeft, RotateLeft,
            OrderStatisticBST.goLeft, goLeft,
        OrderStatisticBST.goRight, goRight]

theorem DeleteCase3_of_red_OS (f : OrderStatisticBST.Frame K T) (rest : OrderStatisticBST.Ctx K T)
    (n : OrderStatisticBST.Tree K T)
    (h : f.color ≠ Color.BLACK) :
    OrderStatisticBST.DeleteCase3 (f :: rest) n = OrderStatisticBST.DeleteCase4 (f :: rest) n := by
  rw [OrderStatisticBST.DeleteCase3]
  simp [h]

theorem DeleteCase2Rotate_top_OS (f : OrderStatisticBST.Frame K T) (rest : OrderStatisticBST.Ctx K
    T)
    (n : OrderStatisticBST.Tree K T) (loc : OrderStatisticBST.Loc K T) (h :
        OrderStatisticBST.DeleteCase2Rotate f rest n = some loc) :
    ∃ g rest', loc.1 = g :: rest' ∧ g.color = Color.RED := by
  obtain ⟨fl, fk, fd, fc, fs, fb⟩ := f
  rcases fb with _ | ⟨bk, bd, bc, bs, bl, br⟩
  · simp [OrderStatisticBST.DeleteCase2Rotate, OrderStatisticBST.toBlack] at h
  · cases fl
    · simp [OrderStatisticBST.DeleteCase2Rotate, OrderStatisticBST.attach,
          OrderStatisticBST.toBlack, OrderStatisticBST.RotateRight, OrderStatisticBST.goRight] at h
      subst h
      exact ⟨_, _, rfl, rfl⟩
    · simp [OrderStatisticBST.DeleteCase2Rotate, OrderStatisticBST.attach,
          OrderStatisticBST.toBlack, OrderStatisticBST.RotateLeft, OrderStatisticBST.goLeft] at h
      subst h
      exact ⟨_, _, rfl, rfl⟩

theorem DeleteCase_OS (ctx : OrderStatisticBST.Ctx K T) : ∀ n : OrderStatisticBST.Tree K T,
    ((OrderStatisticBST.DeleteCase1 ctx n).map (Prod.map (List.map shapeOSF) shapeOS)
      = DeleteCase1 (ctx.map shapeOSF) (shapeOS n)) ∧
    ((OrderStatisticBST.DeleteCase2 ctx n).map (Prod.map (List.map shapeOSF) shapeOS)
      = DeleteCase2 (ctx.map shapeOSF) (shapeOS n)) ∧
    ((OrderStatisticBST.DeleteCase3 ctx n).map (Prod.map (List.map shapeOSF) shapeOS)
      = DeleteCase3 (ctx.map shapeOSF) (shapeOS n)) := by
  induction ctx with
  | nil =>
    intro n
    refine ⟨?_, ?_, ?_⟩
    · cases n
      · simp [OrderStatisticBST.DeleteCase1, DeleteCase1]
      · simp [OrderStatisticBST.DeleteCase1, DeleteCase1]
    · simp [OrderStatisticBST.DeleteCase2, DeleteCase2]
    · simp [OrderStatisticBST.DeleteCase3, DeleteCase3]
  | cons f rest ih =>
    intro n
    have h3 : ∀ m : OrderStatisticBST.Tree K T,
        (OrderStatisticBST.DeleteCase3 (f :: rest) m).map (Prod.map (List.map shapeOSF) shapeOS)
          = DeleteCase3 ((f :: rest).map shapeOSF) (shapeOS m) := by
      intro m
      have h4 := DeleteCase4_OS (f :: rest) m
      obtain ⟨fl, fk, fd, fc, fs, fb⟩ := f
      cases fc with
      | RED =>
        rw [DeleteCase3_of_red_OS _ _ _ (by simp)]
        simp only [List.map_cons, shapeOSF_mk_OS]
        rw [DeleteCase3_of_red_RB _ _ _ (by simp)]
        simpa using h4
      | BLACK =>
        rcases fb with _ | ⟨bk, bd, bc, bs, bl, br⟩
        · simp [OrderStatisticBST.DeleteCase3, DeleteCase3]
        · by_cases hrep : (decide (bc = Color.BLACK) && OrderStatisticBST.absentOrBlack bl
              && OrderStatisticBST.absentOrBlack br) = true
          · have hrep' : (decide (bc = Color.BLACK) && absentOrBlack (shapeOS bl)
                && absentOrBlack (shapeOS br)) = true := by
              rw [← absentOrBlack_OS, ← absentOrBlack_OS]; exact hrep
            have h1 := (ih (OrderStatisticBST.attach ⟨fl, fk, fd, Color.BLACK, fs,
              OrderStatisticBST.Tree.node bk bd Color.RED bs bl br⟩ m)).1
            rw [OrderStatisticBST.DeleteCase3]
            simp only [List.map_cons, shapeOSF_mk_OS, shapeOS_node_OS]
            rw [DeleteCase3]
            simp only [dif_pos, hrep, hrep', if_true]
            simp only [shapeOS_attach_OS, shapeOSF_mk_OS, shapeOS_node_OS] at h1
            rw [← h1]
            cases hd : OrderStatisticBST.DeleteCase1 rest (OrderStatisticBST.attach ⟨fl, fk, fd,
                Color.BLACK, fs,
              OrderStatisticBST.Tree.node bk bd Color.RED bs bl br⟩ m) with
            | none => simp
            | some parent =>
              cases fl
              · simpa using goRight_OS parent
              · simpa using goLeft_OS parent
          · have hrep' : ¬ (decide (bc = Color.BLACK) && absentOrBlack (shapeOS bl)
                && absentOrBlack (shapeOS br)) = true := by
              rw [← absentOrBlack_OS, ← absentOrBlack_OS]; exact hrep
            rw [OrderStatisticBST.DeleteCase3]
            simp only [List.map_cons, shapeOSF_mk_OS, shapeOS_node_OS]
            rw [DeleteCase3]
            simp only [dif_pos, hrep, hrep', if_false]
            simpa using h4
    have h2 : (OrderStatisticBST.DeleteCase2 (f :: rest) n).map (Prod.map (List.map shapeOSF)
        shapeOS)
        = DeleteCase2 ((f :: rest).map shapeOSF) (shapeOS n) := by
      have hrot := DeleteCase2Rotate_OS f rest n
      have h3n := h3 n
      have hb : (shapeOSF f).brother = shapeOS f.brother := rfl
      rw [OrderStatisticBST.DeleteCase2]
      simp only [List.map_cons]
      rw [DeleteCase2, hb, ← isRed_OS]
      cases hred : OrderStatisticBST.isRed f.brother with
      | none => simp
      | some brotherRed =>
        cases brotherRed with
        | false => simpa [hred] using h3n
        | true =>
          simp only [Option.some_bind, eq_self_iff_true, if_true]
          split
          next e1 =>
            rw [e1] at hrot
            split
            next e2 => simp
            next loc e2 => rw [e2] at hrot; simp at hrot
          next loc e1 =>
            rw [e1] at hrot
            split
            next e2 => rw [e2] at hrot; simp at hrot
            next loc' e2 =>
              rw [e2] at hrot
              simp only [Option.map_some', Option.some.injEq] at hrot
              subst hrot
              obtain ⟨g, rest', hg1, hg2⟩ := DeleteCase2Rotate_top_OS f rest n loc e1
              obtain ⟨lctx, lt⟩ := loc
              simp only at hg1
              subst hg1
              simp only [Prod.map_apply, List.map_cons]
              rw [DeleteCase3_of_red_OS _ _ _ (by simp [hg2]),
                DeleteCase3_of_red_RB _ _ _ (by simp [shapeOSF, hg2])]
              simpa using DeleteCase4_OS (g :: rest') lt
    refine ⟨?_, h2, h3 n⟩
    cases n
    · simp [OrderStatisticBST.DeleteCase1, DeleteCase1]
    · simpa [OrderStatisticBST.DeleteCase1, DeleteCase1] using h2

theorem shrink_OS (ctx : OrderStatisticBST.Ctx K T) : (OrderStatisticBST.shrink ctx).map shapeOSF =
    ctx.map shapeOSF := by
  simp [OrderStatisticBST.shrink, shapeOSF]

theorem Delete_OS (root : OrderStatisticBST.Tree K T) (node : OrderStatisticBST.Loc K T) :
    shapeOS (OrderStatisticBST.Delete root node) = Delete (shapeOS root) (Prod.map (List.map
        shapeOSF) shapeOS node) := by
  obtain ⟨ctx, t⟩ := node
  cases ctx with
  | nil => simp [OrderStatisticBST.Delete, Delete]
  | cons f rest =>
    have h := shapeOS_plug_OS (OrderStatisticBST.shrink (f :: rest)) (OrderStatisticBST.Tree.nil :
        OrderStatisticBST.Tree K T)
    rw [shrink_OS] at h
    simpa [OrderStatisticBST.Delete, Delete] using h

theorem fixDelete_OS (nctx : OrderStatisticBST.Ctx K T) (X : OrderStatisticBST.Tree K T) :
    ((OrderStatisticBST.DeleteCase1 nctx X).map fun loc => OrderStatisticBST.Delete
        (OrderStatisticBST.plug loc.1 loc.2) loc).map shapeOS
      = (DeleteCase1 (nctx.map shapeOSF) (shapeOS X)).map fun loc => Delete (plug loc.1 loc.2) loc
          := by
  rw [← (DeleteCase_OS nctx X).1]
  cases OrderStatisticBST.DeleteCase1 nctx X with
  | none => rfl
  | some loc =>
    obtain ⟨c, t⟩ := loc
    simp [Delete_OS]

theorem fixDetached_OS (nctx : OrderStatisticBST.Ctx K T) (X D : OrderStatisticBST.Tree K T) :
    ((OrderStatisticBST.DeleteCase1 nctx X).map fun loc =>
        OrderStatisticBST.Delete (OrderStatisticBST.plug loc.1 loc.2) ([], D)).map shapeOS
      = (DeleteCase1 (nctx.map shapeOSF) (shapeOS X)).map fun loc =>
          Delete (plug loc.1 loc.2) ([], shapeOS D) := by
  rw [← (DeleteCase_OS nctx X).1]
  cases OrderStatisticBST.DeleteCase1 nctx X with
  | none => rfl
  | some loc =>
    obtain ⟨c, t⟩ := loc
    simp [Delete_OS]

theorem EraseSplice_OS (tctx : OrderStatisticBST.Ctx K T) (tf : OrderStatisticBST.Frame K T) (inner
    : OrderStatisticBST.Ctx K T)
    (n : OrderStatisticBST.Tree K T) :
    (OrderStatisticBST.EraseSplice tctx tf inner n).map shapeOS
      = EraseSplice (tctx.map shapeOSF) (shapeOSF tf) (inner.map shapeOSF) (shapeOS n) := by
  obtain ⟨tl, tk, td, tc, ts, tb⟩ := tf
  rcases n with _ | ⟨nk, nd, nc, ns, nl, nr⟩
  · simp [OrderStatisticBST.EraseSplice, EraseSplice]
  · rcases nl with _ | ⟨xk, xd, xc, xs, xl, xr⟩
    · rcases nr with _ | ⟨yk, yd, yc, ys, yl, yr⟩
      · cases nc
        · simp [OrderStatisticBST.EraseSplice, EraseSplice, Delete_OS]
        · have h := fixDelete_OS (inner ++ (⟨tl, nk, nd, tc, ts, tb⟩ :: tctx))
            (OrderStatisticBST.Tree.node nk nd Color.BLACK ns OrderStatisticBST.Tree.nil
                OrderStatisticBST.Tree.nil)
          simpa [OrderStatisticBST.EraseSplice, EraseSplice] using h
      · cases nc
        · simp [OrderStatisticBST.EraseSplice, EraseSplice, Delete_OS]
        · cases yc
          · simp [OrderStatisticBST.EraseSplice, EraseSplice, Delete_OS]
          · have h := fixDetached_OS (inner ++ (⟨tl, nk, nd, tc, ts, tb⟩ :: tctx))
              (OrderStatisticBST.Tree.node yk yd Color.BLACK ys yl yr)
              (OrderStatisticBST.Tree.node nk nd Color.BLACK ns OrderStatisticBST.Tree.nil
                  OrderStatisticBST.Tree.nil)
            simpa [OrderStatisticBST.EraseSplice, EraseSplice] using h
    · cases nc
      · simp [OrderStatisticBST.EraseSplice, EraseSplice, Delete_OS]
      · cases xc
        · simp [OrderStatisticBST.EraseSplice, EraseSplice, Delete_OS]
        · have h := fixDetached_OS (inner ++ (⟨tl, nk, nd, tc, ts, tb⟩ :: tctx))
            (OrderStatisticBST.Tree.node xk xd Color.BLACK xs xl xr)
            (OrderStatisticBST.Tree.node nk nd Color.BLACK ns OrderStatisticBST.Tree.nil
                OrderStatisticBST.Tree.nil)
          simpa [OrderStatisticBST.EraseSplice, EraseSplice] using h

theorem Erase_OS [LinearOrder K] (t : OrderStatisticBST.Tree K T) (key : K) :
    (OrderStatisticBST.Erase t key).map shapeOS = Erase (shapeOS t) key := by
  have hf := Find_OS key t []
  simp only [List.map_nil] at hf
  simp only [OrderStatisticBST.Erase, Erase]
  rw [← hf]
  cases hfind : OrderStatisticBST.Find key [] t with
  | none => simp
  | some loc =>
    obtain ⟨tctx, tt⟩ := loc
    rcases tt with _ | ⟨tk, td, tc, ts, tl, tr⟩
    · simp
    · simp only [Option.map_some', Prod.map_apply, shapeOS_node_OS]
      rw [← isLeaf_OS]
      cases hleaf : OrderStatisticBST.isLeaf tl tr
      · simp only [Bool.false_eq_true, if_false]
        rcases tr with _ | ⟨rk, rd, rc, rs, rl, rr⟩
        · have hm := MaxNode_OS tl []
          have hs := EraseSplice_OS tctx ⟨true, tk, td, tc, ts, OrderStatisticBST.Tree.nil⟩
            (OrderStatisticBST.MaxNode [] tl).1 (OrderStatisticBST.MaxNode [] tl).2
          simp only [List.map_nil] at hm
          rw [← hm]
          simpa using hs
        · have hm := MinNode_OS (OrderStatisticBST.Tree.node rk rd rc rs rl rr) []
          have hs := EraseSplice_OS tctx ⟨false, tk, td, tc, ts, tl⟩
            (OrderStatisticBST.MinNode [] (OrderStatisticBST.Tree.node rk rd rc rs rl rr)).1
            (OrderStatisticBST.MinNode [] (OrderStatisticBST.Tree.node rk rd rc rs rl rr)).2
          simp only [List.map_nil, shapeOS_node_OS] at hm
          simp only [shapeOS_node_OS]
          rw [← hm]
          simpa using hs
      · simp only [if_true]
        cases tc
        · cases tctx <;> simp [Delete_OS]
        · have h1 := (DeleteCase_OS tctx (OrderStatisticBST.Tree.node tk td Color.BLACK ts tl tr)).1
          simp only [shapeOS_node_OS] at h1
          rw [← h1]
          cases OrderStatisticBST.DeleteCase1 tctx (OrderStatisticBST.Tree.node tk td Color.BLACK ts
              tl tr) with
          | none => simp
          | some loc =>
            obtain ⟨c, t'⟩ := loc
            cases c <;> simp [Delete_OS]

/-! ### The functions of the red-black tree commute with taking the shape -/

@[simp]
theorem shape_nil_RB : shape (Tree.nil : Tree K T) = Tree.nil := rfl

@[simp]
theorem shape_node_RB (k : K) (d : T) (c : Color)  (l r : Tree K T) :
    shape (Tree.node k d c  l r) = Tree.node k () c (shape l) (shape r) := rfl

@[simp]
theorem shapeF_mk_RB (il : Bool) (k : K) (d : T) (c : Color)  (b : Tree K T) :
    shapeF (⟨il, k, d, c,  b⟩ : Frame K T) = ⟨il, k, (), c, shape b⟩ := rfl

@[simp]
theorem shape_attach_RB (f : Frame K T) (t : Tree K T) :
    shape (attach f t) = attach (shapeF f) (shape t) := by
  obtain ⟨fl, fk, fd, fc, fb⟩ := f
  cases fl <;> simp [attach, attach]

@[simp]
theorem shape_plug_RB (ctx : Ctx K T) : ∀ t : Tree K T,
    shape (plug ctx t) = plug (ctx.map shapeF) (shape t) := by
  induction ctx with
  | nil => intro t; rfl
  | cons f rest ih =>
    intro t
    simp [plug, plug, ih]

theorem toRed_RB (t : Tree K T) : (toRed t).map shape = toRed (shape t) := by
  cases t <;> simp [toRed, toRed]

theorem toBlack_RB (t : Tree K T) : (toBlack t).map shape = toBlack (shape t) := by
  cases t <;> simp [toBlack, toBlack]

theorem isRed_RB (t : Tree K T) : isRed t = isRed (shape t) := by
  cases t <;> simp [isRed, isRed]

theorem isBlack_RB (t : Tree K T) : isBlack t = isBlack (shape t) := by
  cases t <;> simp [isBlack, isBlack]

theorem absentOrBlack_RB (t : Tree K T) :
    absentOrBlack t = absentOrBlack (shape t) := by
  cases t <;> simp [absentOrBlack, absentOrBlack]

theorem isLeaf_RB (l r : Tree K T) : isLeaf l r = isLeaf (shape l) (shape r) := by
  cases l <;> cases r <;> simp [isLeaf, isLeaf]

theorem RotateLeft_RB (t : Tree K T) :
    (RotateLeft t).map shape = RotateLeft (shape t) := by
  rcases t with _ | ⟨xk, xd, xc, xl, xr⟩
  · simp [RotateLeft, RotateLeft]
  · cases xr <;> simp [RotateLeft, RotateLeft]

theorem RotateRight_RB (t : Tree K T) :
    (RotateRight t).map shape = RotateRight (shape t) := by
  rcases t with _ | ⟨xk, xd, xc, xl, xr⟩
  · simp [RotateRight, RotateRight]
  · cases xl <;> simp [RotateRight, RotateRight]

theorem goLeft_RB (loc : Loc K T) :
    (goLeft loc).map (Prod.map (List.map shapeF) shape)
      = goLeft (Prod.map (List.map shapeF) shape loc) := by
  obtain ⟨ctx, t⟩ := loc
  cases t <;> simp [goLeft, goLeft]

theorem goRight_RB (loc : Loc K T) :
    (goRight loc).map (Prod.map (List.map shapeF) shape)
      = goRight (Prod.map (List.map shapeF) shape loc) := by
  obtain ⟨ctx, t⟩ := loc
  cases t <;> simp [goRight, goRight]

theorem InsertNode_RB [LinearOrder K] (key : K) (data : T) (t : Tree K T) :
    ∀ ctx : Ctx K T, Prod.map (List.map shapeF) shape (InsertNode key data ctx t)
      = InsertNode key () (ctx.map shapeF) (shape t) := by
  induction t with
  | nil => intro ctx; simp [InsertNode, InsertNode]
  | node xk xd xc xl xr ihl ihr =>
    intro ctx
    simp only [InsertNode, InsertNode, shape_node_RB]
    split_ifs
    · rw [ihr]; simp
    · rw [ihl]; simp

theorem InsertCase5_RB (ctx : Ctx K T) (n : Tree K T) :
    (InsertCase5 ctx n).map shape = InsertCase5 (ctx.map shapeF) (shape n) := by
  rcases ctx with _ | ⟨f, _ | ⟨g, rest⟩⟩
  · simp [InsertCase5, InsertCase5]
  · simp [InsertCase5, InsertCase5]
  · obtain ⟨fl, fk, fd, fc, fb⟩ := f
    obtain ⟨gl, gk, gd, gc, gb⟩ := g
    cases fl <;> cases gl <;> cases gb <;>
      simp [InsertCase5, InsertCase5, attach, attach, RotateRight, RotateRight,
        RotateLeft, RotateLeft]

theorem InsertCase4_RB (ctx : Ctx K T) (n : Tree K T) :
    (InsertCase4 ctx n).map shape = InsertCase4 (ctx.map shapeF) (shape n) := by
  rcases ctx with _ | ⟨f, _ | ⟨g, rest⟩⟩
  · simp [InsertCase4, InsertCase4]
  · simp [InsertCase4, InsertCase4]
  · obtain ⟨fl, fk, fd, fc, fb⟩ := f
    obtain ⟨gl, gk, gd, gc, gb⟩ := g
    cases fl <;> cases gl <;> cases n <;>
      simp [InsertCase4, InsertCase4, attach, attach, RotateRight, RotateRight,
        RotateLeft, RotateLeft, goLeft, goLeft, goRight, goRight,
        InsertCase5_RB]

theorem InsertCase_RB : (ctx : Ctx K T) → (n : Tree K T) →
    ((InsertCase1 ctx n).map shape = InsertCase1 (ctx.map shapeF) (shape n)) ∧
    ((InsertCase2 ctx n).map shape = InsertCase2 (ctx.map shapeF) (shape n)) ∧
    ((InsertCase3 ctx n).map shape = InsertCase3 (ctx.map shapeF) (shape n))
  | [], n => by
    refine ⟨?_, ?_, ?_⟩
    · cases n
      · simp [InsertCase1, InsertCase1]
      · simp [InsertCase1, InsertCase1, toBlack, toBlack]
    · simp [InsertCase2, InsertCase2]
    · have h := InsertCase4_RB ([] : Ctx K T) n
      simpa [InsertCase3, InsertCase3] using h
  | [f], n => by
    have h3 : (InsertCase3 [f] n).map shape = InsertCase3 ([f].map shapeF) (shape n) := by
      have h := InsertCase4_RB [f] n
      simpa [InsertCase3, InsertCase3] using h
    have h2 : (InsertCase2 [f] n).map shape = InsertCase2 ([f].map shapeF) (shape n) := by
      obtain ⟨fl, fk, fd, fc, fb⟩ := f
      cases fc
      · simpa [InsertCase2, InsertCase2] using h3
      · simp [InsertCase2, InsertCase2]
    refine ⟨?_, h2, h3⟩
    cases n
    · simp [InsertCase1, InsertCase1]
    · simpa [InsertCase1, InsertCase1] using h2
  | f :: g :: rest, n => by
    have h3 : (InsertCase3 (f :: g :: rest) n).map shape
        = InsertCase3 ((f :: g :: rest).map shapeF) (shape n) := by
      have h4 := InsertCase4_RB (f :: g :: rest) n
      obtain ⟨gl, gk, gd, gc, gb⟩ := g
      cases gb with
      | nil => simpa [InsertCase3, InsertCase3] using h4
      | node uk ud uc ul ur =>
        cases uc with
        | BLACK => simpa [InsertCase3, InsertCase3] using h4
        | RED =>
          have h1 := (InsertCase_RB rest
            (attach ⟨gl, gk, gd, Color.RED, 
                Tree.node uk ud Color.BLACK  ul ur⟩
              (attach { f with color := Color.BLACK } n))).1
          obtain ⟨fl, fk, fd, fc, fb⟩ := f
          simpa [InsertCase3, InsertCase3] using h1
    have h2 : (InsertCase2 (f :: g :: rest) n).map shape
        = InsertCase2 ((f :: g :: rest).map shapeF) (shape n) := by
      obtain ⟨fl, fk, fd, fc, fb⟩ := f
      cases fc
      · simpa [InsertCase2, InsertCase2] using h3
      · simp [InsertCase2, InsertCase2]
    refine ⟨?_, h2, h3⟩
    cases n
    · simp [InsertCase1, InsertCase1]
    · simpa [InsertCase1, InsertCase1] using h2

theorem Insert_RB [LinearOrder K] (t : Tree K T) (key : K) (data : T) :
    (Insert t key data).map shape = Insert (shape t) key () := by
  have h := InsertNode_RB key data t []
  have h1 := (InsertCase_RB (InsertNode key data [] t).1
    (InsertNode key data [] t).2).1
  simp only [List.map_nil] at h
  simp only [Insert, Insert]
  rw [← h]
  exact h1

theorem Find_RB [LinearOrder K] (key : K) (t : Tree K T) :
    ∀ ctx : Ctx K T, (Find key ctx t).map (Prod.map (List.map shapeF) shape)
      = Find key (ctx.map shapeF) (shape t) := by
  induction t with
  | nil => intro ctx; simp [Find, Find]
  | node xk xd xc xl xr ihl ihr =>
    intro ctx
    simp only [Find, Find, shape_node_RB]
    split_ifs
    · rw [ihr]; simp
    · rw [ihl]; simp
    · simp

theorem MinNode_RB (t : Tree K T) :
    ∀ ctx : Ctx K T, Prod.map (List.map shapeF) shape (MinNode ctx t)
      = MinNode (ctx.map shapeF) (shape t) := by
  induction t with
  | nil => intro ctx; simp [MinNode, MinNode]
  | node xk xd xc xl xr ihl ihr =>
    intro ctx
    cases xl with
    | nil => simp [MinNode, MinNode]
    | node yk yd yc yl yr =>
      have h := ihl (⟨true, xk, xd, xc,  xr⟩ :: ctx)
      simpa [MinNode, MinNode] using h

theorem MaxNode_RB (t : Tree K T) :
    ∀ ctx : Ctx K T, Prod.map (List.map shapeF) shape (MaxNode ctx t)
      = MaxNode (ctx.map shapeF) (shape t) := by
  induction t with
  | nil => intro ctx; simp [MaxNode, MaxNode]
  | node xk xd xc xl xr ihl ihr =>
    intro ctx
    cases xr with
    | nil => simp [MaxNode, MaxNode]
    | node yk yd yc yl yr =>
      have h := ihr (⟨false, xk, xd, xc,  xl⟩ :: ctx)
      simpa [MaxNode, MaxNode] using h

theorem DeleteCase6_RB (ctx : Ctx K T) (n : Tree K T) :
    (DeleteCase6 ctx n).map (Prod.map (List.map shapeF) shape)
      = DeleteCase6 (ctx.map shapeF) (shape n) := by
  rcases ctx with _ | ⟨f, rest⟩
  · simp [DeleteCase6, DeleteCase6]
  · obtain ⟨fl, fk, fd, fc, fb⟩ := f
    rcases fb with _ | ⟨bk, bd, bc, bl, br⟩
    · simp [DeleteCase6, DeleteCase6]
    · cases fl <;> cases bl <;> cases br <;>
        simp [DeleteCase6, DeleteCase6, attach, attach, toBlack, toBlack,
          RotateRight, RotateRight, RotateLeft, RotateLeft, goLeft, goLeft,
          goRight, goRight]

theorem DeleteCase5_RB (ctx : Ctx K T) (n : Tree K T) :
    (DeleteCase5 ctx n).map (Prod.map (List.map shapeF) shape)
      = DeleteCase5 (ctx.map shapeF) (shape n) := by
  rcases ctx with _ | ⟨f, rest⟩
  · simp [DeleteCase5, DeleteCase5]
  · obtain ⟨fl, fk, fd, fc, fb⟩ := f
    have h6 := DeleteCase6_RB (⟨fl, fk, fd, fc, fb⟩ :: rest) n
    rcases fb with _ | ⟨bk, bd, bc, bl, br⟩
    · simp [DeleteCase5, DeleteCase5, isBlack, isBlack]
    · cases bc
      · simpa [DeleteCase5, DeleteCase5, isBlack, isBlack] using h6
      · cases fl
        · rcases bl with _ | ⟨xk, xd, xc, xl, xr⟩
          · simp [DeleteCase5, DeleteCase5, isBlack, isBlack]
          · cases xc
            · simpa [DeleteCase5, DeleteCase5, isBlack, isBlack] using h6
            · rcases br with _ | ⟨yk, yd, yc, yl, yr⟩
              · simp [DeleteCase5, DeleteCase5, isBlack, isBlack, isRed, isRed]
              · cases yc
                · have h6' := DeleteCase6_RB
                    (⟨false, fk, fd, fc,  Tree.node yk yd Color.BLACK 
                      (Tree.node bk bd Color.RED
                        
                        (Tree.node xk xd Color.BLACK  xl xr) yl) yr⟩ :: rest) n
                  simpa [DeleteCase5, DeleteCase5, isBlack, isBlack, isRed, isRed,
                    toBlack, toBlack, RotateLeft, RotateLeft] using h6'
                · simpa [DeleteCase5, DeleteCase5, isBlack, isBlack, isRed,
                    isRed] using h6
        · rcases br with _ | ⟨yk, yd, yc, yl, yr⟩
          · simp [DeleteCase5, DeleteCase5, isBlack, isBlack]
          · cases yc
            · simpa [DeleteCase5, DeleteCase5, isBlack, isBlack] using h6
            · rcases bl with _ | ⟨xk, xd, xc, xl, xr⟩
              · simp [DeleteCase5, DeleteCase5, isBlack, isBlack, isRed, isRed]
              · cases xc
                · have h6' := DeleteCase6_RB
                    (⟨true, fk, fd, fc,  Tree.node xk xd Color.BLACK  xl
                      (Tree.node bk bd Color.RED
                        
                        xr (Tree.node yk yd Color.BLACK  yl yr))⟩ :: rest) n
                  simpa [DeleteCase5, DeleteCase5, isBlack, isBlack, isRed, isRed,
                    toBlack, toBlack, RotateRight, RotateRight] using h6'
                · simpa [DeleteCase5, DeleteCase5, isBlack, isBlack, isRed,
                    isRed] using h6

theorem DeleteCase4_RB (ctx : Ctx K T) (n : Tree K T) :
    (DeleteCase4 ctx n).map (Prod.map (List.map shapeF) shape)
      = DeleteCase4 (ctx.map shapeF) (shape n) := by
  rcases ctx with _ | ⟨f, rest⟩
  · simp [DeleteCase4, DeleteCase4]
  · obtain ⟨fl, fk, fd, fc, fb⟩ := f
    have h5 := DeleteCase5_RB (⟨fl, fk, fd, fc, fb⟩ :: rest) n
    rcases fb with _ | ⟨bk, bd, bc, bl, br⟩
    · cases fc
      · simp [DeleteCase4, DeleteCase4]
      · simpa [DeleteCase4, DeleteCase4] using h5
    · cases fc
      · by_cases hrep : (decide (bc = Color.BLACK) && absentOrBlack bl
            && absentOrBlack br) = true
        · have hrep' : (decide (bc = Color.BLACK) && absentOrBlack (shape bl)
              && absentOrBlack (shape br)) = true := by
            rw [← absentOrBlack_RB, ← absentOrBlack_RB]; exact hrep
          simp only [Bool.and_eq_true, decide_eq_true_eq] at hrep hrep'
          simp [DeleteCase4, DeleteCase4, hrep, hrep', toRed, toRed]
        · have hrep' : ¬ (decide (bc = Color.BLACK) && absentOrBlack (shape bl)
              && absentOrBlack (shape br)) = true := by
            rw [← absentOrBlack_RB, ← absentOrBlack_RB]; exact hrep
          simp only [Bool.and_eq_true, decide_eq_true_eq] at hrep hrep'
          simpa [DeleteCase4, DeleteCase4, hrep, hrep'] using h5
      · simpa [DeleteCase4, DeleteCase4] using h5

theorem DeleteCase2Rotate_RB (f : Frame K T) (rest : Ctx K T) (n : Tree K T) :
    (DeleteCase2Rotate f rest n).map (Prod.map (List.map shapeF) shape)
      = DeleteCase2Rotate (shapeF f) (rest.map shapeF) (shape n) := by
  obtain ⟨fl, fk, fd, fc, fb⟩ := f
  rcases fb with _ | ⟨bk, bd, bc, bl, br⟩
  · simp [DeleteCase2Rotate, DeleteCase2Rotate, toBlack, toBlack]
  · cases fl <;>
      simp [DeleteCase2Rotate, DeleteCase2Rotate, attach, attach, toBlack, toBlack,
        RotateRight, RotateRight, RotateLeft, RotateLeft, goLeft, goLeft,
        goRight, goRight]

theorem DeleteCase2Rotate_top_RB (f : Frame K T) (rest : Ctx K T)
    (n : Tree K T) (loc : Loc K T) (h : DeleteCase2Rotate f rest n = some loc) :
    ∃ g rest', loc.1 = g :: rest' ∧ g.color = Color.RED := by
  obtain ⟨fl, fk, fd, fc, fb⟩ := f
  rcases fb with _ | ⟨bk, bd, bc, bl, br⟩
  · simp [DeleteCase2Rotate, toBlack] at h
  · cases fl
    · simp [DeleteCase2Rotate, attach, toBlack, RotateRight, goRight] at h
      subst h
      exact ⟨_, _, rfl, rfl⟩
    · simp [DeleteCase2Rotate, attach, toBlack, RotateLeft, goLeft] at h
      subst h
      exact ⟨_, _, rfl, rfl⟩

theorem DeleteCase_RB (ctx : Ctx K T) : ∀ n : Tree K T,
    ((DeleteCase1 ctx n).map (Prod.map (List.map shapeF) shape)
      = DeleteCase1 (ctx.map shapeF) (shape n)) ∧
    ((DeleteCase2 ctx n).map (Prod.map (List.map shapeF) shape)
      = DeleteCase2 (ctx.map shapeF) (shape n)) ∧
    ((DeleteCase3 ctx n).map (Prod.map (List.map shapeF) shape)
      = DeleteCase3 (ctx.map shapeF) (shape n)) := by
  induction ctx with
  | nil =>
    intro n
    refine ⟨?_, ?_, ?_⟩
    · cases n
      · simp [DeleteCase1, DeleteCase1]
      · simp [DeleteCase1, DeleteCase1]
    · simp [DeleteCase2, DeleteCase2]
    · simp [DeleteCase3, DeleteCase3]
  | cons f rest ih =>
    intro n
    have h3 : ∀ m : Tree K T,
        (DeleteCase3 (f :: rest) m).map (Prod.map (List.map shapeF) shape)
          = DeleteCase3 ((f :: rest).map shapeF) (shape m) := by
      intro m
      have h4 := DeleteCase4_RB (f :: rest) m
      obtain ⟨fl, fk, fd, fc, fb⟩ := f
      cases fc with
      | RED =>
        rw [DeleteCase3_of_red_RB _ _ _ (by simp)]
        simp only [List.map_cons, shapeF_mk_RB]
        rw [DeleteCase3_of_red_RB _ _ _ (by simp)]
        simpa using h4
      | BLACK =>
        rcases fb with _ | ⟨bk, bd, bc, bl, br⟩
        · simp [DeleteCase3, DeleteCase3]
        · by_cases hrep : (decide (bc = Color.BLACK) && absentOrBlack bl
              && absentOrBlack br) = true
          · have hrep' : (decide (bc = Color.BLACK) && absentOrBlack (shape bl)
                && absentOrBlack (shape br)) = true := by
              rw [← absentOrBlack_RB, ← absentOrBlack_RB]; exact hrep
            have h1 := (ih (attach ⟨fl, fk, fd, Color.BLACK, 
              Tree.node bk bd Color.RED  bl br⟩ m)).1
            rw [DeleteCase3]
            simp only [List.map_cons, shapeF_mk_RB, shape_node_RB]
            rw [DeleteCase3]
            simp only [dif_pos, hrep, hrep', if_true]
            simp only [shape_attach_RB, shapeF_mk_RB, shape_node_RB] at h1
            rw [← h1]
            cases hd : DeleteCase1 rest (attach ⟨fl, fk, fd, Color.BLACK, 
              Tree.node bk bd Color.RED  bl br⟩ m) with
            | none => simp
            | some parent =>
              cases fl
              · simpa using goRight_RB parent
              · simpa using goLeft_RB parent
          · have hrep' : ¬ (decide (bc = Color.BLACK) && absentOrBlack (shape bl)
                && absentOrBlack (shape br)) = true := by
              rw [← absentOrBlack_RB, ← absentOrBlack_RB]; exact hrep
            rw [DeleteCase3]
            simp only [List.map_cons, shapeF_mk_RB, shape_node_RB]
            rw [DeleteCase3]
            simp only [dif_pos, hrep, hrep', if_false]
            simpa using h4
    have h2 : (DeleteCase2 (f :: rest) n).map (Prod.map (List.map shapeF) shape)
        = DeleteCase2 ((f :: rest).map shapeF) (shape n) := by
      have hrot := DeleteCase2Rotate_RB f rest n
      have h3n := h3 n
      have hb : (shapeF f).brother = shape f.brother := rfl
      rw [DeleteCase2]
      simp only [List.map_cons]
      rw [DeleteCase2, hb, ← isRed_RB]
      cases hred : isRed f.brother with
      | none => simp
      | some brotherRed =>
        cases brotherRed with
        | false => simpa [hred] using h3n
        | true =>
          simp only [Option.some_bind, eq_self_iff_true, if_true]
          split
          next e1 =>
            rw [e1] at hrot
            split
            next e2 => simp
            next loc e2 => rw [e2] at hrot; simp at hrot
          next loc e1 =>
            rw [e1] at hrot
            split
            next e2 => rw [e2] at hrot; simp at hrot
            next loc' e2 =>
              rw [e2] at hrot
              simp only [Option.map_some', Option.some.injEq] at hrot
              subst hrot
              obtain ⟨g, rest', hg1, hg2⟩ := DeleteCase2Rotate_top_RB f rest n loc e1
              obtain ⟨lctx, lt⟩ := loc
              simp only at hg1
              subst hg1
              simp only [Prod.map_apply, List.map_cons]
              rw [DeleteCase3_of_red_RB _ _ _ (by simp [hg2]),
                DeleteCase3_of_red_RB _ _ _ (by simp [shapeF, hg2])]
              simpa using DeleteCase4_RB (g :: rest') lt
    refine ⟨?_, h2, h3 n⟩
    cases n
    · simp [DeleteCase1, DeleteCase1]
    · simpa [DeleteCase1, DeleteCase1] using h2

theorem Delete_RB (root : Tree K T) (node : Loc K T) :
    shape (Delete root node) = Delete (shape root) (Prod.map (List.map shapeF) shape node) := by
  obtain ⟨ctx, t⟩ := node
  cases ctx with
  | nil => simp [Delete, Delete]
  | cons f rest =>
    
    
    simp [Delete]

theorem fixDelete_RB (nctx : Ctx K T) (X : Tree K T) :
    ((DeleteCase1 nctx X).map fun loc => Delete (plug loc.1 loc.2) loc).map shape
      = (DeleteCase1 (nctx.map shapeF) (shape X)).map fun loc => Delete (plug loc.1 loc.2) loc := by
  rw [← (DeleteCase_RB nctx X).1]
  cases DeleteCase1 nctx X with
  | none => rfl
  | some loc =>
    obtain ⟨c, t⟩ := loc
    simp [Delete_RB]

theorem fixDetached_RB (nctx : Ctx K T) (X D : Tree K T) :
    ((DeleteCase1 nctx X).map fun loc =>
        Delete (plug loc.1 loc.2) ([], D)).map shape
      = (DeleteCase1 (nctx.map shapeF) (shape X)).map fun loc =>
          Delete (plug loc.1 loc.2) ([], shape D) := by
  rw [← (DeleteCase_RB nctx X).1]
  cases DeleteCase1 nctx X with
  | none => rfl
  | some loc =>
    obtain ⟨c, t⟩ := loc
    simp [Delete_RB]

theorem EraseSplice_RB (tctx : Ctx K T) (tf : Frame K T) (inner : Ctx K T)
    (n : Tree K T) :
    (EraseSplice tctx tf inner n).map shape
      = EraseSplice (tctx.map shapeF) (shapeF tf) (inner.map shapeF) (shape n) := by
  obtain ⟨tl, tk, td, tc, tb⟩ := tf
  rcases n with _ | ⟨nk, nd, nc, nl, nr⟩
  · simp [EraseSplice, EraseSplice]
  · rcases nl with _ | ⟨xk, xd, xc, xl, xr⟩
    · rcases nr with _ | ⟨yk, yd, yc, yl, yr⟩
      · cases nc
        · simp [EraseSplice, EraseSplice, Delete_RB]
        · have h := fixDelete_RB (inner ++ (⟨tl, nk, td, tc,  tb⟩ :: tctx))
            (Tree.node nk nd Color.BLACK  Tree.nil Tree.nil)
          simpa [EraseSplice, EraseSplice] using h
      · cases nc
        · simp [EraseSplice, EraseSplice, Delete_RB]
        · cases yc
          · simp [EraseSplice, EraseSplice, Delete_RB]
          · have h := fixDetached_RB (inner ++ (⟨tl, nk, td, tc,  tb⟩ :: tctx))
              (Tree.node yk yd Color.BLACK  yl yr)
              (Tree.node nk nd Color.BLACK  Tree.nil Tree.nil)
            simpa [EraseSplice, EraseSplice] using h
    · cases nc
      · simp [EraseSplice, EraseSplice, Delete_RB]
      · cases xc
        · simp [EraseSplice, EraseSplice, Delete_RB]
        · have h := fixDetached_RB (inner ++ (⟨tl, nk, td, tc,  tb⟩ :: tctx))
            (Tree.node xk xd Color.BLACK  xl xr)
            (Tree.node nk nd Color.BLACK  Tree.nil Tree.nil)
          simpa [EraseSplice, EraseSplice] using h

theorem Erase_RB [LinearOrder K] (t : Tree K T) (key : K) :
    (Erase t key).map shape = Erase (shape t) key := by
  have hf := Find_RB key t []
  simp only [List.map_nil] at hf
  simp only [Erase, Erase]
  rw [← hf]
  cases hfind : Find key [] t with
  | none => simp
  | some loc =>
    obtain ⟨tctx, tt⟩ := loc
    rcases tt with _ | ⟨tk, td, tc, tl, tr⟩
    · simp
    · simp only [Option.map_some', Prod.map_apply, shape_node_RB]
      rw [← isLeaf_RB]
      cases hleaf : isLeaf tl tr
      · simp only [Bool.false_eq_true, if_false]
        rcases tr with _ | ⟨rk, rd, rc, rl, rr⟩
        · have hm := MaxNode_RB tl []
          have hs := EraseSplice_RB tctx ⟨true, tk, td, tc,  Tree.nil⟩
            (MaxNode [] tl).1 (MaxNode [] tl).2
          simp only [List.map_nil] at hm
          rw [← hm]
          simpa using hs
        · have hm := MinNode_RB (Tree.node rk rd rc  rl rr) []
          have hs := EraseSplice_RB tctx ⟨false, tk, td, tc,  tl⟩
            (MinNode [] (Tree.node rk rd rc  rl rr)).1
            (MinNode [] (Tree.node rk rd rc  rl rr)).2
          simp only [List.map_nil, shape_node_RB] at hm
          simp only [shape_node_RB]
          rw [← hm]
          simpa using hs
      · simp only [if_true]
        cases tc
        · cases tctx <;> simp [Delete_RB]
        · have h1 := (DeleteCase_RB tctx (Tree.node tk td Color.BLACK  tl tr)).1
          simp only [shape_node_RB] at h1
          rw [← h1]
          cases DeleteCase1 tctx (Tree.node tk td Color.BLACK  tl tr) with
          | none => simp
          | some loc =>
            obtain ⟨c, t'⟩ := loc
            cases c <;> simp [Delete_RB]

/-- Sequences of calls on an order statistic tree and on a red-black tree of the same
shape fault together, and otherwise end in trees of the same shape. -/
theorem runOps_shape [LinearOrder K] (ops : List (OrderStatisticBST.Op K T)) :
    ∀ (t1 : OrderStatisticBST.Tree K T) (t2 : Tree K T), shapeOS t1 = shape t2 →
      (OrderStatisticBST.runOps t1 ops).map shapeOS = (runOps t2 ops).map shape := by
  induction ops with
  | nil =>
    intro t1 t2 h
    simp [OrderStatisticBST.runOps, runOps, h]
  | cons op rest ih =>
    intro t1 t2 h
    cases op with
    | insert key data =>
      have h1 := Insert_OS t1 key data
      have h2 := Insert_RB t2 key data
      rw [h] at h1
      rw [← h2] at h1
      simp only [OrderStatisticBST.runOps, runOps]
      cases e1 : OrderStatisticBST.Insert t1 key data with
      | none =>
        rw [e1] at h1
        cases e2 : Insert t2 key data with
        | none => rfl
        | some t2' => rw [e2] at h1; simp at h1
      | some t1' =>
        rw [e1] at h1
        cases e2 : Insert t2 key data with
        | none => rw [e2] at h1; simp at h1
        | some t2' =>
          rw [e2] at h1
          simp only [Option.map_some', Option.some.injEq] at h1
          simpa using ih t1' t2' h1
    | erase key =>
      have h1 := Erase_OS t1 key
      have h2 := Erase_RB t2 key
      rw [h] at h1
      rw [← h2] at h1
      simp only [OrderStatisticBST.runOps, runOps]
      cases e1 : OrderStatisticBST.Erase t1 key with
      | none =>
        rw [e1] at h1
        cases e2 : Erase t2 key with
        | none => rfl
        | some t2' => rw [e2] at h1; simp at h1
      | some t1' =>
        rw [e1] at h1
        cases e2 : Erase t2 key with
        | none => rw [e2] at h1; simp at h1
        | some t2' =>
          rw [e2] at h1
          simp only [Option.map_some', Option.some.injEq] at h1
          simpa using ih t1' t2' h1

/-- C31: for every sequence of `Insert` and `Erase` calls, applied to an empty order
statistic tree and to an empty red-black tree, the two runs fault together or end in
trees with the same shape, the same key and the same colour at every position (the shape
of a tree being the tree without its values and sizes). -/
theorem orderStatistic_extends_redBlack [LinearOrder K]
    (ops : List (OrderStatisticBST.Op K T)) :
    (OrderStatisticBST.runOps (OrderStatisticBST.Tree.nil : OrderStatisticBST.Tree K T)
        ops).map shapeOS
      = (runOps (Tree.nil : Tree K T) ops).map shape :=
  runOps_shape ops OrderStatisticBST.Tree.nil Tree.nil rfl

end RedBlackBST

namespace PersistentBST

variable {K T : Type}

theorem keys_node (k : K) (d : T) (l r : Tree K T) :
    keys (Tree.node k d l r) = keys l ++ k :: keys r := by
  simp [keys, toList]

theorem keys_nil : keys (Tree.nil : Tree K T) = [] := rfl

theorem mem_keys_of_mem_toList (t : Tree K T) (k : K) (d : T) (h : (k, d) ∈ toList t) :
    k ∈ keys t :=
  List.mem_map.2 ⟨(k, d), h, rfl⟩

theorem toList_FindMinNode (k : K) (d : T) (l r : Tree K T) :
    (FindMinNode k d l r).2 :: toList (FindMinNode k d l r).1
      = toList (Tree.node k d l r) := by
  induction l generalizing k d r with
  | nil => simp [FindMinNode, toList]
  | node lk ld ll lr ihl _ =>
    have := ihl lk ld lr
    simp only [FindMinNode, toList] at this ⊢
    rw [← List.cons_append, this]

section Ordered
variable [LinearOrder K]

theorem Ordered_node (k : K) (d : T) (l r : Tree K T) :
    Ordered (Tree.node k d l r) ↔
      Ordered l ∧ Ordered r ∧ (∀ a ∈ keys l, a < k) ∧ (∀ b ∈ keys r, k < b) := by
  unfold Ordered
  rw [keys_node, List.Sorted, List.pairwise_append, List.pairwise_cons]
  constructor
  · rintro ⟨h1, ⟨h2, h3⟩, h4⟩
    exact ⟨h1, h3, fun a ha => h4 a ha k (List.mem_cons_self _ _), h2⟩
  · rintro ⟨h1, h2, h3, h4⟩
    refine ⟨h1, ⟨h4, h2⟩, ?_⟩
    intro a ha b hb
    rcases List.mem_cons.1 hb with rfl | hb
    · exact h3 a ha
    · exact lt_trans (h3 a ha) (h4 b hb)

theorem Ordered_nil : Ordered (Tree.nil : Tree K T) := List.sorted_nil

theorem mem_keys_Insert (t : Tree K T) (k : K) (v : T) (a : K) :
    a ∈ keys (Insert t k v) ↔ a ∈ keys t ∨ a = k := by
  induction t with
  | nil => simp [Insert, keys, toList]
  | node x d l r ihl ihr =>
    unfold Insert
    split_ifs
    · simp only [keys_node, List.mem_append, List.mem_cons, ihl]; tauto
    · simp only [keys_node, List.mem_append, List.mem_cons, ihr]; tauto
    · have : x = k := le_antisymm (not_lt.1 ‹_›) (not_lt.1 ‹_›)
      simp only [keys_node, List.mem_append, List.mem_cons]
      constructor
      · tauto
      · rintro (h | h)
        · exact h
        · right; left; rw [h, this]

theorem Insert_ordered (t : Tree K T) (k : K) (v : T) (h : Ordered t) :
    Ordered (Insert t k v) := by
  induction t with
  | nil => simp [Insert, Ordered, keys, toList]
  | node x d l r ihl ihr =>
    obtain ⟨hl, hr, h1, h2⟩ := (Ordered_node x d l r).1 h
    unfold Insert
    split_ifs with hgt hlt
    · refine (Ordered_node _ _ _ _).2 ⟨ihl hl, hr, ?_, h2⟩
      intro a ha
      rcases (mem_keys_Insert l k v a).1 ha with ha | rfl
      · exact h1 a ha
      · exact hgt
    · refine (Ordered_node _ _ _ _).2 ⟨hl, ihr hr, h1, ?_⟩
      intro a ha
      rcases (mem_keys_Insert r k v a).1 ha with ha | rfl
      · exact h2 a ha
      · exact hlt
    · exact h

/-- A pair of the in-order sequence of a BST-ordered version is what `Find` returns. -/
theorem Find_of_mem_persistent (t : Tree K T) (k : K) (d : T) (h : Ordered t) (hm : (k, d) ∈ toList
    t) :
    ∃ l r, Find t k = Tree.node k d l r := by
  induction t with
  | nil => simp [toList] at hm
  | node x e l r ihl ihr =>
    obtain ⟨hl, hr, h1, h2⟩ := (Ordered_node x e l r).1 h
    simp only [toList, List.mem_append, List.mem_cons] at hm
    unfold Find
    rcases hm with hm | hm | hm
    · have hlt : k < x := h1 k (mem_keys_of_mem_toList l k d hm)
      rw [if_neg (not_lt.2 hlt.le), if_pos hlt]
      exact ihl hl hm
    · cases hm
      rw [if_neg (lt_irrefl _), if_neg (lt_irrefl _)]
      exact ⟨l, r, rfl⟩
    · have hlt : x < k := h2 k (mem_keys_of_mem_toList r k d hm)
      rw [if_pos hlt]
      exact ihr hr hm

/-- What `Find` returns is `nullptr` or a node of the version with the key looked up. -/
theorem Find_cases (t : Tree K T) (k : K) :
    Find t k = Tree.nil ∨ ∃ d l r, Find t k = Tree.node k d l r ∧ (k, d) ∈ toList t := by
  induction t with
  | nil => left; rfl
  | node x e l r ihl ihr =>
    unfold Find
    split_ifs with h1 h2
    · rcases ihr with h | ⟨d, a, b, h, hm⟩
      · exact Or.inl h
      · exact Or.inr ⟨d, a, b, h, by simp [toList, hm]⟩
    · rcases ihl with h | ⟨d, a, b, h, hm⟩
      · exact Or.inl h
      · exact Or.inr ⟨d, a, b, h, by simp [toList, hm]⟩
    · have : x = k := le_antisymm (not_lt.1 h2) (not_lt.1 h1)
      subst this
      exact Or.inr ⟨e, l, r, rfl, by simp [toList]⟩

theorem Find_absent (t : Tree K T) (k : K) (h : k ∉ keys t) : Find t k = Tree.nil := by
  rcases Find_cases t k with h1 | ⟨d, _, _, _, hm⟩
  · exact h1
  · exact absurd (mem_keys_of_mem_toList t k d hm) h

/-- The value `Find` returns in a BST-ordered version depends on the in-order sequence
only. -/
theorem Data_Find_congr (t t' : Tree K T) (k : K) (h : Ordered t) (h' : Ordered t')
    (hsame : ∀ d, (k, d) ∈ toList t ↔ (k, d) ∈ toList t') :
    Data (Find t k) = Data (Find t' k) ∧ Key (Find t k) = Key (Find t' k) := by
  rcases Find_cases t k with h1 | ⟨d, l, r, h1, hm⟩
  · rcases Find_cases t' k with h2 | ⟨d', l', r', h2, hm'⟩
    · rw [h1, h2]; exact ⟨rfl, rfl⟩
    · obtain ⟨a, b, h3⟩ := Find_of_mem_persistent t k d' h ((hsame d').2 hm')
      rw [h1] at h3; cases h3
  · obtain ⟨a, b, h3⟩ := Find_of_mem_persistent t' k d h' ((hsame d).1 hm)
    rw [h1, h3]; exact ⟨rfl, rfl⟩

theorem Find_Insert_other (t : Tree K T) (k k' : K) (v : T) (hne : k' ≠ k) :
    Data (Find (Insert t k v) k') = Data (Find t k') ∧
      Key (Find (Insert t k v) k') = Key (Find t k') := by
  induction t with
  | nil =>
    simp only [Insert, Find]
    split_ifs with h1 h2
    · exact ⟨rfl, rfl⟩
    · exact ⟨rfl, rfl⟩
    · exact absurd (le_antisymm (not_lt.1 h1) (not_lt.1 h2)) hne
  | node x e l r ihl ihr =>
    unfold Insert
    split_ifs with h1 h2
    · unfold Find
      split_ifs
      · exact ⟨rfl, rfl⟩
      · exact ihl
      · exact ⟨rfl, rfl⟩
    · unfold Find
      split_ifs
      · exact ihr
      · exact ⟨rfl, rfl⟩
      · exact ⟨rfl, rfl⟩
    · exact ⟨rfl, rfl⟩

theorem Find_Insert_same (t : Tree K T) (k : K) (v : T) :
    (Find t k = Tree.nil → Data (Find (Insert t k v) k) = some v) ∧
      (Find t k ≠ Tree.nil → Data (Find (Insert t k v) k) = Data (Find t k)) := by
  induction t with
  | nil => simp [Insert, Find, Data]
  | node x e l r ihl ihr =>
    unfold Insert
    split_ifs with h1 h2
    · have hk : ¬ x < k := not_lt.2 (le_of_lt h1)
      simp only [Find, if_neg hk, if_pos h1]
      exact ihl
    · simp only [Find, if_pos h2]
      exact ihr
    · simp [Find, h1, h2]

/-- C35: for every BST-ordered version `t`, key `k` and value `v`, the version
`Insert(t, k, v)` is BST-ordered; `Find(k)` on it returns the node with value `v` when `k`
was absent from `t`, and with the value stored before when `k` was present; `Find` of every
other key returns a node with the same key and value as in `t` (or `nullptr` in both). -/
theorem insert_find (t : Tree K T) (k : K) (v : T) (h : Ordered t) :
    Ordered (Insert t k v) ∧
      (k ∉ keys t → Data (Find (Insert t k v) k) = some v) ∧
      (∀ old, (k, old) ∈ toList t → Data (Find (Insert t k v) k) = some old) ∧
      ∀ k', k' ≠ k → Data (Find (Insert t k v) k') = Data (Find t k') ∧
        Key (Find (Insert t k v) k') = Key (Find t k') := by
  refine ⟨Insert_ordered t k v h, ?_, ?_, fun k' hne => Find_Insert_other t k k' v hne⟩
  · intro hk
    exact (Find_Insert_same t k v).1 (Find_absent t k hk)
  · intro old hm
    obtain ⟨l, r, hf⟩ := Find_of_mem_persistent t k old h hm
    rw [(Find_Insert_same t k v).2 (by rw [hf]; simp), hf]
    rfl

theorem insert_find_witness :
    Ordered sample ∧ Ordered (Insert sample 25 "d") ∧
      (25 ∉ keys sample → Data (Find (Insert sample 25 "d") 25) = some "d") ∧
      (∀ old, (25, old) ∈ toList sample →
        Data (Find (Insert sample 25 "d") 25) = some old) ∧
      ∀ k', k' ≠ 25 → Data (Find (Insert sample 25 "d") k') = Data (Find sample k') ∧
        Key (Find (Insert sample 25 "d") k') = Key (Find sample k') :=
  have h : Ordered sample := by simp [Ordered, keys, toList, sample]
  ⟨h, insert_find sample 25 "d" h⟩

theorem toList_Erase (t : Tree K T) (k : K) (h : Ordered t) :
    toList (Erase t k) = (toList t).filter fun p => decide (p.1 ≠ k) := by
  induction t with
  | nil => simp [Erase, toList]
  | node x e l r ihl ihr =>
    obtain ⟨hl, hr, h1, h2⟩ := (Ordered_node x e l r).1 h
    have keepL : ∀ (s : Tree K T), (∀ a ∈ keys s, a ≠ k) →
        (toList s).filter (fun p => decide (p.1 ≠ k)) = toList s := by
      intro s hs
      apply List.filter_eq_self.2
      intro p hp
      simpa using hs p.1 (List.mem_map.2 ⟨p, hp, rfl⟩)
    unfold Erase
    split_ifs with hgt hlt
    · have hr' : ∀ a ∈ keys r, a ≠ k := fun a ha => ne_of_gt (lt_trans hgt (h2 a ha))
      simp only [toList, List.filter_append, List.filter_cons, ihl hl, keepL r hr']
      simp [ne_of_gt hgt]
    · have hl' : ∀ a ∈ keys l, a ≠ k := fun a ha => ne_of_lt (lt_trans (h1 a ha) hlt)
      simp only [toList, List.filter_append, List.filter_cons, ihr hr, keepL l hl']
      simp [ne_of_lt hlt]
    · have hxk : x = k := le_antisymm (not_lt.1 hgt) (not_lt.1 hlt)
      subst hxk
      have hl' : ∀ a ∈ keys l, a ≠ x := fun a ha => ne_of_lt (h1 a ha)
      have hr' : ∀ a ∈ keys r, a ≠ x := fun a ha => ne_of_gt (h2 a ha)
      have hgoal : (toList (Tree.node x e l r)).filter (fun p => decide (p.1 ≠ x))
          = toList l ++ toList r := by
        simp only [toList, List.filter_append, List.filter_cons, keepL l hl', keepL r hr']
        simp
      rw [hgoal]
      cases l with
      | nil => simp [toList]
      | node lk ld ll lr =>
        cases r with
        | nil => simp [toList]
        | node rk rd rl rr =>
          simp only []
          have := toList_FindMinNode rk rd rl rr
          simp only [toList] at this ⊢
          rw [this]

theorem Erase_ordered (t : Tree K T) (k : K) (h : Ordered t) : Ordered (Erase t k) := by
  unfold Ordered keys
  rw [toList_Erase t k h]
  exact List.Pairwise.sublist ((List.filter_sublist _).map _) h

/-- C36: for every BST-ordered version `t` and key `k`, the version `Erase(t, k)` is
BST-ordered, `Find(k)` on it returns `nullptr`, and `Find` of every other key returns a
node with the same key and value as in `t` (or `nullptr` in both); when `k` is absent from
`t`, the in-order sequence of `Erase(t, k)` is that of `t`. -/
theorem erase_find (t : Tree K T) (k : K) (h : Ordered t) :
    Ordered (Erase t k) ∧ Find (Erase t k) k = Tree.nil ∧
      (∀ k', k' ≠ k → Data (Find (Erase t k) k') = Data (Find t k') ∧
        Key (Find (Erase t k) k') = Key (Find t k')) ∧
      (k ∉ keys t → toList (Erase t k) = toList t) := by
  have hE := toList_Erase t k h
  refine ⟨Erase_ordered t k h, ?_, ?_, ?_⟩
  · apply Find_absent
    intro hk
    obtain ⟨p, hp, rfl⟩ := List.mem_map.1 hk
    rw [hE] at hp
    simpa using (List.mem_filter.1 hp).2
  · intro k' hne
    apply Data_Find_congr _ _ _ (Erase_ordered t k h) h
    intro d
    rw [hE, List.mem_filter]
    simp [hne]
  · intro hk
    rw [hE]
    apply List.filter_eq_self.2
    intro p hp
    have : p.1 ≠ k := fun e => hk (e ▸ List.mem_map.2 ⟨p, hp, rfl⟩)
    simpa using this

theorem erase_find_witness :
    Ordered sample ∧ Ordered (Erase sample 20) ∧ Find (Erase sample 20) 20 = Tree.nil ∧
      (∀ k', k' ≠ 20 → Data (Find (Erase sample 20) k') = Data (Find sample k') ∧
        Key (Find (Erase sample 20) k') = Key (Find sample k')) ∧
      (20 ∉ keys sample → toList (Erase sample 20) = toList sample) :=
  have h : Ordered sample := by simp [Ordered, keys, toList, sample]
  ⟨h, erase_find sample 20 h⟩

end Ordered

end PersistentBST

namespace BinomialHeap

variable {T : Type}

/-- The bound on the rounds of the loop of `Merge` is never used up: with more rounds
allowed than there are trees to read, the result does not depend on the bound. -/
theorem mergeLoop_enough [LinearOrder T] (fuel fuel' : Nat)
    (first second : List (BinomialTree T)) (result : Heap T)
    (h : first.length + second.length < fuel) (h' : first.length + second.length < fuel') :
    mergeLoop fuel first second result = mergeLoop fuel' first second result := by
  induction fuel generalizing fuel' first second result with
  | zero => omega
  | succ n ih =>
    cases fuel' with
    | zero => omega
    | succ n' =>
      cases first with
      | nil => simp [mergeLoop]
      | cons f first =>
        cases second with
        | nil => simp [mergeLoop]
        | cons s second =>
          simp only [List.length_cons] at h h'
          simp only [mergeLoop]
          split_ifs
          · congr 1; funext r
            exact ih n' first (s :: second) r (by simp; omega) (by simp; omega)
          · congr 1; funext r
            exact ih n' (f :: first) second r (by simp; omega) (by simp; omega)
          · congr 1; funext m
            congr 1; funext r
            exact ih n' first second r (by omega) (by omega)

/-- C34 (code defect): after the calls `Push` of 5, 4, 3, 2, 8, 7, 6, 1, 9, 10, 11 the heap
holds trees of the orders 0, 1, 3 and `First()` returns 1; `Pop()` removes that 1.  The heap
then holds two trees with the roots 6 and 2, and `First()` returns 6 although 2 is stored:
`appendOrMerge` merged the tree with root 2 into the last tree without updating
`minTreeIndex`. -/
theorem first_is_not_minimum :
    (run Heap.empty popAfterEleven.dropLast).bind First = Outcome.returned 1 ∧
      (run Heap.empty popAfterEleven).bind (fun h => Outcome.returned (rootValues h))
        = Outcome.returned [some 6, some 2] ∧
      (run Heap.empty popAfterEleven).bind First = Outcome.returned 6 := by
  decide

end BinomialHeap

namespace SplayBST

variable {K T : Type}

theorem toList_attach_splay (f : Frame K T) (t : Tree K T) :
    toList (attach f t) =
      if f.isLeft then toList t ++ (f.key, f.data) :: toList f.brother
      else toList f.brother ++ (f.key, f.data) :: toList t := by
  unfold attach
  split <;> simp [toList]

theorem toList_plug_congr (ctx : Ctx K T) (t t' : Tree K T) (h : toList t = toList t') :
    toList (plug ctx t) = toList (plug ctx t') := by
  induction ctx generalizing t t' with
  | nil => exact h
  | cons f rest ih =>
    simp only [plug]
    apply ih
    rw [toList_attach_splay, toList_attach_splay, h]

theorem toList_eq_nil (t : Tree K T) (h : toList t = []) : t = Tree.nil := by
  cases t with
  | nil => rfl
  | node a k d l r => simp [toList] at h

/-- A rotation puts the child in the place of the parent, keeps the in-order sequence, and
sets `m_root` exactly when the parent had no parent. -/
theorem Rotate_spec (m : Option Nat) (f : Frame K T) (ctx : Ctx K T) (a : Nat) (k : K)
    (d : T) (l r : Tree K T) :
    ∃ l' r', Rotate m f ctx (Tree.node a k d l r)
        = some (if ctx.isEmpty = true then some a else m, Tree.node a k d l' r') ∧
      toList (Tree.node a k d l' r') = toList (attach f (Tree.node a k d l r)) := by
  cases hf : f.isLeft
  · refine ⟨Tree.node f.addr f.key f.data f.brother l, r, ?_, ?_⟩
    · cases ctx <;> simp [Rotate, hf]
    · simp [toList, attach, hf]
  · refine ⟨l, Tree.node f.addr f.key f.data r f.brother, ?_, ?_⟩
    · cases ctx <;> simp [Rotate, hf]
    · simp [toList, attach, hf]

/-- Splaying a node brings it on top of the tree, keeps the in-order sequence, and leaves
`m_root` at the node unless the node had no parent at all. -/
theorem Splay_spec (m : Option Nat) : (ctx : Ctx K T) → (a : Nat) → (k : K) → (d : T) →
    (l r : Tree K T) →
    ∃ l' r', Splay m ctx (Tree.node a k d l r)
        = some (if ctx.isEmpty = true then m else some a, Tree.node a k d l' r') ∧
      toList (Tree.node a k d l' r') = toList (plug ctx (Tree.node a k d l r))
  | [], a, k, d, l, r => ⟨l, r, by simp [Splay], rfl⟩
  | [p], a, k, d, l, r => by
    obtain ⟨l', r', h1, h2⟩ := Rotate_spec m p [] a k d l r
    exact ⟨l', r', by simpa [Splay] using h1, by simpa [plug] using h2⟩
  | p :: g :: rest, a, k, d, l, r => by
    by_cases hz : g.isLeft = p.isLeft
    · -- zig-zig
      obtain ⟨l0, r0, h0, h0'⟩ := Rotate_spec m g rest p.addr p.key p.data
        (if p.isLeft then Tree.node a k d l r else p.brother)
        (if p.isLeft then p.brother else Tree.node a k d l r)
      have hatt : attach p (Tree.node a k d l r) = Tree.node p.addr p.key p.data
          (if p.isLeft then Tree.node a k d l r else p.brother)
          (if p.isLeft then p.brother else Tree.node a k d l r) := by
        unfold attach; split <;> simp [*]
      -- the node is still the same child of the parent
      have hdown : ∃ p1, down p.isLeft (Tree.node p.addr p.key p.data l0 r0)
          = some (p1, Tree.node a k d l r) ∧
          toList (attach p1 (Tree.node a k d l r))
            = toList (attach g (attach p (Tree.node a k d l r))) := by
        rw [hatt, ← h0']
        have h0c := h0
        cases hp : p.isLeft
        · rw [hp] at hz
          simp only [Rotate, hz, hp] at h0c
          simp only [Bool.false_eq_true, if_false, Option.some.injEq, Prod.mk.injEq,
            Tree.node.injEq, true_and] at h0c
          obtain ⟨_, e1, e2⟩ := h0c
          subst e1
          subst e2
          exact ⟨⟨false, p.addr, p.key, p.data,
            Tree.node g.addr g.key g.data g.brother p.brother⟩, by simp [down],
            by simp [attach, toList, hz]⟩
        · rw [hp] at hz
          simp only [Rotate, hz, hp] at h0c
          simp only [if_true, Option.some.injEq, Prod.mk.injEq,
            Tree.node.injEq, true_and] at h0c
          obtain ⟨_, e1, e2⟩ := h0c
          subst e1
          subst e2
          exact ⟨⟨true, p.addr, p.key, p.data,
            Tree.node g.addr g.key g.data p.brother g.brother⟩, by simp [down],
            by simp [attach, toList, hz]⟩
      obtain ⟨p1, hd1, hd2⟩ := hdown
      obtain ⟨l1, r1, h1, h2⟩ := Rotate_spec
        (if rest.isEmpty = true then some p.addr else m) p1 rest a k d l r
      obtain ⟨l2, r2, h3, h4⟩ := Splay_spec
        (if rest.isEmpty = true then some a else
          (if rest.isEmpty = true then some p.addr else m)) rest a k d l1 r1
      refine ⟨l2, r2, ?_, ?_⟩
      · rw [Splay, if_pos hz, hatt, h0]
        simp only [hd1, h1, h3]
        cases rest <;> simp
      · rw [h4]
        simp only [plug]
        apply toList_plug_congr
        rw [h2, hd2]
    · -- zig-zag
      obtain ⟨l1, r1, h1, h2⟩ := Rotate_spec m p (g :: rest) a k d l r
      obtain ⟨l2, r2, h3, h4⟩ := Rotate_spec m g rest a k d l1 r1
      obtain ⟨l3, r3, h5, h6⟩ := Splay_spec (if rest.isEmpty = true then some a else m)
        rest a k d l2 r2
      refine ⟨l3, r3, ?_, ?_⟩
      · rw [Splay, if_neg hz, h1]
        simp only [List.isEmpty_cons, Bool.false_eq_true, if_false, h3, h5]
        cases rest <;> simp
      · rw [h6]
        simp only [plug]
        apply toList_plug_congr
        rw [h4, toList_attach_splay, toList_attach_splay, h2]

theorem keys_node_splay (a : Nat) (k : K) (d : T) (l r : Tree K T) :
    keys (Tree.node a k d l r) = keys l ++ k :: keys r := by
  simp [keys, toList]

theorem plug_cons (f : Frame K T) (ctx : Ctx K T) (t : Tree K T) :
    plug (f :: ctx) t = plug ctx (attach f t) := rfl

theorem present_iff (t : Tree K T) : present t = true ↔ t ≠ Tree.nil := by
  cases t <;> simp [present]

theorem keys_of_absent (t : Tree K T) (h : ¬ present t = true) : keys t = [] := by
  cases t with
  | nil => rfl
  | node a k d l r => simp [present] at h

section Ordered
variable [LinearOrder K]

theorem Ordered_node_splay (a : Nat) (k : K) (d : T) (l r : Tree K T) :
    Ordered (Tree.node a k d l r) ↔
      Ordered l ∧ Ordered r ∧ (∀ x ∈ keys l, x < k) ∧ (∀ y ∈ keys r, k < y) := by
  unfold Ordered
  rw [keys_node_splay, List.Sorted, List.pairwise_append, List.pairwise_cons]
  constructor
  · rintro ⟨h1, ⟨h2, h3⟩, h4⟩
    exact ⟨h1, h3, fun x hx => h4 x hx k (List.mem_cons_self _ _), h2⟩
  · rintro ⟨h1, h2, h3, h4⟩
    refine ⟨h1, ⟨h4, h2⟩, ?_⟩
    intro x hx y hy
    rcases List.mem_cons.1 hy with rfl | hy
    · exact h3 x hx
    · exact lt_trans (h3 x hx) (h4 y hy)

/-- The node `Find` ends at is splayed to the top: the in-order sequence is kept, `m_root`
points at the node unless the search never left a node without parent, the key of the node
is a key of the tree, it is the key looked for when that is stored in a BST-ordered tree,
and it is the least key when the key looked for is below all keys. -/
theorem Find_spec (m : Option Nat) (key : K) (t : Tree K T) : ∀ (ctx : Ctx K T),
    t ≠ Tree.nil →
    ∃ m' a k d l r, Find m key ctx t = some (m', Tree.node a k d l r) ∧
      toList (Tree.node a k d l r) = toList (plug ctx t) ∧
      (m' = some a ∨ (ctx = [] ∧ m' = m ∧ addrOf t = some a)) ∧
      k ∈ keys t ∧
      (Ordered t → key ∈ keys t → k = key) ∧
      (Ordered t → (∀ x ∈ keys t, key < x) → ∀ x ∈ keys t, k ≤ x) := by
  induction t with
  | nil => intro ctx h; exact absurd rfl h
  | node a0 k0 d0 l r ihl ihr =>
    intro ctx _
    have hsplay : ∃ m' a k d l' r',
        Splay m ctx (Tree.node a0 k0 d0 l r) = some (m', Tree.node a k d l' r') ∧
        toList (Tree.node a k d l' r') = toList (plug ctx (Tree.node a0 k0 d0 l r)) ∧
        (m' = some a ∨ (ctx = [] ∧ m' = m ∧ addrOf (Tree.node a0 k0 d0 l r) = some a)) ∧
        k = k0 := by
      obtain ⟨l', r', h1, h2⟩ := Splay_spec m ctx a0 k0 d0 l r
      refine ⟨_, a0, k0, d0, l', r', h1, h2, ?_, rfl⟩
      cases ctx with
      | nil => right; exact ⟨rfl, by simp, rfl⟩
      | cons f rest => left; simp
    have hk0 : k0 ∈ keys (Tree.node a0 k0 d0 l r) := by simp [keys_node_splay]
    unfold Find
    by_cases heq : key = k0
    · rw [if_pos heq]
      obtain ⟨m', a, k, d, l', r', h1, h2, h3, h4⟩ := hsplay
      subst h4
      refine ⟨m', a, k, d, l', r', h1, h2, h3, hk0, fun _ _ => heq.symm, ?_⟩
      intro _ hall
      exact absurd (hall k hk0) (by rw [heq]; exact lt_irrefl _)
    rw [if_neg heq]
    by_cases hl : key < k0 ∧ present l = true
    · rw [if_pos hl]
      obtain ⟨m', a, k, d, l', r', h1, h2, h3, h4, h5, h6⟩ :=
        ihl (⟨true, a0, k0, d0, r⟩ :: ctx) ((present_iff l).1 hl.2)
      refine ⟨m', a, k, d, l', r', h1, ?_, ?_, ?_, ?_, ?_⟩
      · rw [h2, plug_cons]; rfl
      · rcases h3 with h3 | ⟨h3, _⟩
        · exact Or.inl h3
        · cases h3
      · rw [keys_node_splay]; simp [h4]
      · intro ho hm
        obtain ⟨hol, hor, h1', h2'⟩ := (Ordered_node_splay _ _ _ _ _).1 ho
        apply h5 hol
        rw [keys_node_splay, List.mem_append, List.mem_cons] at hm
        rcases hm with hm | hm | hm
        · exact hm
        · exact absurd hm heq
        · exact absurd (lt_trans hl.1 (h2' key hm)) (lt_irrefl _)
      · intro ho hall x hx
        obtain ⟨hol, hor, h1', h2'⟩ := (Ordered_node_splay _ _ _ _ _).1 ho
        have hkl : ∀ y ∈ keys l, k ≤ y := h6 hol (fun y hy => hall y (by
          rw [keys_node_splay]; simp [hy]))
        have hk : k < k0 := h1' k h4
        rw [keys_node_splay, List.mem_append, List.mem_cons] at hx
        rcases hx with hx | hx | hx
        · exact hkl x hx
        · rw [hx]; exact hk.le
        · exact (lt_trans hk (h2' x hx)).le
    rw [if_neg hl]
    by_cases hr : key > k0 ∧ present r = true
    · rw [if_pos hr]
      obtain ⟨m', a, k, d, l', r', h1, h2, h3, h4, h5, h6⟩ :=
        ihr (⟨false, a0, k0, d0, l⟩ :: ctx) ((present_iff r).1 hr.2)
      refine ⟨m', a, k, d, l', r', h1, ?_, ?_, ?_, ?_, ?_⟩
      · rw [h2, plug_cons]; rfl
      · rcases h3 with h3 | ⟨h3, _⟩
        · exact Or.inl h3
        · cases h3
      · rw [keys_node_splay]; simp [h4]
      · intro ho hm
        obtain ⟨hol, hor, h1', h2'⟩ := (Ordered_node_splay _ _ _ _ _).1 ho
        apply h5 hor
        rw [keys_node_splay, List.mem_append, List.mem_cons] at hm
        rcases hm with hm | hm | hm
        · exact absurd (lt_trans (h1' key hm) hr.1) (lt_irrefl _)
        · exact absurd hm heq
        · exact hm
      · intro _ hall
        exact absurd (lt_trans (hall k0 hk0) hr.1) (lt_irrefl _)
    rw [if_neg hr]
    obtain ⟨m', a, k, d, l', r', h1, h2, h3, h4⟩ := hsplay
    subst h4
    refine ⟨m', a, k, d, l', r', h1, h2, h3, hk0, ?_, ?_⟩
    · intro ho hm
      obtain ⟨hol, hor, h1', h2'⟩ := (Ordered_node_splay _ _ _ _ _).1 ho
      rw [keys_node_splay, List.mem_append, List.mem_cons] at hm
      rcases hm with hm | hm | hm
      · exfalso
        apply hl
        refine ⟨h1' key hm, ?_⟩
        by_contra hp
        rw [keys_of_absent l hp] at hm
        cases hm
      · exact hm.symm
      · exfalso
        apply hr
        refine ⟨h2' key hm, ?_⟩
        by_contra hp
        rw [keys_of_absent r hp] at hm
        cases hm
    · intro ho hall x hx
      obtain ⟨hol, hor, h1', h2'⟩ := (Ordered_node_splay _ _ _ _ _).1 ho
      have hlt : key < k := hall k hk0
      have hnl : ¬ present l = true := fun hp => hl ⟨hlt, hp⟩
      rw [keys_node_splay, keys_of_absent l hnl, List.nil_append, List.mem_cons] at hx
      rcases hx with hx | hx
      · rw [hx]
      · exact (h2' x hx).le

/-- C37: for every BST-ordered splay tree whose `m_root` points at its top node, and every
stored key `k`, `Find(k)` returns the address of a node with key `k`; afterwards that node
is on top of the tree (it has no parent), `m_root` (what `Root()` returns) is its address,
and the in-order sequence of (key, value) pairs is the one before the call. -/
theorem find_splays_to_root (s : State K T) (key : K) (hwf : s.WF) (ho : Ordered s.tree)
    (hk : key ∈ keys s.tree) :
    ∃ s' a d l r, FindKey s key = some (s', some a) ∧
      s'.tree = Tree.node a key d l r ∧ s'.m_root = some a ∧
      toList s'.tree = toList s.tree := by
  have hne : s.tree ≠ Tree.nil := by
    intro h; rw [h] at hk; simp [keys, toList] at hk
  obtain ⟨m', a, k, d, l, r, h1, h2, h3, _, h5, _⟩ := Find_spec s.m_root key s.tree [] hne
  have hkey : k = key := h5 ho hk
  subst hkey
  refine ⟨{ m_root := m', tree := Tree.node a k d l r }, a, d, l, r, ?_, rfl, ?_, h2⟩
  · unfold FindKey
    rw [h1]
    simp
  · rcases h3 with h3 | ⟨_, h3, h4⟩
    · exact h3
    · simp only
      rw [h3, hwf, h4]

theorem find_splays_to_root_witness :
    sample.WF ∧ Ordered sample.tree ∧ 25 ∈ keys sample.tree ∧
      ∃ s' a d l r, FindKey sample 25 = some (s', some a) ∧
        s'.tree = Tree.node a 25 d l r ∧ s'.m_root = some a ∧
        toList s'.tree = toList sample.tree :=
  have h1 : sample.WF := rfl
  have h2 : Ordered sample.tree := by simp [Ordered, keys, toList, sample]
  have h3 : 25 ∈ keys sample.tree := by simp [keys, toList, sample]
  ⟨h1, h2, h3, find_splays_to_root sample 25 h1 h2 h3⟩

theorem filter_of_sorted (xs ys : List (K × T)) (k : K) (d : T)
    (h : ((xs ++ (k, d) :: ys).map Prod.fst).Sorted (· < ·)) :
    (xs ++ (k, d) :: ys).filter (fun p => decide (p.1 ≠ k)) = xs ++ ys := by
  rw [List.map_append, List.map_cons, List.Sorted, List.pairwise_append,
    List.pairwise_cons] at h
  obtain ⟨_, ⟨h2, _⟩, h4⟩ := h
  rw [List.filter_append, List.filter_cons]
  have hx : xs.filter (fun p => decide (p.1 ≠ k)) = xs := by
    rw [List.filter_eq_self]
    intro p hp
    have := h4 p.1 (List.mem_map_of_mem _ hp) k (List.mem_cons_self _ _)
    simpa using this.ne
  have hy : ys.filter (fun p => decide (p.1 ≠ k)) = ys := by
    rw [List.filter_eq_self]
    intro p hp
    have := h2 p.1 (List.mem_map_of_mem _ hp)
    simpa using this.ne'
  rw [hx, hy]
  simp

/-- Source function `Merge` on the two subtrees of a node of a BST-ordered tree: the
result holds the pairs of `left` followed by those of `right`, and `m_root` is unchanged
or the address of the result. -/
theorem Merge_spec (m : Option Nat) (left right : Tree K T) (hr : Ordered right)
    (hlt : ∀ x ∈ keys left, ∀ y ∈ keys right, x < y) :
    ∃ m1 result, Merge m left right = some (m1, result) ∧
      toList result = toList left ++ toList right ∧ (m1 = m ∨ m1 = addrOf result) := by
  cases right with
  | nil =>
    refine ⟨m, left, ?_, by simp [toList], Or.inl rfl⟩
    cases left <;> rfl
  | node ra rk rd rl rr =>
    cases left with
    | nil => exact ⟨m, _, rfl, by simp [toList], Or.inl rfl⟩
    | node la lk ld ll lr =>
      obtain ⟨m', a, k, d, l', r', h1, h2, h3, h4, _, h6⟩ :=
        Find_spec m lk (Tree.node ra rk rd rl rr) [] (by simp)
      have hlk : ∀ y ∈ keys (Tree.node ra rk rd rl rr), lk < y :=
        fun y hy => hlt lk (by simp [keys_node_splay]) y hy
      have hmin := h6 hr hlk
      have hkeys : keys (Tree.node a k d l' r') = keys (Tree.node ra rk rd rl rr) := by
        unfold keys; rw [h2]; rfl
      have ho' : Ordered (Tree.node a k d l' r') := by
        unfold Ordered; rw [hkeys]; exact hr
      obtain ⟨_, _, hl', _⟩ := (Ordered_node_splay _ _ _ _ _).1 ho'
      have hnil : toList l' = [] := by
        cases hl : toList l' with
        | nil => rfl
        | cons p ps =>
          exfalso
          have hp : p.1 ∈ keys l' := by
            unfold keys; rw [hl]; simp
          have h7 : k ≤ p.1 := hmin p.1 (by rw [← hkeys, keys_node_splay]; simp [hp])
          exact absurd (hl' p.1 hp) (not_lt.2 h7)
      refine ⟨m', Tree.node a k d (Tree.node la lk ld ll lr) r', ?_, ?_, ?_⟩
      · simp only [Merge]
        rw [h1]
      · have h2' : toList (Tree.node ra rk rd rl rr) = (k, d) :: toList r' := by
          have h2a : toList (plug [] (Tree.node ra rk rd rl rr))
              = toList (Tree.node ra rk rd rl rr) := rfl
          rw [← h2a, ← h2]; simp [toList, hnil]
        rw [h2']
        simp [toList]
      · rcases h3 with h3 | ⟨_, h3, _⟩
        · right; rw [h3]; rfl
        · left; exact h3

/-- C38: for every BST-ordered splay tree and key `k`, `Erase(k)` throws if and only if
`k` is not stored (so it throws on the empty tree); when `k` is stored it returns, the
in-order sequence afterwards is the previous one without the pair of `k` (the key
sequence is the previous one with `k` erased), and `m_root` again points at the top node
when it did so before. -/
theorem erase_raises_iff_absent (s : State K T) (key : K) (ho : Ordered s.tree) :
    ((∃ what, Erase s key = Outcome.raised what) ↔ key ∉ keys s.tree) ∧
    (key ∈ keys s.tree → ∃ s', Erase s key = Outcome.returned s' ∧
      toList s'.tree = (toList s.tree).filter (fun p => decide (p.1 ≠ key)) ∧
      keys s'.tree = (keys s.tree).erase key ∧
      (s.WF → s'.WF)) := by
  cases ht : s.tree with
  | nil =>
    have he : Erase s key = Outcome.raised "Erasure failed: key does not exist." := by
      simp [Erase, ht, Find]
    refine ⟨⟨fun _ => by simp [keys, toList], fun _ => ⟨_, he⟩⟩, ?_⟩
    intro h
    simp [keys, toList] at h
  | node a0 k0 d0 l0 r0 =>
    obtain ⟨m', a, k, d, l, r, h1, h2, h3, h4, h5, _⟩ :=
      Find_spec s.m_root key (Tree.node a0 k0 d0 l0 r0) [] (by simp)
    rw [ht] at ho
    have hkeys : keys (Tree.node a k d l r) = keys (Tree.node a0 k0 d0 l0 r0) := by
      unfold keys; rw [h2]; rfl
    by_cases hk : key ∈ keys (Tree.node a0 k0 d0 l0 r0)
    · have hkk : k = key := h5 ho hk
      subst hkk
      have ho' : Ordered (Tree.node a k d l r) := by
        unfold Ordered; rw [hkeys]; exact ho
      obtain ⟨_, hor, hl', hr'⟩ := (Ordered_node_splay _ _ _ _ _).1 ho'
      obtain ⟨m1, result, hm1, hm2, hm3⟩ := Merge_spec m' l r hor
        (fun x hx y hy => lt_trans (hl' x hx) (hr' y hy))
      have he : Erase s k = Outcome.returned
          { m_root := if m1 = some a then addrOf result else m1, tree := result } := by
        simp [Erase, ht, h1, hm1]
      have hfil : toList result
          = (toList (Tree.node a0 k0 d0 l0 r0)).filter (fun p => decide (p.1 ≠ k)) := by
        have hs : toList (Tree.node a0 k0 d0 l0 r0) = toList l ++ (k, d) :: toList r := by
          rw [plug] at h2; rw [← h2]; rfl
        rw [hs, hm2]
        refine (filter_of_sorted _ _ k d ?_).symm
        rw [← hs]
        exact ho
      refine ⟨⟨fun ⟨w, hw⟩ => ?_, fun hn => absurd hk hn⟩, fun _ => ⟨_, he, hfil, ?_, ?_⟩⟩
      · rw [he] at hw; cases hw
      · show keys result = _
        unfold keys
        rw [hfil]
        have hnd : (List.map Prod.fst (toList (Tree.node a0 k0 d0 l0 r0))).Nodup :=
          (List.Sorted.nodup ho)
        rw [List.Nodup.erase_eq_filter hnd, List.filter_map]
        congr 1
        apply List.filter_congr
        intro p _
        by_cases hp : p.1 = k <;> simp [hp]
      · intro hwf
        show (if m1 = some a then addrOf result else m1) = addrOf result
        have hma : m' = some a := by
          rcases h3 with h3 | ⟨_, h3, h4'⟩
          · exact h3
          · rw [h3, hwf, ht, h4']
        rcases hm3 with hm3 | hm3
        · rw [hm3, hma]; simp
        · rw [hm3]; simp
    · have hne : k ≠ key := by
        intro h; rw [h] at h4; exact hk h4
      have he : Erase s key = Outcome.raised "Erasure failed: key does not exist." := by
        simp [Erase, ht, h1, hne]
      exact ⟨⟨fun _ => hk, fun _ => ⟨_, he⟩⟩, fun h => absurd h hk⟩

theorem erase_raises_iff_absent_witness :
    Ordered sample.tree ∧
    ((∃ what, Erase sample 20 = Outcome.raised what) ↔ 20 ∉ keys sample.tree) ∧
    (20 ∈ keys sample.tree → ∃ s', Erase sample 20 = Outcome.returned s' ∧
      toList s'.tree = (toList sample.tree).filter (fun p => decide (p.1 ≠ 20)) ∧
      keys s'.tree = (keys sample.tree).erase 20 ∧
      (sample.WF → s'.WF)) :=
  have h : Ordered sample.tree := by simp [Ordered, keys, toList, sample]
  ⟨h, erase_raises_iff_absent sample 20 h⟩

end Ordered

end SplayBST
